import Mathlib

/-!
# A shallow embedding of the anka interpreter

The development follows the Go sources package by package:

* `token`  : token kinds, the keyword table and `LookupIdent`;
* `lexer`  : the scanner (`New`, `readChar`, `NextToken`, `Rewind`, `ErrorLine`);
* `object` : runtime values, environments, `Array.Next` / `Hash.Next`;
* `evaluator` : the tree walker `Eval` and its helpers;
* `parser` : the Pratt parser (`New`, `parseExpression`, `parseStatement`,
  `ParseProgram`, `Rewind`), after the evaluator in the file.

Conventions of the embedding.

* A Go `panic` (nil dereference, failed type assertion, index or slice out of
  range) is the outcome `Outcome.panic`; running out of the recursion budget of
  the model is `Outcome.outOfFuel`.  Neither is ever confused with a value.
* Go pointers to mutable objects (environments, arrays, hashes and the Go maps
  held by hashes) are indices into the heap `State`.
* A `float64` number is carried, for the values that are integers, as that
  `Int`.  The operations round their exact result to `float64`
  (`float64OfInt`), the conversions to Go `int` are those of `intOfFloat`, and
  the operators that lead to fractions are delegated to `World`.
* Everything the interpreter only reaches through an interface (built-in
  functions, subprocesses, files, Unicode tables, pointer identity of values)
  is a field of `World`.
-/

namespace Anka

/-! ## Outcomes -/

/-- Result of running a piece of the interpreter: a value, a Go runtime panic,
or exhaustion of the recursion budget of the model. -/
inductive Outcome (α : Type) where
  | ok (a : α)
  | panic (msg : String)
  | outOfFuel
deriving Repr, DecidableEq, Inhabited

/-- Sequencing of outcomes: the first panic or fuel exhaustion wins. -/
def Outcome.bind {α β : Type} (x : Outcome α) (f : α → Outcome β) : Outcome β :=
  match x with
  | .ok a => f a
  | .panic m => .panic m
  | .outOfFuel => .outOfFuel

instance : Monad Outcome where
  pure := Outcome.ok
  bind := Outcome.bind

/-! ## Package token -/

/-- Go `token.Token`; `Type_` is the Go field `Type`, a `TokenType` string. -/
structure Token where
  Type_ : String
  Position : Int
  Literal : String
deriving Repr, DecidableEq, Inhabited

namespace token

def ILLEGAL : String := "Yasaklı"
def EOF : String := "Dosya Sonu"
def IDENT : String := "Tanımlayıcı"
def NUMBER : String := "Sayı"
def STRING : String := "Yazı"
def AT : String := "@"
def NULL : String := "NULL"
def CURRENT_ARGS : String := "..."
def TILDE : String := "~"
def BANG : String := "!"
def ASSIGN : String := "="
def PLUS : String := "+"
def MINUS : String := "-"
def ASTERISK : String := "*"
def SLASH : String := "/"
def EXPONENT : String := "**"
def MODULO : String := "%"
def COMP_PLUS : String := "+="
def COMP_MINUS : String := "-="
def COMP_ASTERISK : String := "*="
def COMP_SLASH : String := "/="
def COMP_EXPONENT : String := "**="
def COMP_MODULO : String := "%="
def RANGE : String := ".."
def AND : String := "&&"
def OR : String := "||"
def BIT_AND : String := "&"
def BIT_XOR : String := "^"
def BIT_RSHIFT : String := ">>"
def BIT_LSHIFT : String := "<<"
def PIPE : String := "|"
def LT : String := "<"
def LT_EQ : String := "<="
def GT : String := ">"
def GT_EQ : String := ">="
def COMBINED_COMP : String := "<=>"
def EQ : String := "=="
def NOT_EQ : String := "!="
def COMMA : String := ","
def SEMICOLON : String := ";"
def COLON : String := ":"
def LPAREN : String := "("
def RPAREN : String := ")"
def LBRACE : String := "\x7b"
def RBRACE : String := "\x7d"
def LBRACKET : String := "["
def RBRACKET : String := "]"
def DOT : String := "."
def QUESTION : String := "?"
def COMMAND : String := "$()"
def FUNCTION : String := "F"
def TRUE : String := "Doğru"
def FALSE : String := "Yanlış"
def IF : String := "Eğer"
def ELSE : String := "Yoksa"
def RETURN : String := "Dön"
def WHILE : String := "WHILE"
def FOR : String := "FOR"
def IN : String := "İçinde"
def NOT_IN : String := "İçinde Değil"
def BREAK : String := "Dur"
def CONTINUE : String := "Devam"
def DEFER : String := "Bekleme"

/-- Go `keywords`. -/
def keywords : List (String × String) :=
  [("f", FUNCTION), ("Doğru", TRUE), ("Yanlış", FALSE), ("eğer", IF),
   ("yoksa", ELSE), ("dön", RETURN), ("iken", WHILE), ("döngü", FOR),
   ("in", IN), ("null", NULL), ("dur", BREAK), ("devam", CONTINUE),
   ("bekle", DEFER)]

/-- Go `NumberAbbreviations` (the multipliers are integers). -/
def NumberAbbreviations : List (String × Int) :=
  [("k", 1000), ("m", 1000000), ("b", 1000000000), ("t", 1000000000000)]

/-- Go `NumberSeparator`. -/
def NumberSeparator : Char := Char.ofNat 95

/-- Go `LookupIdent`. -/
def LookupIdent (ident : String) : String :=
  match keywords.lookup ident with
  | some tok => tok
  | none => IDENT

end token

/-! ## Package lexer -/

/-- The three functions of Go package `unicode` the lexer calls.  They are
tables of the Go standard library, not of this repository, and stay abstract. -/
structure UnicodeTables where
  IsLetter : Char → Bool
  IsDigit : Char → Bool
  ToLower : Char → Char

/-- Go `lexer.Lexer`.  `ch = 0` is the end-of-input sentinel. -/
structure Lexer where
  position : Int
  readPosition : Int
  ch : Char
  input : List Char
  lineMap : List (Int × Int)
deriving Repr, DecidableEq, Inhabited

/-- The rune 0. -/
def nul : Char := Char.ofNat 0

/-- Go `s[i]` on a rune slice: a panic outside `0 ≤ i < len s`. -/
def runeAt (s : List Char) (i : Int) : Outcome Char :=
  if i < 0 then .panic "index out of range"
  else match s.get? i.toNat with
    | some c => .ok c
    | none => .panic "index out of range"

/-- Go `s[lo:hi]` on a rune slice: a panic unless `0 ≤ lo ≤ hi ≤ len s`
(the capacity of the slice is taken to be its length). -/
def runeSlice (s : List Char) (lo hi : Int) : Outcome (List Char) :=
  if lo < 0 ∨ hi < lo ∨ (s.length : Int) < hi then .panic "slice bounds out of range"
  else .ok ((s.drop lo.toNat).take (hi.toNat - lo.toNat))

/-- Go `string(runes)`. -/
def runesToString (cs : List Char) : String := String.mk cs

/-- Go `string(r)` for one rune. -/
def runeToString (c : Char) : String := String.mk [c]

/-- The loop of Go `buildLineMap`: `begin` and `idx` are the loop variables,
`i` the index of the next rune, `acc` the line map built so far. -/
def buildLineMapLoop : List Char → Int → Int → Int → List (Int × Int) → List (Int × Int)
  | [], begin, idx, _, acc => acc ++ [(begin, idx + 1)]
  | c :: cs, begin, _, i, acc =>
    if c = Char.ofNat 10 then buildLineMapLoop cs (i + 1) i (i + 1) (acc ++ [(begin, i)])
    else buildLineMapLoop cs begin i (i + 1) acc

/-- Go `(*Lexer).buildLineMap`. -/
def buildLineMap (l : Lexer) : Lexer :=
  { l with lineMap := buildLineMapLoop l.input 0 0 0 l.lineMap }

/-- Go `(*Lexer).CurrentPosition`. -/
def CurrentPosition (l : Lexer) : Int := l.position

/-- The loop of Go `linePosition`; returns `(idx, begin, end)`. -/
def linePositionLoop (pos : Int) : List (Int × Int) → Int → Int × Int × Int → Int × Int × Int
  | [], _, acc => acc
  | (b, e) :: rest, i, _ =>
    if pos ≥ b ∧ pos ≤ e then (i, b, e) else linePositionLoop pos rest (i + 1) (i, b, e)

/-- Go `(*Lexer).linePosition`. -/
def linePosition (l : Lexer) (pos : Int) : Int × Int × Int :=
  let r := linePositionLoop pos l.lineMap 0 (0, 0, 0)
  (r.1 + 1, r.2.1, r.2.2)

/-- Go `(*Lexer).ErrorLine`. -/
def ErrorLine (l : Lexer) (pos : Int) : Outcome (Int × Int × String) := do
  let (lineNum, begin, end_) := linePosition l pos
  let errorLine ← runeSlice l.input begin end_
  let column := pos - begin + 1
  pure (lineNum, column, runesToString errorLine)

/-- Go `(*Lexer).newToken`. -/
def newToken (l : Lexer) (tokenType : String) : Token :=
  { Type_ := tokenType, Position := l.position, Literal := runeToString l.ch }

/-- Go `(*Lexer).readChar`. -/
def readChar (l : Lexer) : Outcome Lexer := do
  let ch ← if l.readPosition ≥ (l.input.length : Int) then pure nul
           else runeAt l.input l.readPosition
  pure { l with ch := ch, position := l.readPosition, readPosition := l.readPosition + 1 }

/-- Go `lexer.New`. -/
def New (input : String) : Outcome Lexer :=
  readChar (buildLineMap
    { position := 0, readPosition := 0, ch := nul, input := input.data, lineMap := [] })

/-- Go `(*Lexer).peekChar`. -/
def peekChar (l : Lexer) : Outcome Char :=
  if l.readPosition ≥ (l.input.length : Int) then pure nul
  else runeAt l.input l.readPosition

/-- Go `(*Lexer).prevChar`. -/
def prevChar (l : Lexer) (steps : Int) : Outcome Char :=
  let prevPosition := l.readPosition - steps
  if prevPosition < 1 then pure nul else runeAt l.input prevPosition

/-- Go `(*Lexer).peekChars`. -/
def peekChars (l : Lexer) (amount : Int) : Outcome String :=
  if l.readPosition + amount ≥ (l.input.length : Int) then pure ""
  else do
    let cs ← runeSlice l.input l.readPosition (l.readPosition + amount)
    pure (runesToString cs)

/-- Go `isLetter`. -/
def isLetter (u : UnicodeTables) (ch : Char) : Bool :=
  u.IsLetter ch || ch = Char.ofNat 95

/-- Go `isDigit`. -/
def isDigit (ch : Char) : Bool :=
  decide (Char.ofNat 48 ≤ ch) && decide (ch ≤ Char.ofNat 57)

/-- Go `isCharAllowedInNumber`. -/
def isCharAllowedInNumber (u : UnicodeTables) (c : Char) : Bool :=
  let lowchar := u.ToLower c
  let isAbbr := (token.NumberAbbreviations.lookup (runeToString lowchar)).isSome
  isDigit lowchar || lowchar = Char.ofNat 46 || lowchar = Char.ofNat 43 ||
    lowchar = Char.ofNat 45 || c = Char.ofNat 101 || lowchar = token.NumberSeparator || isAbbr

/-- Go `(*Lexer).skipWhitespace`. -/
def skipWhitespace : Nat → Lexer → Outcome Lexer
  | 0, _ => .outOfFuel
  | n + 1, l =>
    if l.ch = Char.ofNat 32 ∨ l.ch = Char.ofNat 9 ∨ l.ch = Char.ofNat 10 ∨ l.ch = Char.ofNat 13 then do
      let l ← readChar l
      skipWhitespace n l
    else pure l

/-- The loop of Go `readIdentifier`. -/
def readIdentifierLoop (u : UnicodeTables) : Nat → Lexer → Outcome Lexer
  | 0, _ => .outOfFuel
  | n + 1, l =>
    if isLetter u l.ch || u.IsDigit l.ch then do
      let l ← readChar l
      readIdentifierLoop u n l
    else pure l

/-- Go `(*Lexer).readIdentifier`. -/
def readIdentifier (u : UnicodeTables) (fuel : Nat) (l : Lexer) : Outcome (String × Lexer) := do
  let position := l.position
  let l ← readIdentifierLoop u fuel l
  let cs ← runeSlice l.input position l.position
  pure (runesToString cs, l)

/-- The loop of Go `readLine` and of `readCommand`: read at least one rune and
stop on a newline, a carriage return or the end of the input. -/
def readToLineEnd : Nat → Lexer → Outcome Lexer
  | 0, _ => .outOfFuel
  | n + 1, l => do
    let l ← readChar l
    if l.ch = Char.ofNat 10 ∨ l.ch = Char.ofNat 13 ∨ l.ch = nul then pure l
    else readToLineEnd n l

/-- Go `(*Lexer).readLine`. -/
def readLine (fuel : Nat) (l : Lexer) : Outcome (String × Lexer) := do
  let position := l.position
  let l ← readToLineEnd fuel l
  let cs ← runeSlice l.input position l.position
  pure (runesToString cs, l)

/-- Go `(*Lexer).readCommand`. -/
def readCommand (fuel : Nat) (l : Lexer) : Outcome (String × Lexer) := do
  let position := l.position + 2
  let l ← readToLineEnd fuel l
  let p ← prevChar l 2
  let subtract : Int := if p = Char.ofNat 59 then 2 else 1
  let ret ← runeSlice l.input position (l.position - subtract)
  let l := if subtract = 2 then
      { l with position := l.position - 1, readPosition := l.position - 1 }
    else l
  pure (runesToString ret, l)

/-- Go `(*Lexer).readLogicalOperator`. -/
def readLogicalOperator (l : Lexer) : Outcome (String × Lexer) := do
  let l ← readChar l
  let cs ← runeSlice l.input (l.position - 1) (l.position + 1)
  pure (runesToString cs, l)

/-- State of the loop of Go `readNumber`: the lexer and the two flags. -/
structure NumberScan where
  l : Lexer
  hasDot : Bool
  hasExponent : Bool

/-- The `for isCharAllowedInNumber(l.ch)` loop of Go `readNumber`.  The result
is `Sum.inl (literal, kind)` when the loop body returns, and `Sum.inr` with the
lexer when the loop condition fails. -/
def readNumberLoop (u : UnicodeTables) (position : Int) :
    Nat → NumberScan → Outcome ((String × String) × Lexer ⊕ Lexer)
  | 0, _ => .outOfFuel
  | n + 1, st =>
    let l := st.l
    if isCharAllowedInNumber u l.ch then
      if (l.ch = '+' ∨ l.ch = '-') ∧ st.hasExponent = false then do
        let cs ← runeSlice l.input position l.position
        pure (.inl ((runesToString cs, token.NUMBER), l))
      else
        let hasExponent := if l.ch = 'e' then true else st.hasExponent
        if (token.NumberAbbreviations.lookup (runeToString l.ch)).isSome then do
          let l ← readChar l
          let cs ← runeSlice l.input position l.position
          pure (.inl ((runesToString cs, token.NUMBER), l))
        else do
          let pk ← if l.ch = '.' then peekChar l else pure nul
          if l.ch = '.' ∧ (pk = '.' ∨ isDigit pk = false) then
            let cs ← runeSlice l.input position l.position
            pure (.inl ((runesToString cs, token.NUMBER), l))
          else if l.ch = '.' ∧ st.hasDot = true then
            let cs ← runeSlice l.input position (l.position + 1)
            pure (.inl ((runesToString cs, token.ILLEGAL), l))
          else
            let hasDot := if l.ch = '.' then true else st.hasDot
            let l ← readChar l
            readNumberLoop u position n { l := l, hasDot := hasDot, hasExponent := hasExponent }
    else pure (.inr l)

/-- Go `strings.ReplaceAll(s, "_", "")`. -/
def removeUnderscores (cs : List Char) : List Char :=
  cs.filter (fun c => c != '_')

/-- Go `(*Lexer).readNumber`; returns `((number, kind), lexer)`. -/
def readNumber (u : UnicodeTables) (fuel : Nat) (l : Lexer) :
    Outcome ((String × String) × Lexer) := do
  let position := l.position
  let r ← readNumberLoop u position fuel { l := l, hasDot := false, hasExponent := false }
  match r with
  | .inl res => pure res
  | .inr l =>
    let last ← runeAt l.input (l.position - 1)
    let cs ← runeSlice l.input position l.position
    if last = 'e' then pure ((runesToString cs, token.ILLEGAL), l)
    else pure ((runesToString (removeUnderscores cs), token.NUMBER), l)

/-- The escape rune of Go `readString`. -/
def esc : Char := Char.ofNat 92

/-- The double quote. -/
def dquote : Char := Char.ofNat 34

/-- The `for` loop of Go `readString`: `chars` is the text read so far. -/
def readStringLoop (quote : Char) :
    Nat → Lexer → List Char → Bool → Outcome (String × Lexer)
  | 0, _, _, _ => .outOfFuel
  | n + 1, l, chars, doubleEscape => do
    let l ← readChar l
    let pk ← if l.ch = esc then peekChar l else pure nul
    if l.ch = esc ∧ pk = esc then
      let chars := chars ++ [esc]
      let l ← readChar l
      let pk2 ← peekChar l
      if pk2 = quote then readStringLoop quote n l chars true
      else readStringLoop quote n l (chars ++ [esc]) doubleEscape
    else if l.ch = esc ∧ pk = quote then
      let l2 ← readChar l
      readStringLoop quote n l2 (chars ++ [quote]) doubleEscape
    else if quote = dquote ∧ l.ch = esc ∧ pk = 'n' then
      let l2 ← readChar l
      readStringLoop quote n l2 (chars ++ [Char.ofNat 10]) doubleEscape
    else if quote = dquote ∧ l.ch = esc ∧ pk = 'r' then
      let l2 ← readChar l
      readStringLoop quote n l2 (chars ++ [Char.ofNat 13]) doubleEscape
    else if quote = dquote ∧ l.ch = esc ∧ pk = 't' then
      let l2 ← readChar l
      readStringLoop quote n l2 (chars ++ [Char.ofNat 9]) doubleEscape
    else
      let pv ← if l.ch = quote then prevChar l 2 else pure nul
      if (l.ch = quote ∧ (pv ≠ esc ∨ doubleEscape = true)) ∨ l.ch = nul then
        pure (runesToString chars, l)
      else readStringLoop quote n l (chars ++ [l.ch]) false

/-- Go `(*Lexer).readString`. -/
def readString (fuel : Nat) (quote : Char) (l : Lexer) : Outcome (String × Lexer) :=
  readStringLoop quote fuel l [] false

/-- A token of kind `ty` at the current position with the given literal: the
Go idiom `tok.Type = ty; tok.Position = l.position; tok.Literal = lit`. -/
def tokenAt (l : Lexer) (ty lit : String) : Token :=
  { Type_ := ty, Position := l.position, Literal := lit }

/-- Go `(*Lexer).NextToken`.  Every branch of the `switch` yields the token
and the lexer; `adv` is the trailing `l.readChar()` shared by the branches that
do not return early. -/
def NextToken (u : UnicodeTables) : Nat → Lexer → Outcome (Token × Lexer)
  | 0, _ => .outOfFuel
  | n + 1, l0 => do
    let l ← skipWhitespace n l0
    let adv : Token × Lexer → Outcome (Token × Lexer) := fun r => do
      let l2 ← readChar r.2
      pure (r.1, l2)
    if l.ch = '=' then
      let pk ← peekChar l
      if pk = '=' then
        let tok := newToken l token.EQ
        let ch := l.ch
        let l2 ← readChar l
        adv ({ tok with Literal := runeToString ch ++ runeToString l2.ch }, l2)
      else adv (newToken l token.ASSIGN, l)
    else if l.ch = '+' then
      let pk ← peekChar l
      if pk = '=' then
        let tok := tokenAt l token.COMP_PLUS "+="
        let l2 ← readChar l
        adv (tok, l2)
      else adv (newToken l token.PLUS, l)
    else if l.ch = '-' then
      let pk ← peekChar l
      if pk = '=' then
        let tok := tokenAt l token.COMP_MINUS "-="
        let l2 ← readChar l
        adv (tok, l2)
      else adv (newToken l token.MINUS, l)
    else if l.ch = '%' then
      let pk ← peekChar l
      if pk = '=' then
        let tok := tokenAt l token.COMP_MODULO "%="
        let l2 ← readChar l
        adv (tok, l2)
      else adv (newToken l token.MODULO, l)
    else if l.ch = '!' then
      let pk ← peekChar l
      if pk = '=' then
        let tok := newToken l token.NOT_EQ
        let ch := l.ch
        let l2 ← readChar l
        adv ({ tok with Literal := runeToString ch ++ runeToString l2.ch }, l2)
      else do
        let pks ← peekChars l 3
        if pks = "in " then
          let tok := newToken l token.NOT_IN
          let l2 ← readChar l
          let l3 ← readChar l2
          adv ({ tok with Literal := "!in" }, l3)
        else adv (newToken l token.BANG, l)
    else if l.ch = '/' then
      let pk ← peekChar l
      if pk = '/' then
        let (_, l2) ← readLine n l
        let l3 ← readChar l2
        NextToken u n l3
      else if pk = '=' then
        let tok := tokenAt l token.COMP_SLASH "/="
        let l2 ← readChar l
        adv (tok, l2)
      else adv (newToken l token.SLASH, l)
    else if l.ch = '#' then
      let (_, l2) ← readLine n l
      let l3 ← readChar l2
      NextToken u n l3
    else if l.ch = '&' then
      let pk ← peekChar l
      if pk = '&' then
        let (lit, l2) ← readLogicalOperator l
        adv ({ Type_ := token.AND, Position := l.position, Literal := lit }, l2)
      else adv (newToken l token.BIT_AND, l)
    else if l.ch = '^' then adv (newToken l token.BIT_XOR, l)
    else if l.ch = '@' then adv (newToken l token.AT, l)
    else if l.ch = '*' then
      let pk ← peekChar l
      if pk = '*' then
        let l2 ← readChar l
        let pk2 ← peekChar l2
        if pk2 = '=' then
          let tok := tokenAt l2 token.COMP_EXPONENT "**="
          let l3 ← readChar l2
          adv (tok, l3)
        else adv (tokenAt l2 token.EXPONENT "**", l2)
      else if pk = '=' then
        let tok := tokenAt l token.COMP_ASTERISK "*="
        let l2 ← readChar l
        adv (tok, l2)
      else adv (newToken l token.ASTERISK, l)
    else if l.ch = '<' then
      let pk ← peekChar l
      if pk = '=' then
        let l2 ← readChar l
        let pk2 ← peekChar l2
        if pk2 = '>' then
          let tok := tokenAt l2 token.COMBINED_COMP "<=>"
          let l3 ← readChar l2
          adv (tok, l3)
        else adv (tokenAt l2 token.LT_EQ "<=", l2)
      else if pk = '<' then
        let tok := tokenAt l token.BIT_LSHIFT "<<"
        let l2 ← readChar l
        adv (tok, l2)
      else adv (newToken l token.LT, l)
    else if l.ch = '>' then
      let pk ← peekChar l
      if pk = '=' then
        let tok := tokenAt l token.GT_EQ ">="
        let l2 ← readChar l
        adv (tok, l2)
      else if pk = '>' then
        let tok := tokenAt l token.BIT_RSHIFT ">>"
        let l2 ← readChar l
        adv (tok, l2)
      else adv (newToken l token.GT, l)
    else if l.ch = ';' then adv (newToken l token.SEMICOLON, l)
    else if l.ch = ':' then adv (newToken l token.COLON, l)
    else if l.ch = ',' then adv (newToken l token.COMMA, l)
    else if l.ch = '.' then
      let position := l.position
      let pk ← peekChar l
      if pk = '.' then
        let l2 ← readChar l
        let pk2 ← peekChar l2
        if pk2 = '.' then
          let l3 ← readChar l2
          adv ({ Type_ := token.CURRENT_ARGS, Position := position, Literal := "..." }, l3)
        else adv ({ Type_ := token.RANGE, Position := position, Literal := ".." }, l2)
      else adv (newToken l token.DOT, l)
    else if l.ch = '?' then adv (newToken l token.QUESTION, l)
    else if l.ch = '|' then
      let pk ← peekChar l
      if pk = '|' then
        let (lit, l2) ← readLogicalOperator l
        adv ({ Type_ := token.OR, Position := l.position, Literal := lit }, l2)
      else adv (newToken l token.PIPE, l)
    else if l.ch = Char.ofNat 123 then adv (newToken l token.LBRACE, l)
    else if l.ch = Char.ofNat 125 then adv (newToken l token.RBRACE, l)
    else if l.ch = '~' then adv (newToken l token.TILDE, l)
    else if l.ch = '(' then adv (newToken l token.LPAREN, l)
    else if l.ch = ')' then adv (newToken l token.RPAREN, l)
    else if l.ch = dquote then
      let (lit, l2) ← readString n dquote l
      adv ({ Type_ := token.STRING, Position := l.position, Literal := lit }, l2)
    else if l.ch = Char.ofNat 39 then
      let (lit, l2) ← readString n (Char.ofNat 39) l
      adv ({ Type_ := token.STRING, Position := l.position, Literal := lit }, l2)
    else if l.ch = Char.ofNat 96 then
      let (lit, l2) ← readString n (Char.ofNat 96) l
      adv ({ Type_ := token.COMMAND, Position := l.position, Literal := lit }, l2)
    else if l.ch = '$' then
      let pk ← peekChar l
      if pk = '(' then
        let (lit, l2) ← readCommand n l
        adv ({ Type_ := token.COMMAND, Position := l.position, Literal := lit }, l2)
      else
        let (lit, l2) ← readLine n l
        adv ({ Type_ := token.ILLEGAL, Position := l.position, Literal := lit }, l2)
    else if l.ch = '[' then adv (newToken l token.LBRACKET, l)
    else if l.ch = ']' then adv (newToken l token.RBRACKET, l)
    else if l.ch = nul then adv (tokenAt l token.EOF "", l)
    else if isLetter u l.ch then
      let (lit, l2) ← readIdentifier u n l
      pure ({ Type_ := token.LookupIdent lit, Position := l.position, Literal := lit }, l2)
    else if isDigit l.ch then
      let ((lit, kind), l2) ← readNumber u n l
      pure ({ Type_ := kind, Position := l.position, Literal := lit }, l2)
    else adv (newToken l token.ILLEGAL, l)

/-- The `for l.position < pos` loop of Go `Rewind`. -/
def rewindLoop (u : UnicodeTables) (pos : Int) : Nat → Lexer → Outcome Lexer
  | 0, _ => .outOfFuel
  | n + 1, l =>
    if l.position < pos then do
      let (_, l2) ← NextToken u n l
      rewindLoop u pos n l2
    else pure l

/-- Go `(*Lexer).Rewind`. -/
def Rewind (u : UnicodeTables) (fuel : Nat) (l : Lexer) (pos : Int) : Outcome Lexer := do
  let ch ← runeAt l.input 0
  rewindLoop u pos fuel { l with ch := ch, position := 0, readPosition := 0 + 1 }

/-- The tokens `NextToken` returns up to and including the first EOF token
(at most `count` of them), together with the lexer reached. -/
def tokenStream (u : UnicodeTables) (fuel : Nat) : Nat → Lexer → Outcome (List Token × Lexer)
  | 0, _ => .outOfFuel
  | count + 1, l => do
    let (tok, l2) ← NextToken u fuel l
    if tok.Type_ = token.EOF then pure ([tok], l2)
    else do
      let (rest, l3) ← tokenStream u fuel count l2
      pure (tok :: rest, l3)

/-- An ASCII instance of the Unicode tables, for running the lexer on ASCII
sources. -/
def asciiTables : UnicodeTables where
  IsLetter := fun c => c.isAlpha
  IsDigit := fun c => c.isDigit
  ToLower := fun c => c.toLower

/-! ## Package ast

The Go package `ast` is not among the sources; the node types below are read
off the parser, which builds them, and the evaluator, which consumes them. -/

/-- Modelled from the spec: the declarations of package `ast` are missing from
the sources.  One constructor per node variant of the data model, with the Go
field names the parser and the evaluator use.  `nil` is the Go nil interface
value (an absent expression or block); a `Parameters` entry is the
parameter name with its default expression (`nil` when there is none); the
`Name` of an assignment is the token and value of its identifier. -/
inductive Node where
  | nil
  | Program (Statements : List Node)
  | BlockStatement (tok : Token) (Statements : List Node)
  | ExpressionStatement (tok : Token) (Expression : Node)
  | ReturnStatement (tok : Token) (ReturnValue : Node)
  | AssignStatement (tok : Token) (Name : Option (Token × String)) (Names : List Node)
      (Index : Node) (Property : Node) (Value : Node)
  | Identifier (tok : Token) (Value : String)
  | NumberLiteral (tok : Token) (Value : Int)
  | StringLiteral (tok : Token) (Value : String)
  | NullLiteral (tok : Token)
  | Boolean (tok : Token) (Value : Bool)
  | CurrentArgsLiteral (tok : Token)
  | ArrayLiteral (tok : Token) (Elements : List Node)
  | HashLiteral (tok : Token) (Pairs : List (Node × Node))
  | PrefixExpression (tok : Token) (Operator : String) (Right : Node)
  | InfixExpression (tok : Token) (Operator : String) (Left : Node) (Right : Node)
  | CompoundAssignment (tok : Token) (Operator : String) (Left : Node) (Right : Node)
  | IfExpression (tok : Token) (Scenarios : List (Node × Node))
  | WhileExpression (tok : Token) (Condition : Node) (Consequence : Node)
  | ForExpression (tok : Token) (Identifier : String) (Starter : Node) (Condition : Node)
      (Closer : Node) (Block : Node)
  | ForInExpression (tok : Token) (Key : String) (Value : String) (Iterable : Node)
      (Block : Node) (Alternative : Node)
  | FunctionLiteral (tok : Token) (Name : String) (Parameters : List (String × Node))
      (Body : Node)
  | CallExpression (tok : Token) (Function : Node) (Arguments : List Node) (Deferred : Bool)
  | MethodExpression (tok : Token) (Object : Node) (Method : Node) (Arguments : List Node)
      (Optional : Bool) (Deferred : Bool)
  | PropertyExpression (tok : Token) (Object : Node) (Property : Node) (Optional : Bool)
  | IndexExpression (tok : Token) (Left : Node) (Index : Node) (End : Node) (IsRange : Bool)
  | CommandExpression (tok : Token) (Value : String) (Deferred : Bool)
  | Decorator (tok : Token) (Expression : Node) (Decorated : Node)
  | BreakStatement (tok : Token)
  | ContinueStatement (tok : Token)
deriving Repr, Inhabited

/-- Modelled from the spec: `ast.Deferrable` / `IsDeferred` are missing from the
sources.  Deferrable expressions are call expressions, method calls and command
expressions; the flag is the one the `defer` prefix sets. -/
def Node.IsDeferred : Node → Bool
  | .CallExpression _ _ _ d => d
  | .MethodExpression _ _ _ _ _ d => d
  | .CommandExpression _ _ d => d
  | _ => false

/-- The test of `evalProgram` and `evalBlockStatement`: the statement is an
expression statement whose expression is deferrable and deferred. -/
def isDeferredStatement : Node → Bool
  | .ExpressionStatement _ e => e.IsDeferred
  | _ => false

/-! ## Package object -/

/-- Go `object.Object` values.  `nil` is the Go nil interface value.  Arrays and
hashes are pointers into the heap; a function holds a pointer to its captured
environment; a built-in is named by its key in the registry `Fns`.  `Token`
fields are kept only where the evaluator reads them (functions).

`Number` holds a Go `float64` whose value is an integer, as that integer.  The
values a `float64` can take are the integers `float64OfInt` leaves unchanged;
fractions, the infinities and NaN are not carried. -/
inductive Object where
  | nil
  | Null
  | Boolean (Value : Bool)
  | Number (Value : Int)
  | String (Value : String) (Ok : Option Bool) (Done : Option Bool)
  | Array (ref : Nat)
  | Hash (ref : Nat)
  | Function (tok : Token) (Name : String) (Parameters : List (String × Node))
      (Body : Node) (Env : Nat)
  | Builtin (name : String)
  | ReturnValue (Value : Object)
  | Error (Message : String)
  | BreakError (Message : String)
  | ContinueError (Message : String)
deriving Repr, Inhabited

namespace object

def NULL_OBJ : String := "NULL"
def ERROR_OBJ : String := "ERROR"
def NUMBER_OBJ : String := "NUMBER"
def BOOLEAN_OBJ : String := "BOOLEAN"
def STRING_OBJ : String := "STRING"
def RETURN_VALUE_OBJ : String := "RETURN_VALUE"
def ANY_OBJ : String := "ANY"
def FUNCTION_OBJ : String := "FUNCTION"
def BUILTIN_OBJ : String := "BUILTIN"
def ARRAY_OBJ : String := "ARRAY"
def HASH_OBJ : String := "HASH"

end object

/-- Go `object.NULL`. -/
def NULL : Object := .Null
/-- Go `object.TRUE`. -/
def TRUE : Object := .Boolean true
/-- Go `object.FALSE`. -/
def FALSE : Object := .Boolean false
/-- Go `object.EOF`. -/
def EOF : Object := .Error "EOF"

/-- Go `Type()`; calling it on the nil interface value panics.  `BreakError`
and `ContinueError` embed `Error` and inherit its `Type()`. -/
def Type_ : Object → Outcome String
  | .nil => .panic "nil pointer dereference"
  | .Null => .ok object.NULL_OBJ
  | .Boolean _ => .ok object.BOOLEAN_OBJ
  | .Number _ => .ok object.NUMBER_OBJ
  | .String _ _ _ => .ok object.STRING_OBJ
  | .Array _ => .ok object.ARRAY_OBJ
  | .Hash _ => .ok object.HASH_OBJ
  | .Function _ _ _ _ _ => .ok object.FUNCTION_OBJ
  | .Builtin _ => .ok object.BUILTIN_OBJ
  | .ReturnValue _ => .ok object.RETURN_VALUE_OBJ
  | .Error _ => .ok object.ERROR_OBJ
  | .BreakError _ => .ok object.ERROR_OBJ
  | .ContinueError _ => .ok object.ERROR_OBJ

/-- Go `object.HashKey` (its `Token` field is never set). -/
structure HashKey where
  Type_ : String
  Value : String
deriving Repr, DecidableEq, Inhabited

/-- Go `object.HashPair`. -/
structure HashPair where
  Key : Object
  Value : Object
deriving Repr, Inhabited

/-- Go `object.Environment` without its `Writer`. -/
structure Environment where
  store : List (String × Object)
  CurrentArgs : List Object
  outer : Option Nat
  Dir : String
  Version : String
deriving Repr, Inhabited

/-- The struct behind a Go `*object.Array`. -/
structure ArrayObj where
  Elements : List Object
  IsCurrentArgs : Bool
  position : Int
deriving Repr, Inhabited

/-- The struct behind a Go `*object.Hash`; `Pairs` points to the Go map. -/
structure HashObj where
  Pairs : Nat
  Position : Int
deriving Repr, Inhabited

/-- A Go `map[HashKey]HashPair`: an association list without a meaningful order. -/
abbrev PairMap := List (HashKey × HashPair)

/-- The heap of the interpreter and the lexer the evaluator holds in its global
`lex`.  `out` is what has been written to the environment writers. -/
structure State where
  envs : List Environment
  arrays : List ArrayObj
  hashes : List HashObj
  maps : List PairMap
  lex : Lexer
  out : List String
deriving Repr, Inhabited

/-- Computations of the evaluator: they read and update the heap and end in an
`Outcome`. -/
abbrev EvalM := StateT State Outcome

/-- A Go runtime panic. -/
def goPanic {α : Type} (msg : String) : EvalM α := fun _ => .panic msg

/-! ### Go maps as association lists -/

/-- The map read `m[k]`. -/
def mapGet {κ ν : Type} [DecidableEq κ] (m : List (κ × ν)) (k : κ) : Option ν :=
  match m with
  | [] => none
  | (k1, v) :: rest => if k1 = k then some v else mapGet rest k

/-- The map write `m[k] = v`. -/
def mapSet {κ ν : Type} [DecidableEq κ] (m : List (κ × ν)) (k : κ) (v : ν) : List (κ × ν) :=
  match m with
  | [] => [(k, v)]
  | (k1, v1) :: rest => if k1 = k then (k, v) :: rest else (k1, v1) :: mapSet rest k v

/-- The map deletion `delete(m, k)`. -/
def mapDelete {κ ν : Type} [DecidableEq κ] (m : List (κ × ν)) (k : κ) : List (κ × ν) :=
  m.filter (fun e => decide (e.1 ≠ k))

/-! ### Heap access -/

/-- Replace the element at position `i` of a list. -/
def setAt {α : Type} (l : List α) (i : Nat) (a : α) : List α := l.set i a

def getEnv (r : Nat) : EvalM Environment := fun s =>
  match s.envs.get? r with
  | some e => .ok (e, s)
  | none => .panic "invalid environment pointer"

def putEnv (r : Nat) (e : Environment) : EvalM Unit := fun s =>
  .ok ((), { s with envs := setAt s.envs r e })

def getArray (r : Nat) : EvalM ArrayObj := fun s =>
  match s.arrays.get? r with
  | some a => .ok (a, s)
  | none => .panic "invalid array pointer"

def putArray (r : Nat) (a : ArrayObj) : EvalM Unit := fun s =>
  .ok ((), { s with arrays := setAt s.arrays r a })

def getHash (r : Nat) : EvalM HashObj := fun s =>
  match s.hashes.get? r with
  | some h => .ok (h, s)
  | none => .panic "invalid hash pointer"

def putHash (r : Nat) (h : HashObj) : EvalM Unit := fun s =>
  .ok ((), { s with hashes := setAt s.hashes r h })

def getMap (r : Nat) : EvalM PairMap := fun s =>
  match s.maps.get? r with
  | some m => .ok (m, s)
  | none => .panic "invalid map pointer"

def putMap (r : Nat) (m : PairMap) : EvalM Unit := fun s =>
  .ok ((), { s with maps := setAt s.maps r m })

/-- Allocation `&object.Array{Elements: elems, IsCurrentArgs: cur}`. -/
def newArray (elems : List Object) (cur : Bool) : EvalM Object := fun s =>
  .ok (.Array s.arrays.length,
    { s with arrays := s.arrays ++ [{ Elements := elems, IsCurrentArgs := cur, position := 0 }] })

/-- Allocation `make(map[HashKey]HashPair)` followed by the given writes. -/
def newMap (m : PairMap) : EvalM Nat := fun s =>
  .ok (s.maps.length, { s with maps := s.maps ++ [m] })

/-- Allocation `&object.Hash{Pairs: pairs}`. -/
def newHash (pairs : Nat) : EvalM Object := fun s =>
  .ok (.Hash s.hashes.length, { s with hashes := s.hashes ++ [{ Pairs := pairs, Position := 0 }] })

/-! ### Numbers

Go `float64` arithmetic on values that are integers, and the conversions
between `float64` and the integer types. -/

/-- The least `e`, counted up from the third argument, for which `n / 2 ^ e` is
below `2 ^ 53`: the number of binary digits a float64 significand cannot hold
of `n`.  The first argument bounds the search (`n` itself suffices). -/
def float64Shift : Nat → Nat → Nat → Nat
  | 0, _, e => e
  | k + 1, n, e => if n / 2 ^ e < 9007199254740992 then e else float64Shift k n (e + 1)

/-- The `float64` nearest to the integer `x`, a tie going to the even
significand: the value Go computes where the exact result of an operation on
floats is `x` (`float64(i)` of an integer, `a + b`, `a - b`, `a * b` on floats
that are integers).  Integers up to `2 ^ 53` in magnitude are floats
themselves; above, 53 binary digits are kept.  (From `2 ^ 1024` on Go gives an
infinity, which is not among the values carried.) -/
def float64OfInt (x : Int) : Int :=
  let n := x.natAbs
  if n ≤ 9007199254740992 then x
  else
    let e := float64Shift n n 0
    let q := n / 2 ^ e
    let r := n % 2 ^ e
    let q1 := if 2 * r > 2 ^ e ∨ (2 * r = 2 ^ e ∧ q % 2 = 1) then q + 1 else q
    if x < 0 then -((q1 * 2 ^ e : Nat) : Int) else ((q1 * 2 ^ e : Nat) : Int)

/-- Go `int(f)` and `int64(f)` for a float that is an integer (`int` has 64
bits).  A value between `-2 ^ 63` and `2 ^ 63 - 1` is converted to itself.  For
the other values Go leaves the result to the implementation; the model takes
that of amd64, where the conversion yields the smallest `int64`. -/
def intOfFloat (v : Int) : Int :=
  if -9223372036854775808 ≤ v ∧ v < 9223372036854775808 then v else -9223372036854775808

/-! ### What the evaluator reaches only through an interface -/

/-- Go `object.Builtin`: `Fn` receives the evaluator's `applyFunction` (the
built-ins of `functions.go` call back into it), the call token, the
environment pointer and the arguments. -/
structure Builtin where
  Fn : (Token → Object → Nat → List Object → EvalM Object) →
    Token → Nat → List Object → EvalM Object
  Next : Option (EvalM (Object × Object))
  Types : List String

/-- The collaborators of the evaluator that are not part of the embedding.

* `Fns` is the registry of built-in functions (`getFns()`).
* `nodeString` and `paramString` are the `String()` renderings of package
  `ast` (missing from the sources) for nodes other than identifiers.
* `sameObject` is Go pointer identity of two interface values (`left == right`).
* `numDiv`, `numPow`, `numMod` are `/`, `math.Pow` and `math.Mod` on `float64`,
  which lead to fractions.
* `formatFloat` is `strconv.FormatFloat(v, 'f', -1, 64)`, the text of a number
  that is no `int64`.
* `toLower` is `strings.ToLower`; `writeFile` / `appendFile` return the error
  text of the file operation, if any; `runCommand` runs a subprocess for the
  prepared command line (`true` for a background command). -/
structure World where
  Fns : String → Option Builtin
  nodeString : Node → String
  paramString : String × Node → String
  sameObject : Object → Object → Bool
  numDiv : Int → Int → Int
  numPow : Int → Int → Int
  numMod : Int → Int → Int
  formatFloat : Int → String
  toLower : String → String
  writeFile : String → String → Option String
  appendFile : String → String → Option String
  runCommand : Token → String → Bool → EvalM Object

/-- Modelled from the spec: the `String()` methods of package `ast` are missing
from the sources.  An identifier renders as its name (the spec: "the property
identifier becomes a string key", destructuring from a hash is "by name key");
calling the method on the nil interface value panics; every other node is
rendered by the `World`. -/
def nodeString (W : World) : Node → Outcome String
  | .nil => .panic "nil pointer dereference"
  | .Identifier _ v => .ok v
  | n => .ok (W.nodeString n)

/-! ### Strings -/

/-- Go `strings.Join`. -/
def joinStrings (sep : String) : List String → String
  | [] => ""
  | [a] => a
  | a :: b :: rest => a ++ sep ++ joinStrings sep (b :: rest)

/-- Go string comparison `a <= b` (bytewise, which for UTF-8 text is the order
of the code points). -/
def charsLe : List Char → List Char → Bool
  | [], _ => true
  | _ :: _, [] => false
  | a :: as, b :: bs =>
    if a.toNat < b.toNat then true
    else if b.toNat < a.toNat then false
    else charsLe as bs

/-- Go `a <= b` on strings. -/
def stringLe (a b : String) : Prop := charsLe a.data b.data = true

instance : DecidableRel stringLe := fun a b =>
  inferInstanceAs (Decidable (charsLe a.data b.data = true))

/-- Go `sort.Strings`. -/
def sortStrings (l : List String) : List String := l.insertionSort stringLe

/-- Go `strings.ReplaceAll(s, "\"", "\\\"")`. -/
def escapeQuotes : List Char → List Char
  | [] => []
  | c :: cs => if c = dquote then esc :: dquote :: escapeQuotes cs else c :: escapeQuotes cs

/-- Run a fallible function over a list, left to right. -/
def mapOutcome {α β : Type} (f : α → Outcome β) : List α → Outcome (List β)
  | [] => .ok []
  | a :: as => do
    let b ← f a
    let bs ← mapOutcome f as
    pure (b :: bs)

/-- The text of Go `(*Error).Inspect`. -/
def errorInspect (msg : String) : String :=
  "\x1b[31mHata: \x1b[38;2;52;34;189m" ++ msg

/-- Go `Inspect()` (`json = false`) and `Json()` (`json = true`) of every object
type.  Arrays and hashes are read from the heap `s`; the recursion through
them is bounded by the fuel.  A number for which `IsInt()` holds, that is
`n.Value == float64(int64(n.Value))`, is printed as `int64(n.Value)` with the
verb `%d`, every other number by `strconv.FormatFloat`. -/
def inspectAux (W : World) (s : State) : Nat → Bool → Object → Outcome String
  | 0, _, _ => .outOfFuel
  | n + 1, json, o =>
    match o with
    | .nil => .panic "nil pointer dereference"
    | .Null => .ok "null"
    | .Boolean b => .ok (if b then "true" else "false")
    | .Number v =>
      .ok (if float64OfInt (intOfFloat v) = v then toString (intOfFloat v) else W.formatFloat v)
    | .String v _ _ =>
      if json then .ok (runesToString ([dquote] ++ escapeQuotes v.data ++ [dquote])) else .ok v
    | .Array r =>
      match s.arrays.get? r with
      | none => .panic "invalid array pointer"
      | some a => do
        let elements ← mapOutcome (inspectAux W s n true) a.Elements
        pure ("[" ++ joinStrings ", " elements ++ "]")
    | .Hash r =>
      match s.hashes.get? r with
      | none => .panic "invalid hash pointer"
      | some h =>
        match s.maps.get? h.Pairs with
        | none => .panic "invalid map pointer"
        | some m => do
          let pairs ← mapOutcome (fun (e : HashKey × HashPair) => do
            let k ← inspectAux W s n true e.2.Key
            let v ← inspectAux W s n true e.2.Value
            pure (k ++ ": " ++ v)) m
          pure ("\x7b" ++ joinStrings ", " (sortStrings pairs) ++ "\x7d")
    | .Function _ name params body _ => do
      let b ← nodeString W body
      pure ("f" ++ (if name ≠ "" then " " ++ name else "") ++ "(" ++
        joinStrings ", " (params.map W.paramString) ++ ") \x7b" ++ b ++ "\x7d")
    | .Builtin _ => .ok "Fonksiyon"
    | .ReturnValue v => inspectAux W s n false v
    | .Error m => .ok (errorInspect m)
    | .BreakError m => .ok (errorInspect m)
    | .ContinueError m => .ok (errorInspect m)

/-- Go `o.Inspect()`. -/
def Inspect (W : World) (fuel : Nat) (o : Object) : EvalM String := fun s =>
  match inspectAux W s fuel false o with
  | .ok str => .ok (str, s)
  | .panic m => .panic m
  | .outOfFuel => .outOfFuel

/-- Go `(*HashKey)` of a string: `HashKey{Type: s.Type(), Value: s.Value}`. -/
def stringHashKey (v : String) : HashKey := { Type_ := object.STRING_OBJ, Value := v }

/-- The type assertion `o.(object.Hashable)` followed by `HashKey()`: in this
code base only `*object.String` has a `HashKey` method. -/
def hashKeyOf : Object → Option HashKey
  | .String v _ _ => some (stringHashKey v)
  | _ => none

/-! ### Environments -/

/-- Go `(*Environment).Get` on the environment at `r`: the recursion follows
the `outer` pointers. -/
def envGetAux (envs : List Environment) : Nat → Nat → String → Outcome (Option Object)
  | 0, _, _ => .outOfFuel
  | n + 1, r, name =>
    match envs.get? r with
    | none => .panic "invalid environment pointer"
    | some e =>
      match mapGet e.store name with
      | some obj => .ok (some obj)
      | none =>
        match e.outer with
        | some o => envGetAux envs n o name
        | none => .ok none

/-- Go `env.Get(name)`; `none` is the Go result `ok = false`.  The chain of
`outer` pointers of a heap is no longer than the heap. -/
def EnvGet (r : Nat) (name : String) : EvalM (Option Object) := fun s =>
  match envGetAux s.envs (s.envs.length + 1) r name with
  | .ok v => .ok (v, s)
  | .panic m => .panic m
  | .outOfFuel => .outOfFuel

/-- Go `env.Set(name, val)`. -/
def EnvSet (r : Nat) (name : String) (val : Object) : EvalM Unit := do
  let e ← getEnv r
  putEnv r { e with store := mapSet e.store name val }

/-- Go `env.Delete(name)`. -/
def EnvDelete (r : Nat) (name : String) : EvalM Unit := do
  let e ← getEnv r
  putEnv r { e with store := mapDelete e.store name }

/-- Go `object.NewEnvironment`; returns the pointer to the new environment. -/
def NewEnvironment (dir version : String) : EvalM Nat := fun s =>
  .ok (s.envs.length, { s with envs := s.envs ++
    [{ store := [("ANK_VERSION", .String version none none)], CurrentArgs := [],
       outer := none, Dir := dir, Version := version }] })

/-- Go `object.NewEnclosedEnvironment`. -/
def NewEnclosedEnvironment (outer : Nat) (args : List Object) : EvalM Nat := do
  let o ← getEnv outer
  let r ← NewEnvironment o.Dir o.Version
  let e ← getEnv r
  putEnv r { e with outer := some outer, CurrentArgs := args }
  pure r

/-! ### Iterables -/

/-- Go `(*Array).Next`; `(nil, nil)` signals the end. -/
def ArrayNext (r : Nat) : EvalM (Object × Object) := do
  let ao ← getArray r
  let position := ao.position
  if (ao.Elements.length : Int) > position then
    if position < 0 then goPanic "index out of range"
    else
      match ao.Elements.get? position.toNat with
      | none => goPanic "index out of range"
      | some v => do
        putArray r { ao with position := position + 1 }
        pure (.Number position, v)
  else pure (.nil, .nil)

/-- Go `(*Array).Reset`. -/
def ArrayReset (r : Nat) : EvalM Unit := do
  let ao ← getArray r
  putArray r { ao with position := 0 }

/-- The second loop of Go `(*Hash).Next`: walk the sorted keys up to the
cursor.  `pairs[k]` of a key that is not in the map is the zero `HashPair`. -/
def hashNextScan (pairs : List (String × HashPair)) (position : Int) :
    List String → Int → Option HashPair
  | [], _ => none
  | k :: ks, curPosition =>
    if position = curPosition then some ((mapGet pairs k).getD { Key := .nil, Value := .nil })
    else hashNextScan pairs position ks (curPosition + 1)

/-- The first loop of Go `(*Hash).Next`: the map `pairs` from the inspect
string of each key to its pair, and the list `keys` of those strings. -/
def hashNextCollect (W : World) (s : State) (fuel : Nat) :
    PairMap → List (String × HashPair) → List String →
      Outcome (List (String × HashPair) × List String)
  | [], pairs, keys => .ok (pairs, keys)
  | (_, v) :: rest, pairs, keys => do
    let k ← inspectAux W s fuel false v.Key
    hashNextCollect W s fuel rest (mapSet pairs k v) (keys ++ [k])

/-- Go `(*Hash).Next`; `(nil, nil)` signals the end. -/
def HashNext (W : World) (fuel : Nat) (r : Nat) : EvalM (Object × Object) := do
  let h ← getHash r
  let m ← getMap h.Pairs
  let s ← get
  let (pairs, keys) ← hashNextCollect W s fuel m [] []
  match hashNextScan pairs h.Position (sortStrings keys) 0 with
  | some p => do
    putHash r { h with Position := h.Position + 1 }
    pure (p.Key, p.Value)
  | none => pure (.nil, .nil)

/-- Go `(*Hash).Reset`. -/
def HashReset (r : Nat) : EvalM Unit := do
  let h ← getHash r
  putHash r { h with Position := 0 }

/-- Go `(*Hash).GetPair`. -/
def HashGetPair (r : Nat) (key : String) : EvalM (Option HashPair) := do
  let h ← getHash r
  let m ← getMap h.Pairs
  pure (mapGet m { Type_ := "STRING", Value := key })

/-- Go `(*Hash).GetKeyType`. -/
def HashGetKeyType (r : Nat) (k : String) : EvalM String := do
  let pair ← HashGetPair r k
  match pair with
  | none => pure object.NULL_OBJ
  | some p => Type_ p.Value

/-! ### UTF-8

Go strings are byte strings; `len`, indexing and slicing count bytes.  A string
value is carried as its text.  A byte of a Go string that is not part of the
UTF-8 encoding of a character is carried as one of the code points
U+10FF80 .. U+10FFFF, which are set apart for the bytes 128 .. 255
(`rawByte`); `stringBytes` gives the byte back, so that a string keeps every
byte it is made of.  (Sources are taken not to use these code points
themselves.) -/

/-- The code point that carries the byte `b` (`128 ≤ b ≤ 255`) where the byte
is not part of the encoding of a character. -/
def rawByte (b : Nat) : Char := Char.ofNat (1113856 + b)

/-- The code points that carry single bytes. -/
def isRawByte (c : Char) : Bool := decide (1113984 ≤ c.toNat)

/-- The UTF-8 encoding of a rune. -/
def utf8Encode (c : Char) : List Nat :=
  let v := c.toNat
  if v ≤ 127 then [v]
  else if v ≤ 2047 then [192 + v / 64, 128 + v % 64]
  else if v ≤ 65535 then [224 + v / 4096, 128 + (v / 64) % 64, 128 + v % 64]
  else [240 + v / 262144, 128 + (v / 4096) % 64, 128 + (v / 64) % 64, 128 + v % 64]

/-- The bytes a character of a string value stands for: its UTF-8 encoding, or
the single byte it carries. -/
def utf8EncodeChar (c : Char) : List Nat :=
  if isRawByte c then [c.toNat - 1113856] else utf8Encode c

/-- The bytes of a Go string. -/
def stringBytes (s : String) : List Nat := s.data.flatMap utf8EncodeChar

/-- The first character of the string with the given bytes and the number of
bytes it takes.  The head of the bytes is the encoding of a character exactly
when encoding the character gives these bytes back; a byte that begins no
encoding is carried by itself. -/
def utf8DecodeStep (bs : List Nat) : Char × Nat :=
  let b0 := bs.headD 0
  let b1 := (bs.drop 1).headD 0
  let b2 := (bs.drop 2).headD 0
  let b3 := (bs.drop 3).headD 0
  let c2 := Char.ofNat ((b0 - 192) * 64 + (b1 - 128))
  let c3 := Char.ofNat ((b0 - 224) * 4096 + (b1 - 128) * 64 + (b2 - 128))
  let c4 := Char.ofNat ((b0 - 240) * 262144 + (b1 - 128) * 4096 + (b2 - 128) * 64 + (b3 - 128))
  if b0 < 128 then (Char.ofNat b0, 1)
  else if utf8EncodeChar c2 = bs.take 2 then (c2, 2)
  else if utf8EncodeChar c3 = bs.take 3 then (c3, 3)
  else if utf8EncodeChar c4 = bs.take 4 then (c4, 4)
  else (rawByte b0, 1)

/-- The characters of the string with the given bytes; the first argument
bounds the number of characters (the number of bytes suffices). -/
def utf8DecodeAux : Nat → List Nat → List Char
  | 0, _ => []
  | n + 1, bs =>
    match bs with
    | [] => []
    | _ :: _ =>
      let r := utf8DecodeStep bs
      r.1 :: utf8DecodeAux n (bs.drop r.2)

/-- The characters of the string with the given bytes. -/
def utf8Decode (bs : List Nat) : List Char := utf8DecodeAux bs.length bs

/-- The Go string with the given bytes. -/
def bytesToString (bs : List Nat) : String := String.mk (utf8Decode bs)

/-- Go `a + b` on strings: the bytes of `a` followed by the bytes of `b`. -/
def concatStrings (a b : String) : String := bytesToString (stringBytes a ++ stringBytes b)

/-- Go `len(s)` of a string. -/
def stringLen (s : String) : Int := ((stringBytes s).length : Int)

/-! ### Package util -/

/-- Go `util.Contains`. -/
def Contains (s : List String) (e : String) : Bool := s.any (fun a => a = e)

/-- The character class `[a-zA-Z_0-9]` of `InterpolateStringVars`. -/
def isVarChar (c : Char) : Bool :=
  (decide ('a' ≤ c) && decide (c ≤ 'z')) || (decide ('A' ≤ c) && decide (c ≤ 'Z')) ||
    c = '_' || (decide ('0' ≤ c) && decide (c ≤ '9'))

/-- The longest prefix of `[a-zA-Z_0-9]` characters and the rest. -/
def spanVarChars : List Char → List Char × List Char
  | [] => ([], [])
  | c :: cs =>
    if isVarChar c then
      let r := spanVarChars cs
      (c :: r.1, r.2)
    else ([], c :: cs)

/-- A match of `(\{)?([a-zA-Z_0-9]{1,})(\})?` at the head of the input: the
matched text and the rest of the input. -/
def matchVarBody (cs : List Char) : Option (List Char × List Char) :=
  let viaBrace : Option (List Char × List Char) :=
    match cs with
    | c :: cs1 =>
      if c = Char.ofNat 123 then
        let r := spanVarChars cs1
        if r.1 = [] then none
        else
          match r.2 with
          | d :: rest => if d = Char.ofNat 125 then some (c :: r.1 ++ [d], rest)
                         else some (c :: r.1, d :: rest)
          | [] => some (c :: r.1, [])
      else none
    | [] => none
  match viaBrace with
  | some m => some m
  | none =>
    let r := spanVarChars cs
    if r.1 = [] then none
    else
      match r.2 with
      | d :: rest => if d = Char.ofNat 125 then some (r.1 ++ [d], rest) else some (r.1, d :: rest)
      | [] => some (r.1, [])

/-- The replacement function passed to `ReplaceAllStringFunc` in Go
`InterpolateStringVars`, for a match `m` that does not start with a backslash. -/
def interpolateMatch (W : World) (fuel : Nat) (env : Nat) (m : List Char) : EvalM (List Char) :=
  match m with
  | _ :: c1 :: rest =>
    let lookup : List Char → EvalM (List Char) := fun varName => do
      let v ← EnvGet env (String.mk varName)
      match v with
      | none => pure []
      | some o => do
        let str ← Inspect W fuel o
        pure str.data
    if c1 = Char.ofNat 123 then
      if (c1 :: rest).getLast? ≠ some (Char.ofNat 125) then pure m
      else lookup rest.dropLast
    else lookup (c1 :: rest)
  | _ => goPanic "index out of range"

/-- Go `util.InterpolateStringVars` on the runes of the string: the leftmost
matches of `(\\)?\$(\{)?([a-zA-Z_0-9]{1,})(\})?` are replaced one after the
other; `n` bounds the number of scanning steps (the length of the input
suffices). -/
def interpolateLoop (W : World) (fuel : Nat) (env : Nat) : Nat → List Char → EvalM (List Char)
  | 0, cs => pure cs
  | n + 1, cs =>
    match cs with
    | [] => pure []
    | c :: rest =>
      let plain : EvalM (List Char) := do
        let r ← interpolateLoop W fuel env n rest
        pure (c :: r)
      if c = esc then
        match rest with
        | d :: rest2 =>
          if d = '$' then
            match matchVarBody rest2 with
            | some (body, after) => do
              let r ← interpolateLoop W fuel env n after
              pure (d :: body ++ r)
            | none => plain
          else plain
        | [] => plain
      else if c = '$' then
        match matchVarBody rest with
        | some (body, after) => do
          let rep ← interpolateMatch W fuel env (c :: body)
          let r ← interpolateLoop W fuel env n after
          pure (rep ++ r)
        | none => plain
      else plain

/-- Go `util.InterpolateStringVars`. -/
def InterpolateStringVars (W : World) (fuel : Nat) (str : String) (env : Nat) : EvalM String := do
  let r ← interpolateLoop W fuel env (str.length + 1) str.data
  pure (String.mk r)

/-! ## Package evaluator -/

/-- Go `newError`: the formatted message followed by the position rendered by
the global lexer `lex`.  The caller passes the formatted message. -/
def newError (tok : Token) (msg : String) : EvalM Object := do
  let s ← get
  let (lineNum, collumn, errorLine) ← ErrorLine s.lex tok.Position
  let errorPosition := "\x1b[97m\n" ++ toString lineNum ++ ":" ++ toString collumn ++ "> " ++ errorLine
  pure (.Error (msg ++ errorPosition))

/-- Go `newBreakError`. -/
def newBreakError (tok : Token) (msg : String) : EvalM Object := do
  let e ← newError tok msg
  match e with
  | .Error m => pure (.BreakError m)
  | o => pure o

/-- Go `newContinueError`. -/
def newContinueError (tok : Token) (msg : String) : EvalM Object := do
  let e ← newError tok msg
  match e with
  | .Error m => pure (.ContinueError m)
  | o => pure o

/-- Go `nativeBoolToBooleanObject`. -/
def nativeBoolToBooleanObject (input : Bool) : Object :=
  if input then TRUE else FALSE

/-- Go `isTruthy`. -/
def isTruthy : Object → Bool
  | .Null => false
  | .Boolean v => v
  | .Number v => v ≠ 0
  | .String v _ _ => v ≠ ""
  | _ => true

/-- Go `isError`. -/
def isError : Object → Bool
  | .Error _ => true
  | .BreakError _ => true
  | .ContinueError _ => true
  | _ => false

/-- Go `unwrapReturnValue`. -/
def unwrapReturnValue : Object → Object
  | .ReturnValue v => v
  | obj => obj

/-- Go `evalBangOperatorExpression`. -/
def evalBangOperatorExpression (right : Object) : Object :=
  if isTruthy right then FALSE else TRUE

/-- Go `evalTildePrefixOperatorExpression`: `float64(^int64(o.Value))`, where
`^i` is `-i - 1`. -/
def evalTildePrefixOperatorExpression (W : World) (fuel : Nat) (tok : Token) (right : Object) :
    EvalM Object :=
  match right with
  | .Number v => pure (.Number (float64OfInt (-(intOfFloat v) - 1)))
  | o => do
    let t ← Type_ o
    let i ← Inspect W fuel o
    newError tok ("(~) sadece sayılarda kullanılabilir fakat " ++ t ++ " bulundu. (" ++ i ++ ") ")

/-- Go `evalMinusPrefixOperatorExpression`. -/
def evalMinusPrefixOperatorExpression (tok : Token) (right : Object) : EvalM Object := do
  let t ← Type_ right
  match right with
  | .Number value => pure (.Number (-value))
  | _ => newError tok ("Bilinmeyen operatör: -" ++ t)

/-- Go `evalPlusPrefixOperatorExpression`. -/
def evalPlusPrefixOperatorExpression (tok : Token) (right : Object) : EvalM Object := do
  let t ← Type_ right
  match right with
  | .Number _ => pure right
  | _ => newError tok ("Bilinmeyen operatör: +" ++ t)

/-- Go `evalPrefixExpression`. -/
def evalPrefixExpression (W : World) (fuel : Nat) (tok : Token) (operator : String)
    (right : Object) : EvalM Object :=
  if operator = "!" then pure (evalBangOperatorExpression right)
  else if operator = "-" then evalMinusPrefixOperatorExpression tok right
  else if operator = "+" then evalPlusPrefixOperatorExpression tok right
  else if operator = "~" then evalTildePrefixOperatorExpression W fuel tok right
  else do
    let t ← Type_ right
    newError tok ("bilinmeyen operatör: " ++ operator ++ t)

/-- Go `uint64(f)` for a float that is an integer.  A value between `0` and
`2 ^ 64 - 1` is converted to itself; for the other values Go leaves the result
to the implementation, and the model takes the residue modulo `2 ^ 64`. -/
def toUint64 (v : Int) : Nat := (v % 18446744073709551616).toNat

/-- The loop `for i := leftVal; i <= rightVal; i++ { a = append(a, Number(i)) }`
of the `".."` case of Go `evalNumberInfixExpression`.  The counter is a
`float64`: `i++` is `i + 1` rounded.  The first argument bounds the number of
tests of the loop condition. -/
def rangeUpLoop (rightVal : Int) : Nat → Int → List Object → Outcome (List Object)
  | 0, _, _ => .outOfFuel
  | k + 1, i, a =>
    if i ≤ rightVal then rangeUpLoop rightVal k (float64OfInt (i + 1)) (a ++ [Object.Number i])
    else .ok a

/-- The loop `for i := leftVal; i >= rightVal; i-- { a = append(a, Number(i)) }`
of the `".."` case of Go `evalNumberInfixExpression`.  The counter is a
`float64`: `i--` is `i - 1` rounded.  The first argument bounds the number of
tests of the loop condition. -/
def rangeDownLoop (rightVal : Int) : Nat → Int → List Object → Outcome (List Object)
  | 0, _, _ => .outOfFuel
  | k + 1, i, a =>
    if i ≥ rightVal then rangeDownLoop rightVal k (float64OfInt (i - 1)) (a ++ [Object.Number i])
    else .ok a

/-- The elements of the range `left..right`: the two counting loops of the
`".."` case of Go `evalNumberInfixExpression`. -/
def rangeElements (fuel : Nat) (leftVal rightVal : Int) : Outcome (List Object) :=
  if leftVal ≤ rightVal then rangeUpLoop rightVal fuel leftVal []
  else rangeDownLoop rightVal fuel leftVal []

/-- The message of the "unknown operator" errors. -/
def unknownOperator (lt operator rt : String) : String :=
  "Bilinmeyen operatör: " ++ lt ++ " " ++ operator ++ " " ++ rt

/-- Go `evalNumberInfixExpression`; the type assertions on the operands panic
when an operand is not a number.  The results of `+`, `-` and `*` are rounded
to `float64`; the bitwise operators work on the operands converted to `int64`
(`uint64` for the shifts) and convert their result back to `float64`; `~`
compares the operands converted to `int64`. -/
def evalNumberInfixExpression (W : World) (fuel : Nat) (tok : Token) (operator : String)
    (left right : Object) : EvalM Object :=
  match left, right with
  | .Number leftVal, .Number rightVal =>
    if operator = "+" then pure (.Number (float64OfInt (leftVal + rightVal)))
    else if operator = "-" then pure (.Number (float64OfInt (leftVal - rightVal)))
    else if operator = "*" then pure (.Number (float64OfInt (leftVal * rightVal)))
    else if operator = "/" then pure (.Number (W.numDiv leftVal rightVal))
    else if operator = "**" then pure (.Number (W.numPow leftVal rightVal))
    else if operator = "%" then pure (.Number (W.numMod leftVal rightVal))
    else if operator = "<" then pure (nativeBoolToBooleanObject (leftVal < rightVal))
    else if operator = ">" then pure (nativeBoolToBooleanObject (leftVal > rightVal))
    else if operator = "<=" then pure (nativeBoolToBooleanObject (leftVal ≤ rightVal))
    else if operator = ">=" then pure (nativeBoolToBooleanObject (leftVal ≥ rightVal))
    else if operator = "<=>" then
      pure (.Number (if leftVal = rightVal then 0 else if leftVal > rightVal then 1 else -1))
    else if operator = "==" then pure (nativeBoolToBooleanObject (leftVal = rightVal))
    else if operator = "!=" then pure (nativeBoolToBooleanObject (leftVal ≠ rightVal))
    else if operator = "&" then
      pure (.Number (float64OfInt (Int.land (intOfFloat leftVal) (intOfFloat rightVal))))
    else if operator = "|" then
      pure (.Number (float64OfInt (Int.lor (intOfFloat leftVal) (intOfFloat rightVal))))
    else if operator = ">>" then
      pure (.Number (float64OfInt (if toUint64 rightVal ≥ 64 then 0
        else ((toUint64 leftVal) / 2 ^ (toUint64 rightVal) : Nat))))
    else if operator = "<<" then
      pure (.Number (float64OfInt (if toUint64 rightVal ≥ 64 then 0
        else ((toUint64 leftVal * 2 ^ (toUint64 rightVal)) % 18446744073709551616 : Nat))))
    else if operator = "^" then
      pure (.Number (float64OfInt (Int.xor (intOfFloat leftVal) (intOfFloat rightVal))))
    else if operator = "~" then pure (.Boolean (intOfFloat leftVal = intOfFloat rightVal))
    else if operator = ".." then do
      let a ← rangeElements fuel leftVal rightVal
      newArray a false
    else do
      let lt ← Type_ left
      let rt ← Type_ right
      newError tok (unknownOperator lt operator rt)
  | _, _ => goPanic "interface conversion: not *object.Number"

/-- Go `strings.Contains` on the runes of two strings. -/
def containsRunes (hay needle : List Char) : Bool :=
  match hay with
  | [] => needle.isEmpty
  | c :: cs => needle.isPrefixOf (c :: cs) || containsRunes cs needle

/-- The loop over the elements in the array cases of Go `evalInExpression`:
some element has the inspect string `text` and the type `ty`. -/
def inArrayLoop (W : World) (fuel : Nat) (text ty : String) : List Object → EvalM Bool
  | [] => pure false
  | v :: rest => do
    let i ← Inspect W fuel v
    if i = text then
      let t ← Type_ v
      if t = ty then pure true else inArrayLoop W fuel text ty rest
    else inArrayLoop W fuel text ty rest

/-- Go `evalInExpression`.  A number is looked for by the text
`strconv.Itoa(int(needle.Value))`. -/
def evalInExpression (W : World) (fuel : Nat) (tok : Token) (left right : Object) :
    EvalM Object :=
  match right with
  | .Array r => do
    let rightObj ← getArray r
    match left with
    | .String needle _ _ => do
      let found ← inArrayLoop W fuel needle object.STRING_OBJ rightObj.Elements
      pure (.Boolean found)
    | .Number needle => do
      let found ← inArrayLoop W fuel (toString (intOfFloat needle)) object.NUMBER_OBJ
        rightObj.Elements
      pure (.Boolean found)
    | _ => pure (.Boolean false)
  | .String _ _ _ => do
    let lt ← Type_ left
    if lt = object.STRING_OBJ then
      let r ← Inspect W fuel right
      let l ← Inspect W fuel left
      pure (.Boolean (containsRunes r.data l.data))
    else pure (.Boolean false)
  | .Hash r => do
    let lt ← Type_ left
    match left with
    | .String v _ _ =>
      if lt = object.STRING_OBJ then
        let p ← HashGetPair r v
        pure (.Boolean p.isSome)
      else pure (.Boolean false)
    | _ => pure (.Boolean false)
  | _ => do
    let rt ← Type_ right
    newError tok ("\x27de\x27 operatörü, " ++ rt ++ " için geçerli değil")

/-- Go `evalNotInExpression`: the type assertion panics when `evalInExpression`
returned an error. -/
def evalNotInExpression (W : World) (fuel : Nat) (tok : Token) (left right : Object) :
    EvalM Object := do
  let obj ← evalInExpression W fuel tok left right
  match obj with
  | .Boolean v => pure (.Boolean (!v))
  | _ => goPanic "interface conversion: not *object.Boolean"

/-- Go `evalStringInfixExpression`. -/
def evalStringInfixExpression (W : World) (fuel : Nat) (tok : Token) (operator : String)
    (left right : Object) : EvalM Object :=
  match left, right with
  | .String leftVal _ _, .String rightVal _ _ =>
    if operator = "+" then pure (.String (concatStrings leftVal rightVal) none none)
    else if operator = "==" then pure (.Boolean (leftVal = rightVal))
    else if operator = "!=" then pure (.Boolean (leftVal ≠ rightVal))
    else if operator = "~" then pure (.Boolean (W.toLower leftVal = W.toLower rightVal))
    else if operator = "in" then evalInExpression W fuel tok left right
    else if operator = "!in" then do
      let r ← evalNotInExpression W fuel tok left right
      match r with
      | .Boolean _ => pure r
      | _ => goPanic "interface conversion: not *object.Boolean"
    else if operator = ">" then
      match W.writeFile rightVal leftVal with
      | some err => newError tok (rightVal ++ "\x27e yazarken başarısız olundu: " ++ err)
      | none => pure (.Boolean true)
    else if operator = ">>" then
      match W.appendFile rightVal leftVal with
      | some err => newError tok (rightVal ++ "\x27e yazarken başarısız olundu: " ++ err)
      | none => pure (.Boolean true)
    else do
      let lt ← Type_ left
      let rt ← Type_ right
      newError tok (unknownOperator lt operator rt)
  | _, _ => goPanic "interface conversion: not *object.String"

/-- Go `evalArrayInfixExpression` (a fresh array object; the sharing of backing
arrays by `append` is not modelled). -/
def evalArrayInfixExpression (tok : Token) (operator : String) (left right : Object) :
    EvalM Object :=
  if operator = "+" then
    match left, right with
    | .Array l, .Array r => do
      let leftVal ← getArray l
      let rightVal ← getArray r
      newArray (leftVal.Elements ++ rightVal.Elements) false
    | _, _ => goPanic "interface conversion: not *object.Array"
  else do
    let lt ← Type_ left
    let rt ← Type_ right
    newError tok (unknownOperator lt operator rt)

/-- The `for _, rightPair := range rightVal` loop of Go
`evalHashInfixExpression`, writing into the left map. -/
def mergePairs : PairMap → PairMap → Outcome PairMap
  | leftVal, [] => .ok leftVal
  | leftVal, (_, rightPair) :: rest =>
    match hashKeyOf rightPair.Key with
    | none => .panic "interface conversion: not object.Hashable"
    | some hashed =>
      mergePairs (mapSet leftVal hashed { Key := rightPair.Key, Value := rightPair.Value }) rest

/-- Go `evalHashInfixExpression`: for `+` the pairs of the right hash are
written into the Go map of the left hash, and the result is a new hash object
holding that same map. -/
def evalHashInfixExpression (tok : Token) (operator : String) (left right : Object) :
    EvalM Object :=
  match left, right with
  | .Hash l, .Hash r => do
    let leftHashObject ← getHash l
    let rightHashObject ← getHash r
    if operator = "+" then
      let leftVal ← getMap leftHashObject.Pairs
      let rightVal ← getMap rightHashObject.Pairs
      let merged ← mergePairs leftVal rightVal
      putMap leftHashObject.Pairs merged
      newHash leftHashObject.Pairs
    else do
      let lt ← Type_ left
      let rt ← Type_ right
      newError tok (unknownOperator lt operator rt)
  | _, _ => goPanic "interface conversion: not *object.Hash"

/-- Go `evalHashIndexExpression`. -/
def evalHashIndexExpression (tok : Token) (hash index : Object) : EvalM Object :=
  match hash with
  | .Hash r => do
    let hashObject ← getHash r
    match hashKeyOf index with
    | none => do
      let t ← Type_ index
      newError tok ("Harita anahtarı olarak " ++ t ++ " kullanılamaz")
    | some key => do
      let m ← getMap hashObject.Pairs
      match mapGet m key with
      | none => pure NULL
      | some pair => pure pair.Value
  | _ => goPanic "interface conversion: not *object.Hash"

/-- Fuel exhaustion inside the evaluator. -/
def outOfFuel {α : Type} : EvalM α := fun _ => .outOfFuel

/-- The end index of a slice `[idx:end]`, shared by the range branches of Go
`evalArrayIndexExpression` and `evalStringIndexExpression`: `max` is the length;
the result is `none` when `end` is neither a number nor `NULL`.  For a negative
end the code computes `int(math.Max(float64(max+endIdx.Int()), 0))`. -/
def sliceEnd (max : Int) : Object → Option Int
  | .Number endIdx0 =>
    let endIdx := intOfFloat endIdx0
    if endIdx < 0 then
      let m := float64OfInt (max + endIdx)
      some (intOfFloat (if m < 0 then 0 else m))
    else if endIdx < max then some endIdx
    else some max
  | .Null => some max
  | _ => none

/-- The message of the "index must be a number" error. -/
def badIndexMessage (W : World) (fuel : Nat) (end_ : Object) : EvalM String := do
  let i ← Inspect W fuel end_
  let t ← Type_ end_
  pure ("dizinler sayı olmalıdır fakat \"" ++ i ++ "\" bulundu. (tip " ++ t ++ ")")

/-- Go `evalArrayIndexExpression`.  The Go slice `Elements[idx:max]` shares its
backing array with the original array; the model copies the elements.

The index is `index.(*object.Number).Int()`.  In the branch of a slice the
model converts it with `intOfFloat`.  In the branch of a single index it
compares the number itself: for a number that is no `int64` the converted
index is the smallest `int64`, which the test `math.Abs(float64(idx)) >
float64(length)` sends to `NULL` for every array a Go heap can hold, as the
tests `idx > max` and `-idx > length` do with the number itself. -/
def evalArrayIndexExpression (W : World) (fuel : Nat) (tok : Token) (array index end_ : Object)
    (isRange : Bool) : EvalM Object :=
  match array, index with
  | .Array r, .Number idx0 => do
    let arrayObject ← getArray r
    let max : Int := (arrayObject.Elements.length : Int) - 1
    if isRange then
      let max := max + 1
      let idx := if intOfFloat idx0 < 0 then 0 else intOfFloat idx0
      match sliceEnd max end_ with
      | none => do
        let msg ← badIndexMessage W fuel end_
        newError tok msg
      | some max =>
        if idx > max then newArray [] false
        else newArray ((arrayObject.Elements.drop idx.toNat).take (max - idx).toNat) false
    else if idx0 > max then pure NULL
    else if idx0 < 0 then
      let length := max + 1
      if -idx0 > length then pure NULL
      else
        match arrayObject.Elements.get? (length + idx0).toNat with
        | some v => pure v
        | none => goPanic "index out of range"
    else
      match arrayObject.Elements.get? idx0.toNat with
      | some v => pure v
      | none => goPanic "index out of range"
  | _, _ => goPanic "interface conversion"

/-- Go `evalStringIndexExpression`: lengths, indices and slices count bytes, and
`string(s[idx])` is the rune whose code point is the byte.  The index is
converted as in `evalArrayIndexExpression`. -/
def evalStringIndexExpression (W : World) (fuel : Nat) (tok : Token) (array index end_ : Object)
    (isRange : Bool) : EvalM Object :=
  match array, index with
  | .String value _ _, .Number idx0 => do
    let bytes := stringBytes value
    let max : Int := (bytes.length : Int) - 1
    if isRange then
      let max := max + 1
      let idx := if intOfFloat idx0 < 0 then 0 else intOfFloat idx0
      match sliceEnd max end_ with
      | none => do
        let msg ← badIndexMessage W fuel end_
        newError tok msg
      | some max =>
        if idx > max then pure (.String "" none none)
        else pure (.String (bytesToString ((bytes.drop idx.toNat).take (max - idx).toNat)) none none)
    else if idx0 > max then pure (.String "" none none)
    else if idx0 < 0 then
      let length := max + 1
      if -idx0 > length then pure (.String "" none none)
      else
        match bytes.get? (length + idx0).toNat with
        | some b => pure (.String (runeToString (Char.ofNat b)) none none)
        | none => goPanic "index out of range"
    else
      match bytes.get? idx0.toNat with
      | some b => pure (.String (runeToString (Char.ofNat b)) none none)
      | none => goPanic "index out of range"
  | _, _ => goPanic "interface conversion"

/-- Go `strings.Trim(s, " ")` on runes. -/
def trimSpaces (cs : List Char) : List Char :=
  ((cs.dropWhile (fun c => c = ' ')).reverse.dropWhile (fun c => c = ' ')).reverse

/-- Go `evalCommandExpression`: the command line is trimmed and interpolated,
a trailing `&` marks a background command (the last two bytes are cut off),
and the subprocess is run by the `World`. -/
def evalCommandExpression (W : World) (fuel : Nat) (tok : Token) (cmd : String) (env : Nat) :
    EvalM Object := do
  let cmd := String.mk (trimSpaces cmd.data)
  let cmd ← InterpolateStringVars W fuel cmd env
  let bytes := stringBytes cmd
  let background := decide (bytes.length > 1) && decide (bytes.getLast? = some 38)
  let cmd := if background then bytesToString (bytes.take (bytes.length - 2)) else cmd
  W.runCommand tok cmd background

/-- The type of `Eval` as seen by its helpers. -/
abbrev Evaluator := Node → Nat → EvalM Object

/-- The type of `applyFunction` as seen by its helpers. -/
abbrev Applier := Token → Object → Nat → List Object → EvalM Object

/-- Go `evalExpressions`. -/
def evalExpressions (ev : Evaluator) (env : Nat) : List Node → List Object → EvalM (List Object)
  | [], result => pure result
  | e :: exps, result => do
    let evaluated ← ev e env
    if isError evaluated then pure [evaluated]
    else evalExpressions ev env exps (result ++ [evaluated])

/-- The `for` loop of Go `evalProgram`, with its loop variables `result` and
`deferred`. -/
def evalProgramLoop (ev : Evaluator) (env : Nat) :
    List Node → Object → List Node → EvalM (Object × List Node)
  | [], result, deferred => pure (result, deferred)
  | statement :: rest, result, deferred =>
    if isDeferredStatement statement then
      evalProgramLoop ev env rest result (deferred ++ [statement])
    else do
      let result ← ev statement env
      match result with
      | .ReturnValue v => pure (v, deferred)
      | .Error _ => pure (result, deferred)
      | _ => evalProgramLoop ev env rest result deferred

/-- The loop `for _, statement := range deferred { Eval(statement, env) }`. -/
def evalDeferred (ev : Evaluator) (env : Nat) : List Node → EvalM Unit
  | [] => pure ()
  | statement :: rest => do
    let _ ← ev statement env
    evalDeferred ev env rest

/-- Go `evalProgram`. -/
def evalProgram (ev : Evaluator) (statements : List Node) (env : Nat) : EvalM Object := do
  let (result, deferred) ← evalProgramLoop ev env statements .nil []
  evalDeferred ev env deferred
  pure result

/-- The `for` loop of Go `evalBlockStatement`. -/
def evalBlockLoop (ev : Evaluator) (env : Nat) :
    List Node → Object → List Node → EvalM (Object × List Node)
  | [], result, deferred => pure (result, deferred)
  | statement :: rest, result, deferred =>
    if isDeferredStatement statement then
      evalBlockLoop ev env rest result (deferred ++ [statement])
    else do
      let result ← ev statement env
      match result with
      | .nil => evalBlockLoop ev env rest result deferred
      | _ => do
        let rt ← Type_ result
        if rt = object.RETURN_VALUE_OBJ ∨ rt = object.ERROR_OBJ then pure (result, deferred)
        else evalBlockLoop ev env rest result deferred

/-- Go `evalBlockStatement`. -/
def evalBlockStatement (ev : Evaluator) (statements : List Node) (env : Nat) : EvalM Object := do
  let (result, deferred) ← evalBlockLoop ev env statements .nil []
  evalDeferred ev env deferred
  pure result

/-- Go `evalIfExpression`. -/
def evalIfExpression (ev : Evaluator) (env : Nat) : List (Node × Node) → EvalM Object
  | [] => pure NULL
  | (cond, consequence) :: rest => do
    let condition ← ev cond env
    if isError condition then pure condition
    else if isTruthy condition then ev consequence env
    else evalIfExpression ev env rest

/-- Go `evalWhileExpression`; the first argument bounds the depth of its
recursion. -/
def evalWhileExpression (ev : Evaluator) : Nat → Node → Node → Nat → EvalM Object
  | 0, _, _, _ => outOfFuel
  | k + 1, cond, consequence, env => do
    let condition ← ev cond env
    if isError condition then pure condition
    else if isTruthy condition then
      let evaluated ← ev consequence env
      if isError evaluated then pure evaluated
      else do
        let _ ← evalWhileExpression ev k cond consequence env
        pure NULL
    else pure NULL

/-- The `for holds` loop of Go `evalForExpression`. -/
def evalForLoop (ev : Evaluator) (cond closer block : Node) (env : Nat) : Nat → EvalM Object
  | 0 => outOfFuel
  | k + 1 => do
    let evaluated ← ev cond env
    if isError evaluated then pure evaluated
    else if isTruthy evaluated then
      let res ← ev block env
      match res with
      | .BreakError _ => pure NULL
      | .Error _ => pure res
      | .ReturnValue _ => pure res
      | _ => do
        let err ← ev closer env
        if isError err then pure err
        else evalForLoop ev cond closer block env k
    else pure NULL

/-- The deferred function of Go `evalForExpression` and `evalForInExpression`:
put back the binding an identifier had before the loop. -/
def restoreIdentifier (env : Nat) (name : String) (existing : Option Object) : EvalM Unit :=
  match existing with
  | some v => EnvSet env name v
  | none => EnvDelete env name

/-- Go `evalForExpression`. -/
def evalForExpression (ev : Evaluator) (fuel : Nat) (identifier : String)
    (starter cond closer block : Node) (env : Nat) : EvalM Object := do
  let existingIdentifier ← EnvGet env identifier
  let err ← ev starter env
  if isError err then pure err
  else do
    let r ← evalForLoop ev cond closer block env fuel
    restoreIdentifier env identifier existingIdentifier
    pure r

/-- The Go test `node == nil`. -/
def isNilNode : Node → Bool
  | .nil => true
  | _ => false

/-- The negation of the loop condition `k != nil && v != EOF` of Go
`loopIterable`: the iteration is over.  Go compares `v` with the one shared
`EOF` error by pointer; here every `Error` with the message `EOF` counts. -/
def iterationFinished (ky v : Object) : Bool :=
  match ky, v with
  | .nil, _ => true
  | _, .Error "EOF" => true
  | _, _ => false

/-- Go `loopIterable`; `k` bounds the number of iterations. -/
def loopIterable (ev : Evaluator) (next : EvalM (Object × Object)) (env : Nat)
    (key value : String) (block alternative : Node) : Nat → Int → EvalM Object
  | 0, _ => outOfFuel
  | k + 1, index => do
    let (ky, v) ← next
    if iterationFinished ky v then
      if index = 0 ∧ isNilNode alternative = false then ev alternative env else pure NULL
    else do
      EnvSet env key ky
      EnvSet env value v
      let res ← ev block env
      match res with
      | .BreakError _ => pure NULL
      | .Error _ => pure res
      | .ReturnValue _ => pure res
      | _ => loopIterable ev next env key value block alternative k (index + 1)

/-- Go `evalForInExpression`.  The two deferred functions run in the reverse
order of their registration: first `Reset()` of the iterable, then the
restoration of the key and value identifiers. -/
def evalForInExpression (W : World) (ev : Evaluator) (fuel : Nat) (tok : Token)
    (key value : String) (iterableNode block alternative : Node) (env : Nat) : EvalM Object := do
  let iterable ← ev iterableNode env
  let existingKeyIdentifier ← EnvGet env key
  let existingValueIdentifier ← EnvGet env value
  let restore : EvalM Unit := do
    restoreIdentifier env key existingKeyIdentifier
    restoreIdentifier env value existingValueIdentifier
  match iterable with
  | .Array r => do
    let res ← loopIterable ev (ArrayNext r) env key value block alternative fuel 0
    ArrayReset r
    restore
    pure res
  | .Hash r => do
    let res ← loopIterable ev (HashNext W fuel r) env key value block alternative fuel 0
    HashReset r
    restore
    pure res
  | .Builtin name =>
    match W.Fns name with
    | none => goPanic "nil pointer dereference"
    | some b =>
      match b.Next with
      | none => do
        let e ← newError tok "yerleşik fonksiyon dögüde kullanılmaz."
        restore
        pure e
      | some next => do
        let res ← loopIterable ev next env key value block alternative fuel 0
        restore
        pure res
  | i => do
    let insp ← Inspect W fuel i
    let t ← Type_ i
    let e ← newError tok ("\x27" ++ insp ++ "\x27 " ++ t ++ " tipine sahip ve yenilenebilir değil. ")
    restore
    pure e

/-- Go `evalIdentifier`. -/
def evalIdentifier (W : World) (tok : Token) (value : String) (env : Nat) : EvalM Object := do
  let v ← EnvGet env value
  match v with
  | some val => pure val
  | none =>
    match W.Fns value with
    | some _ => pure (.Builtin value)
    | none => newError tok ("Bulunamadı: " ++ value)

/-- Go `evalPropertyExpression`. -/
def evalPropertyExpression (W : World) (ev : Evaluator) (tok : Token) (objectNode property : Node)
    (optional : Bool) (env : Nat) : EvalM Object := do
  let o ← ev objectNode env
  if isError o then pure o
  else
    let fallback : EvalM Object :=
      if optional then pure NULL
      else do
        let prop ← nodeString W property
        let t ← Type_ o
        newError tok ("\x27" ++ prop ++ "\x27 özelliği, " ++ t ++ " tipinde geçersizdir.")
    match o with
    | .String _ ok done => do
      let prop ← nodeString W property
      if prop = "ok" then
        match ok with
        | some b => pure (.Boolean b)
        | none => pure FALSE
      else if prop = "done" then
        match done with
        | some b => pure (.Boolean b)
        | none => pure FALSE
      else fallback
    | .Hash _ => do
      let prop ← nodeString W property
      evalHashIndexExpression tok o (.String prop none none)
    | _ => fallback

/-- The loop of Go `extendFunctionEnv` over the parameters; the result is
`some err` when an argument is missing and has no default. -/
def bindParameters (W : World) (ev : Evaluator) (fuel : Nat) (fn : Object) (fnTok : Token)
    (args : List Object) (env : Nat) : List (String × Node) → Nat → EvalM (Option Object)
  | [], _ => pure none
  | (paramValue, paramDefault) :: rest, paramIdx => do
    let argumentPassed := decide (args.length > paramIdx)
    let missing : Bool :=
      match paramDefault with
      | .nil => !argumentPassed
      | _ => false
    if missing then
      let insp ← Inspect W fuel fn
      let e ← newError fnTok (paramValue ++ " fonksiyonu için " ++ insp ++ " argümanı bulunamadı.")
      pure (some e)
    else do
      let arg ←
        match args.get? paramIdx with
        | some a => pure a
        | none => ev paramDefault env
      EnvSet env paramValue arg
      bindParameters W ev fuel fn fnTok args env rest (paramIdx + 1)

/-- Go `extendFunctionEnv`: `Sum.inl` is the new environment, `Sum.inr` the
error. -/
def extendFunctionEnv (W : World) (ev : Evaluator) (fuel : Nat) (fn : Object)
    (args : List Object) : EvalM (Nat ⊕ Object) :=
  match fn with
  | .Function fnTok _ params _ fnEnv => do
    let env ← NewEnclosedEnvironment fnEnv args
    let err ← bindParameters W ev fuel fn fnTok args env params 0
    match err with
    | some e => pure (.inr e)
    | none => pure (.inl env)
  | _ => goPanic "interface conversion: not *object.Function"

/-- Go `applyFunction`; `self` is `applyFunction` itself, handed to the
built-ins that call back into the evaluator. -/
def applyFunction (W : World) (ev : Evaluator) (self : Applier) (fuel : Nat) (tok : Token)
    (fn : Object) (env : Nat) (args : List Object) : EvalM Object :=
  match fn with
  | .Function _ _ _ body _ => do
    let r ← extendFunctionEnv W ev fuel fn args
    match r with
    | .inr err => pure err
    | .inl extendedEnv => do
      let evaluated ← ev body extendedEnv
      pure (unwrapReturnValue evaluated)
  | .Builtin name =>
    match W.Fns name with
    | none => goPanic "nil pointer dereference"
    | some b => b.Fn self tok env args
  | _ => do
    let t ← Type_ fn
    newError tok ("bir fonksiyon değil: " ++ t)

/-- Go `applyMethod`. -/
def applyMethod (W : World) (ap : Applier) (tok : Token) (o : Object) (methodNode : Node)
    (optional : Bool) (env : Nat) (args : List Object) : EvalM Object := do
  let method ← nodeString W methodNode
  let viaHash : EvalM (Option Object) :=
    match o with
    | .Hash r => do
      let kt ← HashGetKeyType r method
      if kt = object.FUNCTION_OBJ then
        let pair ← HashGetPair r method
        match pair with
        | some p => pure (some p.Value)
        | none => pure none
      else pure none
    | _ => pure none
  let fnObj ← viaHash
  match fnObj with
  | some f => ap tok f env args
  | none =>
    match W.Fns method with
    | none =>
      if optional then pure NULL
      else do
        let t ← Type_ o
        newError tok (t ++ " için\x27" ++ method ++ "() metodu mevcut değil\x27")
    | some f => do
      let t ← Type_ o
      if !(Contains f.Types t) && f.Types.length ≠ 0 then
        newError tok ("\x27" ++ method ++ "()\x27 metodu, \x27" ++ t ++ "\x27 üzerinde çağrılamaz.")
      else f.Fn ap tok env (o :: args)

/-- Go `evalIndexExpression`. -/
def evalIndexExpression (W : World) (ev : Evaluator) (fuel : Nat) (tok : Token)
    (leftNode indexNode endNode : Node) (isRange : Bool) (env : Nat) : EvalM Object := do
  let left ← ev leftNode env
  if isError left then pure left
  else do
    let index ← ev indexNode env
    if isError index then pure index
    else do
      let end_ ← ev endNode env
      if isError end_ then pure end_
      else do
        let lt ← Type_ left
        let it ← Type_ index
        if lt = object.ARRAY_OBJ ∧ it = object.NUMBER_OBJ then
          evalArrayIndexExpression W fuel tok left index end_ isRange
        else if lt = object.HASH_OBJ ∧ it = object.STRING_OBJ then
          evalHashIndexExpression tok left index
        else if lt = object.STRING_OBJ ∧ it = object.NUMBER_OBJ then
          evalStringIndexExpression W fuel tok left index end_ isRange
        else newError tok "dizin operatörü bu tip için geçersiz"

/-- The loop of Go `evalHashLiteral` over the pairs of the literal (a Go map,
visited in the order of the list); `Sum.inr` is an early return. -/
def evalHashLiteralLoop (ev : Evaluator) (tok : Token) (env : Nat) :
    List (Node × Node) → PairMap → EvalM (PairMap ⊕ Object)
  | [], pairs => pure (.inl pairs)
  | (keyNode, valueNode) :: rest, pairs => do
    let key ← ev keyNode env
    if isError key then pure (.inr key)
    else
      match hashKeyOf key with
      | none => do
        let e ← newError tok "Harita anahtarları olarak; sayılar, değişkenler ve fonksiyonlar kullanılamaz."
        pure (.inr e)
      | some hashed => do
        let value ← ev valueNode env
        if isError value then pure (.inr value)
        else evalHashLiteralLoop ev tok env rest (mapSet pairs hashed { Key := key, Value := value })

/-- Go `evalHashLiteral`. -/
def evalHashLiteral (ev : Evaluator) (tok : Token) (pairs : List (Node × Node)) (env : Nat) :
    EvalM Object := do
  let r ← evalHashLiteralLoop ev tok env pairs []
  match r with
  | .inr o => pure o
  | .inl m => do
    let mr ← newMap m
    newHash mr

/-- The loop `for i := len(elems); i <= idx; i++ { elems = append(elems, NULL) }`
of Go `evalIndexAssignment`; the first argument bounds the number of tests of
the loop condition. -/
def growLoop (idx : Nat) : Nat → Nat → List Object → List Object
  | 0, _, elems => elems
  | k + 1, i, elems => if i ≤ idx then growLoop idx k (i + 1) (elems ++ [NULL]) else elems

/-- The elements of an array after the array branch of Go `evalIndexAssignment`
(`0 ≤ idx`): when `idx` is past the end the slice is first grown with `NULL`
by the loop, then `elems[idx] = expr`. -/
def assignElement (elems : List Object) (idx : Nat) (expr : Object) : List Object :=
  if idx ≥ elems.length then
    setAt (growLoop idx (idx + 2 - elems.length) elems.length elems) idx expr
  else setAt elems idx expr

/-- Go `evalIndexAssignment`; `iex` is the `*ast.IndexExpression` target.  The
index of an array is `index.(*object.Number).Int()`. -/
def evalIndexAssignment (ev : Evaluator) (iex : Node) (expr : Object) (env : Nat) : EvalM Object :=
  match iex with
  | .IndexExpression tok leftNode indexNode _ _ => do
    let leftObj ← ev leftNode env
    let index ← ev indexNode env
    let lt ← Type_ leftObj
    match leftObj with
    | .Array r =>
      if lt = object.ARRAY_OBJ then
        match index with
        | .Number idx0 => do
          let idx := intOfFloat idx0
          let arrayObject ← getArray r
          if idx < 0 then newError tok ("Verilen dizin aralık dışı: " ++ toString idx)
          else do
            putArray r { arrayObject with
              Elements := assignElement arrayObject.Elements idx.toNat expr }
            pure NULL
        | _ => goPanic "interface conversion: not *object.Number"
      else pure NULL
    | .Hash r =>
      if lt = object.HASH_OBJ then do
        let hashObject ← getHash r
        match hashKeyOf index with
        | none =>
          newError tok "harita anahtarları olarak: Sayılar, fonksiyonlar ve değişkenler kullanılamaz."
        | some hashed => do
          let m ← getMap hashObject.Pairs
          putMap hashObject.Pairs (mapSet m hashed { Key := index, Value := expr })
          pure NULL
      else pure NULL
    | _ => pure NULL
  | _ => goPanic "nil pointer dereference"

/-- Go `evalPropertyAssignment`; `pex` is the `*ast.PropertyExpression` target. -/
def evalPropertyAssignment (W : World) (ev : Evaluator) (pex : Node) (expr : Object) (env : Nat) :
    EvalM Object :=
  match pex with
  | .PropertyExpression tok objectNode property _ => do
    let leftObj ← ev objectNode env
    let lt ← Type_ leftObj
    match leftObj with
    | .Hash r =>
      if lt = object.HASH_OBJ then do
        let hashObject ← getHash r
        let name ← nodeString W property
        let prop := Object.String name none none
        let m ← getMap hashObject.Pairs
        putMap hashObject.Pairs (mapSet m (stringHashKey name) { Key := prop, Value := expr })
        pure NULL
      else newError tok "sadece haritaların anahtarlarına değer atamaları yapılabilir"
    | _ => newError tok "sadece haritaların anahtarlarına değer atamaları yapılabilir"
  | _ => goPanic "nil pointer dereference"

/-- The array case of the destructuring in Go `evalAssignment`. -/
def destructureArray (W : World) (env : Nat) (elements : List Object) :
    List Node → Nat → EvalM Unit
  | [], _ => pure ()
  | name :: rest, i => do
    let n ← nodeString W name
    match elements.get? i with
    | some v => EnvSet env n v
    | none => EnvSet env n NULL
    destructureArray W env elements rest (i + 1)

/-- The hash case of the destructuring in Go `evalAssignment`. -/
def destructureHash (W : World) (env : Nat) (r : Nat) : List Node → EvalM Unit
  | [] => pure ()
  | name :: rest => do
    let n ← nodeString W name
    let x ← HashGetPair r n
    match x with
    | some p => EnvSet env n p.Value
    | none => EnvSet env n NULL
    destructureHash W env r rest

/-- Go `evalAssignment`; the Go result `nil` is `Object.nil`. -/
def evalAssignment (W : World) (ev : Evaluator) (tok : Token) (name : Option (Token × String))
    (names : List Node) (indexTarget propertyTarget valueNode : Node) (env : Nat) :
    EvalM Object := do
  let val ← ev valueNode env
  if isError val then pure val
  else
    match name with
    | some (_, nameValue) => do
      EnvSet env nameValue val
      pure .nil
    | none =>
      if names.length > 0 then
        match val with
        | .Array r => do
          let v ← getArray r
          destructureArray W env v.Elements names 0
          pure .nil
        | .Hash r => do
          destructureHash W env r names
          pure .nil
        | _ =>
          newError tok "Listeli değişken tanımlaması için liste ya da tanımlayıcı beklendi, fakat başka bir şey bulundu"
      else
        match indexTarget with
        | .nil =>
          match propertyTarget with
          | .nil => pure .nil
          | _ => evalPropertyAssignment W ev propertyTarget val env
        | _ => evalIndexAssignment ev indexTarget val env

/-- Go `evalInfixExpression`. -/
def evalInfixExpression (W : World) (ev : Evaluator) (fuel : Nat) (tok : Token)
    (operator : String) (leftExpression rightExpression : Node) (env : Nat) : EvalM Object := do
  let left ← ev leftExpression env
  if isError left then pure left
  else if operator = "&&" then
    if !isTruthy left then pure left
    else ev rightExpression env
  else if operator = "||" then
    if isTruthy left then pure left
    else ev rightExpression env
  else do
    let right ← ev rightExpression env
    if isError right then pure right
    else do
      let lt ← Type_ left
      let rt ← Type_ right
      if lt = object.NUMBER_OBJ ∧ rt = object.NUMBER_OBJ then
        evalNumberInfixExpression W fuel tok operator left right
      else if lt = object.STRING_OBJ ∧ rt = object.STRING_OBJ then
        evalStringInfixExpression W fuel tok operator left right
      else if lt = object.ARRAY_OBJ ∧ rt = object.ARRAY_OBJ then
        evalArrayInfixExpression tok operator left right
      else if lt = object.HASH_OBJ ∧ rt = object.HASH_OBJ then
        evalHashInfixExpression tok operator left right
      else if operator = "in" then evalInExpression W fuel tok left right
      else if operator = "!in" then evalNotInExpression W fuel tok left right
      else if operator = "==" then pure (nativeBoolToBooleanObject (W.sameObject left right))
      else if operator = "!=" then pure (nativeBoolToBooleanObject (!(W.sameObject left right)))
      else if lt ≠ rt then
        newError tok ("Tip uyuşmazlığı " ++ lt ++ " " ++ operator ++ " " ++ rt)
      else newError tok (unknownOperator lt operator rt)

/-- The operator of a compound assignment without its last byte
(`op = op[:len(op)-1]` when `len(op) >= 2`). -/
def compoundOperator (op : String) : String :=
  let bytes := stringBytes op
  if bytes.length ≥ 2 then bytesToString bytes.dropLast else op

/-- Go `evalCompoundAssignment`. -/
def evalCompoundAssignment (W : World) (ev : Evaluator) (fuel : Nat) (tok : Token)
    (operator : String) (leftNode rightNode : Node) (env : Nat) : EvalM Object := do
  let left ← ev leftNode env
  if isError left then pure left
  else do
    let right ← ev rightNode env
    if isError right then pure right
    else do
      let op := compoundOperator operator
      let expr ← evalInfixExpression W ev fuel tok op leftNode rightNode env
      if isError expr then pure expr
      else
        match leftNode with
        | .Identifier _ _ => do
          let n ← nodeString W leftNode
          EnvSet env n expr
          pure NULL
        | .IndexExpression _ _ _ _ _ => evalIndexAssignment ev leftNode expr env
        | .PropertyExpression _ _ _ _ => evalPropertyAssignment W ev leftNode expr env
        | _ => do
          let n ← nodeString W leftNode
          EnvSet env n expr
          pure NULL

/-- Go `getDecoratedName`; the first argument bounds the nesting of decorators. -/
def getDecoratedName : Nat → Node → Outcome (String × Bool)
  | 0, _ => .outOfFuel
  | k + 1, decorated =>
    match decorated with
    | .FunctionLiteral _ name _ _ => .ok (name, true)
    | .Decorator _ _ d => getDecoratedName k d
    | _ => .ok ("", false)

/-- Go `doEvalDecorator` for the decorator node with token `tok`, expression
`expression` and decorated node `decorated`; the results are the name, the
decorated function and the error (`nil` when there is none). -/
def doEvalDecorator (W : World) (ev : Evaluator) (ap : Applier) (fuel : Nat) (env : Nat) :
    Nat → Token → Node → Node → EvalM (String × Object × Object)
  | 0, _, _, _ => outOfFuel
  | k + 1, tok, expression, decorated => do
    let evaluated ← ev expression env
    match evaluated with
    | .Error _ => pure ("", .nil, evaluated)
    | .Function _ _ _ _ _ => do
      let decorator := evaluated
      let (name, ok) ← getDecoratedName fuel decorated
      if !ok then
        let e ← newError tok "Dekaratör aranırken bir hata yaşandı. Dekore etmek istediğiniz fonksiyon bulunamadı"
        pure ("", .nil, e)
      else
        match decorated with
        | .FunctionLiteral dtok _ params body => do
          let fn := Object.Function dtok name params body env
          let r ← ap dtok decorator env [fn]
          pure (name, r, .nil)
        | .Decorator dtok dexpr ddecorated => do
          let (fnName, fn, err) ← doEvalDecorator W ev ap fuel env k dtok dexpr ddecorated
          if isError err then pure ("", .nil, err)
          else do
            let r ← ap tok decorator env [fn]
            pure (fnName, r, .nil)
        | _ => do
          let e ← newError tok "Bir dekaratör başka bir dekaratörü ya da bir fonksiyonu dekore etmelidir."
          pure ("", .nil, e)
    | _ => do
      let insp ← Inspect W fuel evaluated
      let e ← newError tok ("\x27" ++ insp ++ "\x27 bir dekaratör değil")
      pure ("", .nil, e)

/-- Go `evalDecorator`. -/
def evalDecorator (W : World) (ev : Evaluator) (ap : Applier) (fuel : Nat) (tok : Token)
    (expression decorated : Node) (env : Nat) : EvalM Object := do
  let (ident, fn, err) ← doEvalDecorator W ev ap fuel env fuel tok expression decorated
  if isError err then pure err
  else do
    EnvSet env ident fn
    pure NULL

/-- The body of Go `Eval`: the type switch on the node.  `ev` and `ap` are
`Eval` and `applyFunction` for the recursive calls. -/
def EvalStep (W : World) (ev : Evaluator) (ap : Applier) (fuel : Nat) (node : Node) (env : Nat) :
    EvalM Object :=
  match node with
  | .Program statements => evalProgram ev statements env
  | .BlockStatement _ statements => evalBlockStatement ev statements env
  | .ExpressionStatement _ expression => ev expression env
  | .ReturnStatement _ returnValue => do
    let val ← ev returnValue env
    if isError val then pure val
    else pure (.ReturnValue val)
  | .AssignStatement tok name names index property value => do
    let err ← evalAssignment W ev tok name names index property value env
    if isError err then pure err
    else pure NULL
  | .NumberLiteral _ value => pure (.Number value)
  | .NullLiteral _ => pure NULL
  | .CurrentArgsLiteral _ => do
    let e ← getEnv env
    newArray e.CurrentArgs true
  | .StringLiteral _ value => do
    let v ← InterpolateStringVars W fuel value env
    pure (.String v none none)
  | .Boolean _ value => pure (nativeBoolToBooleanObject value)
  | .PrefixExpression tok operator rightNode => do
    let right ← ev rightNode env
    if isError right then pure right
    else evalPrefixExpression W fuel tok operator right
  | .InfixExpression tok operator left right =>
    evalInfixExpression W ev fuel tok operator left right env
  | .CompoundAssignment tok operator left right =>
    evalCompoundAssignment W ev fuel tok operator left right env
  | .IfExpression _ scenarios => evalIfExpression ev env scenarios
  | .WhileExpression _ cond consequence => evalWhileExpression ev fuel cond consequence env
  | .ForExpression _ identifier starter cond closer block =>
    evalForExpression ev fuel identifier starter cond closer block env
  | .ForInExpression tok key value iterable block alternative =>
    evalForInExpression W ev fuel tok key value iterable block alternative env
  | .Identifier tok value => evalIdentifier W tok value env
  | .FunctionLiteral tok name params body => do
    let fn := Object.Function tok name params body env
    if name ≠ "" then EnvSet env name fn
    pure fn
  | .Decorator tok expression decorated => evalDecorator W ev ap fuel tok expression decorated env
  | .CallExpression tok functionNode arguments _ => do
    let function ← ev functionNode env
    if isError function then pure function
    else do
      let args ← evalExpressions ev env arguments []
      let args ←
        match args with
        | .Array r :: rest => do
          let firstArg ← getArray r
          if firstArg.IsCurrentArgs then
            let e ← getEnv env
            pure (e.CurrentArgs ++ rest)
          else pure args
        | _ => pure args
      match args with
      | [a] => if isError a then pure a else ap tok function env args
      | _ => ap tok function env args
  | .MethodExpression tok objectNode method arguments optional _ => do
    let o ← ev objectNode env
    if isError o then pure o
    else do
      let args ← evalExpressions ev env arguments []
      match args with
      | [a] => if isError a then pure a else applyMethod W ap tok o method optional env args
      | _ => applyMethod W ap tok o method optional env args
  | .PropertyExpression tok objectNode property optional =>
    evalPropertyExpression W ev tok objectNode property optional env
  | .ArrayLiteral _ elementNodes => do
    let elements ← evalExpressions ev env elementNodes []
    match elements with
    | [a] => if isError a then pure a else newArray elements false
    | _ => newArray elements false
  | .IndexExpression tok left index end_ isRange =>
    evalIndexExpression W ev fuel tok left index end_ isRange env
  | .HashLiteral tok pairs => evalHashLiteral ev tok pairs env
  | .CommandExpression tok value _ => evalCommandExpression W fuel tok value env
  | .BreakStatement tok => newBreakError tok "Döngü dışında \"dur\" çağrıldı"
  | .ContinueStatement tok => newContinueError tok "Döngü dışında \"devam\" çağrıldı"
  | .nil => pure NULL

/-- The two mutually recursive entry points of the evaluator. -/
inductive Task where
  | eval (node : Node) (env : Nat)
  | apply (tok : Token) (fn : Object) (env : Nat) (args : List Object)

/-- The recursion of `Eval` and `applyFunction`, bounded by the fuel: every
recursive call runs with one unit less. -/
def run (W : World) : Nat → Task → EvalM Object
  | 0, _ => outOfFuel
  | n + 1, .eval node env =>
    EvalStep W (fun nd e => run W n (.eval nd e)) (fun t f e a => run W n (.apply t f e a)) n node env
  | n + 1, .apply tok fn env args =>
    applyFunction W (fun nd e => run W n (.eval nd e)) (fun t f e a => run W n (.apply t f e a)) n
      tok fn env args

/-- Go `Eval(node, env)` with the given fuel. -/
def Eval (W : World) (fuel : Nat) (node : Node) (env : Nat) : EvalM Object :=
  run W fuel (.eval node env)

/-- Go `applyFunction(tok, fn, env, args)` with the given fuel. -/
def Apply (W : World) (fuel : Nat) (tok : Token) (fn : Object) (env : Nat) (args : List Object) :
    EvalM Object :=
  run W fuel (.apply tok fn env args)

/-- Go `BeginEval`: install the lexer in the global `lex`, then evaluate. -/
def BeginEval (W : World) (fuel : Nat) (program : Node) (env : Nat) (lexer : Lexer) :
    EvalM Object := do
  modify (fun s => { s with lex := lexer })
  Eval W fuel program env

/-! ## Concrete worlds, states and programs

The programs below are the syntax trees the parser builds for the quoted
sources; they are the inputs of the evaluations proved further down. -/

/-- A world without built-in functions and with inert collaborators. -/
def bareWorld : World where
  Fns := fun _ => none
  nodeString := fun _ => ""
  paramString := fun p => p.1
  sameObject := fun _ _ => false
  numDiv := fun a b => a / b
  numPow := fun a b => a ^ b.toNat
  numMod := fun a b => a.tmod b
  formatFloat := fun v => toString v
  toLower := fun s => s
  writeFile := fun _ _ => none
  appendFile := fun _ _ => none
  runCommand := fun _ _ _ => pure (.String "" none none)

/-- The empty heap. -/
def emptyState : State :=
  { envs := [], arrays := [], hashes := [], maps := [], lex := default, out := [] }

/-- The heap at the start of a run on the source `src`: the lexer of the
source and one top-level environment (pointer 0). -/
def startState (src : String) : Outcome State := do
  let l ← New src
  let (_, s) ← NewEnvironment "" "1.0" { emptyState with lex := l }
  pure s

/-- The value of a finished computation. -/
def valueOf {α : Type} (o : Outcome (α × State)) : Outcome α :=
  match o with
  | .ok (a, _) => .ok a
  | .panic m => .panic m
  | .outOfFuel => .outOfFuel

/-- The heap a finished computation leaves (the empty heap when it failed). -/
def stateOf {α : Type} (o : Outcome (α × State)) : State :=
  match o with
  | .ok (_, s) => s
  | _ => emptyState

/-- Run a computation on the start state of a source. -/
def runOn {α : Type} (src : String) (m : EvalM α) : Outcome (α × State) :=
  match startState src with
  | .ok s => m s
  | .panic msg => .panic msg
  | .outOfFuel => .outOfFuel

/-- The binding of `name` in the top-level environment after a run, if any. -/
def topBinding {α : Type} (o : Outcome (α × State)) (name : String) : Outcome (Option Object) :=
  valueOf (EnvGet 0 name (stateOf o))

/-- A token. -/
def tk (ty : String) (pos : Int) (lit : String) : Token :=
  { Type_ := ty, Position := pos, Literal := lit }

/-- The expression statement holding `e`, with the token `t` of its first token. -/
def exprStmt (t : Token) (e : Node) : Node := .ExpressionStatement t e

/-- The assignment `name = value`. -/
def assign (t : Token) (nameTok : Token) (name : String) (value : Node) : Node :=
  .AssignStatement t (some (nameTok, name)) [] .nil .nil value

/-- Source of `nestedReturnFn`. -/
def nestedReturnSrc : String := "f() \x7b dön eğer Doğru \x7b dön 1 \x7d \x7d"

/-- The function value of `f() { dön eğer Doğru { dön 1 } }`, closed over the
top-level environment: its body returns the value of an `if` whose block
returns 1. -/
def nestedReturnFn : Object :=
  .Function (tk token.FUNCTION 0 "f") "" []
    (.BlockStatement (tk token.LBRACE 4 "\x7b")
      [.ReturnStatement (tk token.RETURN 6 "dön")
        (.IfExpression (tk token.IF 10 "eğer")
          [(.Boolean (tk token.TRUE 15 "Doğru") true,
            .BlockStatement (tk token.LBRACE 21 "\x7b")
              [.ReturnStatement (tk token.RETURN 23 "dön")
                (.NumberLiteral (tk token.NUMBER 27 "1") 1)])])])
    0

/-- Source of `plainReturnFn`. -/
def plainReturnSrc : String := "f() \x7b dön 1 \x7d"

/-- The function value of `f() { dön 1 }`. -/
def plainReturnFn : Object :=
  .Function (tk token.FUNCTION 0 "f") "" []
    (.BlockStatement (tk token.LBRACE 4 "\x7b")
      [.ReturnStatement (tk token.RETURN 6 "dön") (.NumberLiteral (tk token.NUMBER 10 "1") 1)])
    0

/-- The deferred statement `bekle f h() { }()`: a deferred call of the function
literal named `h`; evaluating it binds `h` in the current environment. -/
def deferredCall (pos : Int) : Node :=
  exprStmt (tk token.DEFER pos "bekle")
    (.CallExpression (tk token.LPAREN (pos + 15) "(")
      (.FunctionLiteral (tk token.FUNCTION (pos + 6) "f") "h" []
        (.BlockStatement (tk token.LBRACE (pos + 12) "\x7b") []))
      [] true)

/-- Source of `returnThenDefer`. -/
def returnThenDeferSrc : String := "dön 1; bekle f h() \x7b \x7d()"

/-- The statements of `dön 1; bekle f h() { }()`. -/
def returnThenDefer : List Node :=
  [.ReturnStatement (tk token.RETURN 0 "dön") (.NumberLiteral (tk token.NUMBER 4 "1") 1),
   deferredCall 7]

/-- Source of `deferThenReturn`. -/
def deferThenReturnSrc : String := "bekle f h() \x7b \x7d(); dön 1"

/-- The statements of `bekle f h() { }(); dön 1`. -/
def deferThenReturn : List Node :=
  [deferredCall 0,
   .ReturnStatement (tk token.RETURN 19 "dön") (.NumberLiteral (tk token.NUMBER 23 "1") 1)]

/-- Source of `breakThenOne`. -/
def breakThenOneSrc : String := "dur; 1"

/-- The program `dur; 1`: a top-level break followed by the statement `1`. -/
def breakThenOne : Node :=
  .Program
    [exprStmt (tk token.BREAK 0 "dur") (.BreakStatement (tk token.BREAK 0 "dur")),
     exprStmt (tk token.NUMBER 5 "1") (.NumberLiteral (tk token.NUMBER 5 "1") 1)]

/-- Source of `continueThenOne`. -/
def continueThenOneSrc : String := "devam; 1"

/-- The program `devam; 1`. -/
def continueThenOne : Node :=
  .Program
    [exprStmt (tk token.CONTINUE 0 "devam") (.ContinueStatement (tk token.CONTINUE 0 "devam")),
     exprStmt (tk token.NUMBER 7 "1") (.NumberLiteral (tk token.NUMBER 7 "1") 1)]

/-- Source of `whileBreak`. -/
def whileBreakSrc : String := "iken Doğru \x7b dur \x7d"

/-- The expression `iken Doğru { dur }`. -/
def whileBreak : Node :=
  .WhileExpression (tk token.WHILE 0 "iken") (.Boolean (tk token.TRUE 5 "Doğru") true)
    (.BlockStatement (tk token.LBRACE 11 "\x7b")
      [exprStmt (tk token.BREAK 13 "dur") (.BreakStatement (tk token.BREAK 13 "dur"))])

/-- Source of `whileContinue`. -/
def whileContinueSrc : String := "iken Doğru \x7b devam \x7d"

/-- The expression `iken Doğru { devam }`. -/
def whileContinue : Node :=
  .WhileExpression (tk token.WHILE 0 "iken") (.Boolean (tk token.TRUE 5 "Doğru") true)
    (.BlockStatement (tk token.LBRACE 11 "\x7b")
      [exprStmt (tk token.CONTINUE 13 "devam")
        (.ContinueStatement (tk token.CONTINUE 13 "devam"))])

/-- Source of `whileReturn`. -/
def whileReturnSrc : String := "x = 0; iken x < 2 \x7b x = x + 1; dön x \x7d"

/-- The program `x = 0; iken x < 2 { x = x + 1; dön x }`: the body returns in
its first iteration. -/
def whileReturn : Node :=
  .Program
    [assign (tk token.ASSIGN 2 "=") (tk token.IDENT 0 "x") "x"
       (.NumberLiteral (tk token.NUMBER 4 "0") 0),
     exprStmt (tk token.WHILE 7 "iken")
       (.WhileExpression (tk token.WHILE 7 "iken")
         (.InfixExpression (tk token.LT 14 "<") "<" (.Identifier (tk token.IDENT 12 "x") "x")
           (.NumberLiteral (tk token.NUMBER 16 "2") 2))
         (.BlockStatement (tk token.LBRACE 18 "\x7b")
           [assign (tk token.ASSIGN 22 "=") (tk token.IDENT 20 "x") "x"
              (.InfixExpression (tk token.PLUS 26 "+") "+"
                (.Identifier (tk token.IDENT 24 "x") "x")
                (.NumberLiteral (tk token.NUMBER 28 "1") 1)),
            .ReturnStatement (tk token.RETURN 31 "dön")
              (.Identifier (tk token.IDENT 35 "x") "x")]))]

/-- Source of `whileLateError`. -/
def whileLateErrorSrc : String := "x = 0; iken Doğru \x7b eğer x \x7b y \x7d; x = 1 \x7d"

/-- The program `x = 0; iken Doğru { eğer x { y }; x = 1 }`: the body reads the
unbound name `y` in its second iteration. -/
def whileLateError : Node :=
  .Program
    [assign (tk token.ASSIGN 2 "=") (tk token.IDENT 0 "x") "x"
       (.NumberLiteral (tk token.NUMBER 4 "0") 0),
     exprStmt (tk token.WHILE 7 "iken")
       (.WhileExpression (tk token.WHILE 7 "iken") (.Boolean (tk token.TRUE 12 "Doğru") true)
         (.BlockStatement (tk token.LBRACE 18 "\x7b")
           [exprStmt (tk token.IF 20 "eğer")
              (.IfExpression (tk token.IF 20 "eğer")
                [(.Identifier (tk token.IDENT 25 "x") "x",
                  .BlockStatement (tk token.LBRACE 27 "\x7b")
                    [exprStmt (tk token.IDENT 29 "y") (.Identifier (tk token.IDENT 29 "y") "y")])]),
            assign (tk token.ASSIGN 36 "=") (tk token.IDENT 34 "x") "x"
              (.NumberLiteral (tk token.NUMBER 38 "1") 1)]))]

/-- The heap at the start of a run on `src` (the empty heap when the lexer
cannot be built). -/
def startOf (src : String) : State :=
  match startState src with
  | .ok s => s
  | _ => emptyState

/-! ## The spec's descriptions, as definitions to compare the code with -/

/-- Whether the loop of `evalProgram` ends on the value of a statement, and the
result of the program in that case. -/
def programStop : Object → Option Object
  | .ReturnValue v => some v
  | .Error m => some (.Error m)
  | _ => none

/-- Whether the loop of `evalBlockStatement` ends on the value of a statement,
and the result of the block in that case. -/
def blockStop : Object → Option Object
  | .ReturnValue v => some (.ReturnValue v)
  | .Error m => some (.Error m)
  | .BreakError m => some (.BreakError m)
  | .ContinueError m => some (.ContinueError m)
  | _ => none

/-- The first phase of a scope in the words of the spec: the non-deferred
statements are evaluated in source order until one of them ends the scope
(`stop`); deferred statements are passed over.  The result is the value of the
scope and the number of statements of the list that were reached. -/
def runNonDeferred (ev : Evaluator) (env : Nat) (stop : Object → Option Object) :
    List Node → Object → EvalM (Object × Nat)
  | [], result => pure (result, 0)
  | statement :: rest, result =>
    if isDeferredStatement statement then do
      let (r, k) ← runNonDeferred ev env stop rest result
      pure (r, k + 1)
    else do
      let v ← ev statement env
      match stop v with
      | some r => pure (r, 1)
      | none => do
        let (r, k) ← runNonDeferred ev env stop rest v
        pure (r, k + 1)

/-- The scope in the words of the spec: first the non-deferred statements,
then, in source order and once each, the deferred statements among those that
were reached. -/
def scopeBySpec (ev : Evaluator) (stop : Object → Option Object) (statements : List Node)
    (env : Nat) : EvalM Object := do
  let (r, k) ← runNonDeferred ev env stop statements .nil
  evalDeferred ev env ((statements.take k).filter isDeferredStatement)
  pure r

/-- A for-in loop over an empty iterable in the words of the spec: only the
else-block executes (once); then the iterable is reset and the key and value
identifiers get back the bindings they had. -/
def forInElseOnly (ev : Evaluator) (reset : EvalM Unit) (key value : String) (alternative : Node)
    (env : Nat) : EvalM Object := do
  let existingKeyIdentifier ← EnvGet env key
  let existingValueIdentifier ← EnvGet env value
  let res ← ev alternative env
  reset
  restoreIdentifier env key existingKeyIdentifier
  restoreIdentifier env value existingValueIdentifier
  pure res

/-- The map read of `evalHashIndexExpression`: the value the hash at `r` holds
under the string key `k`, if `k` is one of its keys. -/
def hashLookup (s : State) (r : Nat) (k : String) : Option Object :=
  match s.hashes.get? r with
  | none => none
  | some h =>
    match s.maps.get? h.Pairs with
    | none => none
    | some m => (mapGet m (stringHashKey k)).map (fun p => p.Value)

/-- The invariant of the Go maps the evaluator builds: every pair is stored
under the hash key of its key object, and no key occurs twice. -/
def WellKeyed (m : PairMap) : Prop :=
  (∀ e ∈ m, hashKeyOf e.2.Key = some e.1) ∧ (m.map Prod.fst).Nodup

/-- The text of a string object: the inspect string of a hash key. -/
def keyText : Object → String
  | .String v _ _ => v
  | _ => ""

/-- Source of `andUnbound`. -/
def andUnboundSrc : String := "x && 1"

/-- The expression `x && 1` (the name `x` is unbound). -/
def andUnbound : Node :=
  .InfixExpression (tk token.AND 2 "&&") "&&" (.Identifier (tk token.IDENT 0 "x") "x")
    (.NumberLiteral (tk token.NUMBER 5 "1") 1)

/-- Source of `falseAndUnbound`. -/
def falseAndUnboundSrc : String := "Yanlış && undefined_name"

/-- The expression `Yanlış && undefined_name`. -/
def falseAndUnbound : Node :=
  .InfixExpression (tk token.AND 7 "&&") "&&" (.Boolean (tk token.FALSE 0 "Yanlış") false)
    (.Identifier (tk token.IDENT 10 "undefined_name") "undefined_name")

/-- Source of `trueOrUnbound`. -/
def trueOrUnboundSrc : String := "Doğru || undefined_name"

/-- The expression `Doğru || undefined_name`. -/
def trueOrUnbound : Node :=
  .InfixExpression (tk token.OR 6 "||") "||" (.Boolean (tk token.TRUE 0 "Doğru") true)
    (.Identifier (tk token.IDENT 9 "undefined_name") "undefined_name")

/-- Source of `nestedForIn`. -/
def nestedForInSrc : String :=
  "a = [1]; döngü x in a \x7b dön döngü y in a \x7b \x7d yoksa \x7b 7 \x7d \x7d"

/-- The program `a = [1]; döngü x in a { dön döngü y in a { } yoksa { 7 } }`:
the body of the outer loop returns the value of an inner loop over the same,
non-empty array; the else-block of the inner loop is `{ 7 }`. -/
def nestedForIn : Node :=
  .Program
    [assign (tk token.ASSIGN 2 "=") (tk token.IDENT 0 "a") "a"
       (.ArrayLiteral (tk token.LBRACKET 4 "[") [.NumberLiteral (tk token.NUMBER 5 "1") 1]),
     exprStmt (tk token.FOR 9 "döngü")
       (.ForInExpression (tk token.FOR 9 "döngü") "" "x" (.Identifier (tk token.IDENT 20 "a") "a")
         (.BlockStatement (tk token.LBRACE 22 "\x7b")
           [.ReturnStatement (tk token.RETURN 24 "dön")
             (.ForInExpression (tk token.FOR 28 "döngü") "" "y"
               (.Identifier (tk token.IDENT 39 "a") "a")
               (.BlockStatement (tk token.LBRACE 41 "\x7b") [])
               (.BlockStatement (tk token.LBRACE 51 "\x7b")
                 [exprStmt (tk token.NUMBER 53 "7") (.NumberLiteral (tk token.NUMBER 53 "7") 7)]))])
         .nil)]

/-- The block `{ 7 }`, used as an else-block. -/
def sevenBlock : Node :=
  .BlockStatement (tk token.LBRACE 0 "\x7b")
    [exprStmt (tk token.NUMBER 2 "7") (.NumberLiteral (tk token.NUMBER 2 "7") 7)]

/-- The block `{ 8 }`, used as a loop body. -/
def eightBlock : Node :=
  .BlockStatement (tk token.LBRACE 0 "\x7b")
    [exprStmt (tk token.NUMBER 2 "8") (.NumberLiteral (tk token.NUMBER 2 "8") 8)]

/-- The array literal `[]`. -/
def emptyArrayLit : Node := .ArrayLiteral (tk token.LBRACKET 0 "[") []

/-- The array literal `[1]`. -/
def oneArrayLit : Node :=
  .ArrayLiteral (tk token.LBRACKET 0 "[") [.NumberLiteral (tk token.NUMBER 1 "1") 1]

/-- The hash literal `{}`. -/
def emptyHashLit : Node := .HashLiteral (tk token.LBRACE 0 "\x7b") []

/-- The hash literal `{"k": 1}`. -/
def oneHashLit : Node :=
  .HashLiteral (tk token.LBRACE 0 "\x7b")
    [(.StringLiteral (tk token.STRING 1 "k") "k", .NumberLiteral (tk token.NUMBER 6 "1") 1)]

/-- A pair of a hash map under the string key `k`. -/
def pairOf (k : String) (v : Object) : HashKey × HashPair :=
  (stringHashKey k, { Key := .String k none none, Value := v })

/-- A heap with the two hashes `{"a": 1, "c": 5}` (pointer 0) and
`{"b": 3, "a": 2}` (pointer 1). -/
def twoHashes : State :=
  { emptyState with
    hashes := [{ Pairs := 0, Position := 0 }, { Pairs := 1, Position := 0 }]
    maps := [[pairOf "a" (.Number 1), pairOf "c" (.Number 5)],
             [pairOf "b" (.Number 3), pairOf "a" (.Number 2)]] }

/-! ## Comparing the results of closed runs -/

/-- A test that two objects are the same value.  It never equates two function
values (their bodies are syntax trees, which it does not compare). -/
def sameValue : Object → Object → Bool
  | .nil, .nil => true
  | .Null, .Null => true
  | .Boolean a, .Boolean b => a == b
  | .Number a, .Number b => a == b
  | .String a o d, .String b o2 d2 => a == b && o == o2 && d == d2
  | .Array a, .Array b => a == b
  | .Hash a, .Hash b => a == b
  | .Builtin a, .Builtin b => a == b
  | .ReturnValue a, .ReturnValue b => sameValue a b
  | .Error a, .Error b => a == b
  | .BreakError a, .BreakError b => a == b
  | .ContinueError a, .ContinueError b => a == b
  | _, _ => false

/-- The pointwise `sameValue` on two lists of objects. -/
def sameValues : List Object → List Object → Bool
  | [], [] => true
  | a :: as, b :: bs => sameValue a b && sameValues as bs
  | _, _ => false

/-- The computation `o` finished with the value `v`. -/
def yields (o : Outcome Object) (v : Object) : Bool :=
  match o with
  | .ok a => sameValue a v
  | _ => false

/-- The computation `o` finished with the optional value `v`. -/
def yieldsOption (o : Outcome (Option Object)) (v : Option Object) : Bool :=
  match o, v with
  | .ok (some a), some b => sameValue a b
  | .ok none, none => true
  | _, _ => false

/-- The heap `s` holds the array struct `a` at the pointer `r`. -/
def holdsArray (s : State) (r : Nat) (a : ArrayObj) : Bool :=
  match s.arrays.get? r with
  | some b =>
    sameValues b.Elements a.Elements && b.IsCurrentArgs == a.IsCurrentArgs
      && b.position == a.position
  | none => false

/-- The pointwise comparison of two Go maps given as association lists. -/
def samePairs : PairMap → PairMap → Bool
  | [], [] => true
  | (k, p) :: as, (k2, p2) :: bs =>
    k == k2 && sameValue p.Key p2.Key && sameValue p.Value p2.Value && samePairs as bs
  | _, _ => false

/-- The heap `s` holds the Go map `m` at the pointer `r`. -/
def holdsMap (s : State) (r : Nat) (m : PairMap) : Bool :=
  match s.maps.get? r with
  | some b => samePairs b m
  | none => false

/-- The heap `s` holds the hash struct `h` at the pointer `r`. -/
def holdsHash (s : State) (r : Nat) (h : HashObj) : Bool :=
  match s.hashes.get? r with
  | some b => b.Pairs == h.Pairs && b.Position == h.Position
  | none => false

/-! ## Inputs and descriptions for the operations on functions, loops and containers -/

/-- The first phase of the parameter binding in the words of the spec: each
parameter that has an argument is bound to it (`pi` to `ai` for every
`i ≤ min(n, m)`). -/
def bindArguments (env : Nat) : List ((String × Node) × Object) → EvalM Unit
  | [] => pure ()
  | ((p, _), a) :: rest => do
    EnvSet env p a
    bindArguments env rest

/-- The second phase of the parameter binding in the words of the spec: each
parameter without an argument is bound to the value of its default expression,
evaluated in the call environment, where the earlier parameters are bound. -/
def bindDefaults (ev : Evaluator) (env : Nat) : List (String × Node) → EvalM Unit
  | [] => pure ()
  | (p, d) :: rest => do
    let v ← ev d env
    EnvSet env p v
    bindDefaults ev env rest

/-- The binding of parameters to arguments in the words of the spec: first the
arguments, then the defaults of the parameters that are left. -/
def bindBySpec (ev : Evaluator) (args : List Object) (env : Nat)
    (params : List (String × Node)) : EvalM Unit := do
  bindArguments env (params.zip args)
  bindDefaults ev env (params.drop args.length)

/-- Source of `defaultParamFn`. -/
def defaultParamSrc : String := "f(x, y = x + 1) \x7b dön x + y \x7d"

/-- The parameter `y = x + 1` of `defaultParamFn`. -/
def defaultParamY : String × Node :=
  ("y", .InfixExpression (tk token.PLUS 11 "+") "+" (.Identifier (tk token.IDENT 9 "x") "x")
    (.NumberLiteral (tk token.NUMBER 13 "1") 1))

/-- The body `{ dön x + y }` of `defaultParamFn`. -/
def defaultParamBody : Node :=
  .BlockStatement (tk token.LBRACE 16 "\x7b")
    [.ReturnStatement (tk token.RETURN 18 "dön")
      (.InfixExpression (tk token.PLUS 24 "+") "+" (.Identifier (tk token.IDENT 22 "x") "x")
        (.Identifier (tk token.IDENT 26 "y") "y"))]

/-- The function value of `f(x, y = x + 1) { dön x + y }`, closed over the
top-level environment: the default of `y` reads the parameter `x`. -/
def defaultParamFn : Object :=
  .Function (tk token.FUNCTION 0 "f") "" [("x", .nil), defaultParamY] defaultParamBody 0

/-- The binding of `name` in the store of the environment at `r` itself, not in
an enclosing one (Go `e.store[name]`). -/
def ownBinding (s : State) (r : Nat) (name : String) : Option Object :=
  match s.envs.get? r with
  | some e => mapGet e.store name
  | none => none

/-- The lookup of `name` in the environments that enclose the one at `r`: the
call `e.outer.Get(name)` that Go `(*Environment).Get` makes when the store of
`e` has no such name (not found when there is no enclosing environment). -/
def outerGet (r : Nat) (name : String) : EvalM (Option Object) := fun s =>
  match s.envs.get? r with
  | none => .panic "invalid environment pointer"
  | some e =>
    match e.outer with
    | none => .ok (none, s)
    | some o =>
      match envGetAux s.envs s.envs.length o name with
      | .ok v => .ok (v, s)
      | .panic m => .panic m
      | .outOfFuel => .outOfFuel

/-- The values of a block that end a C-style for loop: a break, an error and
a return value (a continue does not). -/
def endsLoop : Object → Bool
  | .BreakError _ => true
  | .Error _ => true
  | .ReturnValue _ => true
  | _ => false

/-- A counted loop in the words of the spec: for each value `v` of the list, in
order, the identifier is bound to `v` and the block is evaluated once. -/
def runBlockFor (ev : Evaluator) (block : Node) (env : Nat) (identifier : String) :
    List Int → EvalM Unit
  | [] => pure ()
  | v :: vs => do
    EnvSet env identifier (.Number v)
    let _ ← ev block env
    runBlockFor ev block env identifier vs

/-- The loop `i = a; i < b; i = i + 1` in the words of the spec: the block is
evaluated once for each of the values `a, a + 1, ..., b - 1`, in this order and
with the identifier bound to the value; the identifier is left at `b` and the
loop yields `NULL`. -/
def countedLoopBySpec (ev : Evaluator) (block : Node) (env : Nat) (identifier : String)
    (a b : Int) : EvalM Object := do
  runBlockFor ev block env identifier ((List.range (b - a).toNat).map (fun j : Nat => a + j))
  EnvSet env identifier (.Number b)
  pure NULL

/-- The starter `i = a` of a counted loop. -/
def countStarter (t nameTok litTok : Token) (identifier : String) (a : Int) : Node :=
  assign t nameTok identifier (.NumberLiteral litTok a)

/-- The condition `i < b` of a counted loop. -/
def countCondition (t identTok litTok : Token) (identifier : String) (b : Int) : Node :=
  .InfixExpression t "<" (.Identifier identTok identifier) (.NumberLiteral litTok b)

/-- The closer `i = i + 1` of a counted loop. -/
def countCloser (t nameTok plusTok identTok litTok : Token) (identifier : String) : Node :=
  assign t nameTok identifier
    (.InfixExpression plusTok "+" (.Identifier identTok identifier) (.NumberLiteral litTok 1))

/-- `true` for a `BreakError`. -/
def isBreak : Object → Bool
  | .BreakError _ => true
  | _ => false

/-- Source of `forReturningCondition`. -/
def forReturningConditionSrc : String :=
  "döngü i = 0; eğer Doğru \x7b dön 5 \x7d; i = i + 1 \x7b dur \x7d"

/-- The condition `eğer Doğru { dön 5 }` of `forReturningCondition`: an `if`
whose block returns. -/
def returningCondition : Node :=
  .IfExpression (tk token.IF 13 "eğer")
    [(.Boolean (tk token.TRUE 18 "Doğru") true,
      .BlockStatement (tk token.LBRACE 24 "\x7b")
        [.ReturnStatement (tk token.RETURN 26 "dön")
          (.NumberLiteral (tk token.NUMBER 30 "5") 5)])]

/-- The loop `döngü i = 0; eğer Doğru { dön 5 }; i = i + 1 { dur }`: its
condition yields a `ReturnValue`, its block breaks. -/
def forReturningCondition : Node :=
  .ForExpression (tk token.FOR 0 "döngü") "i"
    (countStarter (tk token.ASSIGN 8 "=") (tk token.IDENT 6 "i") (tk token.NUMBER 10 "0") "i" 0)
    returningCondition
    (countCloser (tk token.ASSIGN 37 "=") (tk token.IDENT 35 "i") (tk token.PLUS 41 "+")
      (tk token.IDENT 39 "i") (tk token.NUMBER 43 "1") "i")
    (.BlockStatement (tk token.LBRACE 45 "\x7b")
      [exprStmt (tk token.BREAK 47 "dur") (.BreakStatement (tk token.BREAK 47 "dur"))])

/-- Source of `countToThree`. -/
def countToThreeSrc : String := "döngü i = 0; i < 3; i = i + 1 \x7b 8 \x7d"

/-- The starter `i = 0` of `döngü i = 0; i < 3; i = i + 1 { 8 }`. -/
def countToThreeStarter : Node :=
  countStarter (tk token.ASSIGN 8 "=") (tk token.IDENT 6 "i") (tk token.NUMBER 10 "0") "i" 0

/-- The condition `i < 3` of `döngü i = 0; i < 3; i = i + 1 { 8 }`. -/
def countToThreeCondition : Node :=
  countCondition (tk token.LT 15 "<") (tk token.IDENT 13 "i") (tk token.NUMBER 17 "3") "i" 3

/-- The closer `i = i + 1` of `döngü i = 0; i < 3; i = i + 1 { 8 }`. -/
def countToThreeCloser : Node :=
  countCloser (tk token.ASSIGN 22 "=") (tk token.IDENT 20 "i") (tk token.PLUS 26 "+")
    (tk token.IDENT 24 "i") (tk token.NUMBER 28 "1") "i"

/-- The message of the error of a hash literal with a key that is not hashable. -/
def badLiteralKeyMessage : String :=
  "Harita anahtarları olarak; sayılar, değişkenler ve fonksiyonlar kullanılamaz."

/-- The message of the error of a hash index assignment with a key that is not
hashable. -/
def badAssignedKeyMessage : String :=
  "harita anahtarları olarak: Sayılar, fonksiyonlar ve değişkenler kullanılamaz."

/-- Source of `numberKeyHashLit`. -/
def numberKeyHashSrc : String := "\x7b1: 2\x7d"

/-- The hash literal `{1: 2}`, whose key is a number. -/
def numberKeyHashLit : Node :=
  .HashLiteral (tk token.LBRACE 0 "\x7b")
    [(.NumberLiteral (tk token.NUMBER 1 "1") 1, .NumberLiteral (tk token.NUMBER 4 "2") 2)]

/-- Source of `booleanKeyHashLit`. -/
def booleanKeyHashSrc : String := "\x7bDoğru: 2\x7d"

/-- The hash literal `{Doğru: 2}`, whose key is a boolean. -/
def booleanKeyHashLit : Node :=
  .HashLiteral (tk token.LBRACE 0 "\x7b")
    [(.Boolean (tk token.TRUE 1 "Doğru") true, .NumberLiteral (tk token.NUMBER 8 "2") 2)]

/-- A heap with the top-level environment and the empty hash `{}` (pointer 0). -/
def oneEmptyHash : State :=
  { startOf "" with hashes := [{ Pairs := 0, Position := 0 }], maps := [[]] }

/-- Source of the program that leaves the heap `hashBound`. -/
def hashBoundSrc : String := "h = \x7b\x7d"

/-- The heap after the program `h = {}`: the top-level environment binds `h` to
the empty hash at pointer 0. -/
def hashBound : State :=
  stateOf (Eval bareWorld 20
    (.Program [assign (tk token.ASSIGN 2 "=") (tk token.IDENT 0 "h") "h"
      (.HashLiteral (tk token.LBRACE 4 "\x7b") [])]) 0 (startOf hashBoundSrc))

/-- The index expression `h[1]`, the target of the assignment `h[1] = 2`. -/
def numberIndexTarget : Node :=
  .IndexExpression (tk token.LBRACKET 1 "[") (.Identifier (tk token.IDENT 0 "h") "h")
    (.NumberLiteral (tk token.NUMBER 2 "1") 1) .nil false

/-- The index expression `h["k"]`, the target of the assignment `h["k"] = 2`. -/
def stringIndexTarget : Node :=
  .IndexExpression (tk token.LBRACKET 1 "[") (.Identifier (tk token.IDENT 0 "h") "h")
    (.StringLiteral (tk token.STRING 2 "k") "k") .nil false

/-- The slice `a[i:j]` in the words of the spec: the elements of `a` at the
positions `s .. e - 1`, where `s = max(i, 0)` and `e = min(j, n)` when
`j ≥ 0`, `e = max(n + j, 0)` when `j < 0` and `e = n` when `j` is omitted
(`none`); the empty list when `s > e`. -/
def sliceBySpec (elems : List Object) (i : Int) (j : Option Int) : List Object :=
  let n : Int := elems.length
  let s : Int := max i 0
  let e : Int :=
    match j with
    | none => n
    | some j => if j ≥ 0 then min j n else max (n + j) 0
  if s > e then []
  else (List.range (e - s).toNat).map (fun k => elems.getD (s.toNat + k) NULL)

/-- Source of the program that leaves the heap `threeBound`. -/
def threeBoundSrc : String := "a = [10, 20, 30]"

/-- The heap after the program `a = [10, 20, 30]`: the top-level environment
binds `a` to the array at pointer 0. -/
def threeBound : State :=
  stateOf (Eval bareWorld 20
    (.Program [assign (tk token.ASSIGN 2 "=") (tk token.IDENT 0 "a") "a"
      (.ArrayLiteral (tk token.LBRACKET 4 "[")
        [.NumberLiteral (tk token.NUMBER 5 "10") 10, .NumberLiteral (tk token.NUMBER 9 "20") 20,
         .NumberLiteral (tk token.NUMBER 13 "30") 30])]) 0 (startOf threeBoundSrc))

/-- The identifier `a` at the start of a source. -/
def identA : Node := .Identifier (tk token.IDENT 0 "a") "a"

/-- The number literal `v` written at position 2, as in `a[v]`. -/
def numAt2 (lit : String) (v : Int) : Node := .NumberLiteral (tk token.NUMBER 2 lit) v

/-- The expression `-1` written at position 2, as in `a[-1]`. -/
def minusOneAt2 : Node :=
  .PrefixExpression (tk token.MINUS 2 "-") "-" (.NumberLiteral (tk token.NUMBER 3 "1") 1)

/-- The array struct of `[10, 20, 30]` with its cursor at the start. -/
def threeNumbers : ArrayObj :=
  { Elements := [.Number 10, .Number 20, .Number 30], IsCurrentArgs := false, position := 0 }

/-- Source of `gBreveFirstByte`. -/
def gBreveSrc : String := "\"ğ\"[0]"

/-- The expression `"ğ"[0]`: the first position of a string of one character,
which UTF-8 encodes in two bytes. -/
def gBreveFirstByte : Node :=
  .IndexExpression (tk token.LBRACKET 3 "[") (.StringLiteral (tk token.STRING 0 "ğ") "ğ")
    (.NumberLiteral (tk token.NUMBER 4 "0") 0) .nil false

/-- Source of `gBreveSlice`. -/
def gBreveSliceSrc : String := "\"ğ\"[0:1]"

/-- The expression `"ğ"[0:1]`: the slice over the one character of the string. -/
def gBreveSlice : Node :=
  .IndexExpression (tk token.LBRACKET 3 "[") (.StringLiteral (tk token.STRING 0 "ğ") "ğ")
    (.NumberLiteral (tk token.NUMBER 4 "0") 0) (.NumberLiteral (tk token.NUMBER 6 "1") 1) true

/-- Source of the expressions over the string literal `"abc"`. -/
def abcSrc : String := "\"abc\"[1]"

/-- The string literal `"abc"` at the start of a source. -/
def abcLit : Node := .StringLiteral (tk token.STRING 0 "abc") "abc"

/-- The names `n1, ..., nk` of a destructuring assignment as the identifier
nodes the parser makes of them. -/
def identifierNodes (ns : List (Token × String)) : List Node :=
  ns.map (fun p => Node.Identifier p.1 p.2)

/-- The message of the error of a destructuring assignment from a value that is
neither an array nor a hash. -/
def badDestructuringMessage : String :=
  "Listeli değişken tanımlaması için liste ya da tanımlayıcı beklendi, fakat başka bir şey bulundu"

/-- The names `p, q, w, z` of the destructuring assignments `p, q, w, z = ...`. -/
def namesPQWZ : List (Token × String) :=
  [(tk token.IDENT 0 "p", "p"), (tk token.IDENT 3 "q", "q"), (tk token.IDENT 6 "w", "w"),
   (tk token.IDENT 9 "z", "z")]

/-- The destructuring assignment `p, q, w, z = value`. -/
def destructurePQWZ (value : Node) : Node :=
  .AssignStatement (tk token.ASSIGN 11 "=") none (identifierNodes namesPQWZ) .nil .nil value

/-! ## Chains of environments -/

/-- A chain of nested environments, innermost first: every frame of the list
has the next one as its `outer`, and the last frame has none. -/
def isChain (envs : List Environment) : List Nat → Bool
  | [] => false
  | [r] =>
    match envs.get? r with
    | some e => e.outer.isNone
    | none => false
  | r :: o :: rest =>
    match envs.get? r with
    | some e => decide (e.outer = some o) && isChain envs (o :: rest)
    | none => false

/-- The binding of `name` in the innermost frame of the list that binds it. -/
def innermostBinding (s : State) (frames : List Nat) (name : String) : Option Object :=
  frames.findSome? (fun f => ownBinding s f name)

/-- A frame of the given store and `outer` pointer. -/
def frameOf (store : List (String × Object)) (outer : Option Nat) : Environment :=
  { store := store, CurrentArgs := [], outer := outer, Dir := "", Version := "1.0" }

/-- Three nested environments: the frame 2 (binding `x` and `z`) inside the
frame 1 (binding `x` and `y`) inside the top-level frame 0 (binding `y`). -/
def threeFrames : State :=
  { emptyState with envs :=
      [frameOf [("y", .Number 1)] none,
       frameOf [("x", .Number 2), ("y", .Number 3)] (some 0),
       frameOf [("x", .Number 4), ("z", .Number 5)] (some 1)] }

/-! ## The operator in -/

/-- The needles `evalInExpression` looks for in an array: strings and numbers. -/
def isStringOrNumber : Object → Bool
  | .String _ _ _ => true
  | .Number _ => true
  | _ => false

/-- Values that are neither strings, numbers, arrays nor errors: nulls,
booleans, hashes and functions. -/
def isOtherNeedle : Object → Bool
  | .Null => true
  | .Boolean _ => true
  | .Hash _ => true
  | .Function _ _ _ _ _ => true
  | .Builtin _ => true
  | _ => false

/-- Source of `trueInTrues`. -/
def trueInTruesSrc : String := "Doğru in [Doğru]"

/-- The expression `Doğru in [Doğru]`. -/
def trueInTrues : Node :=
  .InfixExpression (tk token.IN 6 "in") "in" (.Boolean (tk token.TRUE 0 "Doğru") true)
    (.ArrayLiteral (tk token.LBRACKET 9 "[") [.Boolean (tk token.TRUE 10 "Doğru") true])

/-! ## String interpolation piece by piece -/

/-- The parts a string is made of for `InterpolateStringVars`: a character that
belongs to no reference, a reference `$name`, a reference `${name}`, the text
`${name` without its closing brace, and a reference after a backslash
(`\$name`, `\${name}`, `\${name` or `\$name}`). -/
inductive Piece where
  | plain (c : Char)
  | name (n : List Char)
  | braced (n : List Char)
  | unclosed (n : List Char)
  | escaped (opening closing : Bool) (n : List Char)
deriving Repr, DecidableEq

/-- The opening brace, when there is one. -/
def openBrace (b : Bool) : List Char := if b then [Char.ofNat 123] else []

/-- The closing brace, when there is one. -/
def closeBrace (b : Bool) : List Char := if b then [Char.ofNat 125] else []

/-- The text of a piece. -/
def renderPiece : Piece → List Char
  | .plain c => [c]
  | .name n => '$' :: n
  | .braced n => '$' :: Char.ofNat 123 :: n ++ [Char.ofNat 125]
  | .unclosed n => '$' :: Char.ofNat 123 :: n
  | .escaped o c n => esc :: '$' :: openBrace o ++ n ++ closeBrace c

/-- The text of a list of pieces. -/
def renderPieces : List Piece → List Char
  | [] => []
  | p :: ps => renderPiece p ++ renderPieces ps

/-- A name is a run of one or more characters of `[a-zA-Z_0-9]`. -/
def isName (n : List Char) : Bool := !n.isEmpty && n.all isVarChar

/-- The text starts with a character of `[a-zA-Z_0-9]`. -/
def startsName : List Char → Bool
  | c :: _ => isVarChar c
  | [] => false

/-- The text starts with a closing brace. -/
def startsClose : List Char → Bool
  | c :: _ => c = Char.ofNat 125
  | [] => false

/-- The text starts with a name or with an opening brace and a name: after a
dollar sign this is a reference. -/
def startsReference : List Char → Bool
  | c :: cs => isVarChar c || (c = Char.ofNat 123 && startsName cs)
  | [] => false

/-- The text starts with a dollar sign that begins a reference. -/
def startsDollarReference : List Char → Bool
  | c :: cs => c = '$' && startsReference cs
  | [] => false

/-- The pieces are the parts `InterpolateStringVars` sees in their text: names
are names and are maximal runs, a plain dollar sign begins no reference, a
plain backslash stands before no reference, and a `$name` that a closing brace
follows directly is not among the pieces. -/
def wellFormed : List Piece → Bool
  | [] => true
  | .plain c :: ps =>
    (c != '$' || !startsReference (renderPieces ps)) &&
      (c != esc || !startsDollarReference (renderPieces ps)) && wellFormed ps
  | .name n :: ps =>
    isName n && !startsName (renderPieces ps) && !startsClose (renderPieces ps) && wellFormed ps
  | .braced n :: ps => isName n && wellFormed ps
  | .unclosed n :: ps =>
    isName n && !startsName (renderPieces ps) && !startsClose (renderPieces ps) && wellFormed ps
  | .escaped _ c n :: ps =>
    isName n && (c || (!startsName (renderPieces ps) && !startsClose (renderPieces ps))) &&
      wellFormed ps

/-- The inspect text of the value bound to the name, or the empty text when
the name is unbound. -/
def valueText (W : World) (fuel : Nat) (env : Nat) (n : List Char) : EvalM (List Char) := do
  let v ← EnvGet env (String.mk n)
  match v with
  | none => pure []
  | some o => do
    let str ← Inspect W fuel o
    pure str.data

/-- String interpolation in the words of the spec, piece by piece: a reference
is replaced by the text of its value, a reference after a backslash loses the
backslash, everything else stays. -/
def substituteBySpec (W : World) (fuel : Nat) (env : Nat) : List Piece → EvalM (List Char)
  | [] => pure []
  | .plain c :: ps => do
    let r ← substituteBySpec W fuel env ps
    pure (c :: r)
  | .name n :: ps => do
    let t ← valueText W fuel env n
    let r ← substituteBySpec W fuel env ps
    pure (t ++ r)
  | .braced n :: ps => do
    let t ← valueText W fuel env n
    let r ← substituteBySpec W fuel env ps
    pure (t ++ r)
  | .unclosed n :: ps => do
    let r ← substituteBySpec W fuel env ps
    pure ('$' :: Char.ofNat 123 :: n ++ r)
  | .escaped o c n :: ps => do
    let r ← substituteBySpec W fuel env ps
    pure ('$' :: openBrace o ++ n ++ closeBrace c ++ r)

/-- A heap whose only environment binds `x` to 1 and `ab_1` to the string
`hi`. -/
def xBound : State :=
  { emptyState with envs :=
      [frameOf [("x", .Number 1), ("ab_1", .String "hi" none none)] none] }

/-- The text `\$x`. -/
def escapedX : String := String.mk [esc, '$', 'x']

/-- The pieces of the text `a$x ${ab_1}\$x$ ${q`. -/
def samplePieces : List Piece :=
  [.plain 'a', .name ['x'], .plain ' ', .braced ['a', 'b', '_', '1'],
   .escaped false false ['x'], .plain '$', .plain ' ', .unclosed ['q']]

/-! ## Decorators -/

/-- Values of Go type `*object.Function`. -/
def isFunction : Object → Bool
  | .Function _ _ _ _ _ => true
  | _ => false

/-- The message of `doEvalDecorator` for a decorator expression whose value,
of the given inspect text, is no function. -/
def notADecoratorMessage (insp : String) : String :=
  "\x27" ++ insp ++ "\x27 bir dekaratör değil"

/-- Source of the program that leaves the heap `decoratorBound`. -/
def decoratorBoundSrc : String := "f d(fn) \x7b dön 7 \x7d; @d f g() \x7b 1 \x7d"

/-- The function value of `f d(fn) { dön 7 }`. -/
def sevenDecorator : Object :=
  .Function (tk token.FUNCTION 0 "f") "d" [("fn", .nil)]
    (.BlockStatement (tk token.LBRACE 8 "\x7b")
      [.ReturnStatement (tk token.RETURN 10 "dön") (.NumberLiteral (tk token.NUMBER 14 "7") 7)])
    0

/-- The heap after the statement `f d(fn) { dön 7 }` of `decoratorBoundSrc`:
the top-level environment binds `d` to the function. -/
def decoratorBound : State :=
  stateOf (Eval bareWorld 20
    (.Program [exprStmt (tk token.FUNCTION 0 "f")
      (.FunctionLiteral (tk token.FUNCTION 0 "f") "d" [("fn", .nil)]
        (.BlockStatement (tk token.LBRACE 8 "\x7b")
          [.ReturnStatement (tk token.RETURN 10 "dön")
            (.NumberLiteral (tk token.NUMBER 14 "7") 7)]))]) 0 (startOf decoratorBoundSrc))

/-- The function value of the literal `f g() { 1 }` of `decoratorBoundSrc`. -/
def decoratedG : Object :=
  .Function (tk token.FUNCTION 22 "f") "g" []
    (.BlockStatement (tk token.LBRACE 28 "\x7b")
      [exprStmt (tk token.NUMBER 30 "1") (.NumberLiteral (tk token.NUMBER 30 "1") 1)]) 0

/-- The statement `@d f g() { 1 }` of `decoratorBoundSrc`. -/
def decoratedStatement : Node :=
  .Decorator (tk token.AT 19 "@") (.Identifier (tk token.IDENT 20 "d") "d")
    (.FunctionLiteral (tk token.FUNCTION 22 "f") "g" []
      (.BlockStatement (tk token.LBRACE 28 "\x7b")
        [exprStmt (tk token.NUMBER 30 "1") (.NumberLiteral (tk token.NUMBER 30 "1") 1)]))

/-- The error a decorator yields when its expression evaluated to `d`, which is
no function: `d` itself when it is an error, else the error that names the
inspect text of `d`. -/
def decoratorError (W : World) (fuel : Nat) (tok : Token) (d : Object) : EvalM Object :=
  match d with
  | .Error _ => pure d
  | _ => do
    let insp ← Inspect W fuel d
    newError tok (notADecoratorMessage insp)

/-! ## Blocks that stop -/

/-- The statements of the list run through from the heap `s` to the heap `s1`:
each non-deferred one is evaluated in turn and produces neither a `ReturnValue`
nor an `Error`; the deferred ones are passed over. -/
def runsThrough (ev : Evaluator) (env : Nat) : List Node → State → State → Prop
  | [], s, s1 => s = s1
  | st :: rest, s, s1 =>
    (isDeferredStatement st = true ∧ runsThrough ev env rest s s1) ∨
    (isDeferredStatement st = false ∧
      ∃ v s2, ev st env s = .ok (v, s2) ∧ blockStop v = none ∧ runsThrough ev env rest s2 s1)

/-- Source of a function whose body is the block `{ 1; dön 2; y }`. -/
def oneReturnTwoThenYSrc : String := "f() \x7b 1; dön 2; y \x7d"

/-- The statement `1` of the block `{ 1; dön 2; y }`. -/
def stmtOne : Node := exprStmt (tk token.NUMBER 6 "1") (.NumberLiteral (tk token.NUMBER 6 "1") 1)

/-- The statement `dön 2` of the block `{ 1; dön 2; y }`. -/
def stmtReturnTwo : Node :=
  .ReturnStatement (tk token.RETURN 9 "dön") (.NumberLiteral (tk token.NUMBER 13 "2") 2)

/-- The statement `y` of the block `{ 1; dön 2; y }`; `y` is unbound. -/
def stmtY : Node := exprStmt (tk token.IDENT 16 "y") (.Identifier (tk token.IDENT 16 "y") "y")

/-! ## Built-in functions on arrays -/

/-- The loop of Go `validateArgs` over the type lists; `i` is the index of the
argument under test.  The result is `some err` for the first argument whose
type is not allowed. -/
def validateArgsLoop (W : World) (fuel : Nat) (tok : Token) (name : String) (args : List Object) :
    List (List String) → Nat → EvalM (Option Object)
  | [], _ => pure none
  | t :: rest, i =>
    match args.get? i with
    | none => goPanic "index out of range"
    | some a => do
      let ty ← Type_ a
      if !Contains t ty && !Contains t object.ANY_OBJ then
        let insp ← Inspect W fuel a
        let e ← newError tok (toString i ++ " argümanı " ++ name ++
          "(...) için destekli değildir (bulunan: " ++ insp ++ ", desteklenen: " ++
          joinStrings ", " t ++ ")")
        pure (some e)
      else validateArgsLoop W fuel tok name args rest (i + 1)

/-- Go `validateArgs`; `none` is the Go result `nil`. -/
def validateArgs (W : World) (fuel : Nat) (tok : Token) (name : String) (args : List Object)
    (size : Nat) (types : List (List String)) : EvalM (Option Object) :=
  if args.length = 0 ∨ args.length > size ∨ args.length < size then do
    let e ← newError tok (name ++ "(...) için yanlış sayıda argüman: bulunan=" ++
      toString args.length ++ ", istenilen=" ++ toString size)
    pure (some e)
  else validateArgsLoop W fuel tok name args types 0

/-- The first loop of Go `validateVarArgs`: the least and the greatest number
of arguments of the specs (`required` starts at -1, `max` at 0). -/
def specBounds : List (List (List String)) → Int → Int → Int × Int
  | [], required, max => (required, max)
  | spec :: rest, required, max =>
    let required := if required = -1 ∨ (spec.length : Int) < required then (spec.length : Int)
                    else required
    let max := if (spec.length : Int) > max then (spec.length : Int) else max
    specBounds rest required max

/-- The inner loop of Go `validateVarArgs`: every argument has a type of the
spec at its position. -/
def specMatches (args : List Object) : List (List String) → Nat → Outcome Bool
  | [], _ => .ok true
  | types :: rest, i =>
    match args.get? i with
    | none => specMatches args rest (i + 1)
    | some a => do
      let ty ← Type_ a
      if !Contains types ty then pure false else specMatches args rest (i + 1)

/-- The second loop of Go `validateVarArgs`: the index of the first spec the
arguments match. -/
def findSpec (args : List Object) : List (List (List String)) → Nat → Outcome (Option Nat)
  | [], _ => .ok none
  | spec :: rest, which =>
    if args.length ≠ spec.length then findSpec args rest (which + 1)
    else do
      let m ← specMatches args spec 0
      if m then pure (some which) else findSpec args rest (which + 1)

/-- Go `usageVarArgs`. -/
def usageVarArgs (name : String) (specs : List (List (List String))) : String :=
  joinStrings "\n"
    ((name ++ "\x27için yanlış sayıda argüman verildi, kullanımı:") ::
      specs.map (fun spec =>
        name ++ "(" ++ joinStrings ", " (spec.map (fun types => joinStrings " | " types)) ++ ")"))

/-- Go `validateVarArgs`: `Sum.inr which` is the Go result `(nil, which)`,
`Sum.inl err` the result `(err, -1)`. -/
def validateVarArgs (tok : Token) (name : String) (args : List Object)
    (specs : List (List (List String))) : EvalM (Object ⊕ Nat) := do
  let (required, max) := specBounds specs (-1) 0
  if (args.length : Int) < required ∨ (args.length : Int) > max then
    let e ← newError tok (name ++ "(...) için yanlış argüman sayısı: bulunan=" ++
      toString args.length ++ ", minimum=" ++ toString required ++ ", maksimum=" ++ toString max)
    pure (.inl e)
  else do
    let which ← findSpec args specs 0
    match which with
    | some w => pure (.inr w)
    | none => do
      let e ← newError tok (usageVarArgs name specs)
      pure (.inl e)

/-- Go `object.GenerateEqualityString`: the type, a colon and the inspect
text. -/
def GenerateEqualityString (W : World) (fuel : Nat) (o : Object) : EvalM String := do
  let t ← Type_ o
  let i ← Inspect W fuel o
  pure (t ++ ":" ++ i)

/-- Go `object.Equal`. -/
def Equal (W : World) (fuel : Nat) (obj1 obj2 : Object) : EvalM Bool := do
  let a ← GenerateEqualityString W fuel obj1
  let b ← GenerateEqualityString W fuel obj2
  pure (a = b)

/-- The loop of Go `reduceFn`. -/
def reduceLoop (ap : Applier) (tok : Token) (fn : Object) (env : Nat) :
    List Object → Object → EvalM Object
  | [], accumulator => pure accumulator
  | v :: rest, accumulator =>
    match fn with
    | .Function _ _ _ _ _ => do
      let accumulator ← ap tok fn env [accumulator, v]
      reduceLoop ap tok fn env rest accumulator
    | _ => goPanic "interface conversion: not *object.Function"

/-- Go `reduceFn`.  Here and in the built-ins below the loop runs over the
elements the array has when the loop starts. -/
def reduceFn (W : World) (fuel : Nat) (ap : Applier) (tok : Token) (env : Nat)
    (args : List Object) : EvalM Object := do
  let err ← validateArgs W fuel tok "reduce" args 3
    [[object.ARRAY_OBJ], [object.FUNCTION_OBJ], [object.ANY_OBJ]]
  match err with
  | some e => pure e
  | none =>
    match args with
    | [.Array r, fn, accumulator] => do
      let arr ← getArray r
      reduceLoop ap tok fn env arr.Elements accumulator
    | _ => goPanic "interface conversion: not *object.Array"

/-- The loop of Go `mapFn`: `k` is the index of the element, `newElements` the
copy of the elements that the results overwrite.  `Sum.inl` is the value the
loop body returns. -/
def mapLoop (ap : Applier) (tok : Token) (fn : Object) (env : Nat) :
    List Object → Nat → List Object → EvalM (Object ⊕ List Object)
  | [], _, newElements => pure (.inr newElements)
  | v :: rest, k, newElements => do
    let evaluated ← ap tok fn env [v]
    if isError evaluated then pure (.inl evaluated)
    else mapLoop ap tok fn env rest (k + 1) (setAt newElements k evaluated)

/-- Go `mapFn`. -/
def mapFn (W : World) (fuel : Nat) (ap : Applier) (tok : Token) (env : Nat)
    (args : List Object) : EvalM Object := do
  let err ← validateArgs W fuel tok "map" args 2
    [[object.ARRAY_OBJ], [object.FUNCTION_OBJ, object.BUILTIN_OBJ]]
  match err with
  | some e => pure e
  | none =>
    match args with
    | [.Array r, fn] => do
      let arr ← getArray r
      let res ← mapLoop ap tok fn env arr.Elements 0 arr.Elements
      match res with
      | .inl e => pure e
      | .inr newElements => newArray newElements false
    | _ => goPanic "interface conversion: not *object.Array"

/-- The loop of Go `someFn`. -/
def someLoop (ap : Applier) (tok : Token) (fn : Object) (env : Nat) : List Object → EvalM Bool
  | [] => pure false
  | v :: rest => do
    let r ← ap tok fn env [v]
    if isTruthy r then pure true else someLoop ap tok fn env rest

/-- Go `someFn`. -/
def someFn (W : World) (fuel : Nat) (ap : Applier) (tok : Token) (env : Nat)
    (args : List Object) : EvalM Object := do
  let err ← validateArgs W fuel tok "some" args 2
    [[object.ARRAY_OBJ], [object.FUNCTION_OBJ, object.BUILTIN_OBJ]]
  match err with
  | some e => pure e
  | none =>
    match args with
    | [.Array r, fn] => do
      let arr ← getArray r
      let result ← someLoop ap tok fn env arr.Elements
      pure (.Boolean result)
    | _ => goPanic "interface conversion: not *object.Array"

/-- The loop of Go `everyFn`, with its loop variable `result`. -/
def everyLoop (ap : Applier) (tok : Token) (fn : Object) (env : Nat) :
    List Object → Bool → EvalM Bool
  | [], result => pure result
  | v :: rest, result => do
    let r ← ap tok fn env [v]
    everyLoop ap tok fn env rest (if !isTruthy r then false else result)

/-- Go `everyFn`. -/
def everyFn (W : World) (fuel : Nat) (ap : Applier) (tok : Token) (env : Nat)
    (args : List Object) : EvalM Object := do
  let err ← validateArgs W fuel tok "every" args 2
    [[object.ARRAY_OBJ], [object.FUNCTION_OBJ, object.BUILTIN_OBJ]]
  match err with
  | some e => pure e
  | none =>
    match args with
    | [.Array r, fn] => do
      let arr ← getArray r
      let result ← everyLoop ap tok fn env arr.Elements true
      pure (.Boolean result)
    | _ => goPanic "interface conversion: not *object.Array"

/-- The inner loop of the hash case of Go `findFn` over the pairs of the
predicate, with its loop variable `match`; `vr` points to the element. -/
def findPairsLoop (W : World) (fuel : Nat) (vr : Nat) : PairMap → Bool → EvalM Bool
  | [], m => pure m
  | (k, pair) :: rest, m => do
    let toCompare ← HashGetPair vr k.Value
    match toCompare with
    | none => findPairsLoop W fuel vr rest false
    | some tc => do
      let eq ← Equal W fuel pair.Value tc.Value
      findPairsLoop W fuel vr rest (if !eq then false else m)

/-- The outer loop of the hash case of Go `findFn`: the first hash among the
elements that has every pair of the predicate. -/
def findByHashLoop (W : World) (fuel : Nat) (pairs : PairMap) : List Object → EvalM Object
  | [] => pure NULL
  | v :: rest =>
    match v with
    | .Hash vr => do
      let m ← findPairsLoop W fuel vr pairs true
      if m then pure v else findByHashLoop W fuel pairs rest
    | _ => findByHashLoop W fuel pairs rest

/-- The loop of the default case of Go `findFn`. -/
def findLoop (ap : Applier) (tok : Token) (predicate : Object) (env : Nat) :
    List Object → EvalM Object
  | [] => pure NULL
  | v :: rest => do
    let r ← ap tok predicate env [v]
    if isTruthy r then pure v else findLoop ap tok predicate env rest

/-- Go `findFn`. -/
def findFn (W : World) (fuel : Nat) (ap : Applier) (tok : Token) (env : Nat)
    (args : List Object) : EvalM Object := do
  let err ← validateArgs W fuel tok "find" args 2
    [[object.ARRAY_OBJ], [object.FUNCTION_OBJ, object.BUILTIN_OBJ, object.HASH_OBJ]]
  match err with
  | some e => pure e
  | none =>
    match args with
    | [.Array r, predicate] => do
      let arr ← getArray r
      match predicate with
      | .Hash pr => do
        let h ← getHash pr
        let pairs ← getMap h.Pairs
        findByHashLoop W fuel pairs arr.Elements
      | _ => findLoop ap tok predicate env arr.Elements
    | _ => goPanic "interface conversion: not *object.Array"

/-- The loop of Go `filterFn`; `Sum.inl` is the value the loop body returns. -/
def filterLoop (ap : Applier) (tok : Token) (fn : Object) (env : Nat) :
    List Object → List Object → EvalM (Object ⊕ List Object)
  | [], result => pure (.inr result)
  | v :: rest, result => do
    let evaluated ← ap tok fn env [v]
    if isError evaluated then pure (.inl evaluated)
    else filterLoop ap tok fn env rest (if isTruthy evaluated then result ++ [v] else result)

/-- Go `filterFn`. -/
def filterFn (W : World) (fuel : Nat) (ap : Applier) (tok : Token) (env : Nat)
    (args : List Object) : EvalM Object := do
  let err ← validateArgs W fuel tok "filter" args 2
    [[object.ARRAY_OBJ], [object.FUNCTION_OBJ, object.BUILTIN_OBJ]]
  match err with
  | some e => pure e
  | none =>
    match args with
    | [.Array r, fn] => do
      let arr ← getArray r
      let res ← filterLoop ap tok fn env arr.Elements []
      match res with
      | .inl e => pure e
      | .inr result => newArray result false
    | _ => goPanic "interface conversion: not *object.Array"

/-- The loop of Go `uniqueFn`, with its variables `existingElements` (a Go
`map[string]bool`) and `result`. -/
def uniqueLoop (W : World) (fuel : Nat) :
    List Object → List (String × Bool) → List Object → EvalM (List Object)
  | [], _, result => pure result
  | v :: rest, existingElements, result => do
    let key ← GenerateEqualityString W fuel v
    match mapGet existingElements key with
    | none => uniqueLoop W fuel rest (mapSet existingElements key true) (result ++ [v])
    | some _ => uniqueLoop W fuel rest existingElements result

/-- Go `uniqueFn`. -/
def uniqueFn (W : World) (fuel : Nat) (_ap : Applier) (tok : Token) (_env : Nat)
    (args : List Object) : EvalM Object := do
  let err ← validateArgs W fuel tok "unique" args 1 [[object.ARRAY_OBJ]]
  match err with
  | some e => pure e
  | none =>
    match args with
    | [.Array r] => do
      let arr ← getArray r
      let result ← uniqueLoop W fuel arr.Elements [] []
      newArray result false
    | _ => goPanic "interface conversion: not *object.Array"

/-- The exchange `s[i], s[j] = s[j], s[i]` on a Go slice. -/
def swapAt {α : Type} (l : List α) (i j : Nat) : List α :=
  match l.get? i, l.get? j with
  | some a, some b => setAt (setAt l i b) j a
  | _, _ => l

/-- The loop `for i, j := 0, len(s)-1; i < j; i, j = i+1, j-1` of Go
`reverseFn`, which exchanges `s[i]` and `s[j]`; the first argument bounds the
number of turns (the length of the slice suffices). -/
def reverseLoop {α : Type} : Nat → Int → Int → List α → List α
  | 0, _, _, l => l
  | k + 1, i, j, l =>
    if i < j then reverseLoop k (i + 1) (j - 1) (swapAt l i.toNat j.toNat) else l

/-- Go `reverseFn`. -/
def reverseFn (_W : World) (_fuel : Nat) (_ap : Applier) (tok : Token) (_env : Nat)
    (args : List Object) : EvalM Object := do
  let r ← validateVarArgs tok "reverse" args [[[object.ARRAY_OBJ]], [[object.STRING_OBJ]]]
  match r with
  | .inl err => pure err
  | .inr spec =>
    if spec = 0 then
      match args with
      | .Array r :: _ => do
        let arr ← getArray r
        let elements := arr.Elements
        newArray (reverseLoop elements.length 0 ((elements.length : Int) - 1) elements) false
      | _ => goPanic "interface conversion: not *object.Array"
    else
      match args with
      | .String v _ _ :: _ =>
        let str := v.data
        pure (.String (String.mk (reverseLoop str.length 0 ((str.length : Int) - 1) str))
          none none)
      | _ => goPanic "interface conversion: not *object.String"

/-- The entries of Go `getFns()` for the built-ins embedded above, under their
names in the registry; `W` and `depth` serve their `Inspect` calls. -/
def arrayFns (W : World) (depth : Nat) (name : String) : Option Builtin :=
  if name = "azalt" then
    some { Fn := reduceFn W depth, Next := none, Types := [object.ARRAY_OBJ] }
  else if name = "haritala" then
    some { Fn := mapFn W depth, Next := none, Types := [object.ARRAY_OBJ] }
  else if name = "bazısında" then
    some { Fn := someFn W depth, Next := none, Types := [object.ARRAY_OBJ] }
  else if name = "hepsinde" then
    some { Fn := everyFn W depth, Next := none, Types := [object.ARRAY_OBJ] }
  else if name = "bul" then
    some { Fn := findFn W depth, Next := none, Types := [object.ARRAY_OBJ] }
  else if name = "filtre" then
    some { Fn := filterFn W depth, Next := none, Types := [object.ARRAY_OBJ] }
  else if name = "eşsiz" then
    some { Fn := uniqueFn W depth, Next := none, Types := [object.ARRAY_OBJ] }
  else if name = "tersine" then
    some { Fn := reverseFn W depth, Next := none,
           Types := [object.ARRAY_OBJ, object.STRING_OBJ] }
  else none

/-- The bare world with the built-ins `arrayFns`. -/
def arrayWorld : World := { bareWorld with Fns := arrayFns bareWorld 20 }

/-! ## Calls with a failing callback -/

/-- The computation finished with an error value. -/
def yieldsError (o : Outcome Object) : Bool :=
  match o with
  | .ok v => isError v
  | _ => false

/-- The function literal `f(x) { y }` written at position `p`: its body reads
the unbound name `y`, so every call of it produces an error. -/
def failingCallback (p : Int) : Node :=
  .FunctionLiteral (tk token.FUNCTION p "f") "" [("x", .nil)]
    (.BlockStatement (tk token.LBRACE (p + 5) "\x7b")
      [exprStmt (tk token.IDENT (p + 7) "y") (.Identifier (tk token.IDENT (p + 7) "y") "y")])

/-- Source of `callWithFailingCallback name`. -/
def callWithFailingCallbackSrc (name : String) : String := name ++ "([1], f(x) \x7b y \x7d)"

/-- The call `name([1], f(x) { y })` of a built-in. -/
def callWithFailingCallback (name : String) : Node :=
  let p : Int := name.length
  .CallExpression (tk token.LPAREN p "(") (.Identifier (tk token.IDENT 0 name) name)
    [.ArrayLiteral (tk token.LBRACKET (p + 1) "[") [.NumberLiteral (tk token.NUMBER (p + 2) "1") 1],
     failingCallback (p + 6)] false

/-- Source of `reduceWithFailingCallback`. -/
def reduceWithFailingCallbackSrc : String :=
  "azalt([1, 2], f(a, x) \x7b eğer x == 1 \x7b y \x7d; 7 \x7d, 0)"

/-- The callback `f(a, x) { eğer x == 1 { y }; 7 }`: an error for `x = 1`
(the name `y` is unbound), 7 otherwise. -/
def failingOnOne : Node :=
  .FunctionLiteral (tk token.FUNCTION 14 "f") "" [("a", .nil), ("x", .nil)]
    (.BlockStatement (tk token.LBRACE 22 "\x7b")
      [exprStmt (tk token.IF 24 "eğer")
        (.IfExpression (tk token.IF 24 "eğer")
          [(.InfixExpression (tk token.EQ 31 "==") "==" (.Identifier (tk token.IDENT 29 "x") "x")
              (.NumberLiteral (tk token.NUMBER 34 "1") 1),
            .BlockStatement (tk token.LBRACE 36 "\x7b")
              [exprStmt (tk token.IDENT 38 "y") (.Identifier (tk token.IDENT 38 "y") "y")])]),
       exprStmt (tk token.NUMBER 43 "7") (.NumberLiteral (tk token.NUMBER 43 "7") 7)])

/-- The call `azalt([1, 2], f(a, x) { eğer x == 1 { y }; 7 }, 0)`. -/
def reduceWithFailingCallback : Node :=
  .CallExpression (tk token.LPAREN 5 "(") (.Identifier (tk token.IDENT 0 "azalt") "azalt")
    [.ArrayLiteral (tk token.LBRACKET 6 "[")
      [.NumberLiteral (tk token.NUMBER 7 "1") 1, .NumberLiteral (tk token.NUMBER 10 "2") 2],
     failingOnOne, .NumberLiteral (tk token.NUMBER 48 "0") 0] false

/-- The function value of `failingCallback p`, closed over the top-level
environment. -/
def failingCallbackFn (p : Int) : Object :=
  .Function (tk token.FUNCTION p "f") "" [("x", .nil)]
    (.BlockStatement (tk token.LBRACE (p + 5) "\x7b")
      [exprStmt (tk token.IDENT (p + 7) "y") (.Identifier (tk token.IDENT (p + 7) "y") "y")]) 0

/-! ## First occurrences -/

/-- The key under which `uniqueFn` files an element that has a type and can be
inspected: the type, a colon and the inspect text (the empty text for any other
element). -/
def keyIn (W : World) (s : State) (fuel : Nat) (v : Object) : String :=
  match Type_ v, inspectAux W s fuel false v with
  | .ok t, .ok i => t ++ ":" ++ i
  | _, _ => ""

/-- The first occurrences in the words of the spec: the elements of the list,
in their order, that no earlier element of the list equals under the key. -/
def firstOccurrences (key : Object → String) (l : List Object) : List Object :=
  (List.range l.length).filterMap (fun i =>
    match l.get? i with
    | some v => if (l.take i).any (fun w => decide (key w = key v)) then none else some v
    | none => none)

/-- A heap holding the array `[1, "1", 1, 2, "1"]` at pointer 0. -/
def mixedOnes : State :=
  { emptyState with arrays :=
      [{ Elements := [.Number 1, .String "1" none none, .Number 1, .Number 2,
                      .String "1" none none],
         IsCurrentArgs := false, position := 0 }] }

/-! ## Lines of a source -/

/-- The newline character. -/
def newline : Char := Char.ofNat 10

/-- The number of newline characters before the position `pos` of a source. -/
def newlinesBefore (src : List Char) (pos : Nat) : Nat :=
  ((src.take pos).filter (fun c => c = newline)).length

/-- The offset of the first character of the line the position `pos` lies in:
`pos` less the characters between the last newline before `pos` (or the start
of the source) and `pos`. -/
def lineStart (src : List Char) (pos : Nat) : Nat :=
  pos - ((src.take pos).reverse.takeWhile (fun c => c ≠ newline)).length

/-- The text of the line the position `pos` lies in, without its terminating
newline. -/
def lineText (src : List Char) (pos : Nat) : List Char :=
  (src.drop (lineStart src pos)).takeWhile (fun c => c ≠ newline)

/-- A source of three lines, the second one empty. -/
def threeLines : String := "ab\n\ncde"

/-! ## For-in loops: cursor and bindings -/

/-- The iterables a for-in loop resets: arrays and hashes. -/
def isArrayOrHash : Object → Bool
  | .Array _ => true
  | .Hash _ => true
  | _ => false

/-- Go `i.Next` of the interface `object.Iterable`: the method of the array or
of the hash behind the interface. -/
def IterableNext (W : World) (fuel : Nat) : Object → EvalM (Object × Object)
  | .Array r => ArrayNext r
  | .Hash r => HashNext W fuel r
  | _ => goPanic "not an object.Iterable"

/-- The cursor of an iterable of the heap: the field `position` of an array,
the field `Position` of a hash. -/
def cursor (s : State) : Object → Option Int
  | .Array r => (s.arrays.get? r).map (fun a => a.position)
  | .Hash r => (s.hashes.get? r).map (fun h => h.Position)
  | _ => none

/-- The store of an environment after the deferred function of a loop has put
back what a name was bound to before the loop. -/
def restoredStore (store : List (String × Object)) (name : String)
    (existing : Option Object) : List (String × Object) :=
  match existing with
  | some v => mapSet store name v
  | none => mapDelete store name

/-- Source of the run `failingForIn`. -/
def failingForInSrc : String := "a = [10, 20, 30]; döngü k, v in a \x7b y \x7d"

/-- The heap after the first statement of `failingForInSrc`: the top-level
environment binds `a` to the array at pointer 0. -/
def beforeFailingForIn : State :=
  stateOf (Eval bareWorld 20
    (.Program [assign (tk token.ASSIGN 2 "=") (tk token.IDENT 0 "a") "a"
      (.ArrayLiteral (tk token.LBRACKET 4 "[")
        [.NumberLiteral (tk token.NUMBER 5 "10") 10, .NumberLiteral (tk token.NUMBER 9 "20") 20,
         .NumberLiteral (tk token.NUMBER 13 "30") 30])]) 0 (startOf failingForInSrc))

/-- The block `{ y }` of `failingForInSrc`. -/
def failingBlock : Node :=
  .BlockStatement (tk token.LBRACE 34 "\x7b")
    [exprStmt (tk token.IDENT 36 "y") (.Identifier (tk token.IDENT 36 "y") "y")]

/-- The identifier `a` the loop of `failingForInSrc` iterates over. -/
def loopedA : Node := .Identifier (tk token.IDENT 32 "a") "a"

/-- The error of the unbound `y` in `failingForInSrc`. -/
def unboundYError : Object :=
  .Error ("Bulunamadı: y\x1b[97m\n1:37> " ++ failingForInSrc)

/-- The run of the loop `döngü k, v in a { y }` of `failingForInSrc`: the body
fails in the first iteration. -/
def failingForIn : Outcome (Object × State) :=
  evalForInExpression bareWorld (Eval bareWorld 8) 10 (tk token.FOR 18 "döngü") "k" "v" loopedA
    failingBlock .nil 0 beforeFailingForIn

/-! ## Tokens of a source -/

/-- The tokens of a source, each with its position: type, position and literal
of every token up to the first EOF token. -/
def tokensOf (src : String) : Outcome (List (String × Int × String)) := do
  let l ← New src
  let (toks, _) ← tokenStream asciiTables (src.length + 2) (src.length + 2) l
  pure (toks.map (fun t => (t.Type_, t.Position, t.Literal)))

/-- The first token of a source. -/
def firstToken (src : String) : Outcome Token := do
  let l ← New src
  let (tok, _) ← NextToken asciiTables (src.length + 2) l
  pure tok

/-! ## Enclosed environments -/

/-- The calls `env.Set(name, v)` on the top-level environment, then
`NewEnclosedEnvironment(env, [])`, then `Get(name)` on the new environment and
on the top-level one: the two lookups. -/
def lookupsAfterEnclosing (name : String) (v : Object) :
    EvalM (Option Object × Option Object) := do
  EnvSet 0 name v
  let r ← NewEnclosedEnvironment 0 []
  let inner ← EnvGet r name
  let outer ← EnvGet 0 name
  pure (inner, outer)

/-! ## The operator !in -/

/-- Source of `oneNotInNull`. -/
def oneNotInNullSrc : String := "1 !in null"

/-- The expression `1 !in null`. -/
def oneNotInNull : Node :=
  .InfixExpression (tk token.NOT_IN 2 "!in") "!in" (.NumberLiteral (tk token.NUMBER 0 "1") 1)
    (.NullLiteral (tk token.NULL 6 "null"))

/-- The right operands `evalInExpression` handles: arrays, strings and hashes. -/
def inIsDefined : Object → Bool
  | .Array _ => true
  | .String _ _ _ => true
  | .Hash _ => true
  | _ => false

/-- The message of a computation that panicked. -/
def panicOf {α : Type} (o : Outcome α) : Option String :=
  match o with
  | .panic m => some m
  | _ => none

/-! ## Numbers at the limits of float64 and int64 -/

/-- The range `a..b` in the words of the claim: `a, a + 1, ..., b` when `a ≤ b`
and `a, a - 1, ..., b` when `b < a`. -/
def inclusiveRange (a b : Int) : List Object :=
  if a ≤ b then (List.range (b - a + 1).toNat).map (fun j : Nat => Object.Number (a + j))
  else (List.range (a - b + 1).toNat).map (fun j : Nat => Object.Number (a - j))

/-- Source of `rangeAtTwoTo53`. -/
def rangeAtTwoTo53Src : String := "9007199254740992..9007199254740992"

/-- The expression `9007199254740992..9007199254740992`, the range from
`2 ^ 53` to itself. -/
def rangeAtTwoTo53 : Node :=
  .InfixExpression (tk token.RANGE 16 "..") ".."
    (.NumberLiteral (tk token.NUMBER 0 "9007199254740992") 9007199254740992)
    (.NumberLiteral (tk token.NUMBER 18 "9007199254740992") 9007199254740992)

/-- Source of `stalledFor`. -/
def stalledForSrc : String :=
  "döngü i = 9007199254740992; i < 9007199254740994; i = i + 1 \x7b 8 \x7d"

/-- The block `{ 8 }` of `stalledFor`. -/
def stalledBlock : Node :=
  .BlockStatement (tk token.LBRACE 60 "\x7b")
    [exprStmt (tk token.NUMBER 62 "8") (.NumberLiteral (tk token.NUMBER 62 "8") 8)]

/-- The loop `döngü i = 9007199254740992; i < 9007199254740994; i = i + 1 { 8 }`,
which counts from `2 ^ 53` to `2 ^ 53 + 2`. -/
def stalledFor : Node :=
  .ForExpression (tk token.FOR 0 "döngü") "i"
    (countStarter (tk token.ASSIGN 8 "=") (tk token.IDENT 6 "i")
      (tk token.NUMBER 10 "9007199254740992") "i" 9007199254740992)
    (countCondition (tk token.LT 30 "<") (tk token.IDENT 28 "i")
      (tk token.NUMBER 32 "9007199254740994") "i" 9007199254740994)
    (countCloser (tk token.ASSIGN 52 "=") (tk token.IDENT 50 "i") (tk token.PLUS 56 "+")
      (tk token.IDENT 54 "i") (tk token.NUMBER 58 "1") "i")
    stalledBlock

/-- Source of `wideSlice`. -/
def wideSliceSrc : String := "[10, 20, 30][0:9223372036854775808]"

/-- The expression `[10, 20, 30][0:9223372036854775808]`: a slice whose end is
`2 ^ 63`, the least integer above the values of an `int64`. -/
def wideSlice : Node :=
  .IndexExpression (tk token.LBRACKET 12 "[")
    (.ArrayLiteral (tk token.LBRACKET 0 "[")
      [.NumberLiteral (tk token.NUMBER 1 "10") 10, .NumberLiteral (tk token.NUMBER 5 "20") 20,
       .NumberLiteral (tk token.NUMBER 9 "30") 30])
    (.NumberLiteral (tk token.NUMBER 13 "0") 0)
    (.NumberLiteral (tk token.NUMBER 15 "9223372036854775808") 9223372036854775808) true

/-- Source of `farAssign`. -/
def farAssignSrc : String := "a = [10, 20, 30]; a[10000000000000000000] = 1"

/-- The target `a[10000000000000000000]` of the assignment in `farAssign`. -/
def farTarget : Node :=
  .IndexExpression (tk token.LBRACKET 19 "[") (.Identifier (tk token.IDENT 18 "a") "a")
    (.NumberLiteral (tk token.NUMBER 20 "10000000000000000000") 10000000000000000000) .nil false

/-- The program `a = [10, 20, 30]; a[10000000000000000000] = 1` as the parser
builds it: the target of an index assignment is first a statement of its own. -/
def farAssign : Node :=
  .Program
    [assign (tk token.ASSIGN 2 "=") (tk token.IDENT 0 "a") "a"
      (.ArrayLiteral (tk token.LBRACKET 4 "[")
        [.NumberLiteral (tk token.NUMBER 5 "10") 10, .NumberLiteral (tk token.NUMBER 9 "20") 20,
         .NumberLiteral (tk token.NUMBER 13 "30") 30]),
     exprStmt (tk token.IDENT 18 "a") farTarget,
     .AssignStatement (tk token.ASSIGN 42 "=") none [] farTarget .nil
       (.NumberLiteral (tk token.NUMBER 44 "1") 1)]

/-- Source of the expressions over the string literal `"ğa"`. -/
def gBreveASrc : String := "\"ğa\"[0:2]"

/-- The string literal `"ğa"` at the start of a source: two characters, three
bytes. -/
def gBreveALit : Node := .StringLiteral (tk token.STRING 0 "ğa") "ğa"

/-- The expression `"ğa"[0:2]`: the slice over the two bytes of `ğ`. -/
def gBreveASlice : Node :=
  .IndexExpression (tk token.LBRACKET 4 "[") gBreveALit
    (.NumberLiteral (tk token.NUMBER 5 "0") 0) (.NumberLiteral (tk token.NUMBER 7 "2") 2) true

/-- Source of `bigInBigs`. -/
def bigInBigsSrc : String := "10000000000000000000 in [10000000000000000000]"

/-- The expression `10000000000000000000 in [10000000000000000000]`: the number
`10 ^ 19`, which is above the values of an `int64`, looked for in an array
that holds it. -/
def bigInBigs : Node :=
  .InfixExpression (tk token.IN 21 "in") "in"
    (.NumberLiteral (tk token.NUMBER 0 "10000000000000000000") 10000000000000000000)
    (.ArrayLiteral (tk token.LBRACKET 24 "[")
      [.NumberLiteral (tk token.NUMBER 25 "10000000000000000000") 10000000000000000000])

/-- The expression `-v` of a number literal `v` written after the minus sign. -/
def minusLit (pos : Int) (lit : String) (v : Int) : Node :=
  .PrefixExpression (tk token.MINUS pos "-") "-" (.NumberLiteral (tk token.NUMBER (pos + 1) lit) v)

/-- Source of `rangeDownToMinusTwoTo53`. -/
def rangeDownToMinusTwoTo53Src : String := "-9007199254740991..-9007199254740992"

/-- The expression `-9007199254740991..-9007199254740992`, the range from
`-(2 ^ 53 - 1)` down to `-2 ^ 53`. -/
def rangeDownToMinusTwoTo53 : Node :=
  .InfixExpression (tk token.RANGE 17 "..") ".." (minusLit 0 "9007199254740991" 9007199254740991)
    (minusLit 19 "9007199254740992" 9007199254740992)

/-- Source of `rangeFromBelow`. -/
def rangeFromBelowSrc : String := "-9007199254740994..-9007199254740992"

/-- The expression `-9007199254740994..-9007199254740992`, the range from
`-(2 ^ 53 + 2)` up to `-2 ^ 53`. -/
def rangeFromBelow : Node :=
  .InfixExpression (tk token.RANGE 17 "..") ".." (minusLit 0 "9007199254740994" 9007199254740994)
    (minusLit 19 "9007199254740992" 9007199254740992)

/-- Source of `rangeFromAbove`. -/
def rangeFromAboveSrc : String := "9007199254740994..9007199254740991"

/-- The expression `9007199254740994..9007199254740991`, the range from
`2 ^ 53 + 2` down to `2 ^ 53 - 1`. -/
def rangeFromAbove : Node :=
  .InfixExpression (tk token.RANGE 16 "..") ".."
    (.NumberLiteral (tk token.NUMBER 0 "9007199254740994") 9007199254740994)
    (.NumberLiteral (tk token.NUMBER 18 "9007199254740991") 9007199254740991)

/-- Source of `turnsBelow`. -/
def turnsBelowSrc : String :=
  "n = 0; döngü i = -9007199254740994; i < -9007199254740992; i = i + 1 \x7b n = n + 1 \x7d; n"

/-- The program
`n = 0; döngü i = -9007199254740994; i < -9007199254740992; i = i + 1 { n = n + 1 }; n`,
which counts the turns of a loop from `-(2 ^ 53 + 2)` to `-2 ^ 53`. -/
def turnsBelow : Node :=
  .Program
    [assign (tk token.ASSIGN 2 "=") (tk token.IDENT 0 "n") "n"
      (.NumberLiteral (tk token.NUMBER 4 "0") 0),
     exprStmt (tk token.FOR 7 "döngü")
      (.ForExpression (tk token.FOR 7 "döngü") "i"
        (assign (tk token.ASSIGN 15 "=") (tk token.IDENT 13 "i") "i"
          (minusLit 17 "9007199254740994" 9007199254740994))
        (.InfixExpression (tk token.LT 38 "<") "<" (.Identifier (tk token.IDENT 36 "i") "i")
          (minusLit 40 "9007199254740992" 9007199254740992))
        (countCloser (tk token.ASSIGN 61 "=") (tk token.IDENT 59 "i") (tk token.PLUS 65 "+")
          (tk token.IDENT 63 "i") (tk token.NUMBER 67 "1") "i")
        (.BlockStatement (tk token.LBRACE 69 "\x7b")
          [assign (tk token.ASSIGN 73 "=") (tk token.IDENT 71 "n") "n"
            (.InfixExpression (tk token.PLUS 77 "+") "+" (.Identifier (tk token.IDENT 75 "n") "n")
              (.NumberLiteral (tk token.NUMBER 79 "1") 1))])),
     exprStmt (tk token.IDENT 84 "n") (.Identifier (tk token.IDENT 84 "n") "n")]

/-- Source of `wideStart`. -/
def wideStartSrc : String := "[10, 20, 30][9223372036854775808:3]"

/-- The expression `[10, 20, 30][9223372036854775808:3]`: a slice whose start is
`2 ^ 63`. -/
def wideStart : Node :=
  .IndexExpression (tk token.LBRACKET 12 "[")
    (.ArrayLiteral (tk token.LBRACKET 0 "[")
      [.NumberLiteral (tk token.NUMBER 1 "10") 10, .NumberLiteral (tk token.NUMBER 5 "20") 20,
       .NumberLiteral (tk token.NUMBER 9 "30") 30])
    (.NumberLiteral (tk token.NUMBER 13 "9223372036854775808") 9223372036854775808)
    (.NumberLiteral (tk token.NUMBER 33 "3") 3) true

/-! ## Package parser -/

namespace parser

/-- The precedence levels of the parser (Go `iota` constants, starting at 1). -/
def LOWEST : Nat := 1
def AND : Nat := 2
def EQUALS : Nat := 3
def LESSGREATER : Nat := 4
def SUM : Nat := 5
def PRODUCT : Nat := 6
def RANGE : Nat := 7
def PREFIX : Nat := 8
def CALL : Nat := 9
def INDEX : Nat := 10
def QUESTION : Nat := 11
def DOT : Nat := 12
def HIGHEST : Nat := 13

/-- Go `precedences`. -/
def precedences : List (String × Nat) :=
  [(token.AND, AND), (token.OR, AND), (token.BIT_AND, AND), (token.BIT_XOR, AND),
   (token.BIT_RSHIFT, AND), (token.BIT_LSHIFT, AND), (token.PIPE, AND),
   (token.EQ, EQUALS), (token.NOT_EQ, EQUALS), (token.TILDE, EQUALS), (token.IN, EQUALS),
   (token.NOT_IN, EQUALS), (token.COMMA, EQUALS),
   (token.LT, LESSGREATER), (token.LT_EQ, LESSGREATER), (token.GT, LESSGREATER),
   (token.GT_EQ, LESSGREATER), (token.COMBINED_COMP, LESSGREATER),
   (token.PLUS, SUM), (token.MINUS, SUM),
   (token.SLASH, PRODUCT), (token.ASTERISK, PRODUCT), (token.EXPONENT, PRODUCT),
   (token.MODULO, PRODUCT),
   (token.COMP_PLUS, EQUALS), (token.COMP_MINUS, EQUALS), (token.COMP_SLASH, EQUALS),
   (token.COMP_ASTERISK, EQUALS), (token.COMP_EXPONENT, EQUALS), (token.COMP_MODULO, EQUALS),
   (token.RANGE, RANGE), (token.LPAREN, CALL), (token.LBRACKET, INDEX),
   (token.QUESTION, QUESTION), (token.DOT, DOT)]

/-- The functions of the Go standard library the parser calls: the Unicode
tables of the lexer, `strconv.ParseFloat` (on the integer valued fragment;
`none` is its error), the verb `%q` of `fmt` and `strings.ToLower`.  They are
not of this repository and stay abstract. -/
structure Host where
  tables : UnicodeTables
  ParseFloat : String → Option Int
  Quote : String → String
  ToLower : String → String

/-- The prefix parse functions `New` registers. -/
inductive PrefixParseFn where
  | parseIdentifier
  | ParseNumberLiteral
  | ParseStringLiteral
  | ParseNullLiteral
  | parsePrefixExpression
  | ParseBoolean
  | parseGroupedExpression
  | parseIfExpression
  | parseWhileExpression
  | parseForExpression
  | parseFunctionLiteral
  | ParseArrayLiteral
  | ParseHashLiteral
  | parseCommand
  | parseBreak
  | parseContinue
  | parseCurrentArgsLiteral
  | parseDecorator
  | parseDefer
deriving Repr, DecidableEq, Inhabited

/-- The infix parse functions `New` registers. -/
inductive InfixParseFn where
  | parseInfixExpression
  | parseCompoundAssignment
  | parseQuestionExpression
  | parseDottedExpression
  | parseCallExpression
  | parseIndexExpression
deriving Repr, DecidableEq, Inhabited

/-- Go `registerPrefix` and `registerInfix`: a write to the map of functions. -/
def register {φ : Type} (fns : List (String × φ)) (tokenType : String) (fn : φ) :
    List (String × φ) :=
  mapSet fns tokenType fn

/-- The map `prefixParseFns` that `New` fills, in the order of its calls of
`registerPrefix`. -/
def prefixParseFns : List (String × PrefixParseFn) :=
  [(token.IDENT, PrefixParseFn.parseIdentifier), (token.NUMBER, .ParseNumberLiteral),
   (token.STRING, .ParseStringLiteral), (token.NULL, .ParseNullLiteral),
   (token.BANG, .parsePrefixExpression), (token.PLUS, .parsePrefixExpression),
   (token.MINUS, .parsePrefixExpression), (token.TILDE, .parsePrefixExpression),
   (token.TRUE, .ParseBoolean), (token.FALSE, .ParseBoolean),
   (token.LPAREN, .parseGroupedExpression), (token.IF, .parseIfExpression),
   (token.WHILE, .parseWhileExpression), (token.FOR, .parseForExpression),
   (token.FUNCTION, .parseFunctionLiteral), (token.LBRACKET, .ParseArrayLiteral),
   (token.LBRACE, .ParseHashLiteral), (token.COMMAND, .parseCommand),
   (token.BREAK, .parseBreak), (token.CONTINUE, .parseContinue),
   (token.CURRENT_ARGS, .parseCurrentArgsLiteral), (token.AT, .parseDecorator),
   (token.DEFER, .parseDefer)].foldl (fun fns r => register fns r.1 r.2) []

/-- The map `infixParseFns` that `New` fills, in the order of its calls of
`registerInfix`. -/
def infixParseFns : List (String × InfixParseFn) :=
  [(token.PLUS, InfixParseFn.parseInfixExpression), (token.MINUS, .parseInfixExpression),
   (token.QUESTION, .parseQuestionExpression), (token.DOT, .parseDottedExpression),
   (token.SLASH, .parseInfixExpression), (token.EXPONENT, .parseInfixExpression),
   (token.MODULO, .parseInfixExpression), (token.ASTERISK, .parseInfixExpression),
   (token.COMP_PLUS, .parseCompoundAssignment), (token.COMP_MINUS, .parseCompoundAssignment),
   (token.COMP_SLASH, .parseCompoundAssignment), (token.COMP_EXPONENT, .parseCompoundAssignment),
   (token.COMP_MODULO, .parseCompoundAssignment),
   (token.COMP_ASTERISK, .parseCompoundAssignment),
   (token.EQ, .parseInfixExpression), (token.NOT_EQ, .parseInfixExpression),
   (token.TILDE, .parseInfixExpression), (token.IN, .parseInfixExpression),
   (token.NOT_IN, .parseInfixExpression), (token.LT, .parseInfixExpression),
   (token.LT_EQ, .parseInfixExpression), (token.GT, .parseInfixExpression),
   (token.GT_EQ, .parseInfixExpression), (token.COMBINED_COMP, .parseInfixExpression),
   (token.AND, .parseInfixExpression), (token.OR, .parseInfixExpression),
   (token.BIT_AND, .parseInfixExpression), (token.BIT_XOR, .parseInfixExpression),
   (token.PIPE, .parseInfixExpression), (token.BIT_RSHIFT, .parseInfixExpression),
   (token.BIT_LSHIFT, .parseInfixExpression), (token.RANGE, .parseInfixExpression),
   (token.LPAREN, .parseCallExpression), (token.LBRACKET, .parseIndexExpression)].foldl
    (fun fns r => register fns r.1 r.2) []

/-- Go `parser.Parser`, without the two maps of parse functions, which are the
same for every parser.  A nil `prevIndexExpression` or
`prevPropertyExpression` is the node `nil`. -/
structure Parser where
  l : Lexer
  errors : List String
  curToken : Token
  peekToken : Token
  prevIndexExpression : Node
  prevPropertyExpression : Node
deriving Repr, Inhabited

/-- Computations of the parser: they read and update the parser and end in an
`Outcome`. -/
abbrev ParseM := StateT Parser Outcome

/-- Fuel exhaustion inside the parser. -/
def noFuel {α : Type} : ParseM α := fun _ => .outOfFuel

/-- The zero value of Go `token.Token`. -/
def zeroToken : Token := { Type_ := "", Position := 0, Literal := "" }

/-- The budget given to one call of the lexer: its loops advance by one
character of the input per iteration. -/
def lexFuel (l : Lexer) : Nat := l.input.length + 2

/-- Go `(*Parser).reportError`. -/
def reportError (err : String) (tok : Token) : ParseM Unit := do
  let p ← get
  let (lineNum, column, errorLine) ← (ErrorLine p.l tok.Position : Outcome (Int × Int × String))
  let msg := err ++ "\n\x1b[97m\n" ++ toString lineNum ++ ":" ++ toString column ++ "> "
    ++ errorLine ++ " "
  set { p with errors := p.errors ++ [msg] }

/-- Go `(*Parser).nextToken`. -/
def nextToken (h : Host) : ParseM Unit := do
  let p ← get
  let (tok, l) ← (NextToken h.tables (lexFuel p.l) p.l : Outcome (Token × Lexer))
  set { p with curToken := p.peekToken, peekToken := tok, l := l }
  if p.peekToken.Type_ = token.ILLEGAL then
    reportError ("Bu tokenin kullanımı yasak: \x27" ++ p.peekToken.Literal ++ "\x27") p.peekToken
  else pure ()

/-- Go `(*Parser).curTokenIs`. -/
def curTokenIs (typ : String) : ParseM Bool := do
  let p ← get
  pure (decide (p.curToken.Type_ = typ))

/-- Go `(*Parser).peekTokenIs`. -/
def peekTokenIs (typ : String) : ParseM Bool := do
  let p ← get
  pure (decide (p.peekToken.Type_ = typ))

/-- Go `(*Parser).peekError`. -/
def peekError (tok : Token) : ParseM Unit := do
  let p ← get
  reportError ("\x1b[32m" ++ tok.Type_ ++ " \x1b[97mbeklenilirken, \x1b[33m" ++ p.peekToken.Type_
    ++ " \x1b[97mbulundu") tok

/-- Go `(*Parser).expectPeek`. -/
def expectPeek (h : Host) (typ : String) : ParseM Bool := do
  let p ← get
  if p.peekToken.Type_ = typ then
    nextToken h
    pure true
  else
    peekError p.curToken
    pure false

/-- Go `(*Parser).noPrefixParseFnError`. -/
def noPrefixParseFnError (tok : Token) : ParseM Unit :=
  reportError ("\x27" ++ tok.Literal ++ "\x27 için prefix bulunamadı.") tok

/-- Go `(*Parser).peekPrecedence`. -/
def peekPrecedence (p : Parser) : Nat :=
  match mapGet precedences p.peekToken.Type_ with
  | some v => v
  | none => LOWEST

/-- Go `(*Parser).curPrecedence`. -/
def curPrecedence (p : Parser) : Nat :=
  match mapGet precedences p.curToken.Type_ with
  | some v => v
  | none => LOWEST

/-- The statement `if p.peekTokenIs(token.SEMICOLON) { p.nextToken() }` that
ends the statement parsers. -/
def skipSemicolon (h : Host) : ParseM Unit := do
  let p ← get
  if p.peekToken.Type_ = token.SEMICOLON then nextToken h else pure ()

/-- Go `(*Parser).parseIdentifier`. -/
def parseIdentifier : ParseM Node := do
  let p ← get
  pure (.Identifier p.curToken p.curToken.Literal)

/-- Go `(*Parser).ParseNumberLiteral`.  The last byte of the literal is looked
up in the table of abbreviations; `abbr` stays 0 when it is not there.  The
product `value *= abbr` is a product of floats, rounded by `float64OfInt`. -/
def ParseNumberLiteral (h : Host) : ParseM Node := do
  let p ← get
  let bytes := stringBytes p.curToken.Literal
  match bytes.getLast? with
  | none => fun _ => .panic "index out of range"
  | some b =>
    let found := token.NumberAbbreviations.lookup (h.ToLower (String.mk [Char.ofNat b]))
    let abbr : Int := found.getD 0
    let number := if found.isSome then bytesToString bytes.dropLast else p.curToken.Literal
    match h.ParseFloat number with
    | none => do
      reportError ("could not parse " ++ h.Quote number ++ " as number") p.curToken
      pure .nil
    | some value =>
      pure (.NumberLiteral p.curToken (if abbr ≠ 0 then float64OfInt (value * abbr) else value))

/-- Go `(*Parser).ParseStringLiteral`. -/
def ParseStringLiteral : ParseM Node := do
  let p ← get
  pure (.StringLiteral p.curToken p.curToken.Literal)

/-- Go `(*Parser).ParseNullLiteral`. -/
def ParseNullLiteral : ParseM Node := do
  let p ← get
  pure (.NullLiteral p.curToken)

/-- Go `(*Parser).ParseBoolean`. -/
def ParseBoolean : ParseM Node := do
  let p ← get
  pure (.Boolean p.curToken (decide (p.curToken.Type_ = token.TRUE)))

/-- Go `(*Parser).parseCommand`. -/
def parseCommand : ParseM Node := do
  let p ← get
  pure (.CommandExpression p.curToken p.curToken.Literal false)

/-- Go `(*Parser).parseBreak`. -/
def parseBreak : ParseM Node := do
  let p ← get
  pure (.BreakStatement p.curToken)

/-- Go `(*Parser).parseContinue`. -/
def parseContinue : ParseM Node := do
  let p ← get
  pure (.ContinueStatement p.curToken)

/-- Go `(*Parser).parseCurrentArgsLiteral`. -/
def parseCurrentArgsLiteral : ParseM Node := do
  let p ← get
  pure (.CurrentArgsLiteral p.curToken)

end parser

namespace parser

/-- The type of `parseExpression` as seen by the functions it calls. -/
abbrev ExpressionParser := Nat → ParseM Node

/-- The `for p.peekTokenIs(token.COMMA)` loop of Go `parseExpressionList`. -/
def parseExpressionListLoop (h : Host) (pe : ExpressionParser) :
    Nat → List Node → ParseM (List Node)
  | 0, _ => noFuel
  | k + 1, list => do
    let p ← get
    if p.peekToken.Type_ = token.COMMA then
      nextToken h
      nextToken h
      let e ← pe LOWEST
      parseExpressionListLoop h pe k (list ++ [e])
    else pure list

/-- Go `(*Parser).parseExpressionList`; the nil slice is the empty list. -/
def parseExpressionList (h : Host) (pe : ExpressionParser) (k : Nat) (end_ : String) :
    ParseM (List Node) := do
  let p ← get
  if p.peekToken.Type_ = end_ then
    nextToken h
    pure []
  else
    nextToken h
    let e ← pe LOWEST
    let list ← parseExpressionListLoop h pe k [e]
    let ok ← expectPeek h end_
    if !ok then pure [] else pure list

/-- Go `(*Parser).parsePrefixExpression`. -/
def parsePrefixExpression (h : Host) (pe : ExpressionParser) : ParseM Node := do
  let p ← get
  let precedence :=
    if p.curToken.Type_ = token.PLUS ∨ p.curToken.Type_ = token.MINUS then HIGHEST else PREFIX
  nextToken h
  let right ← pe precedence
  pure (.PrefixExpression p.curToken p.curToken.Literal right)

/-- Go `(*Parser).parseInfixExpression`. -/
def parseInfixExpression (h : Host) (pe : ExpressionParser) (left : Node) : ParseM Node := do
  let p ← get
  let precedence := curPrecedence p
  nextToken h
  let right ← pe precedence
  pure (.InfixExpression p.curToken p.curToken.Literal left right)

/-- Go `(*Parser).parseCompoundAssignment`. -/
def parseCompoundAssignment (h : Host) (pe : ExpressionParser) (left : Node) : ParseM Node := do
  let p ← get
  let precedence := curPrecedence p
  nextToken h
  let right ← pe precedence
  pure (.CompoundAssignment p.curToken p.curToken.Literal left right)

/-- Go `(*Parser).parseDottedExpression`. -/
def parseDottedExpression (h : Host) (pe : ExpressionParser) (k : Nat) (object : Node) :
    ParseM Node := do
  let p ← get
  let t := p.curToken
  let precedence := curPrecedence p
  nextToken h
  let p1 ← get
  if p1.peekToken.Type_ = token.LPAREN then
    let method ← pe precedence
    nextToken h
    let arguments ← parseExpressionList h pe k token.RPAREN
    pure (.MethodExpression t object method arguments false false)
  else
    let property ← parseIdentifier
    let exp := Node.PropertyExpression t object property false
    modify (fun q => { q with prevPropertyExpression := exp, prevIndexExpression := .nil })
    pure exp

/-- Go `(*Parser).parseQuestionExpression`.  The property expression whose
`Optional` is set is the one `parseDottedExpression` has just stored in
`prevPropertyExpression`: the store sees the flag. -/
def parseQuestionExpression (h : Host) (pe : ExpressionParser) (k : Nat) (object : Node) :
    ParseM Node := do
  nextToken h
  let exp ← parseDottedExpression h pe k object
  match exp with
  | .PropertyExpression t o pr _ => do
    let res := Node.PropertyExpression t o pr true
    modify (fun q => { q with prevPropertyExpression := res })
    pure res
  | .MethodExpression t o m a _ d => pure (.MethodExpression t o m a true d)
  | _ => pure exp

/-- Go `(*Parser).parseGroupedExpression`. -/
def parseGroupedExpression (h : Host) (pe : ExpressionParser) : ParseM Node := do
  nextToken h
  let exp ← pe LOWEST
  let ok ← expectPeek h token.RPAREN
  if !ok then pure .nil else pure exp

/-- Go `(*Parser).parseCallExpression`. -/
def parseCallExpression (h : Host) (pe : ExpressionParser) (k : Nat) (function : Node) :
    ParseM Node := do
  let p ← get
  let arguments ← parseExpressionList h pe k token.RPAREN
  pure (.CallExpression p.curToken function arguments false)

/-- Go `(*Parser).ParseArrayLiteral`. -/
def ParseArrayLiteral (h : Host) (pe : ExpressionParser) (k : Nat) : ParseM Node := do
  let p ← get
  let elements ← parseExpressionList h pe k token.RBRACKET
  pure (.ArrayLiteral p.curToken elements)

/-- The end of a range in Go `parseIndexExpression`: the code after the second
test `p.peekTokenIs(token.COLON)`; the result is `End` and `IsRange`. -/
def parseIndexEnd (h : Host) (pe : ExpressionParser) (isRange : Bool) : ParseM (Node × Bool) := do
  let p ← get
  if p.peekToken.Type_ = token.COLON then
    nextToken h
    let p1 ← get
    if p1.peekToken.Type_ = token.RBRACKET then pure (.nil, true)
    else
      nextToken h
      let e ← pe LOWEST
      pure (e, true)
  else pure (.nil, isRange)

/-- Go `(*Parser).parseIndexExpression`. -/
def parseIndexExpression (h : Host) (pe : ExpressionParser) (left : Node) : ParseM Node := do
  let p ← get
  let (index, isRange) ←
    if p.peekToken.Type_ = token.COLON then
      pure (Node.NumberLiteral { Type_ := token.NUMBER, Position := 0, Literal := "0" } 0, true)
    else do
      nextToken h
      let e ← pe LOWEST
      pure (e, false)
  let (end_, isRange) ← parseIndexEnd h pe isRange
  let ok ← expectPeek h token.RBRACKET
  if !ok then pure .nil
  else
    let exp := Node.IndexExpression p.curToken left index end_ isRange
    modify (fun q => { q with prevIndexExpression := exp, prevPropertyExpression := .nil })
    pure exp

/-- The write `hash.Pairs[key] = value` of Go `ParseHashLiteral`.  The keys of
the Go map are pointers to freshly built nodes, so every write adds a pair,
unless the key is nil: nil keys are one key. -/
def setHashPair (pairs : List (Node × Node)) (key value : Node) : List (Node × Node) :=
  if isNilNode key ∧ pairs.any (fun e => isNilNode e.1) then
    pairs.map (fun e => if isNilNode e.1 then (e.1, value) else e)
  else pairs ++ [(key, value)]

/-- The `for !p.peekTokenIs(token.RBRACE)` loop of Go `ParseHashLiteral`;
`none` is the early `return nil`. -/
def parseHashLoop (h : Host) (pe : ExpressionParser) :
    Nat → List (Node × Node) → ParseM (Option (List (Node × Node)))
  | 0, _ => noFuel
  | k + 1, pairs => do
    let p ← get
    if p.peekToken.Type_ ≠ token.RBRACE then
      nextToken h
      let key ← pe LOWEST
      let ok ← expectPeek h token.COLON
      if !ok then pure none
      else
        nextToken h
        let value ← pe LOWEST
        let pairs := setHashPair pairs key value
        let p1 ← get
        if p1.peekToken.Type_ ≠ token.RBRACE then
          let ok2 ← expectPeek h token.COMMA
          if !ok2 then pure none else parseHashLoop h pe k pairs
        else parseHashLoop h pe k pairs
    else pure (some pairs)

/-- Go `(*Parser).ParseHashLiteral`. -/
def ParseHashLiteral (h : Host) (pe : ExpressionParser) (k : Nat) : ParseM Node := do
  let p ← get
  let r ← parseHashLoop h pe k []
  match r with
  | none => pure .nil
  | some pairs =>
    let ok ← expectPeek h token.RBRACE
    if !ok then pure .nil else pure (.HashLiteral p.curToken pairs)

/-- The `for p.peekTokenIs(token.COMMA)` loop of Go
`parseDestructuringIdentifiers`. -/
def parseDestructuringLoop (h : Host) (pe : ExpressionParser) :
    Nat → List Node → ParseM (List Node)
  | 0, _ => noFuel
  | k + 1, list => do
    let p ← get
    if p.peekToken.Type_ = token.COMMA then
      nextToken h
      nextToken h
      let e ← pe LOWEST
      parseDestructuringLoop h pe k (list ++ [e])
    else pure list

/-- Go `(*Parser).parseDestructuringIdentifiers`; `none` is the nil slice. -/
def parseDestructuringIdentifiers (h : Host) (pe : ExpressionParser) (k : Nat) :
    ParseM (Option (List Node)) := do
  let p ← get
  if p.peekToken.Type_ = token.ASSIGN then pure (some [])
  else
    let first ← parseIdentifier
    let list ← parseDestructuringLoop h pe k [first]
    let p1 ← get
    if p1.peekToken.Type_ ≠ token.ASSIGN then pure none else pure (some list)

/-- The `for p.l.CurrentPosition() < pos` loop of Go `(*Parser).Rewind`. -/
def rewindTokens (h : Host) (pos : Int) : Nat → ParseM Unit
  | 0 => noFuel
  | k + 1 => do
    let p ← get
    if CurrentPosition p.l < pos then
      nextToken h
      rewindTokens h pos k
    else pure ()

/-- Go `(*Parser).Rewind`. -/
def Rewind (h : Host) (k : Nat) (pos : Int) : ParseM Unit := do
  let p ← get
  let l ← (Anka.Rewind h.tables (lexFuel p.l) p.l 0 : Outcome Lexer)
  set { p with l := l }
  rewindTokens h pos k

/-- The end of Go `parseAssignStatement`, after the tests of the current token:
the tokens `=` and the value. -/
def parseAssignValue (h : Host) (pe : ExpressionParser) (name : Option (Token × String))
    (names : List Node) : ParseM Node := do
  let p ← get
  if p.peekToken.Type_ ≠ token.ASSIGN then pure .nil
  else
    nextToken h
    let p1 ← get
    nextToken h
    let value ← pe LOWEST
    skipSemicolon h
    pure (.AssignStatement p1.curToken name names .nil .nil value)

/-- Go `(*Parser).parseAssignStatement`. -/
def parseAssignStatement (h : Host) (pe : ExpressionParser) (k : Nat) : ParseM Node := do
  let p ← get
  if p.peekToken.Type_ = token.COMMA then
    let lexerPosition := CurrentPosition p.l
    if p.curToken.Type_ ≠ token.IDENT then pure .nil
    else
      let names ← parseDestructuringIdentifiers h pe k
      let p1 ← get
      if p1.peekToken.Type_ ≠ token.ASSIGN then
        Rewind h k lexerPosition
        pure .nil
      else parseAssignValue h pe none (names.getD [])
  else if p.curToken.Type_ = token.IDENT then
    parseAssignValue h pe (some (p.curToken, p.curToken.Literal)) []
  else if p.curToken.Type_ = token.ASSIGN then
    if isNilNode p.prevIndexExpression = false then
      nextToken h
      let value ← pe LOWEST
      modify (fun q => { q with prevIndexExpression := .nil })
      skipSemicolon h
      pure (.AssignStatement p.curToken none [] p.prevIndexExpression .nil value)
    else if isNilNode p.prevPropertyExpression = false then
      nextToken h
      let value ← pe LOWEST
      modify (fun q => { q with prevPropertyExpression := .nil })
      skipSemicolon h
      pure (.AssignStatement p.curToken none [] .nil p.prevPropertyExpression value)
    else parseAssignValue h pe none []
  else parseAssignValue h pe none []

/-- Go `(*Parser).parseReturnStatement`. -/
def parseReturnStatement (h : Host) (pe : ExpressionParser) : ParseM Node := do
  let p ← get
  let returnToken := p.curToken
  let value ←
    if p.peekToken.Type_ = token.SEMICOLON then pure (Node.NullLiteral p.curToken)
    else if p.peekToken.Type_ = token.RBRACE ∨ p.peekToken.Type_ = token.EOF then
      pure (Node.NullLiteral returnToken)
    else do
      nextToken h
      pe LOWEST
  skipSemicolon h
  pure (.ReturnStatement returnToken value)

/-- Go `(*Parser).parseExpressionStatement`. -/
def parseExpressionStatement (h : Host) (pe : ExpressionParser) : ParseM Node := do
  let p ← get
  let expression ← pe LOWEST
  skipSemicolon h
  pure (.ExpressionStatement p.curToken expression)

/-- Go `(*Parser).parseStatement`. -/
def parseStatement (h : Host) (pe : ExpressionParser) (k : Nat) : ParseM Node := do
  let p ← get
  if p.curToken.Type_ = token.RETURN then parseReturnStatement h pe
  else
    let statement ← parseAssignStatement h pe k
    if isNilNode statement = false then pure statement
    else parseExpressionStatement h pe

/-- The `for` loop of Go `parseBlockStatement`. -/
def parseBlockLoop (h : Host) (pe : ExpressionParser) (k : Nat) :
    Nat → List Node → ParseM (List Node)
  | 0, _ => noFuel
  | j + 1, statements => do
    let p ← get
    if p.curToken.Type_ ≠ token.RBRACE ∧ p.curToken.Type_ ≠ token.EOF then
      let stmt ← parseStatement h pe k
      let statements := if isNilNode stmt = false then statements ++ [stmt] else statements
      nextToken h
      parseBlockLoop h pe k j statements
    else pure statements

/-- Go `(*Parser).parseBlockStatement`. -/
def parseBlockStatement (h : Host) (pe : ExpressionParser) (k : Nat) : ParseM Node := do
  let p ← get
  nextToken h
  let statements ← parseBlockLoop h pe k k []
  pure (.BlockStatement p.curToken statements)

end parser

namespace parser

/-- The condition the parser gives the scenario of a plain `else`. -/
def elseCondition : Node :=
  .Boolean { Type_ := token.LookupIdent token.TRUE, Position := -99, Literal := "true" } true

/-- The `for p.peekTokenIs(token.ELSE)` loop of Go `parseIfExpression`; `none`
is the early `return nil`. -/
def parseScenarios (h : Host) (pe : ExpressionParser) (k : Nat) :
    Nat → List (Node × Node) → ParseM (Option (List (Node × Node)))
  | 0, _ => noFuel
  | j + 1, scenarios => do
    let p ← get
    if p.peekToken.Type_ = token.ELSE then
      nextToken h
      nextToken h
      let p1 ← get
      if p1.curToken.Type_ = token.IF then
        nextToken h
        let condition ← pe LOWEST
        let ok ← expectPeek h token.LBRACE
        if !ok then pure none
        else
          let consequence ← parseBlockStatement h pe k
          parseScenarios h pe k j (scenarios ++ [(condition, consequence)])
      else
        let consequence ← parseBlockStatement h pe k
        parseScenarios h pe k j (scenarios ++ [(elseCondition, consequence)])
    else pure (some scenarios)

/-- Go `(*Parser).parseIfExpression`. -/
def parseIfExpression (h : Host) (pe : ExpressionParser) (k : Nat) : ParseM Node := do
  let p ← get
  nextToken h
  let condition ← pe LOWEST
  let ok ← expectPeek h token.LBRACE
  if !ok then pure .nil
  else
    let consequence ← parseBlockStatement h pe k
    let r ← parseScenarios h pe k k [(condition, consequence)]
    match r with
    | none => pure .nil
    | some scenarios => pure (.IfExpression p.curToken scenarios)

/-- Go `(*Parser).parseWhileExpression`. -/
def parseWhileExpression (h : Host) (pe : ExpressionParser) (k : Nat) : ParseM Node := do
  let p ← get
  nextToken h
  let condition ← pe LOWEST
  let ok ← expectPeek h token.LBRACE
  if !ok then pure .nil
  else
    let consequence ← parseBlockStatement h pe k
    pure (.WhileExpression p.curToken condition consequence)

/-- The optional `else` block of Go `parseForInExpression`; `none` is the
early `return nil`. -/
def parseForInAlternative (h : Host) (pe : ExpressionParser) (k : Nat) :
    ParseM (Option Node) := do
  let p ← get
  if p.peekToken.Type_ = token.ELSE then
    nextToken h
    let ok ← expectPeek h token.LBRACE
    if !ok then pure none
    else
      let alternative ← parseBlockStatement h pe k
      pure (some alternative)
  else pure (some .nil)

/-- Go `(*Parser).parseForInExpression`, from the test of the token `in` on. -/
def parseForInRest (h : Host) (pe : ExpressionParser) (k : Nat) (tok : Token)
    (key val : String) : ParseM Node := do
  let p ← get
  if p.curToken.Type_ ≠ token.IN then pure .nil
  else
    nextToken h
    let iterable ← pe LOWEST
    let ok ← expectPeek h token.LBRACE
    if !ok then pure .nil
    else
      let block ← parseBlockStatement h pe k
      let r ← parseForInAlternative h pe k
      match r with
      | none => pure .nil
      | some alternative => pure (.ForInExpression tok key val iterable block alternative)

/-- Go `(*Parser).parseForInExpression`; `tok` is the token of the initial
expression. -/
def parseForInExpression (h : Host) (pe : ExpressionParser) (k : Nat) (tok : Token) :
    ParseM Node := do
  let p ← get
  if p.curToken.Type_ ≠ token.IDENT then pure .nil
  else
    let val := p.curToken.Literal
    nextToken h
    let p1 ← get
    if p1.curToken.Type_ = token.COMMA then
      nextToken h
      let p2 ← get
      if p2.curToken.Type_ ≠ token.IDENT then pure .nil
      else
        nextToken h
        parseForInRest h pe k tok val p2.curToken.Literal
    else parseForInRest h pe k tok "" val

/-- Go `(*Parser).parseForExpression`. -/
def parseForExpression (h : Host) (pe : ExpressionParser) (k : Nat) : ParseM Node := do
  let p ← get
  nextToken h
  let p1 ← get
  if p1.curToken.Type_ ≠ token.IDENT then pure .nil
  else if p1.peekToken.Type_ ≠ token.ASSIGN then parseForInExpression h pe k p.curToken
  else
    let identifier := p1.curToken.Literal
    let starter ← parseAssignStatement h pe k
    if isNilNode starter then pure .nil
    else
      nextToken h
      let condition ← pe LOWEST
      if isNilNode condition then pure .nil
      else
        nextToken h
        nextToken h
        let closer ← parseAssignStatement h pe k
        if isNilNode closer then pure .nil
        else
          let ok ← expectPeek h token.LBRACE
          if !ok then pure .nil
          else
            let block ← parseBlockStatement h pe k
            pure (.ForExpression p.curToken identifier starter condition closer block)

/-- Go `(*Parser).parseFunctionParameter`. -/
def parseFunctionParameter (h : Host) (pe : ExpressionParser) :
    ParseM ((String × Node) × Bool) := do
  let p ← get
  let ident := p.curToken.Literal
  if p.peekToken.Type_ = token.COMMA ∨ p.peekToken.Type_ = token.RPAREN then
    pure ((ident, .nil), false)
  else if p.peekToken.Type_ ≠ token.ASSIGN then
    reportError "isteğe bağlı parametre kullanımı hatalı." p.curToken
    pure ((ident, .nil), false)
  else
    nextToken h
    nextToken h
    let exp ← pe LOWEST
    pure ((ident, exp), true)

/-- The `for p.peekTokenIs(token.COMMA)` loop of Go `parseFunctionParameters`,
with its variable `foundOptionalParameter`. -/
def parseParametersLoop (h : Host) (pe : ExpressionParser) :
    Nat → List (String × Node) → Bool → ParseM (List (String × Node))
  | 0, _, _ => noFuel
  | k + 1, parameters, foundOptionalParameter => do
    let p ← get
    if p.peekToken.Type_ = token.COMMA then
      nextToken h
      nextToken h
      let (param, optional) ← parseFunctionParameter h pe
      let p1 ← get
      if foundOptionalParameter ∧ optional = false then
        reportError "zorunlu parametrenin ardından isteğe bağlı parametre bulundu." p1.curToken
      else pure ()
      parseParametersLoop h pe k (parameters ++ [param]) (foundOptionalParameter || optional)
    else pure parameters

/-- Go `(*Parser).parseFunctionParameters`; the nil slice is the empty list. -/
def parseFunctionParameters (h : Host) (pe : ExpressionParser) (k : Nat) :
    ParseM (List (String × Node)) := do
  let p ← get
  if p.peekToken.Type_ = token.RPAREN then
    nextToken h
    pure []
  else
    nextToken h
    let (param, foundOptionalParameter) ← parseFunctionParameter h pe
    let parameters ← parseParametersLoop h pe k [param] foundOptionalParameter
    let ok ← expectPeek h token.RPAREN
    if !ok then pure [] else pure parameters

/-- Go `(*Parser).parseFunctionLiteral`. -/
def parseFunctionLiteral (h : Host) (pe : ExpressionParser) (k : Nat) : ParseM Node := do
  let p ← get
  let name ←
    if p.peekToken.Type_ = token.IDENT then do
      nextToken h
      let p1 ← get
      pure p1.curToken.Literal
    else pure ""
  let ok ← expectPeek h token.LPAREN
  if !ok then pure .nil
  else
    let parameters ← parseFunctionParameters h pe k
    let ok2 ← expectPeek h token.LBRACE
    if !ok2 then pure .nil
    else
      let body ← parseBlockStatement h pe k
      pure (.FunctionLiteral p.curToken name parameters body)

/-- The expression of the expression statement `parseExpressionStatement`
returns (`exp.Expression`). -/
def statementExpression : Node → Node
  | .ExpressionStatement _ e => e
  | _ => .nil

/-- Go `(*Parser).parseDecorator`.  The deferred function runs when the body
has returned the decorator: it parses the next expression statement and stores
the function or decorator found there in `Decorated`. -/
def parseDecorator (h : Host) (pe : ExpressionParser) : ParseM Node := do
  let p ← get
  nextToken h
  let exp ← parseExpressionStatement h pe
  let expression := statementExpression exp
  nextToken h
  let exp2 ← parseExpressionStatement h pe
  match statementExpression exp2 with
  | .FunctionLiteral t name ps body => do
    if name = "" then
      reportError "isimsiz bir fonksiyonda dekaratör kullanılamaz" p.curToken
    else pure ()
    pure (.Decorator p.curToken expression (.FunctionLiteral t name ps body))
  | .Decorator t e d => pure (.Decorator p.curToken expression (.Decorator t e d))
  | _ => do
    reportError "isimsiz bir fonksiyonda dekaratör kullanılamaz" p.curToken
    pure (.Decorator p.curToken expression .nil)

/-- Modelled from the spec: `ast.Deferrable` and its method `SetDeferred` are
missing from the sources.  The deferrable expressions are call expressions,
method calls and command expressions; `none` is the failed type assertion. -/
def SetDeferred : Node → Option Node
  | .CallExpression t f a _ => some (.CallExpression t f a true)
  | .MethodExpression t o m a opt _ => some (.MethodExpression t o m a opt true)
  | .CommandExpression t v _ => some (.CommandExpression t v true)
  | _ => none

/-- Go `(*Parser).parseDefer`. -/
def parseDefer (h : Host) (pe : ExpressionParser) : ParseM Node := do
  nextToken h
  let exp ← pe 0
  match SetDeferred exp with
  | some d => pure d
  | none => do
    let p ← get
    reportError
      "sadece çağrılar beklenilebilir: bekle metod() | bekle \x60komut\x60 | bekle fonksiyon()"
      p.curToken
    pure exp

/-- The call `prefix()` of Go `parseExpression`: the registered function. -/
def callPrefixFn (h : Host) (pe : ExpressionParser) (k : Nat) : PrefixParseFn → ParseM Node
  | .parseIdentifier => parseIdentifier
  | .ParseNumberLiteral => ParseNumberLiteral h
  | .ParseStringLiteral => ParseStringLiteral
  | .ParseNullLiteral => ParseNullLiteral
  | .parsePrefixExpression => parsePrefixExpression h pe
  | .ParseBoolean => ParseBoolean
  | .parseGroupedExpression => parseGroupedExpression h pe
  | .parseIfExpression => parseIfExpression h pe k
  | .parseWhileExpression => parseWhileExpression h pe k
  | .parseForExpression => parseForExpression h pe k
  | .parseFunctionLiteral => parseFunctionLiteral h pe k
  | .ParseArrayLiteral => ParseArrayLiteral h pe k
  | .ParseHashLiteral => ParseHashLiteral h pe k
  | .parseCommand => parseCommand
  | .parseBreak => parseBreak
  | .parseContinue => parseContinue
  | .parseCurrentArgsLiteral => parseCurrentArgsLiteral
  | .parseDecorator => parseDecorator h pe
  | .parseDefer => parseDefer h pe

/-- The call `infix(leftExp)` of Go `parseExpression`: the registered function. -/
def callInfixFn (h : Host) (pe : ExpressionParser) (k : Nat) (left : Node) :
    InfixParseFn → ParseM Node
  | .parseInfixExpression => parseInfixExpression h pe left
  | .parseCompoundAssignment => parseCompoundAssignment h pe left
  | .parseQuestionExpression => parseQuestionExpression h pe k left
  | .parseDottedExpression => parseDottedExpression h pe k left
  | .parseCallExpression => parseCallExpression h pe k left
  | .parseIndexExpression => parseIndexExpression h pe left

/-- The `for` loop of Go `parseExpression`. -/
def parseInfixLoop (h : Host) (pe : ExpressionParser) (k : Nat) (precedence : Nat) :
    Nat → Node → ParseM Node
  | 0, _ => noFuel
  | j + 1, leftExp => do
    let p ← get
    if p.peekToken.Type_ ≠ token.SEMICOLON ∧ precedence < peekPrecedence p then
      match mapGet infixParseFns p.peekToken.Type_ with
      | none => pure leftExp
      | some fn => do
        nextToken h
        let leftExp ← callInfixFn h pe k leftExp fn
        parseInfixLoop h pe k precedence j leftExp
    else pure leftExp

/-- The body of Go `parseExpression`; `pe` is `parseExpression` itself, for
the calls the body makes, and `k` bounds the loops. -/
def parseExpressionStep (h : Host) (pe : ExpressionParser) (k : Nat) (precedence : Nat) :
    ParseM Node := do
  let p ← get
  match mapGet prefixParseFns p.curToken.Type_ with
  | none => do
    noPrefixParseFnError p.curToken
    pure .nil
  | some fn => do
    let leftExp ← callPrefixFn h pe k fn
    parseInfixLoop h pe k precedence k leftExp

/-- Go `(*Parser).parseExpression`, bounded by the fuel: every recursive call
runs with one unit less. -/
def parseExpression (h : Host) : Nat → ExpressionParser
  | 0, _ => noFuel
  | n + 1, precedence => parseExpressionStep h (parseExpression h n) n precedence

/-- The `for !p.curTokenIs(token.EOF)` loop of Go `ParseProgram`. -/
def parseProgramLoop (h : Host) (pe : ExpressionParser) (k : Nat) :
    Nat → List Node → ParseM (List Node)
  | 0, _ => noFuel
  | j + 1, statements => do
    let p ← get
    if p.curToken.Type_ ≠ token.EOF then
      let stmt ← parseStatement h pe k
      let statements := if isNilNode stmt = false then statements ++ [stmt] else statements
      nextToken h
      parseProgramLoop h pe k j statements
    else pure statements

/-- Go `(*Parser).ParseProgram`, with the given fuel. -/
def ParseProgram (h : Host) (fuel : Nat) : ParseM Node := do
  let statements ← parseProgramLoop h (parseExpression h fuel) fuel fuel []
  pure (.Program statements)

/-- Go `parser.New`. -/
def New (h : Host) (l : Lexer) : Outcome Parser := do
  let p : Parser :=
    { l := l, errors := [], curToken := zeroToken, peekToken := zeroToken,
      prevIndexExpression := .nil, prevPropertyExpression := .nil }
  let (_, p1) ← nextToken h p
  let (_, p2) ← nextToken h p1
  pure p2

end parser

/-- ASCII lower case of a string. -/
def asciiLower (s : String) : String := String.mk (s.data.map Char.toLower)

/-- The value of a string of decimal digits. -/
def decimalValue (s : String) : Option Int :=
  if s.data ≠ [] ∧ s.data.all Char.isDigit then
    some (s.data.foldl (fun acc c => acc * 10 + ((c.toNat - 48 : Nat) : Int)) 0)
  else none

/-- An instance of the host functions for ASCII sources whose number literals
are plain strings of decimal digits (on other literals `ParseFloat` reports
its error); the value of a literal is the float nearest to the number it
writes. -/
def asciiHost : parser.Host where
  tables := asciiTables
  ParseFloat := fun s => (decimalValue s).map float64OfInt
  Quote := fun s => "\"" ++ s ++ "\""
  ToLower := asciiLower

/-- The program the parser builds for a source and the parser it leaves. -/
def parseSource (fuel : Nat) (src : String) : Outcome (Node × parser.Parser) := do
  let l ← New src
  let p ← parser.New asciiHost l
  parser.ParseProgram asciiHost fuel p

/-- The statements of the program parsed from a source. -/
def statementsOf (fuel : Nat) (src : String) : Outcome (List Node) := do
  let (program, _) ← parseSource fuel src
  match program with
  | .Program statements => pure statements
  | _ => pure []

/-! ## Observing the parser -/

/-- The parser after `nextToken` has read the token `t`, which left the lexer
as `l` (the token that becomes current is not an illegal one). -/
def parser.advance (p : parser.Parser) (t : Token) (l : Lexer) : parser.Parser :=
  { p with curToken := p.peekToken, peekToken := t, l := l }

/-- The next `n` tokens of a lexer, as the parser reads them, and the lexer
after them. -/
def readTokens (h : parser.Host) : Nat → Lexer → Outcome (List Token × Lexer)
  | 0, l => .ok ([], l)
  | n + 1, l => do
    let (t, l1) ← NextToken h.tables (parser.lexFuel l) l
    let (ts, l2) ← readTokens h n l1
    pure (t :: ts, l2)

/-- The precedence the table gives a token type (`peekPrecedence` and
`curPrecedence` without the parser). -/
def parser.precedenceOf (tokenType : String) : Nat :=
  match mapGet parser.precedences tokenType with
  | some v => v
  | none => parser.LOWEST

/-- The binary infix operators of the precedence ladder, in the words of the
spec: each token type with its level (`&& || & | ^ << >>` at AND,
`== != ~ in !in` at EQUALS, `< <= > >= <=>` at LESSGREATER, `+ -` at SUM,
`* / ** %` at PRODUCT, `..` at RANGE). -/
def binaryOperators : List (String × Nat) :=
  [(token.AND, parser.AND), (token.OR, parser.AND), (token.BIT_AND, parser.AND),
   (token.PIPE, parser.AND), (token.BIT_XOR, parser.AND), (token.BIT_LSHIFT, parser.AND),
   (token.BIT_RSHIFT, parser.AND),
   (token.EQ, parser.EQUALS), (token.NOT_EQ, parser.EQUALS), (token.TILDE, parser.EQUALS),
   (token.IN, parser.EQUALS), (token.NOT_IN, parser.EQUALS),
   (token.LT, parser.LESSGREATER), (token.LT_EQ, parser.LESSGREATER),
   (token.GT, parser.LESSGREATER), (token.GT_EQ, parser.LESSGREATER),
   (token.COMBINED_COMP, parser.LESSGREATER),
   (token.PLUS, parser.SUM), (token.MINUS, parser.SUM),
   (token.ASTERISK, parser.PRODUCT), (token.SLASH, parser.PRODUCT),
   (token.EXPONENT, parser.PRODUCT), (token.MODULO, parser.PRODUCT),
   (token.RANGE, parser.RANGE)]

/-- The identifier node of an identifier token. -/
def identifierOf (t : Token) : Node := .Identifier t t.Literal

/-- The infix expression of an operator token and two operands. -/
def infixOf (o : Token) (left right : Node) : Node := .InfixExpression o o.Literal left right

/-- The tree the spec gives `a o1 b o2 c` for operators of the levels `lvl1`
and `lvl2`: `(a o1 b) o2 c` when `lvl1 >= lvl2`, and `a o1 (b o2 c)` otherwise. -/
def ladderTree (lvl1 lvl2 : Nat) (a o1 b o2 c : Token) : Node :=
  if lvl1 ≥ lvl2 then infixOf o2 (infixOf o1 (identifierOf a) (identifierOf b)) (identifierOf c)
  else infixOf o1 (identifierOf a) (infixOf o2 (identifierOf b) (identifierOf c))

/-- The pointwise test of two lists with the test `eq` of their elements. -/
def sameList {α : Type} (eq : α → α → Bool) : List α → List α → Bool
  | [], [] => true
  | a :: as, b :: bs => eq a b && sameList eq as bs
  | _, _ => false

/-- A test that two syntax trees are the same, for trees of a depth below the
bound `n` (deeper trees are never found equal). -/
def sameNodeAux : Nat → Node → Node → Bool
  | 0, _, _ => false
  | n + 1, a, b =>
    match a with
    | .nil =>
      match b with
      | .nil =>
        true
      | _ => false
    | .Program s1 =>
      match b with
      | .Program s2 =>
        sameList (sameNodeAux n) s1 s2
      | _ => false
    | .BlockStatement t1 s1 =>
      match b with
      | .BlockStatement t2 s2 =>
        decide (t1 = t2) && sameList (sameNodeAux n) s1 s2
      | _ => false
    | .ExpressionStatement t1 e1 =>
      match b with
      | .ExpressionStatement t2 e2 =>
        decide (t1 = t2) && sameNodeAux n e1 e2
      | _ => false
    | .ReturnStatement t1 e1 =>
      match b with
      | .ReturnStatement t2 e2 =>
        decide (t1 = t2) && sameNodeAux n e1 e2
      | _ => false
    | .AssignStatement t1 m1 ns1 i1 p1 v1 =>
      match b with
      | .AssignStatement t2 m2 ns2 i2 p2 v2 =>
        decide (t1 = t2) && decide (m1 = m2) && sameList (sameNodeAux n) ns1 ns2 &&
        sameNodeAux n i1 i2 && sameNodeAux n p1 p2 && sameNodeAux n v1 v2
      | _ => false
    | .Identifier t1 v1 =>
      match b with
      | .Identifier t2 v2 =>
        decide (t1 = t2) && decide (v1 = v2)
      | _ => false
    | .NumberLiteral t1 v1 =>
      match b with
      | .NumberLiteral t2 v2 =>
        decide (t1 = t2) && decide (v1 = v2)
      | _ => false
    | .StringLiteral t1 v1 =>
      match b with
      | .StringLiteral t2 v2 =>
        decide (t1 = t2) && decide (v1 = v2)
      | _ => false
    | .NullLiteral t1 =>
      match b with
      | .NullLiteral t2 =>
        decide (t1 = t2)
      | _ => false
    | .Boolean t1 v1 =>
      match b with
      | .Boolean t2 v2 =>
        decide (t1 = t2) && decide (v1 = v2)
      | _ => false
    | .CurrentArgsLiteral t1 =>
      match b with
      | .CurrentArgsLiteral t2 =>
        decide (t1 = t2)
      | _ => false
    | .ArrayLiteral t1 e1 =>
      match b with
      | .ArrayLiteral t2 e2 =>
        decide (t1 = t2) && sameList (sameNodeAux n) e1 e2
      | _ => false
    | .HashLiteral t1 ps1 =>
      match b with
      | .HashLiteral t2 ps2 =>
        decide (t1 = t2) &&
        sameList (fun x y => sameNodeAux n x.1 y.1 && sameNodeAux n x.2 y.2) ps1 ps2
      | _ => false
    | .PrefixExpression t1 o1 r1 =>
      match b with
      | .PrefixExpression t2 o2 r2 =>
        decide (t1 = t2) && decide (o1 = o2) && sameNodeAux n r1 r2
      | _ => false
    | .InfixExpression t1 o1 l1 r1 =>
      match b with
      | .InfixExpression t2 o2 l2 r2 =>
        decide (t1 = t2) && decide (o1 = o2) && sameNodeAux n l1 l2 && sameNodeAux n r1 r2
      | _ => false
    | .CompoundAssignment t1 o1 l1 r1 =>
      match b with
      | .CompoundAssignment t2 o2 l2 r2 =>
        decide (t1 = t2) && decide (o1 = o2) && sameNodeAux n l1 l2 && sameNodeAux n r1 r2
      | _ => false
    | .IfExpression t1 sc1 =>
      match b with
      | .IfExpression t2 sc2 =>
        decide (t1 = t2) &&
        sameList (fun x y => sameNodeAux n x.1 y.1 && sameNodeAux n x.2 y.2) sc1 sc2
      | _ => false
    | .WhileExpression t1 c1 b1 =>
      match b with
      | .WhileExpression t2 c2 b2 =>
        decide (t1 = t2) && sameNodeAux n c1 c2 && sameNodeAux n b1 b2
      | _ => false
    | .ForExpression t1 i1 s1 c1 cl1 b1 =>
      match b with
      | .ForExpression t2 i2 s2 c2 cl2 b2 =>
        decide (t1 = t2) && decide (i1 = i2) && sameNodeAux n s1 s2 && sameNodeAux n c1 c2 &&
        sameNodeAux n cl1 cl2 && sameNodeAux n b1 b2
      | _ => false
    | .ForInExpression t1 k1 v1 i1 b1 a1 =>
      match b with
      | .ForInExpression t2 k2 v2 i2 b2 a2 =>
        decide (t1 = t2) && decide (k1 = k2) && decide (v1 = v2) && sameNodeAux n i1 i2 &&
        sameNodeAux n b1 b2 && sameNodeAux n a1 a2
      | _ => false
    | .FunctionLiteral t1 m1 ps1 b1 =>
      match b with
      | .FunctionLiteral t2 m2 ps2 b2 =>
        decide (t1 = t2) && decide (m1 = m2) &&
        sameList (fun x y => decide (x.1 = y.1) && sameNodeAux n x.2 y.2) ps1 ps2 &&
        sameNodeAux n b1 b2
      | _ => false
    | .CallExpression t1 f1 a1 d1 =>
      match b with
      | .CallExpression t2 f2 a2 d2 =>
        decide (t1 = t2) && sameNodeAux n f1 f2 && sameList (sameNodeAux n) a1 a2 &&
        decide (d1 = d2)
      | _ => false
    | .MethodExpression t1 o1 m1 a1 op1 d1 =>
      match b with
      | .MethodExpression t2 o2 m2 a2 op2 d2 =>
        decide (t1 = t2) && sameNodeAux n o1 o2 && sameNodeAux n m1 m2 &&
        sameList (sameNodeAux n) a1 a2 && decide (op1 = op2) && decide (d1 = d2)
      | _ => false
    | .PropertyExpression t1 o1 p1 op1 =>
      match b with
      | .PropertyExpression t2 o2 p2 op2 =>
        decide (t1 = t2) && sameNodeAux n o1 o2 && sameNodeAux n p1 p2 && decide (op1 = op2)
      | _ => false
    | .IndexExpression t1 l1 i1 e1 r1 =>
      match b with
      | .IndexExpression t2 l2 i2 e2 r2 =>
        decide (t1 = t2) && sameNodeAux n l1 l2 && sameNodeAux n i1 i2 && sameNodeAux n e1 e2 &&
        decide (r1 = r2)
      | _ => false
    | .CommandExpression t1 v1 d1 =>
      match b with
      | .CommandExpression t2 v2 d2 =>
        decide (t1 = t2) && decide (v1 = v2) && decide (d1 = d2)
      | _ => false
    | .Decorator t1 e1 d1 =>
      match b with
      | .Decorator t2 e2 d2 =>
        decide (t1 = t2) && sameNodeAux n e1 e2 && sameNodeAux n d1 d2
      | _ => false
    | .BreakStatement t1 =>
      match b with
      | .BreakStatement t2 =>
        decide (t1 = t2)
      | _ => false
    | .ContinueStatement t1 =>
      match b with
      | .ContinueStatement t2 =>
        decide (t1 = t2)
      | _ => false

/-- The test `sameNodeAux` with a bound that the trees of the examples stay
below. -/
def sameNode (a b : Node) : Bool := sameNodeAux 40 a b

/-- The parse `o` finished with the statements `expected`. -/
def parsesTo (o : Outcome (List Node)) (expected : List Node) : Bool :=
  match o with
  | .ok statements => sameList sameNode statements expected
  | _ => false

/-- The parser `parser.New` builds for a source, on the ASCII host. -/
def parserOf (src : String) : parser.Parser :=
  match (New src).bind (parser.New asciiHost) with
  | .ok p => p
  | _ => default

/-- The lexer after the next `n` tokens have been read. -/
def lexerAfter (h : parser.Host) (n : Nat) (l : Lexer) : Lexer :=
  match readTokens h n l with
  | .ok r => r.2
  | _ => l

/-- Source of the witness of the precedence ladder. -/
def sumOfProductSrc : String := "a + b * c"

/-! ## The unary sign and the dot -/

/-- Source of the dotted expression after a unary minus. -/
def minusDottedSrc : String := "-x.y"

/-- Source of the dotted expression after a unary plus. -/
def plusDottedSrc : String := "+x.y"

/-- The tree `(s x).y` for a sign token `s`: the property expression whose
object is the prefix expression. -/
def signThenDot (s x d y : Token) : Node :=
  .PropertyExpression d (.PrefixExpression s s.Literal (identifierOf x)) (identifierOf y) false

/-- The tree `s (x.y)` for a sign token `s`: the prefix expression whose
operand is the whole dotted expression. -/
def dotThenSign (s x d y : Token) : Node :=
  .PrefixExpression s s.Literal (.PropertyExpression d (identifierOf x) (identifierOf y) false)

/-! ## Assignments to an index or a property -/

/-- The node of a token that is an expression by itself: an identifier, a
string, `null`, or a boolean. -/
def simpleNode (t : Token) : Option Node :=
  if t.Type_ = token.IDENT then some (.Identifier t t.Literal)
  else if t.Type_ = token.STRING then some (.StringLiteral t t.Literal)
  else if t.Type_ = token.NULL then some (.NullLiteral t)
  else if t.Type_ = token.TRUE ∨ t.Type_ = token.FALSE then
    some (.Boolean t (decide (t.Type_ = token.TRUE)))
  else none

/-- The index expression `a[i]` without a range. -/
def indexOf (lb a : Token) (i : Node) : Node := .IndexExpression lb (identifierOf a) i .nil false

/-- The property expression `a.p`. -/
def propertyOf (d a pr : Token) : Node :=
  .PropertyExpression d (identifierOf a) (identifierOf pr) false

/-- Source of an assignment to an index. -/
def indexAssignSrc : String := "a[i] = v"

/-- Source of an assignment to a property. -/
def propertyAssignSrc : String := "a.p = v"

/-! ## Lists of identifiers -/

/-- The next `n` tokens of a lexer, each with the lexer it leaves. -/
def lexTrace (h : parser.Host) : Nat → Lexer → Outcome (List (Token × Lexer))
  | 0, _ => .ok []
  | n + 1, l => do
    let (t, l1) ← NextToken h.tables (parser.lexFuel l) l
    let rest ← lexTrace h n l1
    pure ((t, l1) :: rest)

/-- The tokens of a list of pairs, in order. -/
def pairTokens (items : List (Token × Token)) : List Token :=
  items.flatMap (fun x => [x.1, x.2])

/-- A run of the parser finished with a result. -/
def finished {α : Type} (o : Outcome (α × parser.Parser)) : Bool :=
  match o with
  | .ok _ => true
  | _ => false

/-- The result of a finished run of the parser. -/
def resultOf {α : Type} [Inhabited α] (o : Outcome (α × parser.Parser)) : α :=
  match o with
  | .ok r => r.1
  | _ => default

/-- The parser a finished run leaves. -/
def parserAfter {α : Type} (o : Outcome (α × parser.Parser)) : parser.Parser :=
  match o with
  | .ok r => r.2
  | _ => default

/-- Source of a list that is no destructuring assignment. -/
def listWithoutAssignSrc : String := "a, b + 1"

/-- Source of a destructuring assignment. -/
def destructuringSrc : String := "a, b, c = v"

/-- The lexer `lexer.New` returns for a source. -/
def lexerOf (src : String) : Lexer :=
  match New src with
  | .ok l => l
  | _ => default

/-! ## The lexer at work on one input -/

/-- The lexer `l` reads the input of the lexer `l0` and stands at or after the
position of `l0`, its read position one past its position. -/
def readsOn (l0 l : Lexer) : Prop :=
  l.input = l0.input ∧ l.lineMap = l0.lineMap ∧ l.readPosition = l.position + 1 ∧
    0 ≤ l0.position ∧ l0.position ≤ l.position

/-- Every result of the computation `m` has the property `Q`. -/
@[irreducible] def Post {β : Type} (Q : β → Prop) (m : Outcome β) : Prop := ∀ b, m = .ok b → Q b

/-- The lexer a run of the loop of `readNumber` leaves. -/
def scannedTo : (String × String) × Lexer ⊕ Lexer → Lexer
  | .inl r => r.2
  | .inr l => l

/-! ## The parser on the tokens of its source -/

/-- The parser stands on two consecutive tokens of the lexer `l0`: some run of
`NextToken` from `l0` ends with the current token and then the peek token of
the parser, and leaves the lexer of the parser. -/
def tracedFrom (h : parser.Host) (l0 : Lexer) (p : parser.Parser) : Prop :=
  ∃ (pre : List (Token × Lexer)) (lc : Lexer),
    lexTrace h (pre.length + 2) l0 = .ok (pre ++ [(p.curToken, lc), (p.peekToken, p.l)])

/-- Every result of the parser action `m`, run by a parser that stands on two
consecutive tokens of the lexer `l0`, leaves a parser that does. -/
@[irreducible] def Keeps {α : Type} (h : parser.Host) (l0 : Lexer) (m : parser.ParseM α) : Prop :=
  ∀ (p : parser.Parser) (a : α) (p1 : parser.Parser),
    m p = .ok (a, p1) → tracedFrom h l0 p → tracedFrom h l0 p1

/-! # Theorems -/

/-! ## Monad and fuel lemmas -/

theorem bind_run {α β : Type} (x : EvalM α) (f : α → EvalM β) (s : State) :
    (x >>= f) s = match x s with
      | .ok (a, s1) => f a s1
      | .panic m => .panic m
      | .outOfFuel => .outOfFuel := by
  show (x s).bind _ = _
  cases x s <;> rfl

theorem pure_run {α : Type} (a : α) (s : State) : (pure a : EvalM α) s = .ok (a, s) := rfl
theorem get_run (s : State) : (get : EvalM State) s = .ok (s, s) := rfl

theorem lift_run {α : Type} (o : Outcome α) (s : State) :
    (monadLift o : EvalM α) s = match o with
      | .ok a => .ok (a, s)
      | .panic m => .panic m
      | .outOfFuel => .outOfFuel := by
  cases o <;> rfl

theorem Apply_succ (W : World) (n : Nat) (tok : Token) (fn : Object) (env : Nat)
    (args : List Object) :
    Apply W (n + 1) tok fn env args = applyFunction W (Eval W n) (Apply W n) n tok fn env args :=
  rfl

theorem Eval_succ (W : World) (n : Nat) (node : Node) (env : Nat) :
    Eval W (n + 1) node env = EvalStep W (Eval W n) (Apply W n) n node env :=
  rfl

theorem newError_is_Error (tok : Token) (msg : String) (s s1 : State) (r : Object)
    (h : newError tok msg s = .ok (r, s1)) : ∃ m, r = .Error m := by
  unfold newError at h
  simp only [bind_run, get_run, lift_run, pure_run] at h
  split at h
  · simp only [Outcome.ok.injEq, Prod.mk.injEq] at h
    exact ⟨_, h.1.symm⟩
  · cases h
  · cases h

/-- A sequence succeeds exactly when both of its parts do. -/
theorem bind_ok {α β : Type} (x : EvalM α) (f : α → EvalM β) (s s' : State) (b : β) :
    (x >>= f) s = .ok (b, s') ↔ ∃ a s1, x s = .ok (a, s1) ∧ f a s1 = .ok (b, s') := by
  rw [bind_run]
  cases h : x s with
  | ok p =>
    obtain ⟨a, s1⟩ := p
    constructor
    · intro hf
      exact ⟨a, s1, rfl, hf⟩
    · rintro ⟨a', s1', heq, hf⟩
      cases heq
      exact hf
  | panic m =>
    constructor
    · intro hf
      cases hf
    · rintro ⟨_, _, heq, _⟩
      cases heq
  | outOfFuel =>
    constructor
    · intro hf
      cases hf
    · rintro ⟨_, _, heq, _⟩
      cases heq

/-- Inversion of a returned value. -/
theorem pure_ok {α : Type} (a b : α) (s s' : State) :
    (pure a : EvalM α) s = .ok (b, s') ↔ a = b ∧ s = s' := by
  rw [pure_run]
  constructor
  · intro h
    cases h
    exact ⟨rfl, rfl⟩
  · rintro ⟨rfl, rfl⟩
    rfl

/-! ## Soundness of the comparisons of closed runs -/

theorem sameValue_sound : ∀ (a b : Object), sameValue a b = true → a = b := by
  intro a
  induction a with
  | ReturnValue v ih =>
    intro b h
    cases b <;> simp [sameValue] at h
    rw [ih _ h]
  | _ =>
    intro b h
    cases b <;> simp_all [sameValue]

theorem sameValues_sound : ∀ (as bs : List Object), sameValues as bs = true → as = bs := by
  intro as
  induction as with
  | nil => intro bs h; cases bs <;> simp_all [sameValues]
  | cons a as ih =>
    intro bs h
    cases bs with
    | nil => simp [sameValues] at h
    | cons b bs =>
      simp only [sameValues, Bool.and_eq_true] at h
      rw [sameValue_sound _ _ h.1, ih _ h.2]

theorem yields_sound {o : Outcome Object} {v : Object} (h : yields o v = true) : o = .ok v := by
  cases o with
  | ok a => simp only [yields] at h; rw [sameValue_sound _ _ h]
  | panic m => simp [yields] at h
  | outOfFuel => simp [yields] at h

theorem yieldsOption_sound {o : Outcome (Option Object)} {v : Option Object}
    (h : yieldsOption o v = true) : o = .ok v := by
  cases o with
  | ok a =>
    cases a <;> cases v <;> simp [yieldsOption] at h
    · rfl
    · rw [sameValue_sound _ _ h]
  | panic m => simp [yieldsOption] at h
  | outOfFuel => simp [yieldsOption] at h

theorem ok_of_valueOf {α : Type} {o : Outcome (α × State)} {v : α} (h : valueOf o = .ok v) :
    o = .ok (v, stateOf o) := by
  cases o with
  | ok p =>
    obtain ⟨a, s⟩ := p
    simp only [valueOf, Outcome.ok.injEq] at h
    rw [h]; rfl
  | panic m => simp [valueOf] at h
  | outOfFuel => simp [valueOf] at h

theorem holdsArray_sound {s : State} {r : Nat} {a : ArrayObj} (h : holdsArray s r a = true) :
    s.arrays.get? r = some a := by
  unfold holdsArray at h
  cases hb : s.arrays.get? r with
  | none => rw [hb] at h; simp at h
  | some b =>
    rw [hb] at h
    simp only [Bool.and_eq_true, beq_iff_eq] at h
    obtain ⟨e1, c1, p1⟩ := b
    obtain ⟨e2, c2, p2⟩ := a
    simp only at h
    rw [sameValues_sound _ _ h.1.1, h.1.2, h.2]

theorem samePairs_sound : ∀ (as bs : PairMap), samePairs as bs = true → as = bs := by
  intro as
  induction as with
  | nil => intro bs h; cases bs <;> simp_all [samePairs]
  | cons a as ih =>
    intro bs h
    cases bs with
    | nil => obtain ⟨k, p⟩ := a; simp [samePairs] at h
    | cons b bs =>
      obtain ⟨k, ⟨pk, pv⟩⟩ := a
      obtain ⟨k2, ⟨pk2, pv2⟩⟩ := b
      simp only [samePairs, Bool.and_eq_true, beq_iff_eq] at h
      rw [h.1.1.1, sameValue_sound _ _ h.1.1.2, sameValue_sound _ _ h.1.2, ih _ h.2]

theorem holdsMap_sound {s : State} {r : Nat} {m : PairMap} (h : holdsMap s r m = true) :
    s.maps.get? r = some m := by
  unfold holdsMap at h
  cases hb : s.maps.get? r with
  | none => rw [hb] at h; simp at h
  | some b => rw [hb] at h; rw [samePairs_sound _ _ h]

theorem holdsHash_sound {s : State} {r : Nat} {h : HashObj} (hh : holdsHash s r h = true) :
    s.hashes.get? r = some h := by
  unfold holdsHash at hh
  cases hb : s.hashes.get? r with
  | none => rw [hb] at hh; simp at hh
  | some b =>
    rw [hb] at hh
    simp only [Bool.and_eq_true, beq_iff_eq] at hh
    obtain ⟨p1, q1⟩ := b
    obtain ⟨p2, q2⟩ := h
    simp only at hh
    rw [hh.1, hh.2]

/-! ## Function application and return values -/

theorem bindParameters_error (W : World) (ev : Evaluator) (fuel : Nat) (fn : Object) (ft : Token)
    (args : List Object) (env : Nat) (params : List (String × Node)) (i : Nat) (s s1 : State)
    (e : Object) (h : bindParameters W ev fuel fn ft args env params i s = .ok (some e, s1)) :
    ∃ m, e = .Error m := by
  induction params generalizing i s with
  | nil =>
    simp only [bindParameters, pure_ok] at h
    cases h.1
  | cons p rest ih =>
    obtain ⟨pv, pd⟩ := p
    unfold bindParameters at h
    simp only [] at h
    split at h
    · simp only [bind_ok, pure_ok] at h
      obtain ⟨insp, s2, _, e1, s3, hN, he, _⟩ := h
      cases he
      exact newError_is_Error _ _ _ _ _ hN
    · cases hg : args.get? i with
      | none =>
        simp only [hg, bind_ok] at h
        obtain ⟨arg, s2, _, _, s3, _, h3⟩ := h
        exact ih _ _ h3
      | some a =>
        simp only [hg, bind_ok] at h
        obtain ⟨arg, s2, _, _, s3, _, h3⟩ := h
        exact ih _ _ h3

/-- The type tag `RETURN_VALUE` belongs to `ReturnValue` objects only. -/
theorem Type_eq_RETURN_VALUE (r : Object) :
    Type_ r = .ok object.RETURN_VALUE_OBJ ↔ ∃ w, r = .ReturnValue w := by
  cases r <;> simp [Type_, object.RETURN_VALUE_OBJ, object.NULL_OBJ, object.BOOLEAN_OBJ,
    object.NUMBER_OBJ, object.STRING_OBJ, object.ARRAY_OBJ, object.HASH_OBJ, object.FUNCTION_OBJ,
    object.BUILTIN_OBJ, object.ERROR_OBJ]

/-- What `applyFunction` does unwrap: it removes exactly one `ReturnValue`
wrapper from the value of the body, so its result has type `RETURN_VALUE`
exactly when the body evaluated to a `ReturnValue` wrapping another
`ReturnValue`; a parameter-binding error and every other body value give a
result that is not a `ReturnValue`. -/
theorem applyFunction_unwraps_one_ReturnValue (W : World) (n : Nat) (tok ft : Token)
    (name : String) (params : List (String × Node)) (body : Node) (fenv env : Nat)
    (args : List Object) (s s' : State) (r : Object)
    (h : Apply W (n + 1) tok (.Function ft name params body fenv) env args s = .ok (r, s')) :
    Type_ r = .ok object.RETURN_VALUE_OBJ ↔
      ∃ extEnv s1 w,
        extendFunctionEnv W (Eval W n) n (.Function ft name params body fenv) args s
          = .ok (.inl extEnv, s1) ∧
        Eval W n body extEnv s1 = .ok (.ReturnValue (.ReturnValue w), s') := by
  rw [Apply_succ] at h
  unfold applyFunction at h
  simp only [bind_ok] at h
  obtain ⟨x, s1, hx, h2⟩ := h
  cases x with
  | inr err =>
    simp only [pure_ok] at h2
    obtain ⟨rfl, rfl⟩ := h2
    have herr : ∃ m, err = .Error m := by
      unfold extendFunctionEnv at hx
      simp only [bind_ok] at hx
      obtain ⟨e0, s2, _, o, s3, hb, hm⟩ := hx
      cases o with
      | none => simp only [pure_ok] at hm; cases hm.1
      | some e =>
        simp only [pure_ok] at hm
        obtain ⟨he, _⟩ := hm
        cases he
        exact bindParameters_error _ _ _ _ _ _ _ _ _ _ _ _ hb
    obtain ⟨m, rfl⟩ := herr
    constructor
    · intro ht
      simp [Type_, object.RETURN_VALUE_OBJ, object.ERROR_OBJ] at ht
    · rintro ⟨extEnv, s2, w, hext, _⟩
      rw [hx] at hext
      cases hext
  | inl extEnv =>
    simp only [bind_ok, pure_ok] at h2
    obtain ⟨v, s2, hv, rfl, rfl⟩ := h2
    rw [Type_eq_RETURN_VALUE]
    constructor
    · rintro ⟨w, hw⟩
      refine ⟨extEnv, s1, w, hx, ?_⟩
      cases v with
      | ReturnValue v1 =>
        simp only [unwrapReturnValue] at hw
        subst hw
        exact hv
      | _ => simp [unwrapReturnValue] at hw
    · rintro ⟨extEnv', s1', w, hext, hbody⟩
      rw [hx] at hext
      cases hext
      rw [hv] at hbody
      cases hbody
      exact ⟨w, rfl⟩

/-- C1 (the code at the failing input): applying the function
`f() { dön eğer Doğru { dön 1 } }` to no arguments yields the object
`ReturnValue(1)`, whose type is `RETURN_VALUE`, where the result of
`applyFunction` should never have that type.  The body yields
`ReturnValue(ReturnValue(1))`, the return statement having wrapped the
`ReturnValue` of its operand, and `unwrapReturnValue` removes one wrapper
only. -/
theorem applyFunction_returns_ReturnValue :
    valueOf (Apply bareWorld 20 (tk token.LPAREN 33 "(") nestedReturnFn 0 []
      (startOf nestedReturnSrc)) = .ok (.ReturnValue (.Number 1)) ∧
    Type_ (.ReturnValue (.Number 1)) = .ok object.RETURN_VALUE_OBJ :=
  ⟨rfl, rfl⟩

/-- The lemma `applyFunction_unwraps_one_ReturnValue` on `f() { dön 1 }`: the
result is the number 1, which is no `ReturnValue`. -/
theorem applyFunction_unwraps_one_ReturnValue_witness :
    Apply bareWorld 20 (tk token.LPAREN 12 "(") plainReturnFn 0 [] (startOf plainReturnSrc)
      = .ok (.Number 1, stateOf (Apply bareWorld 20 (tk token.LPAREN 12 "(") plainReturnFn 0 []
          (startOf plainReturnSrc))) ∧
    (Type_ (.Number 1) = .ok object.RETURN_VALUE_OBJ ↔
      ∃ extEnv s1 w,
        extendFunctionEnv bareWorld (Eval bareWorld 19) 19 plainReturnFn []
          (startOf plainReturnSrc) = .ok (.inl extEnv, s1) ∧
        Eval bareWorld 19 (.BlockStatement (tk token.LBRACE 4 "\x7b")
          [.ReturnStatement (tk token.RETURN 6 "dön") (.NumberLiteral (tk token.NUMBER 10 "1") 1)])
          extEnv s1 = .ok (.ReturnValue (.ReturnValue w),
            stateOf (Apply bareWorld 20 (tk token.LPAREN 12 "(") plainReturnFn 0 []
              (startOf plainReturnSrc)))) :=
  ⟨rfl, applyFunction_unwraps_one_ReturnValue bareWorld 19 (tk token.LPAREN 12 "(") _ _ _ _ _ 0 []
    (startOf plainReturnSrc) _ (.Number 1) rfl⟩

/-! ## Deferred statements -/

theorem evalProgramLoop_eq (ev : Evaluator) (env : Nat) (stmts : List Node) (result : Object)
    (acc : List Node) :
    evalProgramLoop ev env stmts result acc =
      (runNonDeferred ev env programStop stmts result >>= fun p =>
        pure (p.1, acc ++ (stmts.take p.2).filter isDeferredStatement)) := by
  induction stmts generalizing result acc with
  | nil =>
    funext s
    simp [evalProgramLoop, runNonDeferred, bind_run, pure_run]
  | cons st rest ih =>
    funext s
    unfold evalProgramLoop runNonDeferred
    cases hd : isDeferredStatement st with
    | true =>
      simp only [if_true, ih, bind_run, pure_run]
      cases runNonDeferred ev env programStop rest result s with
      | ok p => obtain ⟨⟨r, k⟩, s1⟩ := p; simp [hd]
      | panic m => rfl
      | outOfFuel => rfl
    | false =>
      simp only [Bool.false_eq_true, if_false, bind_run]
      cases ev st env s with
      | ok p =>
        obtain ⟨v, s1⟩ := p
        cases v <;> simp only [programStop, pure_run, ih, bind_run] <;>
          first
          | (simp [hd])
          | (cases runNonDeferred ev env programStop rest _ s1 with
             | ok p => obtain ⟨⟨r, k⟩, s2⟩ := p; simp [hd]
             | panic m => rfl
             | outOfFuel => rfl)
      | panic m => rfl
      | outOfFuel => rfl

theorem evalBlockLoop_eq (ev : Evaluator) (env : Nat) (stmts : List Node) (result : Object)
    (acc : List Node) :
    evalBlockLoop ev env stmts result acc =
      (runNonDeferred ev env blockStop stmts result >>= fun p =>
        pure (p.1, acc ++ (stmts.take p.2).filter isDeferredStatement)) := by
  induction stmts generalizing result acc with
  | nil =>
    funext s
    simp [evalBlockLoop, runNonDeferred, bind_run, pure_run]
  | cons st rest ih =>
    funext s
    unfold evalBlockLoop runNonDeferred
    cases hd : isDeferredStatement st with
    | true =>
      simp only [if_true, ih, bind_run, pure_run]
      cases runNonDeferred ev env blockStop rest result s with
      | ok p => obtain ⟨⟨r, k⟩, s1⟩ := p; simp [hd]
      | panic m => rfl
      | outOfFuel => rfl
    | false =>
      simp only [Bool.false_eq_true, if_false, bind_run]
      cases ev st env s with
      | ok p =>
        obtain ⟨v, s1⟩ := p
        cases v <;>
          simp [blockStop, pure_run, ih, bind_run, lift_run, Type_, hd, object.RETURN_VALUE_OBJ,
            object.ERROR_OBJ, object.NULL_OBJ, object.BOOLEAN_OBJ, object.NUMBER_OBJ,
            object.STRING_OBJ, object.ARRAY_OBJ, object.HASH_OBJ, object.FUNCTION_OBJ,
            object.BUILTIN_OBJ] <;>
          (cases runNonDeferred ev env blockStop rest _ s1 <;> simp [hd])
      | panic m => rfl
      | outOfFuel => rfl

/-- C2 (amended): in a program and in a block the non-deferred statements are
evaluated in source order until one of them ends the scope; then the deferred
expression statements among the statements reached so far (all of them when no
statement ends the scope) are evaluated once each, in source order.  Deferred
statements placed after the statement that ended the scope are not evaluated. -/
theorem deferred_statements_run_after_scope (W : World) (n : Nat) (tok : Token)
    (statements : List Node) (env : Nat) :
    Eval W (n + 1) (.Program statements) env
      = scopeBySpec (Eval W n) programStop statements env ∧
    Eval W (n + 1) (.BlockStatement tok statements) env
      = scopeBySpec (Eval W n) blockStop statements env := by
  constructor
  · rw [Eval_succ]
    funext s
    simp only [EvalStep, evalProgram, scopeBySpec, evalProgramLoop_eq, bind_run, pure_run,
      List.nil_append]
    cases runNonDeferred (Eval W n) env programStop statements Object.nil s with
    | ok p => obtain ⟨⟨r, k⟩, s1⟩ := p; rfl
    | panic m => rfl
    | outOfFuel => rfl
  · rw [Eval_succ]
    funext s
    simp only [EvalStep, evalBlockStatement, scopeBySpec, evalBlockLoop_eq, bind_run, pure_run,
      List.nil_append]
    cases runNonDeferred (Eval W n) env blockStop statements Object.nil s with
    | ok p => obtain ⟨⟨r, k⟩, s1⟩ := p; rfl
    | panic m => rfl
    | outOfFuel => rfl

/-- C2 (counterexample): in the program `dön 1; bekle f h() { }()` the deferred
statement follows the return and is never evaluated (the name `h` it would bind
stays unbound), whereas in `bekle f h() { }(); dön 1` it is evaluated. -/
theorem deferred_after_return_not_evaluated :
    valueOf (Eval bareWorld 20 (.Program returnThenDefer) 0 (startOf returnThenDeferSrc))
      = .ok (.Number 1) ∧
    topBinding (Eval bareWorld 20 (.Program returnThenDefer) 0 (startOf returnThenDeferSrc)) "h"
      = .ok none ∧
    topBinding (Eval bareWorld 20 (.Program deferThenReturn) 0 (startOf deferThenReturnSrc)) "h"
      = .ok (some (.Function (tk token.FUNCTION 6 "f") "h" []
          (.BlockStatement (tk token.LBRACE 12 "\x7b") []) 0)) :=
  ⟨rfl, rfl, rfl⟩

/-! ## Break, continue and return in programs and while loops -/

/-- C3 (the code at the failing input): in the programs `dur; 1` and
`devam; 1` the top-level break or continue does not end the program; the next
statement is evaluated and the program yields 1, not an error.  Only when the
break is the last statement does its `BreakError` come out. -/
theorem top_level_break_does_not_end_program :
    valueOf (Eval bareWorld 20 breakThenOne 0 (startOf breakThenOneSrc)) = .ok (.Number 1) ∧
    valueOf (Eval bareWorld 20 continueThenOne 0 (startOf continueThenOneSrc))
      = .ok (.Number 1) ∧
    valueOf (Eval bareWorld 20
      (.Program [exprStmt (tk token.BREAK 0 "dur") (.BreakStatement (tk token.BREAK 0 "dur"))]) 0
      (startOf "dur")) = .ok (.BreakError "Döngü dışında \"dur\" çağrıldı\x1b[97m\n1:1> dur") :=
  ⟨rfl, rfl, rfl⟩

/-- C4 (the code at the failing input): `iken Doğru { dur }` does not evaluate
to `NULL`; the while loop hands the `BreakError` of its body, with the message
"called outside a loop", to the enclosing code, and `iken Doğru { devam }` does
the same with the `ContinueError` instead of testing the condition again. -/
theorem while_does_not_intercept_break :
    valueOf (Eval bareWorld 20 whileBreak 0 (startOf whileBreakSrc))
      = .ok (.BreakError
          "Döngü dışında \"dur\" çağrıldı\x1b[97m\n1:14> iken Doğru \x7b dur \x7d") ∧
    valueOf (Eval bareWorld 20 whileContinue 0 (startOf whileContinueSrc))
      = .ok (.ContinueError
          "Döngü dışında \"devam\" çağrıldı\x1b[97m\n1:14> iken Doğru \x7b devam \x7d") :=
  ⟨rfl, rfl⟩

/-- C5 (the code at the failing input): in
`x = 0; iken x < 2 { x = x + 1; dön x }` the `ReturnValue` of the first
iteration does not end the loop: a second iteration runs (`x` ends as 2) and the
loop yields `NULL`.  In `x = 0; iken Doğru { eğer x { y }; x = 1 }` the error
of the second iteration ends the loop but is dropped: the loop yields `NULL`. -/
theorem while_drops_return_and_late_error :
    valueOf (Eval bareWorld 20 whileReturn 0 (startOf whileReturnSrc)) = .ok NULL ∧
    topBinding (Eval bareWorld 20 whileReturn 0 (startOf whileReturnSrc)) "x"
      = .ok (some (.Number 2)) ∧
    valueOf (Eval bareWorld 20 whileLateError 0 (startOf whileLateErrorSrc)) = .ok NULL ∧
    topBinding (Eval bareWorld 20 whileLateError 0 (startOf whileLateErrorSrc)) "x"
      = .ok (some (.Number 1)) :=
  ⟨rfl, rfl, rfl, rfl⟩

/-! ## The else-block of for-in loops -/

/-- One unfolding of `loopIterable`. -/
theorem loopIterable_succ (ev : Evaluator) (next : EvalM (Object × Object)) (env : Nat)
    (key value : String) (block alt : Node) (k : Nat) (index : Int) (s : State) :
    loopIterable ev next env key value block alt (k + 1) index s =
      match next s with
      | .ok ((ky, v), s1) =>
        if iterationFinished ky v = true then
          (if index = 0 ∧ isNilNode alt = false then ev alt env else pure NULL) s1
        else
          match EnvSet env key ky s1 with
          | .ok (_, s2) =>
            match EnvSet env value v s2 with
            | .ok (_, s3) =>
              match ev block env s3 with
              | .ok (res, s4) =>
                (match res with
                  | .BreakError _ => pure NULL
                  | .Error _ => pure res
                  | .ReturnValue _ => pure res
                  | _ => loopIterable ev next env key value block alt k (index + 1)) s4
              | .panic m => .panic m
              | .outOfFuel => .outOfFuel
            | .panic m => .panic m
            | .outOfFuel => .outOfFuel
          | .panic m => .panic m
          | .outOfFuel => .outOfFuel
      | .panic m => .panic m
      | .outOfFuel => .outOfFuel := by
  rw [loopIterable.eq_def]
  simp only [bind_run]
  cases next s with
  | ok p =>
    obtain ⟨⟨ky, v⟩, s1⟩ := p
    simp only []
    cases iterationFinished ky v with
    | true => simp only [if_true]
    | false =>
      simp only [Bool.false_eq_true, if_false, bind_run]
      cases EnvSet env key ky s1 with
      | ok p2 =>
        obtain ⟨_, s2⟩ := p2
        simp only []
        cases EnvSet env value v s2 with
        | ok p3 =>
          obtain ⟨_, s3⟩ := p3
          simp only []
          cases ev block env s3 with
          | ok p4 =>
            obtain ⟨res, s4⟩ := p4
            cases res <;> rfl
          | panic m => rfl
          | outOfFuel => rfl
        | panic m => rfl
        | outOfFuel => rfl
      | panic m => rfl
      | outOfFuel => rfl
  | panic m => rfl
  | outOfFuel => rfl

/-- Past the first iteration the result of `loopIterable` does not depend on the
else-block. -/
theorem loopIterable_alt_irrelevant (ev : Evaluator) (next : EvalM (Object × Object)) (env : Nat)
    (key value : String) (block alt1 alt2 : Node) (k : Nat) (index : Int) (hi : 1 ≤ index)
    (s : State) :
    loopIterable ev next env key value block alt1 k index s =
      loopIterable ev next env key value block alt2 k index s := by
  induction k generalizing index s with
  | zero => rfl
  | succ k ih =>
    rw [loopIterable_succ, loopIterable_succ]
    cases next s with
    | ok p =>
      obtain ⟨⟨ky, v⟩, s1⟩ := p
      simp only []
      have hne : index ≠ 0 := by omega
      cases iterationFinished ky v with
      | true => simp [hne]
      | false =>
        simp only [Bool.false_eq_true, if_false]
        cases EnvSet env key ky s1 with
        | ok p2 =>
          obtain ⟨_, s2⟩ := p2
          simp only []
          cases EnvSet env value v s2 with
          | ok p3 =>
            obtain ⟨_, s3⟩ := p3
            simp only []
            cases ev block env s3 with
            | ok p4 =>
              obtain ⟨res, s4⟩ := p4
              cases res <;> simp only [] <;> exact ih (index + 1) (by omega) s4
            | panic m => rfl
            | outOfFuel => rfl
          | panic m => rfl
          | outOfFuel => rfl
        | panic m => rfl
        | outOfFuel => rfl
    | panic m => rfl
    | outOfFuel => rfl

/-- When the first call of `next` does not end the iteration, the result of
`loopIterable` does not depend on the else-block. -/
theorem loopIterable_alt_irrelevant_of_first (ev : Evaluator) (next : EvalM (Object × Object))
    (env : Nat) (key value : String) (block alt1 alt2 : Node) (k : Nat) (index : Int)
    (hi : 0 ≤ index) (s : State)
    (hfirst : ∀ ky v s1, next s = .ok ((ky, v), s1) → iterationFinished ky v = false) :
    loopIterable ev next env key value block alt1 k index s =
      loopIterable ev next env key value block alt2 k index s := by
  cases k with
  | zero => rfl
  | succ k =>
    rw [loopIterable_succ, loopIterable_succ]
    cases hn : next s with
    | ok p =>
      obtain ⟨⟨ky, v⟩, s1⟩ := p
      simp only [hfirst ky v s1 hn, Bool.false_eq_true, if_false]
      cases EnvSet env key ky s1 with
      | ok p2 =>
        obtain ⟨_, s2⟩ := p2
        simp only []
        cases EnvSet env value v s2 with
        | ok p3 =>
          obtain ⟨_, s3⟩ := p3
          simp only []
          cases ev block env s3 with
          | ok p4 =>
            obtain ⟨res, s4⟩ := p4
            cases res <;> simp only [] <;>
              exact loopIterable_alt_irrelevant ev next env key value block alt1 alt2 k
                (index + 1) (by omega) s4
          | panic m => rfl
          | outOfFuel => rfl
        | panic m => rfl
        | outOfFuel => rfl
      | panic m => rfl
      | outOfFuel => rfl
    | panic m => rfl
    | outOfFuel => rfl

/-- When the first call of `next` signals the end, `loopIterable` evaluates the
else-block (if there is one) and nothing else. -/
theorem loopIterable_of_finished (ev : Evaluator) (next : EvalM (Object × Object))
    (env : Nat) (key value : String) (block alt : Node) (k : Nat) (s s1 : State)
    (ky v : Object) (hn : next s = .ok ((ky, v), s1)) (hf : iterationFinished ky v = true)
    (halt : isNilNode alt = false) :
    loopIterable ev next env key value block alt (k + 1) 0 s = ev alt env s1 := by
  rw [loopIterable_succ, hn]
  simp [hf, halt]

/-- `Array.Next` on an array whose cursor is at the start. -/
theorem ArrayNext_first (r : Nat) (s : State) (a : ArrayObj) (ha : s.arrays.get? r = some a)
    (hp : a.position = 0) :
    ArrayNext r s =
      match a.Elements with
      | [] => .ok ((.nil, .nil), s)
      | e :: _ => .ok ((.Number 0, e), { s with arrays := setAt s.arrays r { a with position := 1 } })
      := by
  unfold ArrayNext
  simp only [bind_run, getArray, ha, hp]
  cases hE : a.Elements with
  | nil => simp [pure_run]
  | cons e es =>
    simp [pure_run, bind_run, putArray]

/-- Reading a Go map after a write. -/
theorem mapGet_mapSet {κ ν : Type} [DecidableEq κ] (m : List (κ × ν)) (k k1 : κ) (v : ν) :
    mapGet (mapSet m k v) k1 = if k = k1 then some v else mapGet m k1 := by
  induction m with
  | nil =>
    simp only [mapSet, mapGet]
  | cons e rest ih =>
    obtain ⟨k0, v0⟩ := e
    simp only [mapSet]
    by_cases h0 : k0 = k
    · subst h0
      simp only [if_true, mapGet]
      by_cases h1 : k0 = k1 <;> simp [h1]
    · simp only [h0, if_false, mapGet, ih]
      by_cases h1 : k0 = k1
      · subst h1
        have : ¬ k = k0 := fun h => h0 h.symm
        simp [this]
      · simp [h1]

/-- `sort.Strings` permutes its input. -/
theorem sortStrings_perm (l : List String) : (sortStrings l).Perm l :=
  List.perm_insertionSort _ l

/-- The keys and pairs collected by the first loop of `Hash.Next`: every key is
the inspect string of the key object of the pair stored under it, and that pair
is a pair of the Go map. -/
theorem hashNextCollect_inv (W : World) (s : State) (fuel : Nat) (P : HashPair → Prop)
    (m : PairMap) (pairs0 : List (String × HashPair)) (keys0 : List String)
    (pairs : List (String × HashPair)) (keys : List String)
    (hP : ∀ e ∈ m, P e.2)
    (h0 : ∀ k ∈ keys0, ∃ p, mapGet pairs0 k = some p ∧ inspectAux W s fuel false p.Key = .ok k ∧ P p)
    (h : hashNextCollect W s fuel m pairs0 keys0 = .ok (pairs, keys)) :
    (∀ k ∈ keys, ∃ p, mapGet pairs k = some p ∧ inspectAux W s fuel false p.Key = .ok k ∧ P p) ∧
      keys.length = keys0.length + m.length := by
  induction m generalizing pairs0 keys0 with
  | nil =>
    simp only [hashNextCollect, Outcome.ok.injEq, Prod.mk.injEq] at h
    obtain ⟨rfl, rfl⟩ := h
    exact ⟨h0, by simp⟩
  | cons e rest ih =>
    obtain ⟨hk, v⟩ := e
    unfold hashNextCollect at h
    cases hi : inspectAux W s fuel false v.Key with
    | ok k =>
      rw [hi] at h
      have h' : hashNextCollect W s fuel rest (mapSet pairs0 k v) (keys0 ++ [k]) = .ok (pairs, keys) := h
      have := ih (mapSet pairs0 k v) (keys0 ++ [k]) (fun e he => hP e (List.mem_cons_of_mem _ he))
        (by
          intro k1 hk1
          rw [mapGet_mapSet]
          by_cases hkk : k = k1
          · subst hkk
            exact ⟨v, by simp, hi, hP (hk, v) (List.mem_cons_self _ _)⟩
          · simp only [hkk, if_false]
            rcases List.mem_append.mp hk1 with hk1 | hk1
            · exact h0 k1 hk1
            · simp only [List.mem_singleton] at hk1
              exact absurd hk1.symm hkk) h'
      refine ⟨this.1, ?_⟩
      rw [this.2]
      simp
      omega
    | panic msg => rw [hi] at h; cases h
    | outOfFuel => rw [hi] at h; cases h

/-- The nil interface value has no inspect string. -/
theorem inspectAux_nil (W : World) (s : State) (fuel : Nat) (json : Bool) (k : String) :
    inspectAux W s fuel json .nil ≠ .ok k := by
  cases fuel <;> simp [inspectAux]

/-- `Hash.Next` on a non-empty hash whose cursor is at the start returns a pair
of the Go map under a key object that is not nil. -/
theorem HashNext_first (W : World) (fuel : Nat) (r : Nat) (s s1 : State) (h : HashObj)
    (m : PairMap) (P : HashPair → Prop) (hh : s.hashes.get? r = some h)
    (hm : s.maps.get? h.Pairs = some m) (hp : h.Position = 0) (hne : m ≠ [])
    (hP : ∀ e ∈ m, P e.2) (ky v : Object)
    (hnext : HashNext W fuel r s = .ok ((ky, v), s1)) :
    ky ≠ .nil ∧ ∃ p, P p ∧ p.Value = v := by
  unfold HashNext at hnext
  simp only [bind_ok] at hnext
  obtain ⟨h', s2, hh2, m', s3, hm2, s4, s5, hget, ⟨pairs, keys⟩, s6, hcol, hrest⟩ := hnext
  simp only [getHash, hh, Outcome.ok.injEq, Prod.mk.injEq] at hh2
  obtain ⟨rfl, rfl⟩ := hh2
  simp only [getMap, hm, Outcome.ok.injEq, Prod.mk.injEq] at hm2
  obtain ⟨rfl, rfl⟩ := hm2
  simp only [get_run, Outcome.ok.injEq, Prod.mk.injEq] at hget
  obtain ⟨rfl, rfl⟩ := hget
  simp only [lift_run] at hcol
  cases hc : hashNextCollect W s fuel m [] [] with
  | ok pk =>
    rw [hc] at hcol
    simp only [Outcome.ok.injEq, Prod.mk.injEq] at hcol
    obtain ⟨rfl, rfl⟩ := hcol
    have inv := hashNextCollect_inv W s fuel P m [] [] pairs keys hP (by simp) hc
    have hlen : (sortStrings keys).length = m.length := by
      rw [(sortStrings_perm keys).length_eq, inv.2]
      simp
    cases hs : sortStrings keys with
    | nil =>
      rw [hs] at hlen
      cases m with
      | nil => exact absurd rfl hne
      | cons _ _ => simp at hlen
    | cons k0 ks =>
      have hk0 : k0 ∈ keys := (sortStrings_perm keys).subset (by rw [hs]; exact List.mem_cons_self _ _)
      obtain ⟨p, hp1, hp2, hp3⟩ := inv.1 k0 hk0
      simp only [hs, hashNextScan, hp, if_true, hp1, Option.getD_some, bind_ok, pure_ok] at hrest
      obtain ⟨_, _, _, hkv, _⟩ := hrest
      cases hkv
      refine ⟨?_, p, hp3, rfl⟩
      intro hnil
      rw [hnil] at hp2
      exact inspectAux_nil W s fuel false k0 hp2
  | panic msg => rw [hc] at hcol; cases hcol
  | outOfFuel => rw [hc] at hcol; cases hcol

/-- Looking a name up leaves the heap alone. -/
theorem EnvGet_state (r : Nat) (name : String) (s s1 : State) (v : Option Object)
    (h : EnvGet r name s = .ok (v, s1)) : s1 = s := by
  unfold EnvGet at h
  split at h
  · simp only [Outcome.ok.injEq, Prod.mk.injEq] at h
    exact h.2.symm
  · cases h
  · cases h

/-- `Hash.Next` on an empty hash signals the end and leaves the heap alone. -/
theorem HashNext_empty (W : World) (fuel : Nat) (r : Nat) (s : State) (h : HashObj)
    (hh : s.hashes.get? r = some h) (hm : s.maps.get? h.Pairs = some []) :
    HashNext W fuel r s = .ok ((.nil, .nil), s) := by
  unfold HashNext
  simp only [bind_run, getHash, hh, getMap, hm, get_run, lift_run, hashNextCollect]
  simp [sortStrings, hashNextScan, pure_run]

/-- The end test fails for a key that is not nil and a value that is not the
sentinel. -/
theorem iterationFinished_false (ky v : Object) (hk : ky ≠ .nil) (hv : v ≠ EOF) :
    iterationFinished ky v = false := by
  unfold iterationFinished
  split
  · exact absurd rfl hk
  · exact absurd rfl hv
  · rfl

theorem forIn_array_nonempty (W : World) (ev : Evaluator) (k : Nat) (tok : Token)
    (key value : String) (iterNode block alt alt1 : Node) (env : Nat) (s s1 : State) (r : Nat)
    (a : ArrayObj) (e : Object) (es : List Object)
    (hiter : ev iterNode env s = .ok (.Array r, s1)) (ha : s1.arrays.get? r = some a)
    (hp : a.position = 0) (hE : a.Elements = e :: es) (he : e ≠ EOF) :
    evalForInExpression W ev k tok key value iterNode block alt env s =
      evalForInExpression W ev k tok key value iterNode block alt1 env s := by
  unfold evalForInExpression
  simp only [bind_run, hiter]
  cases hk : EnvGet env key s1 with
  | ok p =>
    obtain ⟨ek, s2⟩ := p
    cases EnvGet_state _ _ _ _ _ hk
    simp only []
    cases hv : EnvGet env value s1 with
    | ok p2 =>
      obtain ⟨evv, s3⟩ := p2
      cases EnvGet_state _ _ _ _ _ hv
      simp only [bind_run]
      rw [loopIterable_alt_irrelevant_of_first ev (ArrayNext r) env key value block alt alt1 k 0
        (le_refl _) s1]
      intro ky v s4 hn
      rw [ArrayNext_first r s1 a ha hp, hE] at hn
      simp only [Outcome.ok.injEq, Prod.mk.injEq] at hn
      obtain ⟨⟨rfl, rfl⟩, _⟩ := hn
      exact iterationFinished_false _ _ (by simp) he
    | panic m => rfl
    | outOfFuel => rfl
  | panic m => rfl
  | outOfFuel => rfl

theorem forIn_hash_nonempty (W : World) (ev : Evaluator) (k : Nat) (tok : Token)
    (key value : String) (iterNode block alt alt1 : Node) (env : Nat) (s s1 : State) (r : Nat)
    (h : HashObj) (m : PairMap)
    (hiter : ev iterNode env s = .ok (.Hash r, s1)) (hh : s1.hashes.get? r = some h)
    (hm : s1.maps.get? h.Pairs = some m) (hp : h.Position = 0) (hne : m ≠ [])
    (hv : ∀ e ∈ m, e.2.Value ≠ EOF) :
    evalForInExpression W ev k tok key value iterNode block alt env s =
      evalForInExpression W ev k tok key value iterNode block alt1 env s := by
  unfold evalForInExpression
  simp only [bind_run, hiter]
  cases hk : EnvGet env key s1 with
  | ok p =>
    obtain ⟨ek, s2⟩ := p
    cases EnvGet_state _ _ _ _ _ hk
    simp only []
    cases hval : EnvGet env value s1 with
    | ok p2 =>
      obtain ⟨evv, s3⟩ := p2
      cases EnvGet_state _ _ _ _ _ hval
      simp only [bind_run]
      rw [loopIterable_alt_irrelevant_of_first ev (HashNext W k r) env key value block alt alt1 k 0
        (le_refl _) s1]
      intro ky v s4 hn
      obtain ⟨hky, p, hpv, rfl⟩ :=
        HashNext_first W k r s1 s4 h m (fun p => p.Value ≠ EOF) hh hm hp hne hv ky v hn
      exact iterationFinished_false _ _ hky hpv
    | panic m => rfl
    | outOfFuel => rfl
  | panic m => rfl
  | outOfFuel => rfl

theorem forIn_array_empty (W : World) (ev : Evaluator) (k : Nat) (tok : Token)
    (key value : String) (iterNode block alt : Node) (env : Nat) (s s1 : State) (r : Nat)
    (a : ArrayObj)
    (hiter : ev iterNode env s = .ok (.Array r, s1)) (ha : s1.arrays.get? r = some a)
    (hp : a.position = 0) (hE : a.Elements = []) (halt : isNilNode alt = false) :
    evalForInExpression W ev (k + 1) tok key value iterNode block alt env s =
      forInElseOnly ev (ArrayReset r) key value alt env s1 := by
  unfold evalForInExpression forInElseOnly
  simp only [bind_run, hiter]
  cases hk : EnvGet env key s1 with
  | ok p =>
    obtain ⟨ek, s2⟩ := p
    cases EnvGet_state _ _ _ _ _ hk
    simp only []
    cases hval : EnvGet env value s1 with
    | ok p2 =>
      obtain ⟨evv, s3⟩ := p2
      cases EnvGet_state _ _ _ _ _ hval
      simp only [bind_run]
      have hn : ArrayNext r s1 = .ok ((.nil, .nil), s1) := by
        rw [ArrayNext_first r s1 a ha hp, hE]
      rw [loopIterable_of_finished ev (ArrayNext r) env key value block alt k s1 s1 .nil .nil hn rfl
        halt]
      cases ev alt env s1 with
      | ok p3 =>
        obtain ⟨res, s4⟩ := p3
        simp only []
        cases ArrayReset r s4 with
        | ok p4 =>
          obtain ⟨_, s5⟩ := p4
          simp only []
          cases restoreIdentifier env key ek s5 with
          | ok p5 => rfl
          | panic m => rfl
          | outOfFuel => rfl
        | panic m => rfl
        | outOfFuel => rfl
      | panic m => rfl
      | outOfFuel => rfl
    | panic m => rfl
    | outOfFuel => rfl
  | panic m => rfl
  | outOfFuel => rfl

theorem forIn_hash_empty (W : World) (ev : Evaluator) (k : Nat) (tok : Token)
    (key value : String) (iterNode block alt : Node) (env : Nat) (s s1 : State) (r : Nat)
    (h : HashObj)
    (hiter : ev iterNode env s = .ok (.Hash r, s1)) (hh : s1.hashes.get? r = some h)
    (hm : s1.maps.get? h.Pairs = some []) (halt : isNilNode alt = false) :
    evalForInExpression W ev (k + 1) tok key value iterNode block alt env s =
      forInElseOnly ev (HashReset r) key value alt env s1 := by
  unfold evalForInExpression forInElseOnly
  simp only [bind_run, hiter]
  cases hk : EnvGet env key s1 with
  | ok p =>
    obtain ⟨ek, s2⟩ := p
    cases EnvGet_state _ _ _ _ _ hk
    simp only []
    cases hval : EnvGet env value s1 with
    | ok p2 =>
      obtain ⟨evv, s3⟩ := p2
      cases EnvGet_state _ _ _ _ _ hval
      simp only [bind_run]
      rw [loopIterable_of_finished ev (HashNext W (k + 1) r) env key value block alt k s1 s1 .nil .nil
        (HashNext_empty W (k + 1) r s1 h hh hm) rfl halt]
      cases ev alt env s1 with
      | ok p3 =>
        obtain ⟨res, s4⟩ := p3
        simp only []
        cases HashReset r s4 with
        | ok p4 =>
          obtain ⟨_, s5⟩ := p4
          simp only []
          cases restoreIdentifier env key ek s5 with
          | ok p5 => rfl
          | panic m => rfl
          | outOfFuel => rfl
        | panic m => rfl
        | outOfFuel => rfl
      | panic m => rfl
      | outOfFuel => rfl
    | panic m => rfl
    | outOfFuel => rfl
  | panic m => rfl
  | outOfFuel => rfl

/-- C6 (amended): a for-in loop with an else-block over an array or hash whose
cursor is at the start.  When the iterable is empty the loop is the evaluation
of the else-block, once, followed by the reset of the iterable and the
restoration of the identifiers; the body is not evaluated.  When the iterable
is non-empty (and holds no end-of-input sentinel) the outcome is the same
whatever the else-block is: the else-block is not evaluated. -/
theorem forIn_else_block (W : World) (ev : Evaluator) (k : Nat) (tok : Token)
    (key value : String) (iterNode block alt : Node) (env : Nat) (s s1 : State) (r : Nat)
    (halt : isNilNode alt = false) :
    (∀ a, ev iterNode env s = .ok (.Array r, s1) → s1.arrays.get? r = some a →
      a.position = 0 →
        (a.Elements = [] →
          evalForInExpression W ev (k + 1) tok key value iterNode block alt env s =
            forInElseOnly ev (ArrayReset r) key value alt env s1) ∧
        (a.Elements ≠ [] → (∀ e ∈ a.Elements, e ≠ EOF) → ∀ alt1,
          evalForInExpression W ev k tok key value iterNode block alt env s =
            evalForInExpression W ev k tok key value iterNode block alt1 env s)) ∧
    (∀ h m, ev iterNode env s = .ok (.Hash r, s1) → s1.hashes.get? r = some h →
      s1.maps.get? h.Pairs = some m → h.Position = 0 →
        (m = [] →
          evalForInExpression W ev (k + 1) tok key value iterNode block alt env s =
            forInElseOnly ev (HashReset r) key value alt env s1) ∧
        (m ≠ [] → (∀ e ∈ m, e.2.Value ≠ EOF) → ∀ alt1,
          evalForInExpression W ev k tok key value iterNode block alt env s =
            evalForInExpression W ev k tok key value iterNode block alt1 env s)) := by
  constructor
  · intro a hiter ha hp
    constructor
    · intro hE
      exact forIn_array_empty W ev k tok key value iterNode block alt env s s1 r a hiter ha hp hE
        halt
    · intro hne hno alt1
      cases hE : a.Elements with
      | nil => exact absurd hE hne
      | cons e es =>
        exact forIn_array_nonempty W ev k tok key value iterNode block alt alt1 env s s1 r a e es
          hiter ha hp hE (hno e (by rw [hE]; exact List.mem_cons_self _ _))
  · intro h m hiter hh hm hp
    constructor
    · intro hE
      subst hE
      exact forIn_hash_empty W ev k tok key value iterNode block alt env s s1 r h hiter hh hm halt
    · intro hne hno alt1
      exact forIn_hash_nonempty W ev k tok key value iterNode block alt alt1 env s s1 r h m hiter
        hh hm hp hne hno

/-- C6 (counterexample): in
`a = [1]; döngü x in a { dön döngü y in a { } yoksa { 7 } }` the inner loop runs
over the non-empty array `a` while the cursor of `a` is past its only element,
so its else-block `{ 7 }` is evaluated and the program yields 7. -/
theorem forIn_else_runs_on_nonempty_array :
    valueOf (Eval bareWorld 30 nestedForIn 0 (startOf nestedForInSrc)) = .ok (.Number 7) :=
  yields_sound (by decide!)

/-- Witness of `forIn_else_block`: the loops over `[]`, `[1]`, `{}` and
`{"k": 1}` with body `{ 8 }` and else-block `{ 7 }`. -/
theorem forIn_else_block_witness :
    (evalForInExpression bareWorld (Eval bareWorld 20) 21 (tk token.FOR 0 "döngü") "" "x"
        emptyArrayLit eightBlock sevenBlock 0 (startOf "")
      = forInElseOnly (Eval bareWorld 20) (ArrayReset 0) "" "x" sevenBlock 0
          (stateOf (Eval bareWorld 20 emptyArrayLit 0 (startOf "")))) ∧
    (evalForInExpression bareWorld (Eval bareWorld 20) 21 (tk token.FOR 0 "döngü") "" "x"
        oneArrayLit eightBlock sevenBlock 0 (startOf "")
      = evalForInExpression bareWorld (Eval bareWorld 20) 21 (tk token.FOR 0 "döngü") "" "x"
        oneArrayLit eightBlock eightBlock 0 (startOf "")) ∧
    (evalForInExpression bareWorld (Eval bareWorld 20) 21 (tk token.FOR 0 "döngü") "" "x"
        emptyHashLit eightBlock sevenBlock 0 (startOf "")
      = forInElseOnly (Eval bareWorld 20) (HashReset 0) "" "x" sevenBlock 0
          (stateOf (Eval bareWorld 20 emptyHashLit 0 (startOf "")))) ∧
    (evalForInExpression bareWorld (Eval bareWorld 20) 21 (tk token.FOR 0 "döngü") "" "x"
        oneHashLit eightBlock sevenBlock 0 (startOf "")
      = evalForInExpression bareWorld (Eval bareWorld 20) 21 (tk token.FOR 0 "döngü") "" "x"
        oneHashLit eightBlock eightBlock 0 (startOf "")) :=
  ⟨((forIn_else_block bareWorld (Eval bareWorld 20) 20 (tk token.FOR 0 "döngü") "" "x"
      emptyArrayLit eightBlock sevenBlock 0 (startOf "")
      (stateOf (Eval bareWorld 20 emptyArrayLit 0 (startOf ""))) 0 rfl).1
      { Elements := [], IsCurrentArgs := false, position := 0 }
      (ok_of_valueOf (yields_sound (by decide!))) (holdsArray_sound (by decide!)) rfl).1 rfl,
   ((forIn_else_block bareWorld (Eval bareWorld 20) 21 (tk token.FOR 0 "döngü") "" "x"
      oneArrayLit eightBlock sevenBlock 0 (startOf "")
      (stateOf (Eval bareWorld 20 oneArrayLit 0 (startOf ""))) 0 rfl).1
      { Elements := [.Number 1], IsCurrentArgs := false, position := 0 }
      (ok_of_valueOf (yields_sound (by decide!))) (holdsArray_sound (by decide!)) rfl).2
      (by simp) (by simp [EOF]) eightBlock,
   ((forIn_else_block bareWorld (Eval bareWorld 20) 20 (tk token.FOR 0 "döngü") "" "x"
      emptyHashLit eightBlock sevenBlock 0 (startOf "")
      (stateOf (Eval bareWorld 20 emptyHashLit 0 (startOf ""))) 0 rfl).2
      { Pairs := 0, Position := 0 } []
      (ok_of_valueOf (yields_sound (by decide!))) (holdsHash_sound (by decide!))
      (holdsMap_sound (by decide!)) rfl).1 rfl,
   ((forIn_else_block bareWorld (Eval bareWorld 20) 21 (tk token.FOR 0 "döngü") "" "x"
      oneHashLit eightBlock sevenBlock 0 (startOf "")
      (stateOf (Eval bareWorld 20 oneHashLit 0 (startOf ""))) 0 rfl).2
      { Pairs := 0, Position := 0 } [pairOf "k" (.Number 1)]
      (ok_of_valueOf (yields_sound (by decide!))) (holdsHash_sound (by decide!))
      (holdsMap_sound (by decide!)) rfl).2
      (by simp) (by simp [EOF, pairOf]) eightBlock⟩

/-! ## Short-circuit operators -/

/-- C7: short-circuit evaluation.  `l && r` evaluates `l`; when `l` yields a
falsy value that value is the result unchanged and `r` is not evaluated,
otherwise the result is the value of `r`.  `l || r` evaluates `l`; when `l`
yields a truthy value that value is the result unchanged and `r` is not
evaluated, otherwise the result is the value of `r`.  (An error of `l` is the
result of either expression and `r` is not evaluated, by the rule that an
error ends the evaluation of an expression.)  In particular
`Yanlış && undefined_name` is `false` and `Doğru || undefined_name` is `true`,
without an error. -/
theorem short_circuit_and_or (W : World) (n : Nat) (tok : Token) (l r : Node) (env : Nat)
    (s : State) :
    (Eval W (n + 1) (.InfixExpression tok "&&" l r) env s =
      match Eval W n l env s with
      | .ok (lv, s1) =>
        if isError lv = true ∨ isTruthy lv = false then .ok (lv, s1) else Eval W n r env s1
      | .panic m => .panic m
      | .outOfFuel => .outOfFuel) ∧
    (Eval W (n + 1) (.InfixExpression tok "||" l r) env s =
      match Eval W n l env s with
      | .ok (lv, s1) => if isTruthy lv = true then .ok (lv, s1) else Eval W n r env s1
      | .panic m => .panic m
      | .outOfFuel => .outOfFuel) ∧
    valueOf (Eval bareWorld 20 falseAndUnbound 0 (startOf falseAndUnboundSrc)) = .ok FALSE ∧
    valueOf (Eval bareWorld 20 trueOrUnbound 0 (startOf trueOrUnboundSrc)) = .ok TRUE := by
  refine ⟨?_, ?_, rfl, rfl⟩
  · rw [Eval_succ]
    simp only [EvalStep]
    unfold evalInfixExpression
    rw [bind_run]
    cases Eval W n l env s with
    | ok p =>
      obtain ⟨lv, s1⟩ := p
      simp only []
      cases he : isError lv <;> cases ht : isTruthy lv <;> simp [pure_run]
    | panic m => rfl
    | outOfFuel => rfl
  · rw [Eval_succ]
    simp only [EvalStep]
    unfold evalInfixExpression
    rw [bind_run]
    cases Eval W n l env s with
    | ok p =>
      obtain ⟨lv, s1⟩ := p
      simp only []
      cases lv <;> simp [isError, isTruthy, pure_run] <;> split <;> rfl
    | panic m => rfl
    | outOfFuel => rfl

/-- The rule for errors in `l && r`: in `x && 1` with `x` unbound the left
operand yields an error object, and that error is the result; the right
operand does not replace it (`isTruthy` alone would count the error object as
truthy). -/
theorem and_with_failing_left_operand :
    valueOf (Eval bareWorld 20 andUnbound 0 (startOf andUnboundSrc))
      = .ok (.Error "Bulunamadı: x\x1b[97m\n1:1> x && 1") ∧
    isTruthy (.Error "Bulunamadı: x\x1b[97m\n1:1> x && 1") = true ∧
    valueOf (Eval bareWorld 19 (.NumberLiteral (tk token.NUMBER 5 "1") 1) 0
      (startOf andUnboundSrc)) = .ok (.Number 1) :=
  ⟨rfl, rfl, rfl⟩

/-! ## Hash addition -/

/-- The two maps of the heap `twoHashes` are keyed by the hash keys of their keys,
without repetition. -/
theorem twoHashes_wellKeyed :
    WellKeyed [pairOf "b" (.Number 3), pairOf "a" (.Number 2)] ∧
    WellKeyed [pairOf "a" (.Number 1), pairOf "c" (.Number 5)] := by
  constructor <;> (constructor <;> simp [pairOf, hashKeyOf, stringHashKey])

/-- A key that is not in a Go map reads as absent. -/
theorem mapGet_eq_none {κ ν : Type} [DecidableEq κ] (m : List (κ × ν)) (k : κ)
    (h : k ∉ m.map Prod.fst) : mapGet m k = none := by
  induction m with
  | nil => rfl
  | cons e rest ih =>
    obtain ⟨k0, v0⟩ := e
    simp only [List.map_cons, List.mem_cons, not_or] at h
    simp only [mapGet]
    rw [if_neg (fun hk => h.1 hk.symm)]
    exact ih h.2

/-- The merge loop of hash `+`: afterwards a key reads as in the right map when
it is one of its keys, and as in the left map otherwise. -/
theorem mergePairs_spec (gm : PairMap) (wf : WellKeyed gm) (lm : PairMap) :
    ∃ merged, mergePairs lm gm = .ok merged ∧
      ∀ key, mapGet merged key =
        match mapGet gm key with
        | some p => some { Key := p.Key, Value := p.Value }
        | none => mapGet lm key := by
  induction gm generalizing lm with
  | nil => exact ⟨lm, rfl, fun key => rfl⟩
  | cons e rest ih =>
    obtain ⟨hk, p⟩ := e
    have hkey : hashKeyOf p.Key = some hk := wf.1 (hk, p) (List.mem_cons_self _ _)
    have hnd : hk ∉ rest.map Prod.fst ∧ (rest.map Prod.fst).Nodup := by
      have := wf.2
      simp only [List.map_cons, List.nodup_cons] at this
      exact this
    have wf' : WellKeyed rest := ⟨fun e he => wf.1 e (List.mem_cons_of_mem _ he), hnd.2⟩
    obtain ⟨merged, hm, hspec⟩ := ih wf' (mapSet lm hk { Key := p.Key, Value := p.Value })
    refine ⟨merged, ?_, ?_⟩
    · simp only [mergePairs, hkey]
      exact hm
    · intro key
      rw [hspec key]
      simp only [mapGet]
      by_cases hkk : hk = key
      · subst hkk
        rw [mapGet_eq_none rest hk hnd.1, mapGet_mapSet]
        simp
      · rw [mapGet_mapSet]
        simp only [hkk, if_false]

/-- Reading a list cell that has just been written. -/
theorem get?_setAt {α : Type} (l : List α) (i : Nat) (a b : α) (h : l.get? i = some b) :
    (setAt l i a).get? i = some a := by
  unfold setAt
  have hi : i < l.length := by
    by_contra hc
    rw [List.get?_eq_none.mpr (by omega)] at h
    cases h
  simp [List.getElem?_set, hi]

/-- Indexing a hash by a string reads the map. -/
theorem evalHashIndexExpression_string (tok : Token) (r : Nat) (k : String)
    (ok done : Option Bool) (s : State) (h : HashObj) (m : PairMap)
    (hh : s.hashes.get? r = some h) (hm : s.maps.get? h.Pairs = some m) :
    evalHashIndexExpression tok (.Hash r) (.String k ok done) s =
      .ok ((hashLookup s r k).getD NULL, s) := by
  unfold evalHashIndexExpression hashLookup
  simp only [bind_run, getHash, hh, hashKeyOf, getMap, hm]
  cases mapGet m (stringHashKey k) <;> rfl

/-- C8: hash `+` is a right-biased merge.  For hashes `h` and `g` of the heap
(the map of `g` well keyed), `h + g` evaluates to a hash, and indexing it by a
string key `k` gives the value `g` holds under `k` when `k` is a key of `g`,
the value `h` holds under `k` when `k` is a key of `h` only, and `NULL` when
`k` is a key of neither; `hashLookup` is what indexing `g` and `h` themselves
by `k` reads. -/
theorem hash_plus_right_biased (tok : Token) (s : State) (h g : Nat) (hh gh : HashObj)
    (hm gm : PairMap)
    (hhh : s.hashes.get? h = some hh) (hhm : s.maps.get? hh.Pairs = some hm)
    (hgh : s.hashes.get? g = some gh) (hgm : s.maps.get? gh.Pairs = some gm)
    (wf : WellKeyed gm) :
    ∃ r s', evalHashInfixExpression tok "+" (.Hash h) (.Hash g) s = .ok (.Hash r, s') ∧
      ∀ k : String,
        evalHashIndexExpression tok (.Hash r) (.String k none none) s' =
          .ok ((match hashLookup s g k with
                | some v => v
                | none =>
                  match hashLookup s h k with
                  | some v => v
                  | none => NULL), s') ∧
        evalHashIndexExpression tok (.Hash g) (.String k none none) s =
          .ok ((hashLookup s g k).getD NULL, s) ∧
        evalHashIndexExpression tok (.Hash h) (.String k none none) s =
          .ok ((hashLookup s h k).getD NULL, s) := by
  obtain ⟨merged, hmerge, hspec⟩ := mergePairs_spec gm wf hm
  refine ⟨s.hashes.length,
    { s with maps := setAt s.maps hh.Pairs merged,
             hashes := s.hashes ++ [{ Pairs := hh.Pairs, Position := 0 }] }, ?_, ?_⟩
  · unfold evalHashInfixExpression
    simp only [bind_run, getHash, hhh, hgh, getMap, hhm, hgm, lift_run, hmerge, putMap, newHash,
      if_true]
  · intro k
    refine ⟨?_, evalHashIndexExpression_string tok g k none none s gh gm hgh hgm,
      evalHashIndexExpression_string tok h k none none s hh hm hhh hhm⟩
    have h1 : (s.hashes ++ [({ Pairs := hh.Pairs, Position := 0 } : HashObj)]).get? s.hashes.length
        = some { Pairs := hh.Pairs, Position := 0 } := by
      simp
    have h2 : (setAt s.maps hh.Pairs merged).get? hh.Pairs = some merged :=
      get?_setAt s.maps hh.Pairs merged hm hhm
    rw [evalHashIndexExpression_string tok s.hashes.length k none none _
      { Pairs := hh.Pairs, Position := 0 } merged h1 h2]
    congr 2
    simp only [hashLookup, h1, h2, hgh, hgm, hhh, hhm, hspec]
    cases mapGet gm (stringHashKey k) with
    | some p => rfl
    | none =>
      cases mapGet hm (stringHashKey k) with
      | some p => rfl
      | none => rfl

/-- Witness of `hash_plus_right_biased`: `{"a": 1, "c": 5} + {"b": 3, "a": 2}`. -/
theorem hash_plus_right_biased_witness :
    ∃ r s1, evalHashInfixExpression (tk token.PLUS 0 "+") "+" (.Hash 0) (.Hash 1) twoHashes
        = .ok (.Hash r, s1) ∧
      ∀ k : String,
        evalHashIndexExpression (tk token.PLUS 0 "+") (.Hash r) (.String k none none) s1 =
          .ok ((match hashLookup twoHashes 1 k with
                | some v => v
                | none =>
                  match hashLookup twoHashes 0 k with
                  | some v => v
                  | none => NULL), s1) ∧
        evalHashIndexExpression (tk token.PLUS 0 "+") (.Hash 1) (.String k none none) twoHashes =
          .ok ((hashLookup twoHashes 1 k).getD NULL, twoHashes) ∧
        evalHashIndexExpression (tk token.PLUS 0 "+") (.Hash 0) (.String k none none) twoHashes =
          .ok ((hashLookup twoHashes 0 k).getD NULL, twoHashes) :=
  hash_plus_right_biased (tk token.PLUS 0 "+") twoHashes 0 1 { Pairs := 0, Position := 0 }
    { Pairs := 1, Position := 0 } [pairOf "a" (.Number 1), pairOf "c" (.Number 5)]
    [pairOf "b" (.Number 3), pairOf "a" (.Number 2)] rfl rfl rfl rfl twoHashes_wellKeyed.1

/-! ## Hash iteration order -/

/-- Writing a new key into a Go map. -/
theorem mapGet_mapSet_self {κ ν : Type} [DecidableEq κ] (m : List (κ × ν)) (k : κ) (v : ν) :
    mapGet (mapSet m k v) k = some v := by
  rw [mapGet_mapSet]
  simp

/-- On a non-empty source `Rewind(0)` puts the lexer back into the state `New`
leaves it in: the first rune is current, at position 0. -/
theorem Rewind_zero_of_nonempty (u : UnicodeTables) (fuel : Nat) (l : Lexer) (c : Char)
    (cs : List Char) (h : l.input = c :: cs) :
    Rewind u (fuel + 1) l 0 = .ok { l with ch := c, position := 0, readPosition := 1 } := by
  unfold Rewind
  simp [h, runeAt, rewindLoop, bind, Outcome.bind, pure]

/-- C10 (the code at the failing input): on the empty source a fresh lexer
yields the token stream `[EOF]`, but `Rewind(0)` after lexing indexes the empty
input (`l.input[0]`) and panics, so there is no second token stream. -/
theorem Rewind_panics_on_empty_source :
    (New "").bind (fun l => (tokenStream asciiTables 10 10 l).bind (fun r => .ok r.1))
      = .ok [{ Type_ := token.EOF, Position := 0, Literal := "" }] ∧
    (New "").bind (fun l => (tokenStream asciiTables 10 10 l).bind
      (fun r => (Rewind asciiTables 10 r.2 0).bind (fun l2 => tokenStream asciiTables 10 10 l2)))
      = .panic "index out of range" :=
  ⟨rfl, rfl⟩

/-! ## Numbers -/

/-- An integer of magnitude up to `2 ^ 53` is a `float64`: rounding leaves it
as it is. -/
theorem float64OfInt_eq (x : Int) (h1 : -9007199254740992 ≤ x) (h2 : x ≤ 9007199254740992) :
    float64OfInt x = x := by
  unfold float64OfInt
  simp only []
  rw [if_pos (by omega)]

/-- The shift found for a number leaves at least one binary digit. -/
theorem float64Shift_pos (n : Nat) :
    ∀ (k e : Nat), 1 ≤ n / 2 ^ e → 1 ≤ n / 2 ^ float64Shift k n e := by
  intro k
  induction k with
  | zero => intro e h; exact h
  | succ k ih =>
    intro e h
    unfold float64Shift
    by_cases hlt : n / 2 ^ e < 9007199254740992
    · rw [if_pos hlt]; exact h
    · rw [if_neg hlt]
      apply ih
      rw [pow_succ, ← Nat.div_div_eq_div_mul]
      omega

/-- Rounding a negative integer gives a negative float. -/
theorem float64OfInt_neg (x : Int) (h : x < 0) : float64OfInt x < 0 := by
  unfold float64OfInt
  simp only []
  by_cases hs : x.natAbs ≤ 9007199254740992
  · rw [if_pos hs]; exact h
  · rw [if_neg hs, if_pos h]
    have hq := float64Shift_pos x.natAbs x.natAbs 0 (by simp; omega)
    have hp : 0 < 2 ^ float64Shift x.natAbs x.natAbs 0 := Nat.two_pow_pos _
    have : 0 < (if 2 * (x.natAbs % 2 ^ float64Shift x.natAbs x.natAbs 0)
          > 2 ^ float64Shift x.natAbs x.natAbs 0 ∨
        (2 * (x.natAbs % 2 ^ float64Shift x.natAbs x.natAbs 0)
            = 2 ^ float64Shift x.natAbs x.natAbs 0 ∧
          x.natAbs / 2 ^ float64Shift x.natAbs x.natAbs 0 % 2 = 1)
        then x.natAbs / 2 ^ float64Shift x.natAbs x.natAbs 0 + 1
        else x.natAbs / 2 ^ float64Shift x.natAbs x.natAbs 0)
          * 2 ^ float64Shift x.natAbs x.natAbs 0 := by
      apply Nat.mul_pos _ hp
      split_ifs <;> omega
    omega

/-- An integer that is an `int64` is converted to itself. -/
theorem intOfFloat_eq (v : Int) (h1 : -9223372036854775808 ≤ v) (h2 : v < 9223372036854775808) :
    intOfFloat v = v := by
  unfold intOfFloat
  rw [if_pos ⟨h1, h2⟩]

/-! ## The range operator -/

/-- The counting-up loop, with fuel for its tests, appends the numbers
`i, i + 1, ..., rightVal` when `-2 ^ 53 ≤ i` and `rightVal < 2 ^ 53`. -/
theorem rangeUpLoop_eq (rightVal : Int) (hr : rightVal < 9007199254740992) :
    ∀ (k : Nat) (i : Int) (a : List Object), -9007199254740992 ≤ i → i ≤ rightVal + 1 →
      (rightVal + 1 - i).toNat < k →
      rangeUpLoop rightVal k i a
        = .ok (a ++ (List.range (rightVal + 1 - i).toNat).map
            (fun j : Nat => Object.Number (i + j))) := by
  intro k
  induction k with
  | zero => intro i a _ _ h; omega
  | succ k ih =>
    intro i a hlo hi hk
    unfold rangeUpLoop
    by_cases hle : i ≤ rightVal
    · rw [if_pos hle, float64OfInt_eq (i + 1) (by omega) (by omega),
        ih (i + 1) _ (by omega) (by omega) (by omega)]
      have hn : (rightVal + 1 - i).toNat = (rightVal + 1 - (i + 1)).toNat + 1 := by omega
      rw [hn, List.range_succ_eq_map, List.map_cons, List.map_map, List.append_assoc]
      simp only [List.singleton_append, Nat.cast_zero, add_zero, Outcome.ok.injEq,
        List.append_cancel_left_eq, List.cons.injEq, true_and]
      apply List.map_congr_left
      intro j _
      simp only [Function.comp, Nat.cast_succ]
      congr 1
      omega
    · rw [if_neg hle]
      have hn : (rightVal + 1 - i).toNat = 0 := by omega
      rw [hn]
      simp

/-- The counting-down loop, with fuel for its tests, appends the numbers
`i, i - 1, ..., rightVal` when `i ≤ 2 ^ 53` and `-2 ^ 53 < rightVal`. -/
theorem rangeDownLoop_eq (rightVal : Int) (hr : -9007199254740992 < rightVal) :
    ∀ (k : Nat) (i : Int) (a : List Object), i ≤ 9007199254740992 → rightVal ≤ i + 1 →
      (i + 1 - rightVal).toNat < k →
      rangeDownLoop rightVal k i a
        = .ok (a ++ (List.range (i + 1 - rightVal).toNat).map
            (fun j : Nat => Object.Number (i - j))) := by
  intro k
  induction k with
  | zero => intro i a _ _ h; omega
  | succ k ih =>
    intro i a hhi hi hk
    unfold rangeDownLoop
    by_cases hle : i ≥ rightVal
    · rw [if_pos hle, float64OfInt_eq (i - 1) (by omega) (by omega),
        ih (i - 1) _ (by omega) (by omega) (by omega)]
      have hn : (i + 1 - rightVal).toNat = (i - 1 + 1 - rightVal).toNat + 1 := by omega
      rw [hn, List.range_succ_eq_map, List.map_cons, List.map_map, List.append_assoc]
      simp only [List.singleton_append, Nat.cast_zero, sub_zero, Outcome.ok.injEq,
        List.append_cancel_left_eq, List.cons.injEq, true_and]
      apply List.map_congr_left
      intro j _
      simp only [Function.comp, Nat.cast_succ]
      congr 1
      omega
    · rw [if_neg hle]
      have hn : (i + 1 - rightVal).toNat = 0 := by omega
      rw [hn]
      simp

/-- The two loops of `a..b`, with fuel for their tests, give the range in the
words of the claim when `a` is at most `2 ^ 53` in magnitude and `b` is below
`2 ^ 53` in magnitude. -/
theorem rangeElements_eq (k : Nat) (a b : Int)
    (ha : -9007199254740992 ≤ a ∧ a ≤ 9007199254740992)
    (hb : -9007199254740992 < b ∧ b < 9007199254740992) (hk : (b - a).natAbs + 2 ≤ k) :
    rangeElements k a b = .ok (inclusiveRange a b) := by
  unfold rangeElements inclusiveRange
  by_cases h : a ≤ b
  · rw [if_pos h, if_pos h, rangeUpLoop_eq b hb.2 _ a [] ha.1 (by omega) (by omega),
      List.nil_append]
    have : (b + 1 - a) = (b - a + 1) := by omega
    rw [this]
  · rw [if_neg h, if_neg h, rangeDownLoop_eq b hb.1 _ a [] ha.2 (by omega) (by omega),
      List.nil_append]
    have : (a + 1 - b) = (a - b + 1) := by omega
    rw [this]

/-- A number literal evaluates to its number. -/
theorem Eval_NumberLiteral (W : World) (n : Nat) (t : Token) (v : Int) (env : Nat) (s : State) :
    Eval W (n + 1) (.NumberLiteral t v) env s = .ok (.Number v, s) := rfl

/-- The expression `l..r` of two operands that evaluate to numbers runs the
loops of the range with the fuel of the evaluation. -/
theorem Eval_range_of (W : World) (n : Nat) (tok : Token) (l r : Node) (a b : Int) (env : Nat)
    (s s1 s2 : State) (hl : Eval W (n + 1) l env s = .ok (.Number a, s1))
    (hr : Eval W (n + 1) r env s1 = .ok (.Number b, s2)) :
    Eval W (n + 2) (.InfixExpression tok ".." l r) env s
      = (match rangeElements (n + 1) a b with
        | .ok l => newArray l false s2
        | .panic m => .panic m
        | .outOfFuel => .outOfFuel) := by
  rw [Eval_succ]
  simp only [EvalStep]
  unfold evalInfixExpression
  simp [hl, hr, bind_run, pure_run, isError, Type_, lift_run, object.NUMBER_OBJ,
    evalNumberInfixExpression]
  cases rangeElements (n + 1) a b <;> rfl

/-- The expression `a..b` of two number literals runs the loops of the range
with the fuel of the evaluation. -/
theorem Eval_range (W : World) (n : Nat) (tok t1 t2 : Token) (a b : Int) (env : Nat)
    (s : State) :
    Eval W (n + 2) (.InfixExpression tok ".." (.NumberLiteral t1 a) (.NumberLiteral t2 b)) env s
      = (match rangeElements (n + 1) a b with
        | .ok l => newArray l false s
        | .panic m => .panic m
        | .outOfFuel => .outOfFuel) :=
  Eval_range_of W n tok _ _ a b env s s s (Eval_NumberLiteral W n t1 a env s)
    (Eval_NumberLiteral W n t2 b env s)

/-- C11 (amended): for integers `a` and `b` with `-2 ^ 53 ≤ a ≤ 2 ^ 53` and
`-2 ^ 53 < b < 2 ^ 53` the expression `a..b`, evaluated with fuel for the
turns of its loop, yields a new array whose elements are `a, a + 1, ..., b`
(`b - a + 1` of them) when `a ≤ b`, and `a, a - 1, ..., b` (`a - b + 1` of
them) when `b < a`; `n..n` is the array `[n]`. -/
theorem range_is_inclusive (W : World) (n : Nat) (tok t1 t2 : Token) (a b : Int) (env : Nat)
    (s : State) (ha : -9007199254740992 ≤ a ∧ a ≤ 9007199254740992)
    (hb : -9007199254740992 < b ∧ b < 9007199254740992) (hn : (b - a).natAbs + 1 ≤ n) :
    Eval W (n + 2) (.InfixExpression tok ".." (.NumberLiteral t1 a) (.NumberLiteral t2 b)) env s
      = .ok (.Array s.arrays.length,
          { s with arrays := s.arrays ++
              [{ Elements := inclusiveRange a b, IsCurrentArgs := false, position := 0 }] }) ∧
    (a ≤ b → inclusiveRange a b
      = (List.range (b - a + 1).toNat).map (fun j : Nat => Object.Number (a + j))) ∧
    (b < a → inclusiveRange a b
      = (List.range (a - b + 1).toNat).map (fun j : Nat => Object.Number (a - j))) ∧
    (a = b → inclusiveRange a b = [Object.Number a]) := by
  refine ⟨?_, ?_, ?_, ?_⟩
  · rw [Eval_range, rangeElements_eq (n + 1) a b ha hb (by omega)]
    rfl
  · intro h
    unfold inclusiveRange
    rw [if_pos h]
  · intro h
    unfold inclusiveRange
    rw [if_neg (by omega)]
  · intro h
    subst h
    unfold inclusiveRange
    rw [if_pos (le_refl a)]
    simp [List.range_succ]

/-- The counting-up loop to `2 ^ 53` does not end: the counter does not get
past `2 ^ 53`. -/
theorem rangeUpLoop_stalls :
    ∀ (k : Nat) (i : Int) (a : List Object), -9007199254740992 ≤ i → i ≤ 9007199254740992 →
      rangeUpLoop 9007199254740992 k i a = .outOfFuel := by
  intro k
  induction k with
  | zero => intro i a _ _; rfl
  | succ k ih =>
    intro i a hlo hhi
    unfold rangeUpLoop
    rw [if_pos hhi]
    by_cases he : i = 9007199254740992
    · subst he
      rw [show float64OfInt (9007199254740992 + 1) = 9007199254740992 by decide]
      exact ih _ _ (by decide) (le_refl _)
    · rw [float64OfInt_eq (i + 1) (by omega) (by omega)]
      exact ih _ _ (by omega) (by omega)

/-- The counting-down loop to `-2 ^ 53` does not end: the counter does not get
below `-2 ^ 53`. -/
theorem rangeDownLoop_stalls :
    ∀ (k : Nat) (i : Int) (a : List Object), -9007199254740992 ≤ i → i ≤ 9007199254740992 →
      rangeDownLoop (-9007199254740992) k i a = .outOfFuel := by
  intro k
  induction k with
  | zero => intro i a _ _; rfl
  | succ k ih =>
    intro i a hlo hhi
    unfold rangeDownLoop
    rw [if_pos hlo]
    by_cases he : i = -9007199254740992
    · subst he
      rw [show float64OfInt (-9007199254740992 - 1) = -9007199254740992 by decide]
      exact ih _ _ (le_refl _) (by decide)
    · rw [float64OfInt_eq (i - 1) (by omega) (by omega)]
      exact ih _ _ (by omega) (by omega)

/-- The expression `-v` of a number literal evaluates to the number `-v`. -/
theorem Eval_minusLit (W : World) (n : Nat) (pos : Int) (lit : String) (v : Int) (env : Nat)
    (s : State) : Eval W (n + 2) (minusLit pos lit v) env s = .ok (.Number (-v), s) := rfl

/-- C11 (counterexample): four ranges of integers that are not the range of
the claim.  `9007199254740992 + 1` is rounded to `9007199254740992`, the float
nearest to it, so the loop of `9007199254740992..9007199254740992` never gets
past its end: for every fuel the evaluation does not return, where the claim
gives the array of the one element `9007199254740992`.  So it is, counting
down, with `-9007199254740991..-9007199254740992`.  The range
`-9007199254740994..-9007199254740992` has two elements and
`9007199254740994..9007199254740991` has three, where the claim gives three
and four: the loops pass over `-9007199254740993` and `9007199254740993`, which
are not floats. -/
theorem range_at_two_to_the_53_does_not_return :
    float64OfInt (9007199254740992 + 1) = 9007199254740992 ∧
    (∀ n : Nat, Eval bareWorld n rangeAtTwoTo53 0 (startOf rangeAtTwoTo53Src) = .outOfFuel) ∧
    (∀ n : Nat, Eval bareWorld n rangeDownToMinusTwoTo53 0 (startOf rangeDownToMinusTwoTo53Src)
      = .outOfFuel) ∧
    valueOf (Eval bareWorld 20 rangeFromBelow 0 (startOf rangeFromBelowSrc)) = .ok (.Array 0) ∧
    (stateOf (Eval bareWorld 20 rangeFromBelow 0 (startOf rangeFromBelowSrc))).arrays.get? 0
      = some { Elements := [.Number (-9007199254740994), .Number (-9007199254740992)],
               IsCurrentArgs := false, position := 0 } ∧
    valueOf (Eval bareWorld 20 rangeFromAbove 0 (startOf rangeFromAboveSrc)) = .ok (.Array 0) ∧
    (stateOf (Eval bareWorld 20 rangeFromAbove 0 (startOf rangeFromAboveSrc))).arrays.get? 0
      = some { Elements := [.Number 9007199254740994, .Number 9007199254740992,
                 .Number 9007199254740991],
               IsCurrentArgs := false, position := 0 } := by
  refine ⟨by decide, ?_, ?_, yields_sound (by decide!), holdsArray_sound (by decide!),
    yields_sound (by decide!), holdsArray_sound (by decide!)⟩
  · intro n
    match n with
    | 0 => rfl
    | 1 => rfl
    | n + 2 =>
      unfold rangeAtTwoTo53
      rw [Eval_range]
      unfold rangeElements
      rw [if_pos (le_refl _), rangeUpLoop_stalls _ _ _ (by decide) (le_refl _)]
  · intro n
    match n with
    | 0 => rfl
    | 1 => rfl
    | 2 => rfl
    | n + 3 =>
      unfold rangeDownToMinusTwoTo53
      rw [Eval_range_of bareWorld (n + 1) _ _ _ (-9007199254740991) (-9007199254740992) 0 _ _ _
        (Eval_minusLit bareWorld n _ _ _ 0 _) (Eval_minusLit bareWorld n _ _ _ 0 _)]
      unfold rangeElements
      rw [if_neg (by decide), rangeDownLoop_stalls _ _ _ (by decide) (by decide)]

/-- Witness of `range_is_inclusive`: `1..3` is `[1, 2, 3]` and `3..1` is
`[3, 2, 1]`. -/
theorem range_is_inclusive_witness :
    Eval bareWorld 5 (.InfixExpression (tk token.RANGE 1 "..") ".."
        (.NumberLiteral (tk token.NUMBER 0 "1") 1) (.NumberLiteral (tk token.NUMBER 3 "3") 3))
        0 emptyState
      = .ok (.Array 0, { emptyState with arrays :=
          [{ Elements := inclusiveRange 1 3, IsCurrentArgs := false, position := 0 }] }) ∧
    inclusiveRange 1 3 = [.Number 1, .Number 2, .Number 3] ∧
    inclusiveRange 3 1 = [.Number 3, .Number 2, .Number 1] :=
  ⟨(range_is_inclusive bareWorld 3 (tk token.RANGE 1 "..") (tk token.NUMBER 0 "1")
      (tk token.NUMBER 3 "3") 1 3 0 emptyState (by decide) (by decide) (by decide)).1,
   sameValues_sound _ _ (by decide), sameValues_sound _ _ (by decide)⟩

/-! ## Binding parameters to arguments -/

/-- One turn of the loop of `extendFunctionEnv`. -/
theorem bindParameters_cons (W : World) (ev : Evaluator) (fuel : Nat) (fn : Object) (ft : Token)
    (args : List Object) (env : Nat) (p : String) (d : Node) (rest : List (String × Node))
    (idx : Nat) :
    bindParameters W ev fuel fn ft args env ((p, d) :: rest) idx =
      if (isNilNode d && !decide (args.length > idx)) = true then
        Inspect W fuel fn >>= fun insp =>
          newError ft (p ++ " fonksiyonu için " ++ insp ++ " argümanı bulunamadı.") >>= fun e =>
            pure (some e)
      else
        match args.get? idx with
        | some a => EnvSet env p a >>= fun _ => bindParameters W ev fuel fn ft args env rest (idx + 1)
        | none => ev d env >>= fun arg =>
          EnvSet env p arg >>= fun _ => bindParameters W ev fuel fn ft args env rest (idx + 1) := by
  rw [bindParameters.eq_def]
  cases d <;> simp only [isNilNode, Bool.true_and, Bool.false_and, Bool.false_eq_true, if_false]
  all_goals (cases args.get? idx <;> rfl)

/-- The loop of `extendFunctionEnv` from parameter `idx` on, when every
parameter without an argument has a default: arguments first, then defaults. -/
theorem bindParameters_all (W : World) (ev : Evaluator) (fuel : Nat) (fn : Object) (ft : Token)
    (args : List Object) (env : Nat) :
    ∀ (params : List (String × Node)) (idx : Nat),
      (∀ q ∈ params.drop (args.length - idx), isNilNode q.2 = false) →
      bindParameters W ev fuel fn ft args env params idx
        = (bindArguments env (params.zip (args.drop idx)) >>= fun _ =>
            bindDefaults ev env (params.drop (args.length - idx)) >>= fun _ => pure none) := by
  intro params
  induction params with
  | nil =>
    intro idx _
    funext s
    simp [bindParameters, bindArguments, bindDefaults, bind_run, pure_run]
  | cons q rest ih =>
    intro idx hdef
    obtain ⟨p, d⟩ := q
    funext s
    rw [bindParameters_cons]
    by_cases hlt : idx < args.length
    · obtain ⟨a, ha⟩ : ∃ a, args.get? idx = some a := by
        cases hg : args.get? idx with
        | some a => exact ⟨a, rfl⟩
        | none => rw [List.get?_eq_none] at hg; omega
      have hdrop : args.drop idx = a :: args.drop (idx + 1) := by
        rw [List.get?_eq_getElem?] at ha
        obtain ⟨h1, h2⟩ := List.getElem?_eq_some.mp ha
        rw [← h2]
        exact List.drop_eq_getElem_cons h1
      have hn : args.length - idx = (args.length - (idx + 1)) + 1 := by omega
      have hdef2 : ∀ q ∈ rest.drop (args.length - (idx + 1)), isNilNode q.2 = false := by
        intro q hq
        apply hdef
        rw [hn, List.drop_succ_cons]
        exact hq
      have hmiss : (isNilNode d && !decide (args.length > idx)) = false := by simp [hlt]
      rw [hmiss]
      simp only [Bool.false_eq_true, if_false, ha, hdrop, List.zip_cons_cons, bindArguments,
        bind_run, pure_run]
      rw [hn, List.drop_succ_cons]
      cases hset : EnvSet env p a s with
      | ok r =>
        obtain ⟨u, s1⟩ := r
        simp only []
        rw [ih (idx + 1) hdef2]
        simp only [bind_run, pure_run]
      | panic m => rfl
      | outOfFuel => rfl
    · have hg : args.get? idx = none := by rw [List.get?_eq_none]; omega
      have hdrop : args.drop idx = [] := List.drop_eq_nil_of_le (by omega)
      have hn : args.length - idx = 0 := by omega
      have hn1 : args.length - (idx + 1) = 0 := by omega
      rw [hn] at hdef
      have hd : isNilNode d = false := hdef (p, d) (by simp)
      have hdef2 : ∀ q ∈ rest.drop (args.length - (idx + 1)), isNilNode q.2 = false := by
        intro q hq
        rw [hn1] at hq
        apply hdef
        simp only [List.drop_zero] at hq ⊢
        exact List.mem_cons_of_mem _ hq
      have hmiss : (isNilNode d && !decide (args.length > idx)) = false := by simp [hd]
      rw [hmiss]
      simp only [Bool.false_eq_true, if_false, hg, hdrop, List.zip_nil_right, bindArguments,
        bind_run, pure_run, hn, List.drop_zero, bindDefaults]
      cases hev : ev d env s with
      | ok r =>
        obtain ⟨v, s1⟩ := r
        simp only []
        cases hset : EnvSet env p v s1 with
        | ok r2 =>
          obtain ⟨u, s2⟩ := r2
          simp only []
          rw [ih (idx + 1) hdef2, hn1]
          have hdrop2 : args.drop (idx + 1) = [] := List.drop_eq_nil_of_le (by omega)
          simp only [hdrop2, List.zip_nil_right, bindArguments, bind_run, pure_run, List.drop_zero]
        | panic m => rfl
        | outOfFuel => rfl
      | panic m => rfl
      | outOfFuel => rfl

/-- The loop of `extendFunctionEnv` from parameter `idx` on, when the first
parameter without an argument and without a default is `p`: the parameters
before `p` are bound, then the error is made. -/
theorem bindParameters_missing (W : World) (ev : Evaluator) (fuel : Nat) (fn : Object)
    (ft : Token) (args : List Object) (env : Nat) (p : String) (post : List (String × Node)) :
    ∀ (pre : List (String × Node)) (idx : Nat),
      (∀ q ∈ pre.drop (args.length - idx), isNilNode q.2 = false) →
      args.length ≤ idx + pre.length →
      bindParameters W ev fuel fn ft args env (pre ++ (p, Node.nil) :: post) idx
        = (bindArguments env (pre.zip (args.drop idx)) >>= fun _ =>
            bindDefaults ev env (pre.drop (args.length - idx)) >>= fun _ =>
              Inspect W fuel fn >>= fun insp =>
                newError ft (p ++ " fonksiyonu için " ++ insp ++ " argümanı bulunamadı.")
                  >>= fun e => pure (some e)) := by
  intro pre
  induction pre with
  | nil =>
    intro idx _ hlen
    funext s
    simp only [List.length_nil, add_zero] at hlen
    rw [List.nil_append, bindParameters_cons]
    have hmiss : (isNilNode Node.nil && !decide (args.length > idx)) = true := by
      simp [isNilNode]; omega
    rw [hmiss]
    simp only [if_true, List.zip_nil_left, bindArguments, List.drop_nil, bindDefaults, bind_run,
      pure_run]
  | cons q rest ih =>
    intro idx hdef hlen
    obtain ⟨p1, d⟩ := q
    funext s
    rw [List.cons_append, bindParameters_cons]
    by_cases hlt : idx < args.length
    · obtain ⟨a, ha⟩ : ∃ a, args.get? idx = some a := by
        cases hg : args.get? idx with
        | some a => exact ⟨a, rfl⟩
        | none => rw [List.get?_eq_none] at hg; omega
      have hdrop : args.drop idx = a :: args.drop (idx + 1) := by
        rw [List.get?_eq_getElem?] at ha
        obtain ⟨h1, h2⟩ := List.getElem?_eq_some.mp ha
        rw [← h2]
        exact List.drop_eq_getElem_cons h1
      have hn : args.length - idx = (args.length - (idx + 1)) + 1 := by omega
      have hdef2 : ∀ q ∈ rest.drop (args.length - (idx + 1)), isNilNode q.2 = false := by
        intro q hq
        apply hdef
        rw [hn, List.drop_succ_cons]
        exact hq
      have hlen2 : args.length ≤ idx + 1 + rest.length := by
        simp only [List.length_cons] at hlen; omega
      have hmiss : (isNilNode d && !decide (args.length > idx)) = false := by simp [hlt]
      rw [hmiss]
      simp only [Bool.false_eq_true, if_false, ha, hdrop, List.zip_cons_cons, bindArguments,
        bind_run, pure_run]
      rw [hn, List.drop_succ_cons]
      cases hset : EnvSet env p1 a s with
      | ok r =>
        obtain ⟨u, s1⟩ := r
        simp only []
        rw [ih (idx + 1) hdef2 hlen2]
        simp only [bind_run, pure_run]
      | panic m => rfl
      | outOfFuel => rfl
    · have hg : args.get? idx = none := by rw [List.get?_eq_none]; omega
      have hdrop : args.drop idx = [] := List.drop_eq_nil_of_le (by omega)
      have hn : args.length - idx = 0 := by omega
      have hn1 : args.length - (idx + 1) = 0 := by omega
      rw [hn] at hdef
      have hd : isNilNode d = false := hdef (p1, d) (by simp)
      have hdef2 : ∀ q ∈ rest.drop (args.length - (idx + 1)), isNilNode q.2 = false := by
        intro q hq
        rw [hn1] at hq
        apply hdef
        simp only [List.drop_zero] at hq ⊢
        exact List.mem_cons_of_mem _ hq
      have hlen2 : args.length ≤ idx + 1 + rest.length := by omega
      have hmiss : (isNilNode d && !decide (args.length > idx)) = false := by simp [hd]
      rw [hmiss]
      simp only [Bool.false_eq_true, if_false, hg, hdrop, List.zip_nil_right, bindArguments,
        bind_run, pure_run, hn, List.drop_zero, bindDefaults]
      cases hev : ev d env s with
      | ok r =>
        obtain ⟨v, s1⟩ := r
        simp only []
        cases hset : EnvSet env p1 v s1 with
        | ok r2 =>
          obtain ⟨u, s2⟩ := r2
          simp only []
          rw [ih (idx + 1) hdef2 hlen2, hn1]
          have hdrop2 : args.drop (idx + 1) = [] := List.drop_eq_nil_of_le (by omega)
          simp only [hdrop2, List.zip_nil_right, bindArguments, bind_run, pure_run, List.drop_zero]
        | panic m => rfl
        | outOfFuel => rfl
      | panic m => rfl
      | outOfFuel => rfl

/-- An error made by `newError` is an `Error` object, and making it leaves the
heap as it is. -/
theorem newError_ok (tok : Token) (msg : String) (s s1 : State) (r : Object)
    (h : newError tok msg s = .ok (r, s1)) : isError r = true ∧ s1 = s := by
  unfold newError at h
  simp only [bind_run, get_run, lift_run, pure_run] at h
  split at h
  · rename_i heq
    simp only [Outcome.ok.injEq, Prod.mk.injEq] at h
    cases hE : ErrorLine s.lex tok.Position with
    | ok p =>
      rw [hE] at heq
      simp only [Outcome.ok.injEq, Prod.mk.injEq] at heq
      exact ⟨by rw [← h.1]; rfl, by rw [← h.2, ← heq.2]⟩
    | panic m => rw [hE] at heq; cases heq
    | outOfFuel => rw [hE] at heq; cases heq
  · cases h
  · cases h

/-- C12: applying a user function with parameters `p1..pn` to arguments
`a1..am`.  When every parameter past the arguments has a default, the call is:
make the call environment, bind `pi` to `ai` for `i ≤ min(n, m)`, bind each
later parameter to the value of its default evaluated in the call environment
(the earlier parameters already bound), then evaluate the body there.  When
some parameter past the arguments has no default (`p` the first such), the call
binds the parameters before `p` in the same way and returns the error made for
`p`; the body is not evaluated. -/
theorem parameters_bound_to_arguments_then_defaults (W : World) (n : Nat) (tok ft : Token)
    (name : String) (params : List (String × Node)) (body : Node) (fenv env : Nat)
    (args : List Object) :
    ((∀ q ∈ params.drop args.length, isNilNode q.2 = false) →
      Apply W (n + 1) tok (.Function ft name params body fenv) env args
        = (NewEnclosedEnvironment fenv args >>= fun callEnv =>
            bindBySpec (Eval W n) args callEnv params >>= fun _ =>
              Eval W n body callEnv >>= fun evaluated => pure (unwrapReturnValue evaluated))) ∧
    (∀ pre p post, params = pre ++ (p, Node.nil) :: post → args.length ≤ pre.length →
      (∀ q ∈ pre.drop args.length, isNilNode q.2 = false) →
      Apply W (n + 1) tok (.Function ft name params body fenv) env args
        = (NewEnclosedEnvironment fenv args >>= fun callEnv =>
            bindBySpec (Eval W n) args callEnv pre >>= fun _ =>
              Inspect W n (.Function ft name params body fenv) >>= fun insp =>
                newError ft (p ++ " fonksiyonu için " ++ insp ++ " argümanı bulunamadı."))) ∧
    (∀ msg s r s1, newError ft msg s = .ok (r, s1) → isError r = true ∧ s1 = s) := by
  refine ⟨?_, ?_, fun msg s r s1 h => newError_ok ft msg s s1 r h⟩
  · intro hdef
    rw [Apply_succ]
    funext s
    simp only [applyFunction, extendFunctionEnv, bind_run, bindBySpec]
    cases hnew : NewEnclosedEnvironment fenv args s with
    | ok r =>
      obtain ⟨callEnv, s1⟩ := r
      simp only []
      rw [bindParameters_all W (Eval W n) n _ ft args callEnv params 0 (by simpa using hdef)]
      simp only [bind_run, List.drop_zero, Nat.sub_zero, pure_run]
      cases bindArguments callEnv (params.zip args) s1 with
      | ok r2 =>
        obtain ⟨u, s2⟩ := r2
        simp only []
        cases bindDefaults (Eval W n) callEnv (List.drop args.length params) s2 with
        | ok r3 =>
          obtain ⟨u3, s3⟩ := r3
          simp only [bind_run, pure_run]
        | panic m => rfl
        | outOfFuel => rfl
      | panic m => rfl
      | outOfFuel => rfl
    | panic m => rfl
    | outOfFuel => rfl
  · intro pre p post hparams hlen hdef
    rw [Apply_succ]
    funext s
    simp only [applyFunction, extendFunctionEnv, bind_run, bindBySpec]
    cases hnew : NewEnclosedEnvironment fenv args s with
    | ok r =>
      obtain ⟨callEnv, s1⟩ := r
      simp only []
      rw [hparams, bindParameters_missing W (Eval W n) n _ ft args callEnv p post pre 0
        (by simpa using hdef) (by omega)]
      simp only [bind_run, List.drop_zero, Nat.sub_zero, pure_run]
      cases bindArguments callEnv (pre.zip args) s1 with
      | ok r2 =>
        obtain ⟨u, s2⟩ := r2
        simp only []
        cases bindDefaults (Eval W n) callEnv (List.drop args.length pre) s2 with
        | ok r3 =>
          obtain ⟨u3, s3⟩ := r3
          simp only []
          cases Inspect W n (Object.Function ft name (pre ++ (p, Node.nil) :: post) body fenv)
            s3 with
          | ok ri =>
            obtain ⟨insp, s3⟩ := ri
            simp only []
            cases newError ft (p ++ " fonksiyonu için " ++ insp ++ " argümanı bulunamadı.") s3 with
            | ok r4 => obtain ⟨e, s4⟩ := r4; rfl
            | panic m => rfl
            | outOfFuel => rfl
          | panic m => rfl
          | outOfFuel => rfl
        | panic m => rfl
        | outOfFuel => rfl
      | panic m => rfl
      | outOfFuel => rfl
    | panic m => rfl
    | outOfFuel => rfl

/-- Witness of `parameters_bound_to_arguments_then_defaults`: the function
`f(x, y = x + 1) { dön x + y }` applied to `(1)`, where `y` gets its default,
and to `()`, where `x` is missing. -/
theorem parameters_bound_to_arguments_then_defaults_witness :
    Apply bareWorld 20 (tk token.LPAREN 1 "(") defaultParamFn 0 [.Number 1]
      = (NewEnclosedEnvironment 0 [.Number 1] >>= fun callEnv =>
          bindBySpec (Eval bareWorld 19) [.Number 1] callEnv [("x", .nil), defaultParamY]
            >>= fun _ => Eval bareWorld 19 defaultParamBody callEnv >>= fun evaluated =>
              pure (unwrapReturnValue evaluated)) ∧
    Apply bareWorld 20 (tk token.LPAREN 1 "(") defaultParamFn 0 []
      = (NewEnclosedEnvironment 0 [] >>= fun callEnv =>
          bindBySpec (Eval bareWorld 19) [] callEnv [] >>= fun _ =>
            Inspect bareWorld 19 defaultParamFn >>= fun insp =>
              newError (tk token.FUNCTION 0 "f")
                ("x" ++ " fonksiyonu için " ++ insp ++ " argümanı bulunamadı.")) :=
  ⟨(parameters_bound_to_arguments_then_defaults bareWorld 19 (tk token.LPAREN 1 "(")
      (tk token.FUNCTION 0 "f") "" [("x", .nil), defaultParamY] defaultParamBody 0 0
      [.Number 1]).1 (by simp [defaultParamY, isNilNode]),
   (parameters_bound_to_arguments_then_defaults bareWorld 19 (tk token.LPAREN 1 "(")
      (tk token.FUNCTION 0 "f") "" [("x", .nil), defaultParamY] defaultParamBody 0 0
      []).2.1 [] "x" [defaultParamY] rfl (by simp) (by simp)⟩

/-! ## Environment lemmas -/

/-- Writing a value that a map already holds under the key changes nothing. -/
theorem mapSet_same {κ ν : Type} [DecidableEq κ] (m : List (κ × ν)) (k : κ) (v : ν)
    (h : mapGet m k = some v) : mapSet m k v = m := by
  induction m with
  | nil => simp [mapGet] at h
  | cons e rest ih =>
    obtain ⟨k0, v0⟩ := e
    simp only [mapGet] at h
    simp only [mapSet]
    by_cases h0 : k0 = k
    · simp only [h0, if_true, Option.some.injEq] at h ⊢
      rw [h]
    · simp only [h0, if_false] at h ⊢
      rw [ih h]

/-- A deleted key is no longer in the map. -/
theorem mapGet_mapDelete_self {κ ν : Type} [DecidableEq κ] (m : List (κ × ν)) (k : κ) :
    mapGet (mapDelete m k) k = none := by
  induction m with
  | nil => rfl
  | cons e rest ih =>
    obtain ⟨k0, v0⟩ := e
    unfold mapDelete at ih ⊢
    by_cases h0 : k0 = k
    · simp only [List.filter, h0, ne_eq, not_true_eq_false, decide_False]
      exact ih
    · simp only [List.filter, h0, ne_eq, not_false_eq_true, decide_True, mapGet, if_false]
      exact ih

/-- Writing the element a list already holds at a position changes nothing. -/
theorem setAt_same {α : Type} (l : List α) (i : Nat) (a : α) (h : l.get? i = some a) :
    setAt l i a = l := by
  unfold setAt
  rw [List.get?_eq_getElem?] at h
  apply List.ext_getElem?
  intro n
  rw [List.getElem?_set]
  by_cases hn : i = n
  · subst hn
    obtain ⟨h1, _⟩ := List.getElem?_eq_some.mp h
    simp [h1, h]
  · simp [hn]

/-- `env.Set` on an existing environment. -/
theorem EnvSet_ok (r : Nat) (name : String) (v : Object) (s : State) (e : Environment)
    (he : s.envs.get? r = some e) :
    EnvSet r name v s
      = .ok ((), { s with envs := setAt s.envs r { e with store := mapSet e.store name v } }) := by
  simp only [EnvSet, bind_run, getEnv, he, putEnv]

/-- `env.Delete` on an existing environment. -/
theorem EnvDelete_ok (r : Nat) (name : String) (s : State) (e : Environment)
    (he : s.envs.get? r = some e) :
    EnvDelete r name s
      = .ok ((), { s with envs := setAt s.envs r { e with store := mapDelete e.store name } }) := by
  simp only [EnvDelete, bind_run, getEnv, he, putEnv]

/-- `env.Set` succeeds only on an existing environment. -/
theorem EnvSet_frame (r : Nat) (name : String) (v : Object) (s s1 : State) (u : Unit)
    (h : EnvSet r name v s = .ok (u, s1)) : ∃ e, s.envs.get? r = some e := by
  cases he : s.envs.get? r with
  | some e => exact ⟨e, rfl⟩
  | none => simp only [EnvSet, bind_run, getEnv, he] at h; cases h

/-- `env.Delete` succeeds only on an existing environment. -/
theorem EnvDelete_frame (r : Nat) (name : String) (s s1 : State) (u : Unit)
    (h : EnvDelete r name s = .ok (u, s1)) : ∃ e, s.envs.get? r = some e := by
  cases he : s.envs.get? r with
  | some e => exact ⟨e, rfl⟩
  | none => simp only [EnvDelete, bind_run, getEnv, he] at h; cases h

/-- After `env.Set(name, v)` the store of the environment binds `name` to `v`. -/
theorem ownBinding_EnvSet (r : Nat) (name : String) (v : Object) (s s1 : State) (u : Unit)
    (h : EnvSet r name v s = .ok (u, s1)) : ownBinding s1 r name = some v := by
  obtain ⟨e, he⟩ := EnvSet_frame r name v s s1 u h
  rw [EnvSet_ok r name v s e he] at h
  simp only [Outcome.ok.injEq, Prod.mk.injEq, true_and] at h
  subst h
  simp only [ownBinding, get?_setAt s.envs r _ e he, mapGet_mapSet_self]

/-- A name bound in the store of an environment is found there by `env.Get`. -/
theorem EnvGet_of_ownBinding (r : Nat) (name : String) (v : Object) (s : State)
    (h : ownBinding s r name = some v) : EnvGet r name s = .ok (some v, s) := by
  unfold ownBinding at h
  cases he : s.envs.get? r with
  | none => rw [he] at h; cases h
  | some e =>
    rw [he] at h
    simp only [] at h
    simp only [EnvGet, envGetAux, he, h]

/-- `env.Set(name, v)` changes nothing when the store already binds `name` to
`v`. -/
theorem EnvSet_same (r : Nat) (name : String) (v : Object) (s : State)
    (h : ownBinding s r name = some v) : EnvSet r name v s = .ok ((), s) := by
  unfold ownBinding at h
  cases he : s.envs.get? r with
  | none => rw [he] at h; cases h
  | some e =>
    rw [he] at h
    rw [EnvSet_ok r name v s e he, mapSet_same e.store name v h]
    rw [setAt_same s.envs r e he]

/-! ## The C-style for loop -/

/-- The starter `i = a` binds `i` to `a` in the current environment. -/
theorem Eval_countStarter (W : World) (n : Nat) (t nt lt : Token) (i : String) (a : Int)
    (env : Nat) (s : State) :
    Eval W (n + 2) (countStarter t nt lt i a) env s
      = (EnvSet env i (.Number a) >>= fun _ => pure NULL) s := by
  rw [Eval_succ]
  simp only [countStarter, assign, EvalStep, evalAssignment, bind_run, Eval_NumberLiteral, isError,
    pure_run, Bool.false_eq_true, if_false]
  cases hE : EnvSet env i (Object.Number a) s with
  | ok r => obtain ⟨u, s1⟩ := r; simp only [pure_run]; rfl
  | panic m => rfl
  | outOfFuel => rfl

/-- The condition `i < b` reads the binding of `i`. -/
theorem Eval_countCondition (W : World) (n : Nat) (t it lt : Token) (i : String) (b v : Int)
    (env : Nat) (s : State) (h : ownBinding s env i = some (.Number v)) :
    Eval W (n + 2) (countCondition t it lt i b) env s
      = .ok (nativeBoolToBooleanObject (decide (v < b)), s) := by
  rw [Eval_succ]
  simp only [countCondition, EvalStep]
  unfold evalInfixExpression
  rw [bind_run, Eval_succ]
  simp only [EvalStep, evalIdentifier, bind_run, EnvGet_of_ownBinding env i _ s h, pure_run,
    isError, Eval_NumberLiteral]
  simp [Type_, lift_run, object.NUMBER_OBJ, evalNumberInfixExpression, bind_run, pure_run,
    Eval_NumberLiteral, isError]

/-- The closer `i = i + 1` binds `i` to the float nearest to `i + 1`. -/
theorem Eval_countCloser (W : World) (n : Nat) (t nt pt it lt : Token) (i : String) (v : Int)
    (env : Nat) (s : State) (h : ownBinding s env i = some (.Number v)) :
    Eval W (n + 3) (countCloser t nt pt it lt i) env s
      = (EnvSet env i (.Number (float64OfInt (v + 1))) >>= fun _ => pure NULL) s := by
  rw [Eval_succ]
  simp only [countCloser, assign, EvalStep, evalAssignment, bind_run]
  rw [Eval_succ]
  simp only [EvalStep]
  unfold evalInfixExpression
  rw [bind_run, Eval_succ]
  simp only [EvalStep, evalIdentifier, bind_run, EnvGet_of_ownBinding env i _ s h, pure_run,
    isError, Eval_NumberLiteral]
  simp [Type_, lift_run, object.NUMBER_OBJ, evalNumberInfixExpression, bind_run, pure_run,
    Eval_NumberLiteral, isError]
  cases hE : EnvSet env i (Object.Number (float64OfInt (v + 1))) s with
  | ok r => obtain ⟨u, s1⟩ := r; simp only [pure_run]; rfl
  | panic m => rfl
  | outOfFuel => rfl

/-- The values `v, v + 1, ..., b - 1` when `v < b`. -/
theorem countValues_cons (v b : Int) (h : v < b) :
    (List.range (b - v).toNat).map (fun j : Nat => v + j)
      = v :: (List.range (b - (v + 1)).toNat).map (fun j : Nat => v + 1 + j) := by
  have hn : (b - v).toNat = (b - (v + 1)).toNat + 1 := by omega
  rw [hn, List.range_succ_eq_map, List.map_cons, List.map_map]
  simp only [Nat.cast_zero, add_zero, List.cons.injEq, true_and]
  apply List.map_congr_left
  intro j _
  simp only [Function.comp, Nat.cast_succ]
  omega

/-- The loop in the words of the spec begins by binding the identifier to `v`,
so it takes up a binding to `v` made just before. -/
theorem countedLoopBySpec_absorb (ev : Evaluator) (block : Node) (env : Nat) (i : String)
    (v b : Int) (hv : v ≤ b) (s s1 : State)
    (h : EnvSet env i (.Number v) s = .ok ((), s1)) :
    countedLoopBySpec ev block env i v b s = countedLoopBySpec ev block env i v b s1 := by
  have hown := ownBinding_EnvSet env i _ s s1 () h
  have hsame := EnvSet_same env i _ s1 hown
  unfold countedLoopBySpec
  by_cases hlt : v < b
  · rw [countValues_cons v b hlt]
    simp only [runBlockFor, bind_run, h, hsame]
  · have hb : b = v := by omega
    subst hb
    simp only [sub_self, Int.toNat_zero, List.range_zero, List.map_nil, runBlockFor, bind_run,
      pure_run, h, hsame]

/-- The loop of `evalForExpression` for `i < b` and `i = i + 1`, started with
`i` bound to `v`: the block runs for `v, ..., b - 1`, these being integers of
magnitude up to `2 ^ 53`. -/
theorem evalForLoop_counts (W : World) (n : Nat) (ct cit clt zt znt zpt zit zlt : Token)
    (i : String) (a b : Int) (block : Node) (env : Nat) (P : State → Prop)
    (hlo : -9007199254740992 ≤ a) (hhi : b ≤ 9007199254740992)
    (hSet : ∀ (st : State) (v : Int) (st1 : State), P st →
      EnvSet env i (.Number v) st = .ok ((), st1) → P st1)
    (hblock : ∀ (v : Int) (st : State), a ≤ v → v < b → P st →
      ownBinding st env i = some (.Number v) →
      ∃ r st1, Eval W (n + 3) block env st = .ok (r, st1) ∧ endsLoop r = false ∧ P st1 ∧
        ownBinding st1 env i = some (.Number v)) :
    ∀ (k : Nat) (v : Int) (st : State), a ≤ v → v ≤ b → (b - v).toNat < k → P st →
      ownBinding st env i = some (.Number v) →
      evalForLoop (Eval W (n + 3)) (countCondition ct cit clt i b)
          (countCloser zt znt zpt zit zlt i) block env k st
        = countedLoopBySpec (Eval W (n + 3)) block env i v b st := by
  intro k
  induction k with
  | zero => intro v st _ _ hk; omega
  | succ k ih =>
    intro v st hav hvb hk hP hown
    rw [evalForLoop.eq_def]
    simp only [bind_run, Eval_countCondition W (n + 1) ct cit clt i b v env st hown]
    by_cases hlt : v < b
    · obtain ⟨r, st1, hrun, hends, hP1, hown1⟩ := hblock v st hav hlt hP hown
      obtain ⟨e1, he1⟩ : ∃ e, st1.envs.get? env = some e := by
        unfold ownBinding at hown1
        cases he : st1.envs.get? env with
        | some e => exact ⟨e, rfl⟩
        | none => rw [he] at hown1; cases hown1
      obtain ⟨st2, hset⟩ : ∃ st2, EnvSet env i (.Number (v + 1)) st1 = .ok ((), st2) :=
        ⟨_, EnvSet_ok env i (.Number (v + 1)) st1 e1 he1⟩
      have hP2 := hSet st1 (v + 1) _ hP1 hset
      have hown2 := ownBinding_EnvSet env i _ st1 _ () hset
      have hrec := ih (v + 1) st2 (by omega) (by omega) (by omega) hP2 hown2
      have hcl := Eval_countCloser W n zt znt zpt zit zlt i v env st1 hown1
      rw [float64OfInt_eq (v + 1) (by omega) (by omega), bind_run, hset] at hcl
      simp only [pure_run] at hcl
      have hspec : countedLoopBySpec (Eval W (n + 3)) block env i v b st
          = countedLoopBySpec (Eval W (n + 3)) block env i (v + 1) b st1 := by
        unfold countedLoopBySpec
        rw [countValues_cons v b hlt]
        simp only [runBlockFor, bind_run, EnvSet_same env i _ st hown, hrun]
      rw [hspec, countedLoopBySpec_absorb (Eval W (n + 3)) block env i (v + 1) b (by omega) st1
        st2 hset, ← hrec]
      simp only [hlt, decide_True, nativeBoolToBooleanObject, if_true, TRUE, isError, isTruthy,
        Bool.false_eq_true, if_false, bind_run, hrun]
      cases r <;> simp only [endsLoop, Bool.true_eq_false] at hends <;>
        simp only [bind_run, hcl, isError, NULL, Bool.false_eq_true, if_false]
    · have hb : b = v := by omega
      subst hb
      simp only [lt_irrefl, decide_False, nativeBoolToBooleanObject, Bool.false_eq_true, if_false,
        FALSE, isError, isTruthy, pure_run]
      unfold countedLoopBySpec
      simp only [sub_self, Int.toNat_zero, List.range_zero, List.map_nil, runBlockFor, bind_run,
        pure_run, EnvSet_same env i _ st hown]

/-- The block `{ 8 }` evaluates to 8 in every heap and leaves the heap alone. -/
theorem Eval_eightBlock (W : World) (n : Nat) (env : Nat) (s : State) :
    Eval W (n + 3) eightBlock env s = .ok (.Number 8, s) := rfl

/-- C13 (amended): the C-style for loop.  The starter is evaluated once, and
an error of the starter is the result.  One turn of the loop: an error of the
condition is returned at once; a falsy condition ends the loop with `NULL`;
otherwise (a `ReturnValue` of the condition counts as truthy) the block is
evaluated: a break ends the loop with `NULL`, an error or `ReturnValue` of the
block is returned at once, and after every other value of the block (a
continue included) the closer is evaluated, whose error is returned at once,
before the condition is tested again.  For `i = a; i < b; i = i + 1` with
integers `a ≤ b` and a block that keeps the binding of `i` and yields no break, error
or return value, the block is evaluated exactly for `i = a, ..., b - 1` when
`a` and `b` are of magnitude at most `2 ^ 53`. -/
theorem for_loop_turns_and_count (W : World) (n : Nat) (ev : Evaluator) (fuel k : Nat)
    (identifier : String) (starter cond closer block : Node) (env : Nat) (s : State)
    (st nt lt ct cit clt zt znt zpt zit zlt : Token) (a b : Int) :
    (evalForExpression ev fuel identifier starter cond closer block env
      = EnvGet env identifier >>= fun existing =>
          ev starter env >>= fun err =>
            if isError err = true then pure err
            else evalForLoop ev cond closer block env fuel >>= fun r =>
              restoreIdentifier env identifier existing >>= fun _ => pure r) ∧
    (evalForLoop ev cond closer block env (k + 1)
      = ev cond env >>= fun evaluated =>
          if isError evaluated = true then pure evaluated
          else if isTruthy evaluated = false then pure NULL
          else ev block env >>= fun res =>
            if isBreak res = true then pure NULL
            else if endsLoop res = true then pure res
            else ev closer env >>= fun err =>
              if isError err = true then pure err
              else evalForLoop ev cond closer block env k) ∧
    (∀ P : State → Prop, P s →
      (∀ (s1 : State) (v : Int) (s2 : State), P s1 →
        EnvSet env identifier (.Number v) s1 = .ok ((), s2) → P s2) →
      (∀ (v : Int) (s1 : State), a ≤ v → v < b → P s1 →
        ownBinding s1 env identifier = some (.Number v) →
        ∃ r s2, Eval W (n + 3) block env s1 = .ok (r, s2) ∧ endsLoop r = false ∧ P s2 ∧
          ownBinding s2 env identifier = some (.Number v)) →
      -9007199254740992 ≤ a → b ≤ 9007199254740992 → a ≤ b → (b - a).toNat < fuel →
      evalForExpression (Eval W (n + 3)) fuel identifier (countStarter st nt lt identifier a)
          (countCondition ct cit clt identifier b) (countCloser zt znt zpt zit zlt identifier)
          block env s
        = (EnvGet env identifier >>= fun existing =>
            countedLoopBySpec (Eval W (n + 3)) block env identifier a b >>= fun r =>
              restoreIdentifier env identifier existing >>= fun _ => pure r) s) := by
  refine ⟨?_, ?_, ?_⟩
  · funext s0
    simp only [evalForExpression, bind_run]
  · funext s0
    rw [evalForLoop.eq_def]
    simp only [bind_run]
    cases ev cond env s0 with
    | ok p =>
      obtain ⟨evaluated, s1⟩ := p
      simp only []
      cases he : isError evaluated
      · cases ht : isTruthy evaluated
        · simp
        · simp only [Bool.false_eq_true, Bool.true_eq_false, if_false, bind_run, if_true]
          cases ev block env s1 with
          | ok q =>
            obtain ⟨res, s2⟩ := q
            simp only []
            cases res <;>
              simp only [isBreak, endsLoop, Bool.false_eq_true, if_false, if_true, bind_run]
          | panic m => rfl
          | outOfFuel => rfl
      · simp
    | panic m => rfl
    | outOfFuel => rfl
  · intro P hP hSet hblock hlo hhi hab hk
    simp only [evalForExpression, bind_run]
    cases hget : EnvGet env identifier s with
    | ok p =>
      obtain ⟨existing, s0⟩ := p
      have hs0 := EnvGet_state env identifier s s0 existing hget
      subst hs0
      simp only []
      rw [Eval_countStarter W (n + 1) st nt lt identifier a env s0, bind_run]
      cases hset : EnvSet env identifier (Object.Number a) s0 with
      | ok q =>
        obtain ⟨u, s1⟩ := q
        simp only [pure_run, NULL, isError, Bool.false_eq_true, if_false, bind_run]
        have hown := ownBinding_EnvSet env identifier _ s0 s1 u hset
        have hP1 := hSet s0 a s1 hP hset
        rw [evalForLoop_counts W n ct cit clt zt znt zpt zit zlt identifier a b block env P
          hlo hhi hSet hblock fuel a s1 (le_refl a) hab hk hP1 hown,
          countedLoopBySpec_absorb (Eval W (n + 3)) block env identifier a b hab s0 s1 hset]
      | panic m =>
        simp only []
        unfold countedLoopBySpec
        by_cases hlt : a < b
        · rw [countValues_cons a b hlt]
          simp only [runBlockFor, bind_run, hset]
        · have hb : b = a := by omega
          subst hb
          simp only [sub_self, Int.toNat_zero, List.range_zero, List.map_nil, runBlockFor,
            bind_run, pure_run, hset]
      | outOfFuel =>
        simp only []
        unfold countedLoopBySpec
        by_cases hlt : a < b
        · rw [countValues_cons a b hlt]
          simp only [runBlockFor, bind_run, hset]
        · have hb : b = a := by omega
          subst hb
          simp only [sub_self, Int.toNat_zero, List.range_zero, List.map_nil, runBlockFor,
            bind_run, pure_run, hset]
    | panic m => rfl
    | outOfFuel => rfl

/-- The block `{ 8 }` of `stalledFor` evaluates to 8 and leaves the heap alone. -/
theorem Eval_stalledBlock (W : World) (n : Nat) (env : Nat) (s : State) :
    Eval W (n + 3) stalledBlock env s = .ok (.Number 8, s) := rfl

/-- The loop of `stalledFor` does not end once `i` is bound to `2 ^ 53`: the
closer binds `i` to the float nearest to `2 ^ 53 + 1`, which is `2 ^ 53`. -/
theorem stalledFor_loop (n : Nat) (ct cit clt zt znt zpt zit zlt : Token) :
    ∀ (k : Nat) (s : State), ownBinding s 0 "i" = some (.Number 9007199254740992) →
      evalForLoop (Eval bareWorld (n + 3)) (countCondition ct cit clt "i" 9007199254740994)
        (countCloser zt znt zpt zit zlt "i") stalledBlock 0 k s = .outOfFuel := by
  intro k
  induction k with
  | zero => intro s _; rfl
  | succ k ih =>
    intro s hown
    have hcl := Eval_countCloser bareWorld n zt znt zpt zit zlt "i" 9007199254740992 0 s hown
    rw [show float64OfInt (9007199254740992 + 1) = 9007199254740992 by decide, bind_run,
      EnvSet_same 0 "i" _ s hown] at hcl
    simp only [pure_run] at hcl
    rw [evalForLoop.eq_def]
    simp only [bind_run,
      Eval_countCondition bareWorld (n + 1) ct cit clt "i" 9007199254740994 9007199254740992 0 s
        hown,
      show decide ((9007199254740992 : Int) < 9007199254740994) = true by decide,
      nativeBoolToBooleanObject, if_true, TRUE, isError, isTruthy, Bool.false_eq_true, if_false,
      Eval_stalledBlock, hcl, NULL]
    exact ih s hown

/-- C13 (counterexample): in `döngü i = 0; eğer Doğru { dön 5 }; i = i + 1 { dur }`
the condition yields `ReturnValue(5)`; it is not returned: the loop takes it
for a truthy condition, evaluates the block, which breaks, and yields `NULL`.
And the loop `döngü i = 9007199254740992; i < 9007199254740994; i = i + 1 { 8 }`
does not run its block twice and end: `i + 1` is rounded back to
`9007199254740992`, and for every fuel the evaluation of the loop does not
return.  The loop of the program
`n = 0; döngü i = -9007199254740994; i < -9007199254740992; i = i + 1 { n = n + 1 }; n`
runs its block once, not twice: `-9007199254740994 + 1` is rounded to
`-9007199254740992`. -/
theorem for_condition_ReturnValue_not_returned :
    valueOf (Eval bareWorld 20 returningCondition 0 (startOf forReturningConditionSrc))
      = .ok (.ReturnValue (.Number 5)) ∧
    valueOf (Eval bareWorld 20 forReturningCondition 0 (startOf forReturningConditionSrc))
      = .ok NULL ∧
    float64OfInt (9007199254740992 + 1) = 9007199254740992 ∧
    (∀ n : Nat, Eval bareWorld n stalledFor 0 (startOf stalledForSrc) = .outOfFuel) ∧
    valueOf (Eval bareWorld 20 turnsBelow 0 (startOf turnsBelowSrc)) = .ok (.Number 1) := by
  refine ⟨yields_sound (by decide!), yields_sound (by decide!), by decide, ?_,
    yields_sound (by decide!)⟩
  intro n
  match n with
  | 0 => rfl
  | 1 => rfl
  | 2 => rfl
  | 3 => rfl
  | n + 4 =>
    obtain ⟨e, he⟩ : ∃ e, (startOf stalledForSrc).envs.get? 0 = some e := ⟨_, rfl⟩
    have hset := EnvSet_ok 0 "i" (.Number 9007199254740992) (startOf stalledForSrc) e he
    have hown := ownBinding_EnvSet 0 "i" _ _ _ () hset
    have hget : EnvGet 0 "i" (startOf stalledForSrc) = .ok (none, startOf stalledForSrc) := rfl
    rw [Eval_succ]
    simp only [stalledFor, EvalStep, evalForExpression, bind_run, hget,
      Eval_countStarter bareWorld (n + 1), hset, pure_run, NULL, isError, Bool.false_eq_true,
      if_false, stalledFor_loop n _ _ _ _ _ _ _ _ (n + 3) _ hown]

/-- Witness of `for_loop_turns_and_count`: the loop
`döngü i = 0; i < 3; i = i + 1 { 8 }`. -/
theorem for_loop_turns_and_count_witness :
    evalForExpression (Eval bareWorld 8) 10 "i" countToThreeStarter countToThreeCondition
        countToThreeCloser eightBlock 0 (startOf countToThreeSrc)
      = (EnvGet 0 "i" >>= fun existing =>
          countedLoopBySpec (Eval bareWorld 8) eightBlock 0 "i" 0 3 >>= fun r =>
            restoreIdentifier 0 "i" existing >>= fun _ => pure r) (startOf countToThreeSrc) :=
  (for_loop_turns_and_count bareWorld 5 (Eval bareWorld 8) 10 0 "i" .nil .nil .nil eightBlock 0
    (startOf countToThreeSrc) (tk token.ASSIGN 8 "=") (tk token.IDENT 6 "i")
    (tk token.NUMBER 10 "0") (tk token.LT 15 "<") (tk token.IDENT 13 "i")
    (tk token.NUMBER 17 "3") (tk token.ASSIGN 22 "=") (tk token.IDENT 20 "i")
    (tk token.PLUS 26 "+") (tk token.IDENT 24 "i") (tk token.NUMBER 28 "1") 0 3).2.2
    (fun _ => True) trivial (fun _ _ _ _ _ => trivial)
    (fun v s1 _ _ _ hown => ⟨.Number 8, s1, Eval_eightBlock bareWorld 5 0 s1, rfl, trivial, hown⟩)
    (by decide) (by decide) (by decide) (by decide)

/-! ## The loop identifier after a for loop -/

/-- A lookup that finds nothing still finds nothing after the name is deleted
from the store of one environment. -/
theorem envGetAux_delete_none (envs : List Environment) (r0 : Nat) (e0 : Environment)
    (name : String) (h0 : envs.get? r0 = some e0) :
    ∀ (n r : Nat), envGetAux envs n r name = .ok none →
      envGetAux (setAt envs r0 { e0 with store := mapDelete e0.store name }) n r name
        = .ok none := by
  obtain ⟨store0, args0, outer0, dir0, version0⟩ := e0
  intro n
  induction n with
  | zero => intro r h; simp [envGetAux] at h
  | succ n ih =>
    intro r h
    unfold envGetAux at h ⊢
    by_cases hr : r = r0
    · subst hr
      rw [get?_setAt envs r _ _ h0]
      rw [h0] at h
      simp only [] at h
      simp only [mapGet_mapDelete_self]
      cases hm : mapGet store0 name with
      | some v => rw [hm] at h; cases h
      | none =>
        rw [hm] at h
        simp only [] at h
        cases outer0 with
        | none => rfl
        | some o => exact ih o h
    · have hget : (setAt envs r0
          (⟨mapDelete store0 name, args0, outer0, dir0, version0⟩ : Environment)).get? r
            = envs.get? r := by
        unfold setAt
        rw [List.get?_eq_getElem?, List.get?_eq_getElem?, List.getElem?_set]
        simp [Ne.symm hr]
      rw [hget]
      cases he : envs.get? r with
      | none => rw [he] at h; cases h
      | some e =>
        obtain ⟨store1, args1, outer1, dir1, version1⟩ := e
        rw [he] at h
        simp only [] at h ⊢
        cases hm : mapGet store1 name with
        | some v => rw [hm] at h; cases h
        | none =>
          rw [hm] at h
          simp only [] at h ⊢
          cases outer1 with
          | none => rfl
          | some o => exact ih o h

/-- After `env.Delete(name)` the lookup of `name` is the lookup in the
enclosing environments; here these do not bind the name. -/
theorem EnvGet_after_delete (r : Nat) (name : String) (s s1 : State) (u : Unit)
    (houter : outerGet r name s = .ok (none, s))
    (h : EnvDelete r name s = .ok (u, s1)) : EnvGet r name s1 = .ok (none, s1) := by
  obtain ⟨e, he⟩ := EnvDelete_frame r name s s1 u h
  rw [EnvDelete_ok r name s e he] at h
  simp only [Outcome.ok.injEq, Prod.mk.injEq, true_and] at h
  subst h
  unfold outerGet at houter
  rw [he] at houter
  have hdel := envGetAux_delete_none s.envs r e name he s.envs.length
  obtain ⟨store0, args0, outer0, dir0, version0⟩ := e
  simp only [EnvGet]
  have hlen : (setAt s.envs r
      (⟨mapDelete store0 name, args0, outer0, dir0, version0⟩ : Environment)).length
        = s.envs.length := by
    unfold setAt; simp
  rw [hlen]
  unfold envGetAux
  rw [get?_setAt s.envs r _ _ he]
  simp only [mapGet_mapDelete_self]
  simp only [] at houter hdel
  cases outer0 with
  | none => rfl
  | some o =>
    simp only [] at houter ⊢
    cases hg : envGetAux s.envs s.envs.length o name with
    | ok v =>
      rw [hg] at houter
      simp only [Outcome.ok.injEq, Prod.mk.injEq, and_true] at houter
      subst houter
      rw [hdel o hg]
    | panic m => rw [hg] at houter; cases houter
    | outOfFuel => rw [hg] at houter; cases houter

/-- C14: after a C-style for loop has finished, by whatever path, once its
starter succeeded, looking the loop identifier up in the environment gives what
it gave before the loop: the value it was bound to, or not found when it was
not bound (no code of the loop binds the identifier in an enclosing
environment: the evaluator writes to the current environment only). -/
theorem for_loop_restores_identifier (ev : Evaluator) (fuel : Nat) (identifier : String)
    (starter cond closer block : Node) (env : Nat) (s s1 s2 : State)
    (before : Option Object) (v r : Object)
    (hbefore : EnvGet env identifier s = .ok (before, s))
    (hstart : ev starter env s = .ok (v, s1)) (hv : isError v = false)
    (hrun : evalForExpression ev fuel identifier starter cond closer block env s = .ok (r, s2))
    (houter : before = none → ∀ r1 s3, evalForLoop ev cond closer block env fuel s1 = .ok (r1, s3) →
      outerGet env identifier s3 = .ok (none, s3)) :
    EnvGet env identifier s2 = .ok (before, s2) := by
  simp only [evalForExpression, bind_run, hbefore, hstart, hv, Bool.false_eq_true, if_false]
    at hrun
  cases hloop : evalForLoop ev cond closer block env fuel s1 with
  | ok p =>
    obtain ⟨r1, s3⟩ := p
    rw [hloop] at hrun
    simp only [] at hrun
    cases before with
    | some old =>
      simp only [restoreIdentifier] at hrun
      cases hset : EnvSet env identifier old s3 with
      | ok q =>
        obtain ⟨u, s4⟩ := q
        rw [hset] at hrun
        simp only [pure_run, Outcome.ok.injEq, Prod.mk.injEq] at hrun
        rw [← hrun.2]
        exact EnvGet_of_ownBinding env identifier old s4
          (ownBinding_EnvSet env identifier old s3 s4 u hset)
      | panic m => rw [hset] at hrun; cases hrun
      | outOfFuel => rw [hset] at hrun; cases hrun
    | none =>
      simp only [restoreIdentifier] at hrun
      cases hdel : EnvDelete env identifier s3 with
      | ok q =>
        obtain ⟨u, s4⟩ := q
        rw [hdel] at hrun
        simp only [pure_run, Outcome.ok.injEq, Prod.mk.injEq] at hrun
        rw [← hrun.2]
        exact EnvGet_after_delete env identifier s3 s4 u (houter rfl r1 s3 hloop) hdel
      | panic m => rw [hdel] at hrun; cases hrun
      | outOfFuel => rw [hdel] at hrun; cases hrun
  | panic m => rw [hloop] at hrun; cases hrun
  | outOfFuel => rw [hloop] at hrun; cases hrun

/-- A lookup whose value is known returns it and leaves the heap alone. -/
theorem EnvGet_of_value {r : Nat} {name : String} {s : State} {v : Option Object}
    (h : valueOf (EnvGet r name s) = .ok v) : EnvGet r name s = .ok (v, s) := by
  have h1 := ok_of_valueOf h
  rw [h1, EnvGet_state r name s _ v h1]

/-- A lookup in the enclosing environments whose value is known returns it and
leaves the heap alone. -/
theorem outerGet_of_value {r : Nat} {name : String} {s : State} {v : Option Object}
    (h : valueOf (outerGet r name s) = .ok v) : outerGet r name s = .ok (v, s) := by
  unfold outerGet at h ⊢
  cases he : s.envs.get? r with
  | none => rw [he] at h; cases h
  | some e =>
    rw [he] at h
    simp only [] at h ⊢
    cases ho : e.outer with
    | none =>
      rw [ho] at h
      simp only [valueOf, Outcome.ok.injEq] at h
      rw [h]
    | some o =>
      rw [ho] at h
      simp only [] at h ⊢
      cases hg : envGetAux s.envs s.envs.length o name with
      | ok w =>
        rw [hg] at h
        simp only [valueOf, Outcome.ok.injEq] at h
        rw [h]
      | panic m => rw [hg] at h; cases h
      | outOfFuel => rw [hg] at h; cases h

/-- Witness of `for_loop_restores_identifier`: the loop
`döngü i = 0; i < 3; i = i + 1 { 8 }` at the top level, where `i` is not bound
before the loop and not bound after it. -/
theorem for_loop_restores_identifier_witness :
    EnvGet 0 "i" (startOf countToThreeSrc) = .ok (none, startOf countToThreeSrc) ∧
    EnvGet 0 "i" (stateOf (evalForExpression (Eval bareWorld 8) 10 "i" countToThreeStarter
        countToThreeCondition countToThreeCloser eightBlock 0 (startOf countToThreeSrc)))
      = .ok (none, stateOf (evalForExpression (Eval bareWorld 8) 10 "i" countToThreeStarter
        countToThreeCondition countToThreeCloser eightBlock 0 (startOf countToThreeSrc))) :=
  ⟨EnvGet_of_value (yieldsOption_sound (by decide!)),
   for_loop_restores_identifier (Eval bareWorld 8) 10 "i" countToThreeStarter
    countToThreeCondition countToThreeCloser eightBlock 0 (startOf countToThreeSrc)
    (stateOf (Eval bareWorld 8 countToThreeStarter 0 (startOf countToThreeSrc)))
    (stateOf (evalForExpression (Eval bareWorld 8) 10 "i" countToThreeStarter
        countToThreeCondition countToThreeCloser eightBlock 0 (startOf countToThreeSrc)))
    none NULL NULL
    (EnvGet_of_value (yieldsOption_sound (by decide!)))
    (ok_of_valueOf (yields_sound (by decide!))) rfl
    (ok_of_valueOf (yields_sound (by decide!)))
    (fun _ r1 s3 h => by
      have hs : stateOf (evalForLoop (Eval bareWorld 8) countToThreeCondition countToThreeCloser
          eightBlock 0 10 (stateOf (Eval bareWorld 8 countToThreeStarter 0
            (startOf countToThreeSrc)))) = s3 := congrArg stateOf h
      rw [← hs]
      exact outerGet_of_value (yieldsOption_sound (by decide!)))⟩

/-! ## Hash keys -/

/-- C15 (amended): a hash literal and a hash index assignment accept a key
exactly when the key value is a String (only strings are hashable).  In a hash
literal a key of another type, numbers and booleans included, ends the literal
with an error and no hash is made; a String key lets the literal go on with the
value.  In a hash index assignment a key of another type yields an error and
the heap, the hash included, is left as it was; a String key writes the pair
under that key. -/
theorem hash_keys_are_strings (ev : Evaluator) (tok : Token) (env : Nat) :
    (∀ key : Object, (hashKeyOf key).isSome = true ↔ Type_ key = .ok object.STRING_OBJ) ∧
    (∀ (keyNode valueNode : Node) (rest : List (Node × Node)) (acc : PairMap) (s s1 : State)
        (key : Object),
      ev keyNode env s = .ok (key, s1) → isError key = false →
      (Type_ key ≠ .ok object.STRING_OBJ →
        evalHashLiteralLoop ev tok env ((keyNode, valueNode) :: rest) acc s
          = (newError tok badLiteralKeyMessage >>= fun e => pure (.inr e)) s1) ∧
      (Type_ key = .ok object.STRING_OBJ →
        evalHashLiteralLoop ev tok env ((keyNode, valueNode) :: rest) acc s
          = (ev valueNode env >>= fun value =>
              if isError value = true then pure (.inr value)
              else evalHashLiteralLoop ev tok env rest
                (mapSet acc (stringHashKey (keyText key)) { Key := key, Value := value })) s1)) ∧
    (∀ pairs : List (Node × Node),
      evalHashLiteral ev tok pairs env
        = evalHashLiteralLoop ev tok env pairs [] >>= fun r =>
            Sum.elim (fun m => newMap m >>= fun mr => newHash mr) (fun o => pure o) r) ∧
    (∀ (leftNode indexNode endNode : Node) (isRange : Bool) (expr index : Object)
        (s s1 s2 : State) (r : Nat) (h : HashObj) (m : PairMap),
      ev leftNode env s = .ok (.Hash r, s1) → ev indexNode env s1 = .ok (index, s2) →
      s2.hashes.get? r = some h → s2.maps.get? h.Pairs = some m →
      (Type_ index ≠ .ok object.STRING_OBJ →
        evalIndexAssignment ev (.IndexExpression tok leftNode indexNode endNode isRange) expr env s
          = newError tok badAssignedKeyMessage s2) ∧
      (Type_ index = .ok object.STRING_OBJ →
        evalIndexAssignment ev (.IndexExpression tok leftNode indexNode endNode isRange) expr env s
          = (putMap h.Pairs
              (mapSet m (stringHashKey (keyText index)) { Key := index, Value := expr })
                >>= fun _ => pure NULL) s2)) ∧
    (∀ msg s r s1, newError tok msg s = .ok (r, s1) → isError r = true ∧ s1 = s) := by
  refine ⟨?_, ?_, ?_, ?_, fun msg s r s1 h => newError_ok tok msg s s1 r h⟩
  · intro key
    cases key <;> simp [hashKeyOf, Type_, object.STRING_OBJ, object.NULL_OBJ, object.BOOLEAN_OBJ,
      object.NUMBER_OBJ, object.ARRAY_OBJ, object.HASH_OBJ, object.FUNCTION_OBJ,
      object.BUILTIN_OBJ, object.RETURN_VALUE_OBJ, object.ERROR_OBJ]
  · intro keyNode valueNode rest acc s s1 key hkey herr
    constructor
    · intro hty
      rw [evalHashLiteralLoop.eq_def]
      simp only [bind_run, hkey, herr, Bool.false_eq_true, if_false]
      cases key <;> first
        | (exfalso; exact hty rfl)
        | simp only [hashKeyOf, bind_run, badLiteralKeyMessage]
    · intro hty
      rw [evalHashLiteralLoop.eq_def]
      simp only [bind_run, hkey, herr, Bool.false_eq_true, if_false]
      cases key <;> first
        | (simp [Type_, object.STRING_OBJ, object.NULL_OBJ, object.BOOLEAN_OBJ,
            object.NUMBER_OBJ, object.ARRAY_OBJ, object.HASH_OBJ, object.FUNCTION_OBJ,
            object.BUILTIN_OBJ, object.RETURN_VALUE_OBJ, object.ERROR_OBJ] at hty; done)
        | simp only [hashKeyOf, bind_run, keyText]
  · intro pairs
    funext s
    simp only [evalHashLiteral, bind_run]
    cases evalHashLiteralLoop ev tok env pairs [] s with
    | ok p =>
      obtain ⟨r, s1⟩ := p
      cases r <;> rfl
    | panic m => rfl
    | outOfFuel => rfl
  · intro leftNode indexNode endNode isRange expr index s s1 s2 r h m hleft hindex hh hm
    constructor
    · intro hty
      simp only [evalIndexAssignment, bind_run, hleft, hindex, Type_, lift_run, getHash, hh,
        object.HASH_OBJ, if_true]
      cases index <;> first
        | (exfalso; exact hty rfl)
        | simp only [hashKeyOf, badAssignedKeyMessage]
    · intro hty
      simp only [evalIndexAssignment, bind_run, hleft, hindex, Type_, lift_run, getHash, hh,
        object.HASH_OBJ, if_true]
      cases index <;> first
        | (simp [Type_, object.STRING_OBJ, object.NULL_OBJ, object.BOOLEAN_OBJ,
            object.NUMBER_OBJ, object.ARRAY_OBJ, object.HASH_OBJ, object.FUNCTION_OBJ,
            object.BUILTIN_OBJ, object.RETURN_VALUE_OBJ, object.ERROR_OBJ] at hty; done)
        | simp only [hashKeyOf, bind_run, keyText, getMap, hm, putMap, pure_run]

/-- C15 (counterexample): the hash literals `{1: 2}` and `{Doğru: 2}`, whose
keys are a Number and a Boolean, are not accepted: each evaluates to the error
"numbers, variables and functions cannot be used as hash keys". -/
theorem number_and_boolean_keys_rejected :
    valueOf (Eval bareWorld 20 numberKeyHashLit 0 (startOf numberKeyHashSrc))
      = .ok (.Error (badLiteralKeyMessage ++ "\x1b[97m\n1:1> \x7b1: 2\x7d")) ∧
    valueOf (Eval bareWorld 19 (.NumberLiteral (tk token.NUMBER 1 "1") 1) 0
      (startOf numberKeyHashSrc)) = .ok (.Number 1) ∧
    valueOf (Eval bareWorld 20 booleanKeyHashLit 0 (startOf booleanKeyHashSrc))
      = .ok (.Error (badLiteralKeyMessage ++ "\x1b[97m\n1:1> \x7bDoğru: 2\x7d")) ∧
    valueOf (Eval bareWorld 19 (.Boolean (tk token.TRUE 1 "Doğru") true) 0
      (startOf booleanKeyHashSrc)) = .ok (.Boolean true) :=
  ⟨yields_sound (by decide!), rfl, yields_sound (by decide!), rfl⟩

/-- Witness of `hash_keys_are_strings`: on the heap left by `h = {}` the
assignment to `h[1]` is refused and the assignment to `h["k"]` writes the pair. -/
theorem hash_keys_are_strings_witness :
    evalIndexAssignment (Eval bareWorld 8) numberIndexTarget (.Number 2) 0 hashBound
      = newError (tk token.LBRACKET 1 "[") badAssignedKeyMessage
          (stateOf (Eval bareWorld 8 (.NumberLiteral (tk token.NUMBER 2 "1") 1) 0
            (stateOf (Eval bareWorld 8 (.Identifier (tk token.IDENT 0 "h") "h") 0 hashBound)))) ∧
    evalIndexAssignment (Eval bareWorld 8) stringIndexTarget (.Number 2) 0 hashBound
      = (putMap 0 (mapSet [] (stringHashKey "k")
            { Key := .String "k" none none, Value := .Number 2 }) >>= fun _ => pure NULL)
          (stateOf (Eval bareWorld 8 (.StringLiteral (tk token.STRING 2 "k") "k") 0
            (stateOf (Eval bareWorld 8 (.Identifier (tk token.IDENT 0 "h") "h") 0 hashBound)))) :=
  ⟨((hash_keys_are_strings (Eval bareWorld 8) (tk token.LBRACKET 1 "[") 0).2.2.2.1
      (.Identifier (tk token.IDENT 0 "h") "h") (.NumberLiteral (tk token.NUMBER 2 "1") 1) .nil
      false (.Number 2) (.Number 1) hashBound _ _ 0 { Pairs := 0, Position := 0 } []
      (ok_of_valueOf (yields_sound (by decide!))) (ok_of_valueOf (yields_sound (by decide!)))
      (holdsHash_sound (by decide!)) (holdsMap_sound (by decide!))).1 (by decide),
   ((hash_keys_are_strings (Eval bareWorld 8) (tk token.LBRACKET 1 "[") 0).2.2.2.1
      (.Identifier (tk token.IDENT 0 "h") "h") (.StringLiteral (tk token.STRING 2 "k") "k") .nil
      false (.Number 2) (.String "k" none none) hashBound _ _ 0 { Pairs := 0, Position := 0 } []
      (ok_of_valueOf (yields_sound (by decide!))) (ok_of_valueOf (yields_sound (by decide!)))
      (holdsHash_sound (by decide!)) (holdsMap_sound (by decide!))).2 rfl⟩

/-! ## Array indexing -/

/-- The nil node (an omitted expression) evaluates to `NULL`. -/
theorem Eval_nil (W : World) (n : Nat) (env : Nat) (s : State) :
    Eval W (n + 1) .nil env s = .ok (NULL, s) := rfl

/-- An index expression whose left side is an array and whose index is a number
is handed to `evalArrayIndexExpression`. -/
theorem evalIndexExpression_array (W : World) (n : Nat) (tok : Token)
    (leftNode indexNode endNode : Node) (isRange : Bool) (env : Nat) (s s1 s2 s3 : State)
    (r : Nat) (i : Int) (e : Object)
    (hleft : Eval W n leftNode env s = .ok (.Array r, s1))
    (hindex : Eval W n indexNode env s1 = .ok (.Number i, s2))
    (hend : Eval W n endNode env s2 = .ok (e, s3)) (he : isError e = false) :
    Eval W (n + 1) (.IndexExpression tok leftNode indexNode endNode isRange) env s
      = evalArrayIndexExpression W n tok (.Array r) (.Number i) e isRange s3 := by
  have h1 : isError (.Array r) = false := rfl
  have h2 : isError (.Number i) = false := rfl
  rw [Eval_succ]
  simp only [EvalStep, evalIndexExpression, bind_run, hleft, hindex, hend, he, h1, h2,
    Bool.false_eq_true, if_false, Type_, lift_run]
  simp [object.ARRAY_OBJ, object.NUMBER_OBJ]

/-- C16: for every array `a` of length `n` and integer index `i`, `a[i]` is the
element at position `i` when `0 ≤ i < n`, the element at position `n + i`
when `-n ≤ i < 0`, and `NULL` for every other `i`; in no case does it fail. -/
theorem array_index_in_and_out_of_range (W : World) (n : Nat) (tok : Token)
    (leftNode indexNode : Node) (env : Nat) (s s1 s2 : State) (r : Nat) (a : ArrayObj) (i : Int)
    (hleft : Eval W (n + 1) leftNode env s = .ok (.Array r, s1))
    (hindex : Eval W (n + 1) indexNode env s1 = .ok (.Number i, s2))
    (ha : s2.arrays.get? r = some a) :
    (0 ≤ i → i < a.Elements.length →
      ∃ v, a.Elements.get? i.toNat = some v ∧
        Eval W (n + 2) (.IndexExpression tok leftNode indexNode .nil false) env s = .ok (v, s2)) ∧
    (-(a.Elements.length : Int) ≤ i → i < 0 →
      ∃ v, a.Elements.get? ((a.Elements.length : Int) + i).toNat = some v ∧
        Eval W (n + 2) (.IndexExpression tok leftNode indexNode .nil false) env s = .ok (v, s2)) ∧
    ((a.Elements.length : Int) ≤ i ∨ i < -(a.Elements.length : Int) →
      Eval W (n + 2) (.IndexExpression tok leftNode indexNode .nil false) env s
        = .ok (NULL, s2)) := by
  have hd := evalIndexExpression_array W (n + 1) tok leftNode indexNode .nil false env s s1 s2 s2
    r i NULL hleft hindex (Eval_nil W n env s2) rfl
  rw [hd]
  simp only [evalArrayIndexExpression, bind_run, getArray, ha, Bool.false_eq_true, if_false]
  refine ⟨?_, ?_, ?_⟩
  · intro h0 hn
    obtain ⟨v, hv⟩ : ∃ v, a.Elements.get? i.toNat = some v := by
      cases hg : a.Elements.get? i.toNat with
      | some v => exact ⟨v, rfl⟩
      | none => rw [List.get?_eq_none] at hg; omega
    refine ⟨v, hv, ?_⟩
    rw [if_neg (by omega), if_neg (by omega), hv]
    rfl
  · intro h0 hn
    obtain ⟨v, hv⟩ : ∃ v, a.Elements.get? ((a.Elements.length : Int) + i).toNat = some v := by
      cases hg : a.Elements.get? ((a.Elements.length : Int) + i).toNat with
      | some v => exact ⟨v, rfl⟩
      | none => rw [List.get?_eq_none] at hg; omega
    refine ⟨v, hv, ?_⟩
    have e1 : (a.Elements.length : Int) - 1 + 1 + i = (a.Elements.length : Int) + i := by omega
    rw [if_neg (by omega), if_pos hn, if_neg (by omega), e1, hv]
    rfl
  · intro h
    rcases h with h | h
    · rw [if_pos (by omega)]
      rfl
    · rw [if_neg (by omega), if_pos (by omega), if_pos (by omega)]
      rfl

/-- An identifier bound in the store of the current environment evaluates to
its value. -/
theorem Eval_Identifier_bound (W : World) (n : Nat) (t : Token) (name : String) (v : Object)
    (env : Nat) (s : State) (h : ownBinding s env name = some v) :
    Eval W (n + 1) (.Identifier t name) env s = .ok (v, s) := by
  rw [Eval_succ]
  simp only [EvalStep, evalIdentifier, bind_run, EnvGet_of_ownBinding env name v s h, pure_run]

/-- In the heap `threeBound` the name `a` is bound to the array at pointer 0. -/
theorem threeBound_a : ownBinding threeBound 0 "a" = some (.Array 0) := by
  have h : (Outcome.ok (ownBinding threeBound 0 "a") : Outcome (Option Object))
      = .ok (some (.Array 0)) := yieldsOption_sound (by decide!)
  exact Outcome.ok.inj h

/-- In the heap `threeBound` the array at pointer 0 is `[10, 20, 30]`. -/
theorem threeBound_array : threeBound.arrays.get? 0 = some threeNumbers :=
  holdsArray_sound (by decide!)

/-- Witness of `array_index_in_and_out_of_range`: for `a = [10, 20, 30]` the
expression `a[1]` is 20, `a[-1]` is 30 and `a[5]` is `NULL`. -/
theorem array_index_in_and_out_of_range_witness :
    Eval bareWorld 10 (.IndexExpression (tk token.LBRACKET 1 "[") identA (numAt2 "1" 1) .nil
      false) 0 threeBound = .ok (.Number 20, threeBound) ∧
    Eval bareWorld 10 (.IndexExpression (tk token.LBRACKET 1 "[") identA minusOneAt2 .nil
      false) 0 threeBound = .ok (.Number 30, threeBound) ∧
    Eval bareWorld 10 (.IndexExpression (tk token.LBRACKET 1 "[") identA (numAt2 "5" 5) .nil
      false) 0 threeBound = .ok (NULL, threeBound) := by
  refine ⟨?_, ?_, ?_⟩
  · obtain ⟨v, hv, he⟩ := (array_index_in_and_out_of_range bareWorld 8 (tk token.LBRACKET 1 "[")
      identA (numAt2 "1" 1) 0 threeBound threeBound threeBound 0 threeNumbers 1
      (Eval_Identifier_bound bareWorld 8 _ "a" _ 0 threeBound threeBound_a)
      (Eval_NumberLiteral bareWorld 8 _ 1 0 threeBound) threeBound_array).1
      (by decide) (by decide)
    cases hv
    exact he
  · obtain ⟨v, hv, he⟩ := (array_index_in_and_out_of_range bareWorld 8 (tk token.LBRACKET 1 "[")
      identA minusOneAt2 0 threeBound threeBound threeBound 0 threeNumbers (-1)
      (Eval_Identifier_bound bareWorld 8 _ "a" _ 0 threeBound threeBound_a)
      rfl threeBound_array).2.1 (by decide) (by decide)
    cases hv
    exact he
  · exact (array_index_in_and_out_of_range bareWorld 8 (tk token.LBRACKET 1 "[") identA
      (numAt2 "5" 5) 0 threeBound threeBound threeBound 0 threeNumbers 5
      (Eval_Identifier_bound bareWorld 8 _ "a" _ 0 threeBound threeBound_a)
      (Eval_NumberLiteral bareWorld 8 _ 5 0 threeBound) threeBound_array).2.2
      (Or.inl (by decide))

/-! ## Array slices -/

/-- The Go slice `elems[lo:hi]` holds the elements at the positions
`lo .. hi - 1`. -/
theorem drop_take_eq_positions (elems : List Object) (lo hi : Nat) (h1 : lo ≤ hi)
    (h2 : hi ≤ elems.length) :
    (elems.drop lo).take (hi - lo)
      = (List.range (hi - lo)).map (fun k => elems.getD (lo + k) NULL) := by
  apply List.ext_getElem?
  intro k
  by_cases hk : k < hi - lo
  · rw [List.getElem?_take_of_lt hk, List.getElem?_drop, List.getElem?_map,
      List.getElem?_range hk]
    have hlt : lo + k < elems.length := by omega
    simp [List.getD_eq_getElem?_getD, List.getElem?_eq_getElem hlt]
  · have h3 : ((elems.drop lo).take (hi - lo)).length ≤ k := by
      simp only [List.length_take, List.length_drop]
      omega
    have h4 : ((List.range (hi - lo)).map (fun k => elems.getD (lo + k) NULL)).length ≤ k := by
      simp only [List.length_map, List.length_range]
      omega
    rw [List.getElem?_eq_none h3, List.getElem?_eq_none h4]

/-- The conversion to `int64` of a number below `-2 ^ 63`. -/
theorem intOfFloat_below (v : Int) (h : v < -9223372036854775808) :
    intOfFloat v = -9223372036854775808 := by
  unfold intOfFloat
  rw [if_neg (by omega)]

/-- The start of a slice as the code computes it, for a start below `2 ^ 63`,
is `max(i, 0)`. -/
theorem sliceStart_eq (i : Int) (hi : i < 9223372036854775808) :
    (if intOfFloat i < 0 then 0 else intOfFloat i) = (if i < 0 then 0 else i) := by
  by_cases h : -9223372036854775808 ≤ i
  · rw [intOfFloat_eq i h hi]
  · rw [intOfFloat_below i (by omega), if_pos (by decide), if_pos (by omega)]

/-- The end of a slice as the code computes it, for an end below `2 ^ 63` and a
length of at most `2 ^ 53`, is the end in the words of the spec. -/
theorem sliceEnd_number (n j : Int) (hn0 : 0 ≤ n) (hn : n ≤ 9007199254740992)
    (hj2 : j < 9223372036854775808) :
    sliceEnd n (.Number j) = some (if j ≥ 0 then min j n else max (n + j) 0) := by
  by_cases hj1 : -9223372036854775808 ≤ j
  swap
  · have hf := float64OfInt_neg (n + -9223372036854775808) (by omega)
    simp only [sliceEnd, intOfFloat_below j (by omega)]
    rw [if_pos (by decide), if_pos hf, intOfFloat_eq 0 (by decide) (by decide),
      if_neg (by omega), max_eq_right (by omega)]
  simp only [sliceEnd, intOfFloat_eq j hj1 hj2]
  by_cases hneg : j < 0
  · have hge : ¬ j ≥ 0 := by omega
    rw [if_pos hneg, if_neg hge]
    by_cases hm : n + j < 0
    · have hf := float64OfInt_neg (n + j) hm
      rw [if_pos hf, intOfFloat_eq 0 (by decide) (by decide), max_eq_right (by omega)]
    · have hf : ¬ float64OfInt (n + j) < 0 := by
        rw [float64OfInt_eq (n + j) (by omega) (by omega)]
        exact hm
      rw [if_neg hf, float64OfInt_eq (n + j) (by omega) (by omega),
        intOfFloat_eq (n + j) (by omega) (by omega), max_eq_left (by omega)]
  · have hge : j ≥ 0 := by omega
    rw [if_neg hneg, if_pos hge]
    by_cases hlt : j < n
    · rw [if_pos hlt, min_eq_left (by omega)]
    · rw [if_neg hlt, min_eq_right (by omega)]

/-- The elements of the slice as the code takes them are the elements at the
positions `max(i, 0) .. e - 1`. -/
theorem sliced_positions (elems : List Object) (i e : Int) (hen : e ≤ (elems.length : Int)) :
    (if (if i < 0 then 0 else i) > e then []
      else (elems.drop (if i < 0 then 0 else i).toNat).take (e - (if i < 0 then 0 else i)).toNat)
      = (if max i 0 > e then []
        else (List.range (e - max i 0).toNat).map
          (fun k => elems.getD ((max i 0).toNat + k) NULL)) := by
  have hs : (if i < 0 then 0 else i) = max i 0 := by
    rw [max_def]; split_ifs <;> omega
  have hs0 : 0 ≤ max i 0 := le_max_right i 0
  rw [hs]
  by_cases hgt : max i 0 > e
  · rw [if_pos hgt, if_pos hgt]
  · rw [if_neg hgt, if_neg hgt]
    have e1 : (e - max i 0).toNat = e.toNat - (max i 0).toNat := by omega
    rw [e1, drop_take_eq_positions elems (max i 0).toNat e.toNat (by omega) (by omega)]

/-- C17 (amended): for every array `a` of length `n` and integers `i`, `j`
below `2 ^ 63` the slice `a[i:j]` does not
fail: it is a new array with the elements of `a` at the positions
`s .. e - 1`, where `s = max(i, 0)`, `e = min(j, n)` when `j ≥ 0` and
`e = max(n + j, 0)` when `j < 0` (empty when `s > e`); with `j` omitted
`e = n`; an omitted `i` is the literal 0 the parser puts in its place.  The
array has at most `2 ^ 53` elements, as every array in the memory of a 64-bit
machine has: the code computes `n + j` as a float. -/
theorem array_slice_is_clamped (W : World) (n : Nat) (tok : Token) (leftNode indexNode : Node)
    (env : Nat) (s s1 s2 : State) (r : Nat) (a : ArrayObj) (i : Int)
    (hleft : Eval W (n + 1) leftNode env s = .ok (.Array r, s1))
    (hindex : Eval W (n + 1) indexNode env s1 = .ok (.Number i, s2))
    (hi : i < 9223372036854775808)
    (hlen : a.Elements.length ≤ 9007199254740992) :
    (∀ (endNode : Node) (j : Int) (s3 : State),
      Eval W (n + 1) endNode env s2 = .ok (.Number j, s3) → s3.arrays.get? r = some a →
      j < 9223372036854775808 →
      Eval W (n + 2) (.IndexExpression tok leftNode indexNode endNode true) env s
        = newArray (sliceBySpec a.Elements i (some j)) false s3) ∧
    (s2.arrays.get? r = some a →
      Eval W (n + 2) (.IndexExpression tok leftNode indexNode .nil true) env s
        = newArray (sliceBySpec a.Elements i none) false s2) ∧
    (∀ (elems : List Object) (s0 : State), ∃ s4,
      newArray elems false s0 = .ok (.Array s0.arrays.length, s4) ∧
      s4.arrays.get? s0.arrays.length
        = some { Elements := elems, IsCurrentArgs := false, position := 0 }) := by
  have hcast : ((a.Elements.length : Int) - 1 + 1) = (a.Elements.length : Int) := by omega
  have hlen2 : (a.Elements.length : Int) ≤ 9007199254740992 := by exact_mod_cast hlen
  refine ⟨?_, ?_, ?_⟩
  · intro endNode j s3 hend ha hj2
    rw [evalIndexExpression_array W (n + 1) tok leftNode indexNode endNode true env s s1 s2 s3
      r i (.Number j) hleft hindex hend rfl]
    simp only [evalArrayIndexExpression, bind_run, getArray, ha, if_true]
    rw [hcast, sliceStart_eq i hi,
      sliceEnd_number (a.Elements.length : Int) j (by omega) hlen2 hj2]
    have hpos := sliced_positions a.Elements i
      (if j ≥ 0 then min j (a.Elements.length : Int) else max ((a.Elements.length : Int) + j) 0)
      (by split_ifs
          · exact min_le_right _ _
          · exact max_le (by omega) (by omega))
    simp only [sliceBySpec]
    rw [← hpos]
    split_ifs <;> rfl
  · intro ha
    rw [evalIndexExpression_array W (n + 1) tok leftNode indexNode .nil true env s s1 s2 s2
      r i NULL hleft hindex (Eval_nil W n env s2) rfl]
    simp only [evalArrayIndexExpression, bind_run, getArray, ha, if_true]
    have hnull : sliceEnd (a.Elements.length : Int) NULL = some (a.Elements.length : Int) := rfl
    rw [hcast, sliceStart_eq i hi, hnull]
    have hpos := sliced_positions a.Elements i (a.Elements.length : Int) (le_refl _)
    simp only [sliceBySpec]
    rw [← hpos]
    split_ifs <;> rfl
  · intro elems s0
    refine ⟨_, rfl, ?_⟩
    simp

/-- C17 (counterexample): `[10, 20, 30][0:9223372036854775808]`, with the end
`2 ^ 63`.  By the claim the slice ends at `min(j, n) = 3` and holds the three
elements; the code converts the end to an `int64`, which gives `-2 ^ 63`, takes
it for a negative end, and the slice is a new empty array.  And
`[10, 20, 30][9223372036854775808:3]`, with the start `2 ^ 63`: by the claim
the slice starts at `max(i, 0)`, beyond its end, and is empty; the code
converts the start to `-2 ^ 63`, starts at 0, and the slice is a new array of
the three elements. -/
theorem slice_end_outside_int64 :
    valueOf (Eval bareWorld 20 wideSlice 0 (startOf wideSliceSrc)) = .ok (.Array 1) ∧
    (stateOf (Eval bareWorld 20 wideSlice 0 (startOf wideSliceSrc))).arrays.get? 1
      = some { Elements := [], IsCurrentArgs := false, position := 0 } ∧
    sliceBySpec [.Number 10, .Number 20, .Number 30] 0 (some 9223372036854775808)
      = [.Number 10, .Number 20, .Number 30] ∧
    valueOf (Eval bareWorld 20 wideStart 0 (startOf wideStartSrc)) = .ok (.Array 1) ∧
    (stateOf (Eval bareWorld 20 wideStart 0 (startOf wideStartSrc))).arrays.get? 1
      = some { Elements := [.Number 10, .Number 20, .Number 30], IsCurrentArgs := false,
               position := 0 } ∧
    sliceBySpec [.Number 10, .Number 20, .Number 30] 9223372036854775808 (some 3) = [] :=
  ⟨yields_sound (by decide!), holdsArray_sound (by decide!), sameValues_sound _ _ (by decide),
   yields_sound (by decide!), holdsArray_sound (by decide!), sameValues_sound _ _ (by decide)⟩

/-- Witness of `array_slice_is_clamped`: for `a = [10, 20, 30]` the slice
`a[1:2]` is a new array `[20]`, `a[-1:10]` a new array `[10, 20, 30]`, and
`a[1:]` a new array `[20, 30]`. -/
theorem array_slice_is_clamped_witness :
    Eval bareWorld 10 (.IndexExpression (tk token.LBRACKET 1 "[") identA (numAt2 "1" 1)
        (.NumberLiteral (tk token.NUMBER 4 "2") 2) true) 0 threeBound
      = newArray [.Number 20] false threeBound ∧
    Eval bareWorld 10 (.IndexExpression (tk token.LBRACKET 1 "[") identA minusOneAt2
        (.NumberLiteral (tk token.NUMBER 5 "10") 10) true) 0 threeBound
      = newArray [.Number 10, .Number 20, .Number 30] false threeBound ∧
    Eval bareWorld 10 (.IndexExpression (tk token.LBRACKET 1 "[") identA (numAt2 "1" 1) .nil
        true) 0 threeBound
      = newArray [.Number 20, .Number 30] false threeBound :=
  ⟨(array_slice_is_clamped bareWorld 8 (tk token.LBRACKET 1 "[") identA (numAt2 "1" 1) 0
      threeBound threeBound threeBound 0 threeNumbers 1
      (Eval_Identifier_bound bareWorld 8 _ "a" _ 0 threeBound threeBound_a)
      (Eval_NumberLiteral bareWorld 8 _ 1 0 threeBound) (by decide) (by decide)).1
      (.NumberLiteral (tk token.NUMBER 4 "2") 2) 2 threeBound
      (Eval_NumberLiteral bareWorld 8 _ 2 0 threeBound) threeBound_array (by decide),
   (array_slice_is_clamped bareWorld 8 (tk token.LBRACKET 1 "[") identA minusOneAt2 0
      threeBound threeBound threeBound 0 threeNumbers (-1)
      (Eval_Identifier_bound bareWorld 8 _ "a" _ 0 threeBound threeBound_a) rfl
      (by decide) (by decide)).1
      (.NumberLiteral (tk token.NUMBER 5 "10") 10) 10 threeBound
      (Eval_NumberLiteral bareWorld 8 _ 10 0 threeBound) threeBound_array (by decide),
   (array_slice_is_clamped bareWorld 8 (tk token.LBRACKET 1 "[") identA (numAt2 "1" 1) 0
      threeBound threeBound threeBound 0 threeNumbers 1
      (Eval_Identifier_bound bareWorld 8 _ "a" _ 0 threeBound threeBound_a)
      (Eval_NumberLiteral bareWorld 8 _ 1 0 threeBound) (by decide) (by decide)).2.1
      threeBound_array⟩

/-! ## String indexing -/

/-- The code point of the character made of a number below the surrogates. -/
theorem toNat_ofNat_small (n : Nat) (h : n < 55296) : (Char.ofNat n).toNat = n := by
  unfold Char.ofNat
  rw [dif_pos (Or.inl h)]
  rfl

/-- The code point of the character that carries a byte. -/
theorem toNat_rawByte (b : Nat) (h : b < 256) : (rawByte b).toNat = 1113856 + b := by
  unfold rawByte Char.ofNat
  rw [dif_pos (Or.inr ⟨by omega, by omega⟩)]
  rfl

/-- The character `utf8DecodeStep` reads stands for the bytes it takes. -/
theorem utf8EncodeChar_step (bs : List Nat) (hne : bs ≠ []) (hb : ∀ b ∈ bs, b < 256) :
    utf8EncodeChar (utf8DecodeStep bs).1 = bs.take (utf8DecodeStep bs).2 := by
  obtain ⟨b0, rest, rfl⟩ : ∃ b0 rest, bs = b0 :: rest := by
    cases bs with
    | nil => exact absurd rfl hne
    | cons b0 rest => exact ⟨b0, rest, rfl⟩
  have hb0 : b0 < 256 := hb b0 (List.mem_cons_self _ _)
  unfold utf8DecodeStep
  simp only [List.headD_cons]
  by_cases h1 : b0 < 128
  · rw [if_pos h1]
    simp only [List.take_succ_cons, List.take_zero]
    unfold utf8EncodeChar isRawByte utf8Encode
    simp only [toNat_ofNat_small b0 (by omega)]
    have hr : decide (1113984 ≤ b0) = false := decide_eq_false (by omega)
    rw [hr]
    simp only [Bool.false_eq_true, if_false]
    rw [if_pos (by omega)]
  · rw [if_neg h1]
    split_ifs with h2 h3 h4
    · dsimp only
      exact h2
    · dsimp only
      exact h3
    · dsimp only
      exact h4
    · simp only [List.take_succ_cons, List.take_zero]
      unfold utf8EncodeChar isRawByte
      simp only [toNat_rawByte b0 hb0]
      have hr : decide (1113984 ≤ 1113856 + b0) = true := decide_eq_true (by omega)
      rw [hr]
      simp only [if_true, List.cons.injEq, and_true]
      omega

/-- A code point is below `0x110000`. -/
theorem Char_toNat_lt (c : Char) : c.toNat < 1114112 := by
  rcases c.valid with h | ⟨_, h⟩
  · exact Nat.lt_trans h (by decide)
  · exact h

/-- The bytes a character stands for are bytes. -/
theorem utf8EncodeChar_lt (c : Char) : ∀ b ∈ utf8EncodeChar c, b < 256 := by
  have hv := Char_toNat_lt c
  intro b hb
  unfold utf8EncodeChar utf8Encode at hb
  simp only [] at hb
  by_cases hr : isRawByte c = true
  · rw [if_pos hr] at hb
    simp only [List.mem_singleton] at hb
    omega
  · rw [if_neg hr] at hb
    split_ifs at hb <;>
      simp only [List.mem_cons, List.mem_singleton, List.not_mem_nil, or_false] at hb <;> omega

/-- The bytes of a string are bytes. -/
theorem stringBytes_lt (s : String) : ∀ b ∈ stringBytes s, b < 256 := by
  intro b hb
  unfold stringBytes at hb
  rw [List.mem_flatMap] at hb
  obtain ⟨c, _, hc⟩ := hb
  exact utf8EncodeChar_lt c b hc

/-- Reading a character takes at least one byte. -/
theorem utf8DecodeStep_pos (bs : List Nat) : 1 ≤ (utf8DecodeStep bs).2 := by
  unfold utf8DecodeStep
  simp only []
  split_ifs <;> simp

/-- The characters read from a byte sequence stand for these bytes. -/
theorem stringBytes_utf8DecodeAux :
    ∀ (n : Nat) (bs : List Nat), bs.length ≤ n → (∀ b ∈ bs, b < 256) →
      (utf8DecodeAux n bs).flatMap utf8EncodeChar = bs := by
  intro n
  induction n with
  | zero =>
    intro bs hl _
    have : bs = [] := List.length_eq_zero.mp (by omega)
    subst this
    rfl
  | succ n ih =>
    intro bs hl hb
    cases bs with
    | nil => rfl
    | cons b0 rest =>
      simp only [utf8DecodeAux, List.flatMap_cons]
      have hstep := utf8EncodeChar_step (b0 :: rest) (List.cons_ne_nil _ _) hb
      have hpos := utf8DecodeStep_pos (b0 :: rest)
      rw [hstep, ih _ (by simp only [List.length_drop, List.length_cons] at hl ⊢; omega)
        (fun b hm => hb b (List.mem_of_mem_drop hm))]
      exact List.take_append_drop _ _

/-- The string made of a sequence of bytes has these bytes, whether they are
valid UTF-8 or not. -/
theorem stringBytes_bytesToString (bs : List Nat) (hb : ∀ b ∈ bs, b < 256) :
    stringBytes (bytesToString bs) = bs :=
  stringBytes_utf8DecodeAux bs.length bs (le_refl _) hb

/-- An ASCII character stands for the byte that is its code point. -/
theorem utf8EncodeChar_ascii (c : Char) (hc : c.toNat < 128) : utf8EncodeChar c = [c.toNat] := by
  unfold utf8EncodeChar isRawByte utf8Encode
  have hr : decide (1113984 ≤ c.toNat) = false := decide_eq_false (by omega)
  rw [hr]
  simp only [Bool.false_eq_true, if_false]
  rw [if_pos (by omega)]

/-- The bytes of a string of ASCII characters are the code points of its
characters. -/
theorem stringBytes_ascii (cs : List Char) (h : ∀ c ∈ cs, c.toNat < 128) :
    stringBytes (String.mk cs) = cs.map Char.toNat := by
  unfold stringBytes
  simp only []
  induction cs with
  | nil => rfl
  | cons c rest ih =>
    have hc : c.toNat < 128 := h c (List.mem_cons_self _ _)
    have hrest : ∀ d ∈ rest, d.toNat < 128 := fun d hd => h d (List.mem_cons_of_mem _ hd)
    rw [List.flatMap_cons, ih hrest, utf8EncodeChar_ascii c hc]
    rfl

/-- The first rune of a byte sequence that starts with an ASCII byte. -/
theorem utf8DecodeStep_ascii (b : Nat) (rest : List Nat) (h : b < 128) :
    utf8DecodeStep (b :: rest) = (Char.ofNat b, 1) := by
  unfold utf8DecodeStep
  simp only [List.headD_cons]
  rw [if_pos h]

/-- Decoding the code points of ASCII characters gives the characters back. -/
theorem utf8DecodeAux_ascii (cs : List Char) (h : ∀ c ∈ cs, c.toNat < 128) :
    ∀ n, cs.length ≤ n → utf8DecodeAux n (cs.map Char.toNat) = cs := by
  induction cs with
  | nil =>
    intro n _
    cases n <;> rfl
  | cons c rest ih =>
    intro n hn
    have hc : c.toNat < 128 := h c (List.mem_cons_self _ _)
    have hrest : ∀ d ∈ rest, d.toNat < 128 := fun d hd => h d (List.mem_cons_of_mem _ hd)
    cases n with
    | zero => simp at hn
    | succ n =>
      simp only [List.map_cons, utf8DecodeAux, utf8DecodeStep_ascii c.toNat _ hc,
        Char.ofNat_toNat, List.drop_succ_cons, List.drop_zero]
      rw [ih hrest n (by simpa using hn)]

/-- The Go string made of the bytes of ASCII characters is their text. -/
theorem bytesToString_ascii (cs : List Char) (h : ∀ c ∈ cs, c.toNat < 128) :
    bytesToString (cs.map Char.toNat) = String.mk cs := by
  unfold bytesToString utf8Decode
  rw [utf8DecodeAux_ascii cs h _ (by simp)]

/-- An index expression whose left side is a string and whose index is a number
is handed to `evalStringIndexExpression`. -/
theorem evalIndexExpression_string (W : World) (n : Nat) (tok : Token)
    (leftNode indexNode endNode : Node) (isRange : Bool) (env : Nat) (s s1 s2 s3 : State)
    (text : String) (ok done : Option Bool) (i : Int) (e : Object)
    (hleft : Eval W n leftNode env s = .ok (.String text ok done, s1))
    (hindex : Eval W n indexNode env s1 = .ok (.Number i, s2))
    (hend : Eval W n endNode env s2 = .ok (e, s3)) (he : isError e = false) :
    Eval W (n + 1) (.IndexExpression tok leftNode indexNode endNode isRange) env s
      = evalStringIndexExpression W n tok (.String text ok done) (.Number i) e isRange s3 := by
  have h1 : isError (.String text ok done) = false := rfl
  have h2 : isError (.Number i) = false := rfl
  rw [Eval_succ]
  simp only [EvalStep, evalIndexExpression, bind_run, hleft, hindex, hend, he, h1, h2,
    Bool.false_eq_true, if_false, Type_, lift_run]
  simp [object.ARRAY_OBJ, object.NUMBER_OBJ, object.STRING_OBJ, object.HASH_OBJ]

/-- C18 (amended): string indexing and slicing count the bytes of the UTF-8
encoding.  For a string of `n` bytes (`n < 2 ^ 63`, as for every Go string),
`s[i]` with `0 ≤ i < n` is the string of the one character whose code point is
the `i`-th byte, and `s[i:j]` with `0 ≤ i ≤ j ≤ n` is the string whose bytes
are the bytes `i .. j - 1` of `s`, whether these are the encoding of
characters or not.  For a string of ASCII characters only, where bytes and
characters coincide, `s[i]` is the one-character string holding the `i`-th
character and `s[i:j]` is the substring of the characters `i .. j - 1`. -/
theorem string_index_counts_bytes (W : World) (n : Nat) (tok : Token) (leftNode indexNode : Node)
    (env : Nat) (s s1 s2 : State) (text : String) (ok done : Option Bool) (i : Int)
    (hleft : Eval W (n + 1) leftNode env s = .ok (.String text ok done, s1))
    (hindex : Eval W (n + 1) indexNode env s1 = .ok (.Number i, s2)) (hi : 0 ≤ i)
    (hlen : (stringBytes text).length < 9223372036854775808) :
    (∀ b : Nat, (stringBytes text).get? i.toNat = some b →
      Eval W (n + 2) (.IndexExpression tok leftNode indexNode .nil false) env s
        = .ok (.String (runeToString (Char.ofNat b)) none none, s2)) ∧
    (∀ (endNode : Node) (j : Int) (s3 : State),
      Eval W (n + 1) endNode env s2 = .ok (.Number j, s3) → i ≤ j →
      j ≤ ((stringBytes text).length : Int) →
      Eval W (n + 2) (.IndexExpression tok leftNode indexNode endNode true) env s
        = .ok (.String (bytesToString (((stringBytes text).drop i.toNat).take (j - i).toNat))
            none none, s3) ∧
      stringBytes (bytesToString (((stringBytes text).drop i.toNat).take (j - i).toNat))
        = ((stringBytes text).drop i.toNat).take (j - i).toNat) ∧
    ((∀ c ∈ text.data, c.toNat < 128) →
      (∀ c : Char, text.data.get? i.toNat = some c →
        Eval W (n + 2) (.IndexExpression tok leftNode indexNode .nil false) env s
          = .ok (.String (String.mk [c]) none none, s2)) ∧
      (∀ (endNode : Node) (j : Int) (s3 : State),
        Eval W (n + 1) endNode env s2 = .ok (.Number j, s3) → i ≤ j →
        j ≤ (text.data.length : Int) →
        Eval W (n + 2) (.IndexExpression tok leftNode indexNode endNode true) env s
          = .ok (.String (String.mk ((text.data.drop i.toNat).take (j - i).toNat)) none none,
              s3))) := by
  have hbyte : ∀ b : Nat, (stringBytes text).get? i.toNat = some b →
      Eval W (n + 2) (.IndexExpression tok leftNode indexNode .nil false) env s
        = .ok (.String (runeToString (Char.ofNat b)) none none, s2) := by
    intro b hb
    rw [evalIndexExpression_string W (n + 1) tok leftNode indexNode .nil false env s s1 s2 s2
      text ok done i NULL hleft hindex (Eval_nil W n env s2) rfl]
    have hlt : i.toNat < (stringBytes text).length := by
      by_contra hc
      rw [List.get?_eq_none.mpr (by omega)] at hb
      cases hb
    simp only [evalStringIndexExpression, Bool.false_eq_true, if_false]
    rw [if_neg (by omega), if_neg (by omega), hb]
    rfl
  have hslice : ∀ (endNode : Node) (j : Int) (s3 : State),
      Eval W (n + 1) endNode env s2 = .ok (.Number j, s3) → i ≤ j →
      j ≤ ((stringBytes text).length : Int) →
      Eval W (n + 2) (.IndexExpression tok leftNode indexNode endNode true) env s
        = .ok (.String (bytesToString (((stringBytes text).drop i.toNat).take (j - i).toNat))
            none none, s3) := by
    intro endNode j s3 hend hij hjn
    rw [evalIndexExpression_string W (n + 1) tok leftNode indexNode endNode true env s s1 s2 s3
      text ok done i (.Number j) hleft hindex hend rfl]
    have hcast : (((stringBytes text).length : Int) - 1 + 1) = ((stringBytes text).length : Int) := by
      omega
    simp only [evalStringIndexExpression, if_true, hcast, sliceEnd,
      intOfFloat_eq i (by omega) (by omega), intOfFloat_eq j (by omega) (by omega)]
    rw [if_neg (by omega)]
    have hmax : (if j < ((stringBytes text).length : Int) then some j
        else some ((stringBytes text).length : Int)) = some j := by
      split_ifs
      · rfl
      · congr 1; omega
    rw [hmax]
    simp only []
    rw [if_neg (by omega), if_neg (by omega)]
    rfl
  refine ⟨hbyte, ?_, ?_⟩
  · intro endNode j s3 hend hij hjn
    refine ⟨hslice endNode j s3 hend hij hjn, stringBytes_bytesToString _ ?_⟩
    intro b hb
    exact stringBytes_lt text b (List.mem_of_mem_drop (List.mem_of_mem_take hb))
  intro hascii
  have hbytes : stringBytes text = text.data.map Char.toNat := stringBytes_ascii text.data hascii
  constructor
  · intro c hc
    have hb : (stringBytes text).get? i.toNat = some c.toNat := by
      rw [hbytes, List.get?_eq_getElem?, List.getElem?_map, ← List.get?_eq_getElem?, hc]
      rfl
    rw [hbyte c.toNat hb, Char.ofNat_toNat]
    rfl
  · intro endNode j s3 hend hij hjn
    have hlen : (stringBytes text).length = text.data.length := by rw [hbytes, List.length_map]
    rw [hslice endNode j s3 hend hij (by rw [hlen]; exact hjn), hbytes, ← List.map_drop,
      ← List.map_take]
    rw [bytesToString_ascii]
    intro c hc
    exact hascii c (List.mem_of_mem_drop (List.mem_of_mem_take hc))

/-- C18 (counterexample): the string `"ğ"` has one character, encoded in the
two bytes 196 and 159.  `"ğ"[0]` is not that character but `"Ä"`, the character
with code point 196, and `"ğ"[0:1]` is not `"ğ"` but the string of the single
byte 196, which is the encoding of no character. -/
theorem string_index_takes_a_byte :
    "ğ".data.length = 1 ∧ stringBytes "ğ" = [196, 159] ∧
    valueOf (Eval bareWorld 20 gBreveFirstByte 0 (startOf gBreveSrc))
      = .ok (.String "Ä" none none) ∧
    valueOf (Eval bareWorld 20 gBreveSlice 0 (startOf gBreveSliceSrc))
      = .ok (.String (String.mk [rawByte 196]) none none) ∧
    stringBytes (String.mk [rawByte 196]) = [196] :=
  ⟨by decide, by decide, yields_sound (by decide!), yields_sound (by decide!), by decide⟩

/-- Witness of `string_index_counts_bytes`: for the ASCII string `"abc"` the
expression `"abc"[1]` is `"b"` and `"abc"[1:3]` is `"bc"`; for the string
`"ğa"` of three bytes the slice `"ğa"[0:2]` is the string of the bytes 196 and
159, which is `"ğ"`. -/
theorem string_index_counts_bytes_witness :
    Eval bareWorld 10 (.IndexExpression (tk token.LBRACKET 5 "[") abcLit
        (.NumberLiteral (tk token.NUMBER 6 "1") 1) .nil false) 0 (startOf abcSrc)
      = .ok (.String "b" none none, stateOf (Eval bareWorld 9 abcLit 0 (startOf abcSrc))) ∧
    Eval bareWorld 10 (.IndexExpression (tk token.LBRACKET 5 "[") abcLit
        (.NumberLiteral (tk token.NUMBER 6 "1") 1) (.NumberLiteral (tk token.NUMBER 8 "3") 3)
        true) 0 (startOf abcSrc)
      = .ok (.String "bc" none none, stateOf (Eval bareWorld 9 abcLit 0 (startOf abcSrc))) ∧
    (Eval bareWorld 10 gBreveASlice 0 (startOf gBreveASrc)
      = .ok (.String (bytesToString [196, 159]) none none,
          stateOf (Eval bareWorld 9 gBreveALit 0 (startOf gBreveASrc))) ∧
      stringBytes (bytesToString [196, 159]) = [196, 159]) ∧
    bytesToString [196, 159] = "ğ" :=
  ⟨((string_index_counts_bytes bareWorld 8 (tk token.LBRACKET 5 "[") abcLit
      (.NumberLiteral (tk token.NUMBER 6 "1") 1) 0 (startOf abcSrc) _ _ "abc" none none 1
      (ok_of_valueOf (yields_sound (by decide!))) (Eval_NumberLiteral bareWorld 8 _ 1 0 _)
      (by decide) (by decide)).2.2 (by decide)).1 'b' rfl,
   ((string_index_counts_bytes bareWorld 8 (tk token.LBRACKET 5 "[") abcLit
      (.NumberLiteral (tk token.NUMBER 6 "1") 1) 0 (startOf abcSrc) _ _ "abc" none none 1
      (ok_of_valueOf (yields_sound (by decide!))) (Eval_NumberLiteral bareWorld 8 _ 1 0 _)
      (by decide) (by decide)).2.2 (by decide)).2 (.NumberLiteral (tk token.NUMBER 8 "3") 3) 3 _
      (Eval_NumberLiteral bareWorld 8 _ 3 0 _) (by decide) (by decide),
   (string_index_counts_bytes bareWorld 8 (tk token.LBRACKET 4 "[") gBreveALit
      (.NumberLiteral (tk token.NUMBER 5 "0") 0) 0 (startOf gBreveASrc) _ _ "ğa" none none 0
      (ok_of_valueOf (yields_sound (by decide!))) (Eval_NumberLiteral bareWorld 8 _ 0 0 _)
      (by decide) (by decide)).2.1 (.NumberLiteral (tk token.NUMBER 7 "2") 2) 2 _
      (Eval_NumberLiteral bareWorld 8 _ 2 0 _) (by decide) (by decide),
   by decide⟩

/-! ## Array index assignment -/

/-- The growing loop appends `NULL` for the positions `i, ..., idx`. -/
theorem growLoop_eq (idx : Nat) :
    ∀ (k i : Nat) (elems : List Object), i ≤ idx + 1 → idx + 1 - i < k →
      growLoop idx k i elems = elems ++ List.replicate (idx + 1 - i) NULL := by
  intro k
  induction k with
  | zero => intro i elems _ h; omega
  | succ k ih =>
    intro i elems hi hk
    unfold growLoop
    by_cases hle : i ≤ idx
    · rw [if_pos hle, ih (i + 1) _ (by omega) (by omega), List.append_assoc]
      have hn : idx + 1 - i = (idx + 1 - (i + 1)) + 1 := by omega
      rw [hn, List.replicate_succ]
      rfl
    · rw [if_neg hle]
      have hn : idx + 1 - i = 0 := by omega
      rw [hn]
      simp

/-- The elements after an index assignment past the end of the array. -/
theorem assignElement_grow (elems : List Object) (idx : Nat) (expr : Object)
    (h : elems.length ≤ idx) :
    assignElement elems idx expr
      = elems ++ List.replicate (idx - elems.length) NULL ++ [expr] := by
  unfold assignElement
  rw [if_pos h, growLoop_eq idx _ elems.length elems (by omega) (by omega)]
  unfold setAt
  have hn : idx + 1 - elems.length = (idx - elems.length) + 1 := by omega
  rw [hn, List.replicate_succ', ← List.append_assoc]
  have hlen : (elems ++ List.replicate (idx - elems.length) NULL).length = idx := by
    simp only [List.length_append, List.length_replicate]
    omega
  rw [List.set_append_right _ _ (by omega), hlen]
  simp

/-- C19 (amended): index assignment `a[i] = v` on an array of length `n`, for an
integer `i` below `2 ^ 63`.  If `i ≥ n` the array afterwards has length
`i + 1`, its first `n` elements are unchanged, the positions `n .. i - 1` hold
`NULL` and position `i` holds `v`; if `0 ≤ i < n` only position `i` changes,
to `v`; if `i < 0` the result is an error (its message names the index as an
`int64`) and the heap, the array included, is unchanged. -/
theorem array_index_assignment (ev : Evaluator) (tok : Token)
    (leftNode indexNode endNode : Node) (isRange : Bool) (expr : Object) (env : Nat)
    (s s1 s2 : State) (r : Nat) (a : ArrayObj) (i : Int)
    (hleft : ev leftNode env s = .ok (.Array r, s1))
    (hindex : ev indexNode env s1 = .ok (.Number i, s2))
    (ha : s2.arrays.get? r = some a)
    (h64 : i < 9223372036854775808) :
    (i < 0 →
      evalIndexAssignment ev (.IndexExpression tok leftNode indexNode endNode isRange) expr env s
        = newError tok ("Verilen dizin aralık dışı: " ++ toString (intOfFloat i)) s2) ∧
    (0 ≤ i → ∃ (elems : List Object) (s3 : State),
      evalIndexAssignment ev (.IndexExpression tok leftNode indexNode endNode isRange) expr env s
        = .ok (NULL, s3) ∧
      s3.arrays.get? r = some { a with Elements := elems } ∧
      elems.get? i.toNat = some expr ∧
      ((a.Elements.length : Int) ≤ i →
        elems.length = i.toNat + 1 ∧
        (∀ k, k < a.Elements.length → elems.get? k = a.Elements.get? k) ∧
        (∀ k, a.Elements.length ≤ k → k < i.toNat → elems.get? k = some NULL)) ∧
      (i < (a.Elements.length : Int) →
        elems.length = a.Elements.length ∧
        (∀ k, k ≠ i.toNat → elems.get? k = a.Elements.get? k))) ∧
    (∀ msg s0 e s4, newError tok msg s0 = .ok (e, s4) → isError e = true ∧ s4 = s0) := by
  refine ⟨?_, ?_, fun msg s0 e s4 h => newError_ok tok msg s0 s4 e h⟩
  · intro hneg
    have hneg2 : intOfFloat i < 0 := by
      by_cases h : -9223372036854775808 ≤ i
      · rw [intOfFloat_eq i h h64]
        exact hneg
      · rw [intOfFloat_below i (by omega)]
        decide
    simp only [evalIndexAssignment, bind_run, hleft, hindex, Type_, lift_run, object.ARRAY_OBJ,
      if_true, getArray, ha, hneg2]
  · intro hpos
    have hint := intOfFloat_eq i (by omega) h64
    obtain ⟨s3, hput, hget⟩ : ∃ s3,
        putArray r { a with Elements := assignElement a.Elements i.toNat expr } s2 = .ok ((), s3) ∧
        s3.arrays.get? r = some { a with Elements := assignElement a.Elements i.toNat expr } :=
      ⟨_, rfl, get?_setAt s2.arrays r _ a ha⟩
    refine ⟨assignElement a.Elements i.toNat expr, s3, ?_, hget, ?_, ?_, ?_⟩
    · simp only [evalIndexAssignment, bind_run, hleft, hindex, Type_, lift_run,
        object.ARRAY_OBJ, if_true, getArray, ha, hint, not_lt.mpr hpos, if_false, hput,
        pure_run]
    · by_cases hge : a.Elements.length ≤ i.toNat
      · rw [assignElement_grow _ _ _ hge, List.get?_eq_getElem?]
        have hlen : (a.Elements ++ List.replicate (i.toNat - a.Elements.length) NULL).length
            = i.toNat := by
          simp only [List.length_append, List.length_replicate]
          omega
        rw [List.getElem?_append_right (by omega), hlen]
        simp
      · unfold assignElement setAt
        rw [if_neg (by omega), List.get?_eq_getElem?, List.getElem?_set]
        have hlt : i.toNat < a.Elements.length := by omega
        simp [hlt]
    · intro hge
      have hge2 : a.Elements.length ≤ i.toNat := by omega
      rw [assignElement_grow _ _ _ hge2]
      refine ⟨?_, ?_, ?_⟩
      · simp only [List.length_append, List.length_replicate, List.length_singleton]
        omega
      · intro k hk
        rw [List.get?_eq_getElem?, List.get?_eq_getElem?, List.append_assoc,
          List.getElem?_append_left hk]
      · intro k hk1 hk2
        rw [List.get?_eq_getElem?, List.getElem?_append_left (by simp; omega),
          List.getElem?_append_right hk1, List.getElem?_replicate]
        rw [if_pos (by omega)]
    · intro hlt
      have hlt2 : ¬ i.toNat ≥ a.Elements.length := by omega
      unfold assignElement setAt
      rw [if_neg hlt2]
      refine ⟨by simp, ?_⟩
      intro k hk
      rw [List.get?_eq_getElem?, List.get?_eq_getElem?, List.getElem?_set]
      rw [if_neg (fun h => hk h.symm)]

/-- C19 (counterexample): `a = [10, 20, 30]; a[10000000000000000000] = 1`.  By
the claim the index `10 ^ 19` is at least the length 3, and the array grows.
The code converts the index to an `int64`, which gives `-2 ^ 63`: the result
is the error of a negative index and the array is as it was. -/
theorem index_outside_int64_not_assigned :
    valueOf (Eval bareWorld 20 farAssign 0 (startOf farAssignSrc))
      = .ok (.Error ("Verilen dizin aralık dışı: -9223372036854775808\x1b[97m\n1:20> "
          ++ farAssignSrc)) ∧
    (stateOf (Eval bareWorld 20 farAssign 0 (startOf farAssignSrc))).arrays.get? 0
      = some threeNumbers :=
  ⟨yields_sound (by decide!), holdsArray_sound (by decide!)⟩

/-- Witness of `array_index_assignment`: for `a = [10, 20, 30]` the assignment
`a[-1] = 7` is an error and `a[5] = 7` grows the array to six elements, the
last of which is 7 and the two before it `NULL`. -/
theorem array_index_assignment_witness :
    evalIndexAssignment (Eval bareWorld 8)
        (.IndexExpression (tk token.LBRACKET 1 "[") identA minusOneAt2 .nil false) (.Number 7) 0
        threeBound
      = newError (tk token.LBRACKET 1 "[")
          ("Verilen dizin aralık dışı: " ++ toString (intOfFloat (-1))) threeBound ∧
    intOfFloat (-1) = -1 ∧
    ∃ (elems : List Object) (s3 : State),
      evalIndexAssignment (Eval bareWorld 8)
        (.IndexExpression (tk token.LBRACKET 1 "[") identA (numAt2 "5" 5) .nil false) (.Number 7) 0
        threeBound = .ok (NULL, s3) ∧
      s3.arrays.get? 0 = some { threeNumbers with Elements := elems } ∧
      elems.get? 5 = some (.Number 7) ∧ elems.length = 6 ∧
      elems.get? 0 = some (.Number 10) ∧ elems.get? 3 = some NULL ∧ elems.get? 4 = some NULL := by
  refine ⟨(array_index_assignment (Eval bareWorld 8) (tk token.LBRACKET 1 "[") identA minusOneAt2
      .nil false (.Number 7) 0 threeBound threeBound threeBound 0 threeNumbers (-1)
      (Eval_Identifier_bound bareWorld 7 _ "a" _ 0 threeBound threeBound_a) rfl
      threeBound_array (by decide)).1 (by decide), by decide, ?_⟩
  obtain ⟨elems, s3, h1, h2, h3, h4, _⟩ :=
    (array_index_assignment (Eval bareWorld 8) (tk token.LBRACKET 1 "[") identA (numAt2 "5" 5)
      .nil false (.Number 7) 0 threeBound threeBound threeBound 0 threeNumbers 5
      (Eval_Identifier_bound bareWorld 7 _ "a" _ 0 threeBound threeBound_a)
      (Eval_NumberLiteral bareWorld 7 _ 5 0 threeBound) threeBound_array (by decide)).2.1
      (by decide)
  obtain ⟨h5, h6, h7⟩ := h4 (by decide)
  exact ⟨elems, s3, h1, h2, h3, h5, h6 0 (by decide), h7 3 (by decide) (by decide),
    h7 4 (by decide) (by decide)⟩

/-! ## Destructuring assignment -/

/-- `env.Set` of one name leaves the bindings of the other names alone. -/
theorem ownBinding_EnvSet_other (r : Nat) (name m : String) (v : Object) (s s1 : State)
    (u : Unit) (h : EnvSet r name v s = .ok (u, s1)) (hm : m ≠ name) :
    ownBinding s1 r m = ownBinding s r m := by
  obtain ⟨e, he⟩ := EnvSet_frame r name v s s1 u h
  rw [EnvSet_ok r name v s e he] at h
  simp only [Outcome.ok.injEq, Prod.mk.injEq, true_and] at h
  subst h
  simp only [ownBinding, get?_setAt s.envs r _ e he, he, mapGet_mapSet]
  rw [if_neg (fun h => hm h.symm)]

/-- `env.Set` changes the environments only. -/
theorem EnvSet_heap (r : Nat) (name : String) (v : Object) (s s1 : State) (u : Unit)
    (h : EnvSet r name v s = .ok (u, s1)) :
    s1.arrays = s.arrays ∧ s1.hashes = s.hashes ∧ s1.maps = s.maps ∧
      ∃ e, s1.envs.get? r = some e := by
  obtain ⟨e, he⟩ := EnvSet_frame r name v s s1 u h
  rw [EnvSet_ok r name v s e he] at h
  simp only [Outcome.ok.injEq, Prod.mk.injEq, true_and] at h
  subst h
  exact ⟨rfl, rfl, rfl, _, get?_setAt s.envs r _ e he⟩

/-- The array case of the destructuring: every name is bound to the element at
its position, or to `NULL` past the end; a name that occurs again later keeps
the later binding. -/
theorem destructureArray_binds (W : World) (env : Nat) (els : List Object) :
    ∀ (ns : List (Token × String)) (i : Nat) (s : State),
      (∃ e, s.envs.get? env = some e) →
      ∃ s1, destructureArray W env els (identifierNodes ns) i s = .ok ((), s1) ∧
        (∃ e, s1.envs.get? env = some e) ∧
        s1.arrays = s.arrays ∧ s1.hashes = s.hashes ∧ s1.maps = s.maps ∧
        (∀ m, m ∉ ns.map Prod.snd → ownBinding s1 env m = ownBinding s env m) ∧
        (∀ k p, ns.get? k = some p → p.2 ∉ (ns.drop (k + 1)).map Prod.snd →
          ownBinding s1 env p.2 = some ((els.get? (i + k)).getD NULL)) := by
  intro ns
  induction ns with
  | nil =>
    intro i s hf
    exact ⟨s, rfl, hf, rfl, rfl, rfl, fun _ _ => rfl, fun k p hk => by simp at hk⟩
  | cons q rest ih =>
    intro i s hf
    obtain ⟨t, n⟩ := q
    obtain ⟨e, he⟩ := hf
    obtain ⟨s1, hset⟩ : ∃ s1, EnvSet env n ((els.get? i).getD NULL) s = .ok ((), s1) :=
      ⟨_, EnvSet_ok env n ((els.get? i).getD NULL) s e he⟩
    obtain ⟨h1, h2, h3, hf1⟩ := EnvSet_heap env n _ s _ () hset
    obtain ⟨s2, hrun, hf2, g1, g2, g3, hpres, hbind⟩ := ih (i + 1) _ hf1
    refine ⟨s2, ?_, hf2, g1.trans h1, g2.trans h2, g3.trans h3, ?_, ?_⟩
    · simp only [identifierNodes, List.map_cons, destructureArray, nodeString, bind_run, lift_run]
      simp only [identifierNodes] at hrun
      cases hg : els.get? i with
      | some v =>
        rw [hg] at hset
        simp only [Option.getD_some] at hset
        simp only [bind_run, hset]
        exact hrun
      | none =>
        rw [hg] at hset
        simp only [Option.getD_none] at hset
        simp only [bind_run, hset]
        exact hrun
    · intro m hm
      simp only [List.map_cons, List.mem_cons, not_or] at hm
      rw [hpres m hm.2, ownBinding_EnvSet_other env n m _ s _ () hset hm.1]
    · intro k p hk hlast
      cases k with
      | zero =>
        simp only [List.get?_cons_zero, Option.some.injEq] at hk
        subst hk
        simp only [zero_add, List.drop_succ_cons, List.drop_zero] at hlast
        rw [hpres n hlast, ownBinding_EnvSet env n _ s _ () hset]
        rfl
      | succ k =>
        simp only [List.get?_cons_succ] at hk
        simp only [List.drop_succ_cons] at hlast
        rw [hbind k p hk hlast]
        have : i + 1 + k = i + (k + 1) := by omega
        rw [this]

/-- The hash case of the destructuring: every name is bound to the value the
hash holds under the name as a string key, or to `NULL` when there is no such
key. -/
theorem destructureHash_binds (W : World) (env r : Nat) (h : HashObj) (mp : PairMap) :
    ∀ (ns : List (Token × String)) (s : State),
      (∃ e, s.envs.get? env = some e) → s.hashes.get? r = some h →
      s.maps.get? h.Pairs = some mp →
      ∃ s1, destructureHash W env r (identifierNodes ns) s = .ok ((), s1) ∧
        (∃ e, s1.envs.get? env = some e) ∧
        s1.arrays = s.arrays ∧ s1.hashes = s.hashes ∧ s1.maps = s.maps ∧
        (∀ m, m ∉ ns.map Prod.snd → ownBinding s1 env m = ownBinding s env m) ∧
        (∀ p ∈ ns, ownBinding s1 env p.2
          = some (((mapGet mp (stringHashKey p.2)).map (fun x => x.Value)).getD NULL)) := by
  intro ns
  induction ns with
  | nil =>
    intro s hf _ _
    exact ⟨s, rfl, hf, rfl, rfl, rfl, fun _ _ => rfl, fun p hp => by simp at hp⟩
  | cons q rest ih =>
    intro s hf hh hm
    obtain ⟨t, n⟩ := q
    obtain ⟨e, he⟩ := hf
    obtain ⟨s1, hset⟩ : ∃ s1, EnvSet env n
        (((mapGet mp (stringHashKey n)).map (fun x => x.Value)).getD NULL) s = .ok ((), s1) :=
      ⟨_, EnvSet_ok env n _ s e he⟩
    obtain ⟨h1, h2, h3, hf1⟩ := EnvSet_heap env n _ s _ () hset
    obtain ⟨s2, hrun, hf2, g1, g2, g3, hpres, hbind⟩ :=
      ih _ hf1 (by rw [h2]; exact hh) (by rw [h3]; exact hm)
    refine ⟨s2, ?_, hf2, g1.trans h1, g2.trans h2, g3.trans h3, ?_, ?_⟩
    · simp only [identifierNodes, List.map_cons, destructureHash, nodeString, bind_run, lift_run,
        HashGetPair, getHash, hh, getMap, hm, pure_run]
      have hkey : ({ Type_ := "STRING", Value := n } : HashKey) = stringHashKey n := rfl
      rw [hkey]
      simp only [identifierNodes] at hrun
      cases hg : mapGet mp (stringHashKey n) with
      | some v =>
        rw [hg] at hset
        simp only [Option.map_some', Option.getD_some] at hset
        simp only [bind_run, hset]
        exact hrun
      | none =>
        rw [hg] at hset
        simp only [Option.map_none', Option.getD_none] at hset
        simp only [bind_run, hset]
        exact hrun
    · intro m hmm
      simp only [List.map_cons, List.mem_cons, not_or] at hmm
      rw [hpres m hmm.2, ownBinding_EnvSet_other env n m _ s _ () hset hmm.1]
    · intro p hp
      simp only [List.mem_cons] at hp
      by_cases hin : p ∈ rest
      · exact hbind p hin
      · rcases hp with hp | hp
        · subst hp
          by_cases hn : n ∈ rest.map Prod.snd
          · obtain ⟨p2, hp2, hn2⟩ := List.mem_map.mp hn
            have := hbind p2 hp2
            rw [hn2] at this
            exact this
          · rw [hpres n hn, ownBinding_EnvSet env n _ s _ () hset]
        · exact absurd hp hin

/-- C20: the destructuring assignment `n1, ..., nk = e`.  When `e` evaluates
to an array each name is bound to the element at its position, or to `NULL`
when the array is too short (when a name is written twice its later place
counts); when `e` evaluates to a hash each name is bound to the value stored
under the name as a string key, or to `NULL` when there is no such key; for
any other value the result is an error (the value itself when it is one) and
the heap is left as the evaluation of `e` left it: no name is bound. -/
theorem destructuring_assignment (W : World) (n : Nat) (tok : Token)
    (ns : List (Token × String)) (valueNode : Node) (env : Nat) (s s1 : State) (val : Object)
    (e : Environment) (hns : ns ≠ [])
    (hval : Eval W n valueNode env s = .ok (val, s1))
    (hframe : s1.envs.get? env = some e) :
    (∀ (r : Nat) (a : ArrayObj), val = .Array r → s1.arrays.get? r = some a →
      ∃ s2, Eval W (n + 1) (.AssignStatement tok none (identifierNodes ns) .nil .nil valueNode)
          env s = .ok (NULL, s2) ∧
        ∀ k p, ns.get? k = some p → p.2 ∉ (ns.drop (k + 1)).map Prod.snd →
          EnvGet env p.2 s2 = .ok (some ((a.Elements.get? k).getD NULL), s2)) ∧
    (∀ (r : Nat) (h : HashObj) (mp : PairMap), val = .Hash r → s1.hashes.get? r = some h →
      s1.maps.get? h.Pairs = some mp →
      ∃ s2, Eval W (n + 1) (.AssignStatement tok none (identifierNodes ns) .nil .nil valueNode)
          env s = .ok (NULL, s2) ∧
        ∀ p ∈ ns, EnvGet env p.2 s2
          = .ok (some (((mapGet mp (stringHashKey p.2)).map (fun x => x.Value)).getD NULL), s2)) ∧
    ((∀ r, val ≠ .Array r) → (∀ r, val ≠ .Hash r) →
      Eval W (n + 1) (.AssignStatement tok none (identifierNodes ns) .nil .nil valueNode) env s
        = if isError val = true then .ok (val, s1)
          else newError tok badDestructuringMessage s1) ∧
    (∀ msg s0 err s4, newError tok msg s0 = .ok (err, s4) → isError err = true ∧ s4 = s0) := by
  have hlen : (identifierNodes ns).length > 0 := by
    cases ns with
    | nil => exact absurd rfl hns
    | cons q rest => simp [identifierNodes]
  refine ⟨?_, ?_, ?_, fun msg s0 err s4 h => newError_ok tok msg s0 s4 err h⟩
  · intro r a hv ha
    subst hv
    obtain ⟨s2, hrun, _, _, _, _, _, hbind⟩ :=
      destructureArray_binds W env a.Elements ns 0 s1 ⟨e, hframe⟩
    refine ⟨s2, ?_, ?_⟩
    · rw [Eval_succ]
      simp only [EvalStep, evalAssignment, bind_run, hval, isError, Bool.false_eq_true, if_false,
        hlen, if_true, getArray, ha, hrun, pure_run]
    · intro k p hk hlast
      have := hbind k p hk hlast
      rw [zero_add] at this
      exact EnvGet_of_ownBinding env p.2 _ s2 this
  · intro r h mp hv hh hm
    subst hv
    obtain ⟨s2, hrun, _, _, _, _, _, hbind⟩ :=
      destructureHash_binds W env r h mp ns s1 ⟨e, hframe⟩ hh hm
    refine ⟨s2, ?_, ?_⟩
    · rw [Eval_succ]
      simp only [EvalStep, evalAssignment, bind_run, hval, isError, Bool.false_eq_true, if_false,
        hlen, if_true, hrun, pure_run]
    · intro p hp
      exact EnvGet_of_ownBinding env p.2 _ s2 (hbind p hp)
  · intro hna hnh
    rw [Eval_succ]
    simp only [EvalStep, evalAssignment, bind_run, hval]
    cases val with
    | Array r => exact absurd rfl (hna r)
    | Hash r => exact absurd rfl (hnh r)
    | Error m => rfl
    | BreakError m => rfl
    | ContinueError m => rfl
    | _ =>
      simp only [isError, Bool.false_eq_true, if_false, hlen, if_true, badDestructuringMessage,
        bind_run]
      cases hne : newError tok
          "Listeli değişken tanımlaması için liste ya da tanımlayıcı beklendi, fakat başka bir şey bulundu"
          s1 with
      | ok p =>
        obtain ⟨err, s4⟩ := p
        obtain ⟨m, hm⟩ := newError_is_Error tok _ s1 s4 err hne
        subst hm
        rfl
      | panic m => rfl
      | outOfFuel => rfl

/-- A name bound in the store of an environment shows that the environment
exists. -/
theorem frame_of_ownBinding (s : State) (r : Nat) (name : String) (v : Object)
    (h : ownBinding s r name = some v) : ∃ e, s.envs.get? r = some e := by
  unfold ownBinding at h
  cases he : s.envs.get? r with
  | some e => exact ⟨e, rfl⟩
  | none => rw [he] at h; cases h

/-- In the heap `hashBound` the name `h` is bound to the hash at pointer 0. -/
theorem hashBound_h : ownBinding hashBound 0 "h" = some (.Hash 0) := by
  have h : (Outcome.ok (ownBinding hashBound 0 "h") : Outcome (Option Object))
      = .ok (some (.Hash 0)) := yieldsOption_sound (by decide!)
  exact Outcome.ok.inj h

/-- Witness of `destructuring_assignment`: for `a = [10, 20, 30]` the
assignment `p, q, w, z = a` binds the names to 10, 20, 30 and `NULL`; for the
empty hash `h` the assignment `p, q, w, z = h` binds them to `NULL`; and
`p, q, w, z = 5` is an error. -/
theorem destructuring_assignment_witness :
    (∃ s2, Eval bareWorld 9 (destructurePQWZ (.Identifier (tk token.IDENT 13 "a") "a")) 0
        threeBound = .ok (NULL, s2) ∧
      EnvGet 0 "p" s2 = .ok (some (.Number 10), s2) ∧
      EnvGet 0 "q" s2 = .ok (some (.Number 20), s2) ∧
      EnvGet 0 "w" s2 = .ok (some (.Number 30), s2) ∧
      EnvGet 0 "z" s2 = .ok (some NULL, s2)) ∧
    (∃ s2, Eval bareWorld 9 (destructurePQWZ (.Identifier (tk token.IDENT 13 "h") "h")) 0
        hashBound = .ok (NULL, s2) ∧
      EnvGet 0 "p" s2 = .ok (some NULL, s2)) ∧
    Eval bareWorld 9 (destructurePQWZ (.NumberLiteral (tk token.NUMBER 13 "5") 5)) 0 threeBound
      = newError (tk token.ASSIGN 11 "=") badDestructuringMessage threeBound := by
  obtain ⟨e1, he1⟩ := frame_of_ownBinding threeBound 0 "a" _ threeBound_a
  obtain ⟨e2, he2⟩ := frame_of_ownBinding hashBound 0 "h" _ hashBound_h
  refine ⟨?_, ?_, ?_⟩
  · obtain ⟨s2, hrun, hb⟩ := (destructuring_assignment bareWorld 8 (tk token.ASSIGN 11 "=")
      namesPQWZ (.Identifier (tk token.IDENT 13 "a") "a") 0 threeBound threeBound (.Array 0) e1
      (by decide) (Eval_Identifier_bound bareWorld 7 _ "a" _ 0 threeBound threeBound_a) he1).1
      0 threeNumbers rfl threeBound_array
    exact ⟨s2, hrun, hb 0 _ rfl (by decide), hb 1 _ rfl (by decide), hb 2 _ rfl (by decide),
      hb 3 _ rfl (by decide)⟩
  · obtain ⟨s2, hrun, hb⟩ := (destructuring_assignment bareWorld 8 (tk token.ASSIGN 11 "=")
      namesPQWZ (.Identifier (tk token.IDENT 13 "h") "h") 0 hashBound hashBound (.Hash 0) e2
      (by decide) (Eval_Identifier_bound bareWorld 7 _ "h" _ 0 hashBound hashBound_h) he2).2.1
      0 { Pairs := 0, Position := 0 } [] rfl (holdsHash_sound (by decide!))
      (holdsMap_sound (by decide!))
    exact ⟨s2, hrun, hb (tk token.IDENT 0 "p", "p") (by decide)⟩
  · exact (destructuring_assignment bareWorld 8 (tk token.ASSIGN 11 "=") namesPQWZ
      (.NumberLiteral (tk token.NUMBER 13 "5") 5) 0 threeBound threeBound (.Number 5) e1
      (by decide) (Eval_NumberLiteral bareWorld 7 _ 5 0 threeBound) he1).2.2.1
      (fun r h => by cases h) (fun r h => by cases h)

/-! ## Lists and outcomes -/

/-- A sequence of outcomes succeeds exactly when both of its parts do. -/
theorem Outcome_bind_ok {α β : Type} (x : Outcome α) (f : α → Outcome β) (b : β) :
    (x >>= f) = .ok b ↔ ∃ a, x = .ok a ∧ f a = .ok b := by
  cases x with
  | ok a =>
    constructor
    · intro h; exact ⟨a, rfl, h⟩
    · rintro ⟨a1, h1, h2⟩; cases h1; exact h2
  | panic m =>
    constructor
    · intro h; cases h
    · rintro ⟨_, h1, _⟩; cases h1
  | outOfFuel =>
    constructor
    · intro h; cases h
    · rintro ⟨_, h1, _⟩; cases h1

/-- Reading at the position where the second part of a list starts. -/
theorem get?_append_cons {α : Type} (y : α) (b : List α) :
    ∀ (m : List α), (m ++ y :: b).get? m.length = some y := by
  intro m
  induction m with
  | nil => rfl
  | cons c m ih => simpa using ih

/-- Reading the element just appended to a list. -/
theorem get?_append_new {α : Type} (l : List α) (x : α) : (l ++ [x]).get? l.length = some x :=
  get?_append_cons x [] l

/-- Reading an old element after an element was appended to a list. -/
theorem get?_append_old {α : Type} (l : List α) (x a : α) (r : Nat) (h : l.get? r = some a) :
    (l ++ [x]).get? r = some a := by
  rw [List.get?_eq_getElem?] at h ⊢
  obtain ⟨hr, _⟩ := List.getElem?_eq_some.mp h
  rw [List.getElem?_append_left hr]
  exact h

/-! ## Environment lookup and write -/

/-- The frames of a chain exist. -/
theorem isChain_bound (envs : List Environment) :
    ∀ (l : List Nat), isChain envs l = true → ∀ f ∈ l, f < envs.length := by
  intro l
  induction l with
  | nil => intro h; simp [isChain] at h
  | cons r rest ih =>
    intro h f hf
    have hr : r < envs.length := by
      cases rest with
      | nil =>
        simp only [isChain] at h
        cases he : envs.get? r with
        | none => rw [he] at h; cases h
        | some e =>
          rw [List.get?_eq_getElem?] at he
          exact (List.getElem?_eq_some.mp he).1
      | cons o rest2 =>
        simp only [isChain] at h
        cases he : envs.get? r with
        | none => rw [he] at h; cases h
        | some e =>
          rw [List.get?_eq_getElem?] at he
          exact (List.getElem?_eq_some.mp he).1
    rcases List.mem_cons.mp hf with h1 | h1
    · rw [h1]; exact hr
    · cases rest with
      | nil => cases h1
      | cons o rest2 =>
        simp only [isChain] at h
        cases he : envs.get? r with
        | none => rw [he] at h; cases h
        | some e =>
          rw [he] at h
          simp only [Bool.and_eq_true, decide_eq_true_eq] at h
          exact ih h.2 f h1

/-- The rest of a chain is a chain. -/
theorem isChain_tail (envs : List Environment) (r o : Nat) (rest : List Nat)
    (h : isChain envs (r :: o :: rest) = true) : isChain envs (o :: rest) = true := by
  simp only [isChain] at h
  cases he : envs.get? r with
  | none => rw [he] at h; cases h
  | some e =>
    rw [he] at h
    simp only [Bool.and_eq_true, decide_eq_true_eq] at h
    exact h.2

/-- Every suffix of a chain that is not empty is a chain. -/
theorem isChain_suffix (envs : List Environment) :
    ∀ (a : List Nat) (r : Nat) (b : List Nat), isChain envs (a ++ r :: b) = true →
      isChain envs (r :: b) = true := by
  intro a
  induction a with
  | nil => intro r b h; exact h
  | cons x a ih =>
    intro r b h
    cases a with
    | nil => exact isChain_tail envs x r b h
    | cons y a2 => exact ih r b (isChain_tail envs x y (a2 ++ r :: b) h)

/-- The chain that starts at a frame is determined by the frame. -/
theorem isChain_unique (envs : List Environment) :
    ∀ (l1 l2 : List Nat) (r : Nat), isChain envs (r :: l1) = true →
      isChain envs (r :: l2) = true → l1 = l2 := by
  intro l1
  induction l1 with
  | nil =>
    intro l2 r h1 h2
    cases l2 with
    | nil => rfl
    | cons o2 rest2 =>
      simp only [isChain] at h1 h2
      cases he : envs.get? r with
      | none => rw [he] at h1; cases h1
      | some e =>
        rw [he] at h1 h2
        simp only [Bool.and_eq_true, decide_eq_true_eq] at h2
        simp only [h2.1, Option.isNone_some] at h1
        cases h1
  | cons o1 rest1 ih =>
    intro l2 r h1 h2
    cases l2 with
    | nil =>
      simp only [isChain] at h1 h2
      cases he : envs.get? r with
      | none => rw [he] at h1; cases h1
      | some e =>
        rw [he] at h1 h2
        simp only [Bool.and_eq_true, decide_eq_true_eq] at h1
        simp only [h1.1, Option.isNone_some] at h2
        cases h2
    | cons o2 rest2 =>
      have t1 := isChain_tail envs r o1 rest1 h1
      have t2 := isChain_tail envs r o2 rest2 h2
      simp only [isChain] at h1 h2
      cases he : envs.get? r with
      | none => rw [he] at h1; cases h1
      | some e =>
        rw [he] at h1 h2
        simp only [Bool.and_eq_true, decide_eq_true_eq] at h1 h2
        have ho : o1 = o2 := by
          have := h1.1.symm.trans h2.1
          exact Option.some.inj this
        subst ho
        rw [ih rest2 o1 t1 t2]

/-- No frame occurs twice in a chain. -/
theorem isChain_nodup (envs : List Environment) :
    ∀ (l : List Nat), isChain envs l = true → l.Nodup := by
  intro l
  induction l with
  | nil => intro _; exact List.nodup_nil
  | cons r rest ih =>
    intro h
    have hrest : rest.Nodup := by
      cases rest with
      | nil => exact List.nodup_nil
      | cons o rest2 => exact ih (isChain_tail envs r o rest2 h)
    refine List.nodup_cons.mpr ⟨?_, hrest⟩
    intro hmem
    obtain ⟨a, b, hab⟩ := List.append_of_mem hmem
    have hs : isChain envs (r :: b) = true := by
      have h2 : isChain envs ((r :: a) ++ r :: b) = true := by
        rw [List.cons_append, ← hab]; exact h
      exact isChain_suffix envs (r :: a) r b h2
    have heq := isChain_unique envs rest b r h hs
    have hlen := congrArg List.length hab
    rw [heq] at hlen
    simp only [List.length_append, List.length_cons] at hlen
    omega

/-- A chain is no longer than the heap of environments. -/
theorem isChain_length (envs : List Environment) (l : List Nat) (h : isChain envs l = true) :
    l.length ≤ envs.length := by
  have hnd := isChain_nodup envs l h
  have hb := isChain_bound envs l h
  have hsub : l.toFinset ⊆ Finset.range envs.length := by
    intro x hx
    exact Finset.mem_range.mpr (hb x (List.mem_toFinset.mp hx))
  have hc := Finset.card_le_card hsub
  rw [List.toFinset_card_of_nodup hnd, Finset.card_range] at hc
  exact hc

/-- Go `Get` along a chain with enough fuel for its frames. -/
theorem envGetAux_chain (envs : List Environment) (name : String) :
    ∀ (outers : List Nat) (r n : Nat), isChain envs (r :: outers) = true →
      outers.length < n →
      envGetAux envs n r name
        = .ok ((r :: outers).findSome? (fun f =>
            match envs.get? f with
            | some e => mapGet e.store name
            | none => none)) := by
  intro outers
  induction outers with
  | nil =>
    intro r n h hn
    cases n with
    | zero => omega
    | succ n =>
      simp only [isChain] at h
      cases he : envs.get? r with
      | none => rw [he] at h; cases h
      | some e =>
        rw [he] at h
        simp only [Option.isNone_iff_eq_none] at h
        simp only [envGetAux, he, h, List.findSome?]
        cases mapGet e.store name <;> rfl
  | cons o rest ih =>
    intro r n h hn
    cases n with
    | zero => omega
    | succ n =>
      have ht := isChain_tail envs r o rest h
      simp only [isChain] at h
      cases he : envs.get? r with
      | none => rw [he] at h; cases h
      | some e =>
        rw [he] at h
        simp only [Bool.and_eq_true, decide_eq_true_eq] at h
        have hn2 : rest.length < n := by simp only [List.length_cons] at hn; omega
        have hrec := ih o n ht hn2
        rw [List.findSome?_cons]
        simp only [envGetAux, he, h.1]
        cases mapGet e.store name with
        | some v => rfl
        | none => simp only []; exact hrec

/-- Go `env.Get` on a chain of nested environments: the binding of the
innermost frame that binds the name. -/
theorem EnvGet_chain (s : State) (r : Nat) (outers : List Nat) (name : String)
    (h : isChain s.envs (r :: outers) = true) :
    EnvGet r name s = .ok (innermostBinding s (r :: outers) name, s) := by
  have hl := isChain_length s.envs (r :: outers) h
  simp only [List.length_cons] at hl
  have := envGetAux_chain s.envs name outers r (s.envs.length + 1) h (by omega)
  simp only [EnvGet, this]
  rfl

/-- A chain stays a chain when the heap changes outside its frames only as far
as the stores go. -/
theorem isChain_congr (envs envs2 : List Environment) :
    ∀ (l : List Nat),
      (∀ f ∈ l, (envs2.get? f).map (fun e => e.outer) = (envs.get? f).map (fun e => e.outer)) →
      isChain envs2 l = isChain envs l := by
  intro l
  induction l with
  | nil => intro _; rfl
  | cons r rest ih =>
    intro hsame
    have hr := hsame r (List.mem_cons_self r rest)
    have hrest : ∀ f ∈ rest, (envs2.get? f).map (fun e => e.outer)
        = (envs.get? f).map (fun e => e.outer) :=
      fun f hf => hsame f (List.mem_cons_of_mem r hf)
    have hout : ∀ (b1 b2 : Option Environment),
        b2.map (fun e => e.outer) = b1.map (fun e => e.outer) →
        ∀ (g : Option Nat → Bool),
          (match b2 with
            | some e => g e.outer
            | none => false) =
          (match b1 with
            | some e => g e.outer
            | none => false) := by
      intro b1 b2 hb g
      cases b1 <;> cases b2 <;> simp only [Option.map] at hb <;>
        first
        | rfl
        | cases hb
        | (simp only [Option.some.injEq] at hb; simp only [hb])
    cases rest with
    | nil =>
      simp only [isChain]
      exact hout _ _ hr (fun o => o.isNone)
    | cons o rest2 =>
      simp only [isChain]
      rw [ih hrest]
      exact hout _ _ hr (fun x => decide (x = some o) && isChain envs (o :: rest2))

/-- The innermost binding depends only on the frames of the list. -/
theorem innermostBinding_congr (s s1 : State) (name : String) :
    ∀ (l : List Nat), (∀ f ∈ l, s1.envs.get? f = s.envs.get? f) →
      innermostBinding s1 l name = innermostBinding s l name := by
  intro l
  induction l with
  | nil => intro _; rfl
  | cons f rest ih =>
    intro h
    unfold innermostBinding at ih ⊢
    rw [List.findSome?_cons, List.findSome?_cons]
    have hf : ownBinding s1 f name = ownBinding s f name := by
      unfold ownBinding
      rw [h f (List.mem_cons_self f rest)]
    rw [hf, ih (fun g hg => h g (List.mem_cons_of_mem f hg))]

/-- A write to the frame `r` that leaves the other frames alone does not change
what `Get` returns on the frames that enclose `r`. -/
theorem EnvGet_outer_unchanged (s s1 : State) (r : Nat) (outers : List Nat)
    (hchain : isChain s.envs (r :: outers) = true)
    (hsame : ∀ f, f ≠ r → s1.envs.get? f = s.envs.get? f) :
    ∀ o ∈ outers, ∀ (n : String), valueOf (EnvGet o n s1) = valueOf (EnvGet o n s) := by
  intro o ho n
  obtain ⟨a, b, hab⟩ := List.append_of_mem ho
  have hnd := isChain_nodup s.envs (r :: outers) hchain
  have hc : isChain s.envs (o :: b) = true := by
    have h2 : isChain s.envs ((r :: a) ++ o :: b) = true := by
      rw [List.cons_append, ← hab]; exact hchain
    exact isChain_suffix s.envs (r :: a) o b h2
  have hne : ∀ f ∈ o :: b, f ≠ r := by
    intro f hf hfr
    have hr : r ∉ outers := (List.nodup_cons.mp hnd).1
    apply hr
    rw [hab, ← hfr]
    exact List.mem_append_right a hf
  have hget : ∀ f ∈ o :: b, s1.envs.get? f = s.envs.get? f := fun f hf => hsame f (hne f hf)
  have hc1 : isChain s1.envs (o :: b) = true := by
    rw [isChain_congr s.envs s1.envs (o :: b) (fun f hf => by rw [hget f hf])]
    exact hc
  rw [EnvGet_chain s1 o b n hc1, EnvGet_chain s o b n hc]
  simp only [valueOf, innermostBinding_congr s s1 n (o :: b) hget]

/-- Reading a list after a write at another position. -/
theorem get?_setAt_ne {α : Type} (l : List α) (i j : Nat) (a : α) (h : j ≠ i) :
    (setAt l i a).get? j = l.get? j := by
  unfold setAt
  rw [List.get?_eq_getElem?, List.get?_eq_getElem?, List.getElem?_set_ne (Ne.symm h)]

/-- C21: for every chain of nested environments, `Get(name)` on the innermost
frame returns the binding of the first frame, walking outward, that binds the
name, and not-found when no frame of the chain binds it.  `Set(name, v)` and
`Delete(name)` on a frame succeed and change that frame only (afterwards its
store binds the name to `v`, respectively does not bind it), so `Get` on every
frame that encloses it returns what it returned before. -/
theorem environment_lookup_and_write (s : State) (r : Nat) (outers : List Nat)
    (hchain : isChain s.envs (r :: outers) = true) (name : String) (v : Object) :
    EnvGet r name s = .ok (innermostBinding s (r :: outers) name, s) ∧
    (∃ s1, EnvSet r name v s = .ok ((), s1) ∧
      ownBinding s1 r name = some v ∧
      EnvGet r name s1 = .ok (some v, s1) ∧
      (∀ f, f ≠ r → s1.envs.get? f = s.envs.get? f) ∧
      (∀ o ∈ outers, ∀ (n : String), valueOf (EnvGet o n s1) = valueOf (EnvGet o n s))) ∧
    (∃ s1, EnvDelete r name s = .ok ((), s1) ∧
      ownBinding s1 r name = none ∧
      (∀ f, f ≠ r → s1.envs.get? f = s.envs.get? f) ∧
      (∀ o ∈ outers, ∀ (n : String), valueOf (EnvGet o n s1) = valueOf (EnvGet o n s))) := by
  have hr : r < s.envs.length :=
    isChain_bound s.envs (r :: outers) hchain r (List.mem_cons_self r outers)
  obtain ⟨e, he⟩ : ∃ e, s.envs.get? r = some e := by
    rw [List.get?_eq_getElem?]
    exact ⟨s.envs[r], List.getElem?_eq_getElem hr⟩
  refine ⟨EnvGet_chain s r outers name hchain, ?_, ?_⟩
  · have hset := EnvSet_ok r name v s e he
    refine ⟨_, hset, ?_, ?_, ?_, ?_⟩
    · exact ownBinding_EnvSet r name v s _ () hset
    · exact EnvGet_of_ownBinding r name v _ (ownBinding_EnvSet r name v s _ () hset)
    · intro f hf
      exact get?_setAt_ne s.envs r f _ hf
    · exact EnvGet_outer_unchanged s _ r outers hchain
        (fun f hf => get?_setAt_ne s.envs r f _ hf)
  · have hdel := EnvDelete_ok r name s e he
    refine ⟨_, hdel, ?_, ?_, ?_⟩
    · simp only [ownBinding, get?_setAt s.envs r _ e he, mapGet_mapDelete_self]
    · intro f hf
      exact get?_setAt_ne s.envs r f _ hf
    · exact EnvGet_outer_unchanged s _ r outers hchain
        (fun f hf => get?_setAt_ne s.envs r f _ hf)

/-- Witness of `environment_lookup_and_write`: the innermost of three nested
frames, where `x` is bound in the frames 2 and 1 and `y` in the frames 1 and 0. -/
theorem environment_lookup_and_write_witness :
    isChain threeFrames.envs [2, 1, 0] = true ∧
    EnvGet 2 "y" threeFrames = .ok (some (.Number 3), threeFrames) ∧
    innermostBinding threeFrames [2, 1, 0] "y" = some (.Number 3) :=
  ⟨by decide,
   (environment_lookup_and_write threeFrames 2 [1, 0] (by decide) "y" (.Number 7)).1,
   rfl⟩

/-! ## The operator in on arrays -/

/-- The loop of the array cases of `evalInExpression` over elements that can
all be inspected: it finds an element of the given inspect string and type. -/
theorem inArrayLoop_spec (W : World) (fuel : Nat) (text ty : String) (s : State) :
    ∀ (elems : List Object),
      (∀ v ∈ elems, ∃ str, inspectAux W s fuel false v = .ok str) →
      ∃ b, inArrayLoop W fuel text ty elems s = .ok (b, s) ∧
        (b = true ↔ ∃ v ∈ elems, inspectAux W s fuel false v = .ok text ∧ Type_ v = .ok ty) := by
  intro elems
  induction elems with
  | nil =>
    intro _
    exact ⟨false, rfl, by simp⟩
  | cons v rest ih =>
    intro h
    obtain ⟨str, hstr⟩ := h v (List.mem_cons_self v rest)
    obtain ⟨b, hb, hiff⟩ := ih (fun w hw => h w (List.mem_cons_of_mem v hw))
    have hty : ∃ t, Type_ v = .ok t := by
      cases fuel with
      | zero => simp [inspectAux] at hstr
      | succ k => cases v <;> first | exact ⟨_, rfl⟩ | simp [inspectAux] at hstr
    obtain ⟨t, ht⟩ := hty
    by_cases h1 : str = text
    · by_cases h2 : t = ty
      · refine ⟨true, ?_, ?_⟩
        · simp only [inArrayLoop, bind_run, Inspect, hstr, h1, if_true, lift_run, ht, h2, pure_run]
        · simp only [true_iff]
          exact ⟨v, List.mem_cons_self v rest, by rw [hstr, h1], by rw [ht, h2]⟩
      · refine ⟨b, ?_, ?_⟩
        · simp only [inArrayLoop, bind_run, Inspect, hstr, h1, if_true, lift_run, ht, h2, if_false,
            hb]
        · rw [hiff]
          constructor
          · rintro ⟨w, hw, hw1, hw2⟩
            exact ⟨w, List.mem_cons_of_mem v hw, hw1, hw2⟩
          · rintro ⟨w, hw, hw1, hw2⟩
            rcases List.mem_cons.mp hw with hwv | hwr
            · subst hwv
              rw [ht] at hw2
              exact absurd (Outcome.ok.inj hw2) h2
            · exact ⟨w, hwr, hw1, hw2⟩
    · refine ⟨b, ?_, ?_⟩
      · simp only [inArrayLoop, bind_run, Inspect, hstr, h1, if_false, hb]
      · rw [hiff]
        constructor
        · rintro ⟨w, hw, hw1, hw2⟩
          exact ⟨w, List.mem_cons_of_mem v hw, hw1, hw2⟩
        · rintro ⟨w, hw, hw1, hw2⟩
          rcases List.mem_cons.mp hw with hwv | hwr
          · subst hwv
            rw [hstr] at hw1
            exact absurd (Outcome.ok.inj hw1) h1
          · exact ⟨w, hwr, hw1, hw2⟩

/-- An infix expression with the operator `in` whose right operand is an array
and whose left operand is not an array and no error is handed to
`evalInExpression`. -/
theorem evalInfixExpression_in (W : World) (n : Nat) (tok : Token) (l rn : Node) (env : Nat)
    (s s1 s2 : State) (x : Object) (r : Nat)
    (hl : Eval W n l env s = .ok (x, s1))
    (hr : Eval W n rn env s1 = .ok (.Array r, s2))
    (hx : isStringOrNumber x = true ∨ isOtherNeedle x = true) :
    Eval W (n + 1) (.InfixExpression tok "in" l rn) env s
      = evalInExpression W n tok x (.Array r) s2 := by
  rw [Eval_succ]
  change evalInfixExpression W (Eval W n) n tok "in" l rn env s = _
  simp only [evalInfixExpression, bind_run, hl]
  cases x <;> simp only [isStringOrNumber, isOtherNeedle, or_self, Bool.false_eq_true] at hx <;>
    simp [isError, Type_, lift_run, bind_run, hr, pure_run, object.ARRAY_OBJ, object.NUMBER_OBJ,
      object.STRING_OBJ, object.HASH_OBJ, object.NULL_OBJ, object.BOOLEAN_OBJ,
      object.FUNCTION_OBJ, object.BUILTIN_OBJ]

/-- C22 (amended): for a string or an integer number `x` that is a value of an
`int64` (`-2 ^ 63 ≤ x < 2 ^ 63`) and an array `a` whose elements can be
inspected, `x in a` evaluates to true exactly when some element of `a` has the
same type as `x` and the same inspect string as `x`, and to false otherwise;
for an `x` that is a null, a boolean, a hash or a function it evaluates to
false whatever the array holds.  (The number is a float: `float64OfInt`
leaves it as it is.) -/
theorem in_operator_on_arrays (W : World) (n : Nat) (tok : Token) (l rn : Node) (env : Nat)
    (s s1 s2 : State) (x : Object) (r : Nat) (a : ArrayObj)
    (hl : Eval W n l env s = .ok (x, s1))
    (hr : Eval W n rn env s1 = .ok (.Array r, s2))
    (ha : s2.arrays.get? r = some a)
    (hins : ∀ v ∈ a.Elements, ∃ str, inspectAux W s2 n false v = .ok str) :
    (isStringOrNumber x = true →
      (∀ k : Int, x = .Number k →
        float64OfInt k = k ∧ -9223372036854775808 ≤ k ∧ k < 9223372036854775808) →
      ∃ b, Eval W (n + 1) (.InfixExpression tok "in" l rn) env s = .ok (.Boolean b, s2) ∧
        (b = true ↔ ∃ v ∈ a.Elements, Type_ v = Type_ x ∧
          inspectAux W s2 n false v = inspectAux W s2 n false x)) ∧
    (isOtherNeedle x = true →
      Eval W (n + 1) (.InfixExpression tok "in" l rn) env s = .ok (.Boolean false, s2)) := by
  have hn : ∃ k, n = k + 1 := by
    cases n with
    | zero => cases hl
    | succ k => exact ⟨k, rfl⟩
  obtain ⟨k, hk⟩ := hn
  constructor
  · intro hx h64
    rw [evalInfixExpression_in W n tok l rn env s s1 s2 x r hl hr (Or.inl hx)]
    cases x <;> simp only [isStringOrNumber, Bool.false_eq_true] at hx
    · rename_i k0
      obtain ⟨hfl, hlo, hhi⟩ := h64 k0 rfl
      have hint := intOfFloat_eq k0 hlo hhi
      obtain ⟨b, hb, hiff⟩ := inArrayLoop_spec W n (toString k0) object.NUMBER_OBJ s2 a.Elements hins
      refine ⟨b, ?_, ?_⟩
      · simp only [evalInExpression, bind_run, getArray, ha, hint, hb, pure_run]
      · rw [hiff]
        have hi : inspectAux W s2 n false (.Number k0) = .ok (toString k0) := by
          rw [hk]
          simp only [inspectAux, hint, hfl, if_true]
        constructor
        · rintro ⟨w, hw, hw1, hw2⟩
          exact ⟨w, hw, by rw [hw2]; rfl, by rw [hw1, hi]⟩
        · rintro ⟨w, hw, hw1, hw2⟩
          exact ⟨w, hw, by rw [hw2, hi], by rw [hw1]; rfl⟩
    · rename_i v0 ok0 done0
      obtain ⟨b, hb, hiff⟩ := inArrayLoop_spec W n v0 object.STRING_OBJ s2 a.Elements hins
      refine ⟨b, ?_, ?_⟩
      · simp only [evalInExpression, bind_run, getArray, ha, hb, pure_run]
      · rw [hiff]
        have hi : inspectAux W s2 n false (.String v0 ok0 done0) = .ok v0 := by
          rw [hk]; rfl
        constructor
        · rintro ⟨w, hw, hw1, hw2⟩
          exact ⟨w, hw, by rw [hw2]; rfl, by rw [hw1, hi]⟩
        · rintro ⟨w, hw, hw1, hw2⟩
          exact ⟨w, hw, by rw [hw2, hi], by rw [hw1]; rfl⟩
  · intro hx
    rw [evalInfixExpression_in W n tok l rn env s s1 s2 x r hl hr (Or.inr hx)]
    cases x <;> simp only [isOtherNeedle, Bool.false_eq_true] at hx <;>
      simp only [evalInExpression, bind_run, getArray, ha, pure_run]

/-- C22 (counterexample): `Doğru in [Doğru]` evaluates to false although the
element of the array has the type and the inspect string of the left operand.
So does `10000000000000000000 in [10000000000000000000]`: the inspect string
of the number is `10000000000000000000`, and the code looks for the text of
the number converted to an `int64`, which is `-9223372036854775808`. -/
theorem true_not_found_in_array_of_true :
    valueOf (Eval bareWorld 20 trueInTrues 0 (startOf trueInTruesSrc)) = .ok (.Boolean false) ∧
    valueOf (Eval bareWorld 20 bigInBigs 0 (startOf bigInBigsSrc)) = .ok (.Boolean false) ∧
    inspectAux bareWorld (startOf bigInBigsSrc) 5 false (.Number 10000000000000000000)
      = .ok "10000000000000000000" ∧
    toString (intOfFloat 10000000000000000000) = "-9223372036854775808" :=
  ⟨yields_sound (by decide!), yields_sound (by decide!), by decide, by decide⟩

/-- Witness of `in_operator_on_arrays`: `20 in a` for `a = [10, 20, 30]`. -/
theorem in_operator_on_arrays_witness :
    ∃ b, Eval bareWorld 9 (.InfixExpression (tk token.IN 3 "in") "in"
        (.NumberLiteral (tk token.NUMBER 0 "20") 20) (.Identifier (tk token.IDENT 6 "a") "a"))
        0 threeBound = .ok (.Boolean b, threeBound) ∧
      (b = true ↔ ∃ v ∈ threeNumbers.Elements, Type_ v = Type_ (.Number 20) ∧
        inspectAux bareWorld threeBound 8 false v
          = inspectAux bareWorld threeBound 8 false (.Number 20)) :=
  (in_operator_on_arrays bareWorld 8 (tk token.IN 3 "in") (.NumberLiteral (tk token.NUMBER 0 "20") 20)
    (.Identifier (tk token.IDENT 6 "a") "a") 0 threeBound threeBound threeBound (.Number 20) 0
    threeNumbers (Eval_NumberLiteral bareWorld 7 _ 20 0 threeBound)
    (Eval_Identifier_bound bareWorld 7 _ "a" _ 0 threeBound threeBound_a) threeBound_array
    (by
      intro v hv
      simp only [threeNumbers, List.mem_cons, List.mem_singleton, List.not_mem_nil, or_false] at hv
      rcases hv with h | h | h <;> subst h <;> exact ⟨_, rfl⟩)).1 rfl
    (fun k hk => by
      cases hk
      exact ⟨by decide, by decide, by decide⟩)

/-! ## String interpolation -/

/-- A character of a name is no opening brace. -/
theorem isVarChar_ne_open (c : Char) (h : isVarChar c = true) : c ≠ Char.ofNat 123 := by
  intro hc
  subst hc
  revert h
  decide

/-- A character of a name is no closing brace. -/
theorem isVarChar_ne_close (c : Char) (h : isVarChar c = true) : c ≠ Char.ofNat 125 := by
  intro hc
  subst hc
  revert h
  decide

/-- The scan of a name stops where the name ends. -/
theorem spanVarChars_append (rest : List Char) (hr : startsName rest = false) :
    ∀ (n : List Char), n.all isVarChar = true → spanVarChars (n ++ rest) = (n, rest) := by
  intro n
  induction n with
  | nil =>
    intro _
    cases rest with
    | nil => rfl
    | cons c cs =>
      simp only [startsName] at hr
      simp only [List.nil_append, spanVarChars, hr, Bool.false_eq_true, if_false]
  | cons c cs ih =>
    intro h
    simp only [List.all_cons, Bool.and_eq_true] at h
    have hrec := ih h.2
    simp only [List.cons_append, spanVarChars, h.1, if_true]
    change (c :: (spanVarChars (cs ++ rest)).1, (spanVarChars (cs ++ rest)).2) = _
    rw [hrec]

/-- What a name is. -/
theorem isName_iff (n : List Char) (h : isName n = true) :
    ∃ c cs, n = c :: cs ∧ isVarChar c = true ∧ cs.all isVarChar = true ∧
      n.all isVarChar = true := by
  cases n with
  | nil => simp [isName] at h
  | cons c cs =>
    simp only [isName, List.isEmpty_cons, Bool.not_false, Bool.true_and, List.all_cons,
      Bool.and_eq_true] at h
    exact ⟨c, cs, rfl, h.1, h.2, by simp only [List.all_cons, h.1, h.2, Bool.and_self]⟩

/-- A closing brace starts no name. -/
theorem startsName_close (rest : List Char) : startsName (Char.ofNat 125 :: rest) = false := by
  simp only [startsName]
  decide

/-- The match of `$name` where neither a name character nor a closing brace
follows. -/
theorem matchVarBody_name (n rest : List Char) (hn : isName n = true)
    (h1 : startsName rest = false) (h2 : startsClose rest = false) :
    matchVarBody (n ++ rest) = some (n, rest) := by
  obtain ⟨c, cs, hc, hv, hcs, hall⟩ := isName_iff n hn
  have hspan := spanVarChars_append rest h1 n hall
  have hne := isVarChar_ne_open c hv
  subst hc
  simp only [List.cons_append] at hspan ⊢
  simp only [matchVarBody, hne, if_false, hspan]
  cases rest with
  | nil => simp
  | cons d ds =>
    simp only [startsClose, decide_eq_false_iff_not] at h2
    simp [h2]

/-- The match of `$name}`. -/
theorem matchVarBody_name_close (n rest : List Char) (hn : isName n = true) :
    matchVarBody (n ++ Char.ofNat 125 :: rest) = some (n ++ [Char.ofNat 125], rest) := by
  obtain ⟨c, cs, hc, hv, hcs, hall⟩ := isName_iff n hn
  have hspan := spanVarChars_append (Char.ofNat 125 :: rest) (startsName_close rest) n hall
  have hne := isVarChar_ne_open c hv
  subst hc
  simp only [List.cons_append] at hspan ⊢
  simp [matchVarBody, hne, hspan]

/-- The match of `${name}`. -/
theorem matchVarBody_braced (n rest : List Char) (hn : isName n = true) :
    matchVarBody (Char.ofNat 123 :: n ++ Char.ofNat 125 :: rest)
      = some (Char.ofNat 123 :: n ++ [Char.ofNat 125], rest) := by
  obtain ⟨c, cs, hc, hv, hcs, hall⟩ := isName_iff n hn
  have hspan := spanVarChars_append (Char.ofNat 125 :: rest) (startsName_close rest) n hall
  subst hc
  simp only [List.cons_append] at hspan ⊢
  simp [matchVarBody, hspan]

/-- The match of `${name` where neither a name character nor a closing brace
follows. -/
theorem matchVarBody_unclosed (n rest : List Char) (hn : isName n = true)
    (h1 : startsName rest = false) (h2 : startsClose rest = false) :
    matchVarBody (Char.ofNat 123 :: n ++ rest) = some (Char.ofNat 123 :: n, rest) := by
  obtain ⟨c, cs, hc, hv, hcs, hall⟩ := isName_iff n hn
  have hspan := spanVarChars_append rest h1 n hall
  subst hc
  simp only [List.cons_append] at hspan ⊢
  simp only [matchVarBody, if_true, hspan]
  cases rest with
  | nil => simp
  | cons d ds =>
    simp only [startsClose, decide_eq_false_iff_not] at h2
    simp [h2]

/-- No match where no reference starts. -/
theorem matchVarBody_none (cs : List Char) (h : startsReference cs = false) :
    matchVarBody cs = none := by
  cases cs with
  | nil => rfl
  | cons c rest =>
    simp only [startsReference, Bool.or_eq_false_iff, Bool.and_eq_false_iff,
      decide_eq_false_iff_not] at h
    obtain ⟨hv, hb⟩ := h
    have hs : (spanVarChars (c :: rest)).1 = [] := by
      simp only [spanVarChars, hv, Bool.false_eq_true, if_false]
    by_cases hc : c = Char.ofNat 123
    · have hr : startsName rest = false := by
        rcases hb with hb | hb
        · exact absurd hc hb
        · exact hb
      have hs2 : (spanVarChars rest).1 = [] := by
        cases rest with
        | nil => rfl
        | cons d ds =>
          simp only [startsName] at hr
          simp only [spanVarChars, hr, Bool.false_eq_true, if_false]
      simp only [matchVarBody, hc, if_true, hs2]
      rw [← hc, hs]
      simp
    · simp only [matchVarBody, hc, if_false, hs]
      simp

/-- The replacement of a match `$name`. -/
theorem interpolateMatch_name (W : World) (fuel : Nat) (env : Nat) (n : List Char)
    (hn : isName n = true) :
    interpolateMatch W fuel env ('$' :: n) = valueText W fuel env n := by
  obtain ⟨c, cs, hc, hv, _, _⟩ := isName_iff n hn
  have hne := isVarChar_ne_open c hv
  subst hc
  simp only [interpolateMatch, hne, if_false]
  rfl

/-- The replacement of a match `${name}`. -/
theorem interpolateMatch_braced (W : World) (fuel : Nat) (env : Nat) (n : List Char) :
    interpolateMatch W fuel env ('$' :: Char.ofNat 123 :: n ++ [Char.ofNat 125])
      = valueText W fuel env n := by
  have h1 : (Char.ofNat 123 :: (n ++ [Char.ofNat 125])).getLast? = some (Char.ofNat 125) := by
    rw [← List.cons_append, List.getLast?_append]
    rfl
  simp only [List.cons_append, interpolateMatch, if_true, h1, ne_eq, not_true_eq_false, if_false,
    List.dropLast_concat]
  rfl

/-- The replacement of a match `${name` is the match itself. -/
theorem interpolateMatch_unclosed (W : World) (fuel : Nat) (env : Nat) (n : List Char)
    (hn : isName n = true) :
    interpolateMatch W fuel env ('$' :: Char.ofNat 123 :: n) = pure ('$' :: Char.ofNat 123 :: n) := by
  obtain ⟨c, cs, hc, hv, hcs, hall⟩ := isName_iff n hn
  have h1 : (Char.ofNat 123 :: n).getLast? ≠ some (Char.ofNat 125) := by
    intro h
    have hm : Char.ofNat 125 ∈ Char.ofNat 123 :: n := List.mem_of_getLast?_eq_some h
    rcases List.mem_cons.mp hm with h2 | h2
    · revert h2; decide
    · exact isVarChar_ne_close _ (List.all_eq_true.mp hall _ h2) rfl
  simp only [interpolateMatch, if_true, h1, ne_eq, not_false_eq_true]

/-- The scan of a reference after a backslash. -/
theorem matchVarBody_escaped (o c : Bool) (n rest : List Char) (hn : isName n = true)
    (hc : c = true ∨ (startsName rest = false ∧ startsClose rest = false)) :
    matchVarBody (openBrace o ++ n ++ closeBrace c ++ rest)
      = some (openBrace o ++ n ++ closeBrace c, rest) := by
  cases o <;> cases c <;> simp only [openBrace, closeBrace, Bool.false_eq_true, if_false, if_true,
    List.nil_append, List.append_nil, List.cons_append, List.append_assoc, false_or] at hc ⊢
  · exact matchVarBody_name n rest hn hc.1 hc.2
  · exact matchVarBody_name_close n rest hn
  · exact matchVarBody_unclosed n rest hn hc.1 hc.2
  · exact matchVarBody_braced n rest hn

/-- One scanning step over a character that belongs to no reference. -/
theorem interpolateLoop_plain (W : World) (fuel : Nat) (env : Nat) (k : Nat) (c : Char)
    (rest : List Char) (h1 : c = '$' → startsReference rest = false)
    (h2 : c = esc → startsDollarReference rest = false) :
    interpolateLoop W fuel env (k + 1) (c :: rest)
      = (interpolateLoop W fuel env k rest >>= fun r => pure (c :: r)) := by
  by_cases he : c = esc
  · have h3 := h2 he
    subst he
    cases rest with
    | nil => simp only [interpolateLoop, if_true]
    | cons d rest2 =>
      by_cases hd : d = '$'
      · subst hd
        simp only [startsDollarReference, decide_True, Bool.true_and] at h3
        simp only [interpolateLoop, if_true, matchVarBody_none rest2 h3]
      · simp only [interpolateLoop, if_true, hd, if_false]
  · by_cases hd : c = '$'
    · have h3 := h1 hd
      subst hd
      simp only [interpolateLoop, he, if_false, if_true, matchVarBody_none rest h3]
    · simp only [interpolateLoop, he, hd, if_false]

/-- One scanning step over a reference that is not escaped. -/
theorem interpolateLoop_reference (W : World) (fuel : Nat) (env : Nat) (k : Nat)
    (body after cs : List Char) (h : matchVarBody cs = some (body, after)) :
    interpolateLoop W fuel env (k + 1) ('$' :: cs)
      = (interpolateMatch W fuel env ('$' :: body) >>= fun rep =>
          interpolateLoop W fuel env k after >>= fun r => pure (rep ++ r)) := by
  have he : ¬ ('$' = esc) := by decide
  simp only [interpolateLoop, he, if_false, if_true, h]

/-- One scanning step over a reference after a backslash. -/
theorem interpolateLoop_escaped (W : World) (fuel : Nat) (env : Nat) (k : Nat)
    (body after cs : List Char) (h : matchVarBody cs = some (body, after)) :
    interpolateLoop W fuel env (k + 1) (esc :: '$' :: cs)
      = (interpolateLoop W fuel env k after >>= fun r => pure ('$' :: body ++ r)) := by
  simp only [interpolateLoop, if_true, h]

/-- The scanning loop of `InterpolateStringVars` treats the text of well-formed
pieces piece by piece. -/
theorem interpolateLoop_pieces (W : World) (fuel : Nat) (env : Nat) :
    ∀ (ps : List Piece) (k : Nat), wellFormed ps = true → (renderPieces ps).length ≤ k →
      interpolateLoop W fuel env k (renderPieces ps) = substituteBySpec W fuel env ps := by
  intro ps
  induction ps with
  | nil =>
    intro k _ _
    cases k <;> rfl
  | cons p ps ih =>
    intro k hwf hlen
    cases k with
    | zero =>
      cases p <;> simp [renderPieces, renderPiece] at hlen
    | succ k =>
      cases p with
      | plain c =>
        simp only [wellFormed, Bool.and_eq_true, Bool.or_eq_true, bne_iff_ne, ne_eq,
          Bool.not_eq_true'] at hwf
        obtain ⟨⟨h1, h2⟩, h3⟩ := hwf
        simp only [renderPieces, renderPiece, List.singleton_append, List.length_cons] at hlen ⊢
        rw [interpolateLoop_plain W fuel env k c _
          (fun hc => by rcases h1 with h | h; exact absurd hc h; exact h)
          (fun hc => by rcases h2 with h | h; exact absurd hc h; exact h)]
        rw [ih k h3 (by omega)]
        rfl
      | name n =>
        simp only [wellFormed, Bool.and_eq_true, Bool.not_eq_true'] at hwf
        obtain ⟨⟨⟨h1, h2⟩, h3⟩, h4⟩ := hwf
        simp only [renderPieces, renderPiece, List.cons_append, List.length_cons] at hlen ⊢
        rw [interpolateLoop_reference W fuel env k n _ _ (matchVarBody_name n _ h1 h2 h3)]
        rw [interpolateMatch_name W fuel env n h1, ih k h4 (by simp only [List.length_append] at hlen; omega)]
        rfl
      | braced n =>
        simp only [wellFormed, Bool.and_eq_true] at hwf
        obtain ⟨h1, h4⟩ := hwf
        simp only [renderPieces, renderPiece, List.cons_append, List.length_cons,
          List.append_assoc, List.singleton_append, List.nil_append] at hlen ⊢
        have hm := matchVarBody_braced n (renderPieces ps) h1
        simp only [List.cons_append] at hm
        rw [interpolateLoop_reference W fuel env k _ _ _ hm]
        have hb := interpolateMatch_braced W fuel env n
        simp only [List.cons_append] at hb
        rw [hb,
          ih k h4 (by simp only [List.length_append, List.length_cons] at hlen; omega)]
        rfl
      | unclosed n =>
        simp only [wellFormed, Bool.and_eq_true, Bool.not_eq_true'] at hwf
        obtain ⟨⟨⟨h1, h2⟩, h3⟩, h4⟩ := hwf
        simp only [renderPieces, renderPiece, List.cons_append, List.length_cons] at hlen ⊢
        have hm := matchVarBody_unclosed n (renderPieces ps) h1 h2 h3
        simp only [List.cons_append] at hm
        rw [interpolateLoop_reference W fuel env k _ _ _ hm]
        rw [interpolateMatch_unclosed W fuel env n h1,
          ih k h4 (by simp only [List.length_append] at hlen; omega)]
        funext s
        simp only [substituteBySpec, bind_run, pure_run, List.cons_append]
      | escaped o c n =>
        simp only [wellFormed, Bool.and_eq_true, Bool.or_eq_true, Bool.not_eq_true'] at hwf
        obtain ⟨⟨h1, h2⟩, h4⟩ := hwf
        simp only [renderPieces, renderPiece, List.cons_append, List.length_cons] at hlen ⊢
        rw [interpolateLoop_escaped W fuel env k _ _ _ (matchVarBody_escaped o c n _ h1 h2)]
        rw [ih k h4 (by simp only [List.length_append] at hlen; omega)]
        rfl

/-- Where `InterpolateStringVars` does what the spec says: for every string
made of well-formed pieces (among them no `$name` that a closing brace follows
directly) and every environment, it replaces each `$name` and each `${name}`
that no backslash precedes by the inspect text of the value bound to `name`,
or by the empty string when `name` is unbound; of a reference that a backslash
precedes it removes the backslash and keeps the rest; it leaves every other
character unchanged. -/
theorem interpolation_replaces_references (W : World) (fuel : Nat) (env : Nat) (ps : List Piece)
    (hwf : wellFormed ps = true) :
    InterpolateStringVars W fuel (String.mk (renderPieces ps)) env
      = (substituteBySpec W fuel env ps >>= fun r => pure (String.mk r)) := by
  unfold InterpolateStringVars
  have hl : (renderPieces ps).length ≤ (String.mk (renderPieces ps)).length + 1 := by
    simp only [String.length]
    omega
  rw [show (String.mk (renderPieces ps)).data = renderPieces ps from rfl,
    interpolateLoop_pieces W fuel env ps _ hwf hl]

/-- C23 (the code at the failing input): with `x` bound to 1 the string `$x}`
becomes the empty string, where the reference `$x` should be replaced by `1`
and the closing brace should stay (`1}`).  The pattern of the code takes
the closing brace into the match although no brace was opened, and the name
looked up is `x}`, which is unbound.  Where a blank stands between the name
and the brace the reference is replaced and the brace stays, and `$x` alone
becomes `1`. -/
theorem reference_before_closing_brace_is_lost :
    valueOf (InterpolateStringVars bareWorld 5 "$x\x7d" 0 xBound) = .ok "" ∧
    valueOf (InterpolateStringVars bareWorld 5 "$x \x7d" 0 xBound) = .ok "1 \x7d" ∧
    valueOf (InterpolateStringVars bareWorld 5 "$x" 0 xBound) = .ok "1" := by
  decide

/-- The escape of the interpolation grammar: with `x` bound to 1 the string
`\$x` becomes `$x`, a literal `$x` without the backslash. -/
theorem escaped_reference_not_replaced :
    valueOf (InterpolateStringVars bareWorld 5 escapedX 0 xBound) = .ok "$x" ∧
    valueOf (InterpolateStringVars bareWorld 5 "$x" 0 xBound) = .ok "1" := by
  decide

/-- The lemma `interpolation_replaces_references` on the string
`a$x ${ab_1}\$x$ ${q` with `x` bound to 1 and `ab_1` to `hi`. -/
theorem interpolation_replaces_references_witness :
    wellFormed samplePieces = true ∧
    InterpolateStringVars bareWorld 5 (String.mk (renderPieces samplePieces)) 0 xBound
      = (substituteBySpec bareWorld 5 0 samplePieces >>= fun r => pure (String.mk r)) xBound ∧
    valueOf ((substituteBySpec bareWorld 5 0 samplePieces >>= fun r => pure (String.mk r)) xBound)
      = .ok "a1 hi$x$ $\x7bq" :=
  ⟨by decide,
   congrFun (interpolation_replaces_references bareWorld 5 0 samplePieces (by decide)) xBound,
   by decide⟩

/-! ## Decorators -/

/-- The error of `newError` on a lexer that renders the position of the token. -/
theorem newError_of_line (tok : Token) (msg : String) (s : State) (ln col : Int) (line : String)
    (h : ErrorLine s.lex tok.Position = .ok (ln, col, line)) :
    newError tok msg s
      = .ok (.Error (msg ++ ("\x1b[97m\n" ++ toString ln ++ ":" ++ toString col ++ "> " ++ line)), s) := by
  simp only [newError, bind_run, get_run, lift_run, h, pure_run]

/-- The decorator of a function literal: the decorator expression is evaluated,
then its value is applied to the function value of the literal. -/
theorem doEvalDecorator_literal (W : World) (n k : Nat) (tok ftok : Token) (expr : Node)
    (g : String) (ps : List (String × Node)) (body : Node) (env : Nat) (s s1 : State)
    (d : Object) (hd : Eval W (n + 1) expr env s = .ok (d, s1)) (hf : isFunction d = true) :
    doEvalDecorator W (Eval W (n + 1)) (Apply W (n + 1)) (n + 1) env (k + 1) tok expr
        (.FunctionLiteral ftok g ps body) s
      = (Apply W (n + 1) ftok d env [.Function ftok g ps body env] >>= fun r =>
          pure (g, r, Object.nil)) s1 := by
  cases d <;> simp only [isFunction, Bool.false_eq_true] at hf
  simp only [doEvalDecorator, bind_run, hd, getDecoratedName, lift_run, Bool.not_true,
    Bool.false_eq_true, if_false]

/-- A decorator whose expression does not evaluate to a function: the result is
the error, and nothing is applied. -/
theorem doEvalDecorator_not_function (W : World) (n k : Nat) (tok : Token) (expr decorated : Node)
    (env : Nat) (s s1 : State) (d : Object) (hd : Eval W n expr env s = .ok (d, s1))
    (hf : isFunction d = false) :
    doEvalDecorator W (Eval W n) (Apply W n) n env (k + 1) tok expr decorated s
      = (decoratorError W n tok d >>= fun e => pure ("", Object.nil, e)) s1 := by
  cases d <;> simp only [isFunction, Bool.true_eq_false] at hf <;>
    simp only [doEvalDecorator, bind_run, hd, decoratorError, pure_run, notADecoratorMessage] <;>
    first
    | rfl
    | (split <;> rfl)

/-- The decorator of a decorator: the inner decorator is evaluated first, then
the value of the outer decorator expression is applied to its result. -/
theorem doEvalDecorator_chain (W : World) (ev : Evaluator) (ap : Applier) (fuel k : Nat)
    (tok tok2 : Token) (expr expr2 dd : Node) (env : Nat) (s s1 : State) (d : Object)
    (name : String) (hd : ev expr env s = .ok (d, s1)) (hf : isFunction d = true)
    (hname : getDecoratedName fuel (.Decorator tok2 expr2 dd) = .ok (name, true)) :
    doEvalDecorator W ev ap fuel env (k + 1) tok expr (.Decorator tok2 expr2 dd) s
      = (doEvalDecorator W ev ap fuel env k tok2 expr2 dd >>= fun p =>
          if isError p.2.2 then pure ("", Object.nil, p.2.2)
          else ap tok d env [p.2.1] >>= fun r => pure (p.1, r, Object.nil)) s1 := by
  cases d <;> simp only [isFunction, Bool.false_eq_true] at hf
  rw [doEvalDecorator]
  simp only [bind_run, hd, hname, lift_run, Bool.not_true, Bool.false_eq_true, if_false]

/-- C24: evaluating `@d f g(...) {...}` where `d` evaluates to a function binds
the name `g` in the current environment to the value returned by applying `d`
to the function `g`; for a chain `@d1 @d2 f g(...) {...}` the name `g` is bound
to `d1(d2(g))`; if the decorator expression (of the decorator, or of the second
decorator of a chain) does not evaluate to a function, the result is an error
and no binding is written. -/
theorem decorator_binds_decorated_name (W : World) (n : Nat) (tok : Token) (expr : Node)
    (env : Nat) (s s1 : State) (d : Object) (hd : Eval W n expr env s = .ok (d, s1)) :
    (∀ (ftok : Token) (g : String) (ps : List (String × Node)) (body : Node) (r : Object)
        (s2 : State) (e : Environment),
      isFunction d = true →
      Apply W n ftok d env [.Function ftok g ps body env] s1 = .ok (r, s2) →
      s2.envs.get? env = some e →
      ∃ s3, Eval W (n + 1) (.Decorator tok expr (.FunctionLiteral ftok g ps body)) env s
          = .ok (NULL, s3) ∧
        EnvSet env g r s2 = .ok ((), s3) ∧ EnvGet env g s3 = .ok (some r, s3)) ∧
    (∀ (tok2 ftok : Token) (expr2 : Node) (g : String) (ps : List (String × Node)) (body : Node)
        (d2 r2 r1 : Object) (s2 s3 s4 : State) (e : Environment),
      2 ≤ n → isFunction d = true →
      Eval W n expr2 env s1 = .ok (d2, s2) → isFunction d2 = true →
      Apply W n ftok d2 env [.Function ftok g ps body env] s2 = .ok (r2, s3) →
      Apply W n tok d env [r2] s3 = .ok (r1, s4) →
      s4.envs.get? env = some e →
      ∃ s5, Eval W (n + 1)
          (.Decorator tok expr (.Decorator tok2 expr2 (.FunctionLiteral ftok g ps body))) env s
          = .ok (NULL, s5) ∧
        EnvSet env g r1 s4 = .ok ((), s5) ∧ EnvGet env g s5 = .ok (some r1, s5)) ∧
    (∀ (decorated : Node), isFunction d = false →
      Eval W (n + 1) (.Decorator tok expr decorated) env s = decoratorError W n tok d s1 ∧
      ∀ (res : Object) (s9 : State),
        Eval W (n + 1) (.Decorator tok expr decorated) env s = .ok (res, s9) →
        isError res = true ∧ s9 = s1) ∧
    (∀ (tok2 ftok : Token) (expr2 : Node) (g : String) (ps : List (String × Node)) (body : Node)
        (d2 : Object) (s2 : State),
      2 ≤ n → isFunction d = true →
      Eval W n expr2 env s1 = .ok (d2, s2) → isFunction d2 = false →
      Eval W (n + 1)
          (.Decorator tok expr (.Decorator tok2 expr2 (.FunctionLiteral ftok g ps body))) env s
        = decoratorError W n tok2 d2 s2 ∧
      ∀ (res : Object) (s9 : State),
        Eval W (n + 1)
          (.Decorator tok expr (.Decorator tok2 expr2 (.FunctionLiteral ftok g ps body))) env s
          = .ok (res, s9) →
        isError res = true ∧ s9 = s2) := by
  have hn : ∃ k, n = k + 1 := by
    cases n with
    | zero => cases hd
    | succ k => exact ⟨k, rfl⟩
  obtain ⟨k, hk⟩ := hn
  subst hk
  have herr : ∀ (t : Token) (x : Object) (st : State) (res : Object) (s9 : State),
      isFunction x = false → decoratorError W (k + 1) t x st = .ok (res, s9) →
      isError res = true ∧ s9 = st := by
    intro t x st res s9 hx h
    cases x <;> simp only [isFunction, Bool.true_eq_false] at hx <;>
      simp only [decoratorError] at h <;>
      first
      | (cases h; exact ⟨rfl, rfl⟩)
      | (obtain ⟨a, sa, h1, h2⟩ := (bind_ok _ _ _ _ _).mp h
         have hs : sa = st := by
           simp only [Inspect] at h1
           split at h1 <;> first | (cases h1; rfl) | cases h1
         subst hs
         exact newError_ok _ _ _ _ _ h2)
  refine ⟨?_, ?_, ?_, ?_⟩
  · intro ftok g ps body r s2 e hf happ he
    have hset := EnvSet_ok env g r s2 e he
    refine ⟨_, ?_, hset, EnvGet_of_ownBinding env g r _ (ownBinding_EnvSet env g r s2 _ () hset)⟩
    rw [Eval_succ]
    simp only [EvalStep, evalDecorator, bind_run,
      doEvalDecorator_literal W k k tok ftok expr g ps body env s s1 d hd hf, happ, pure_run,
      isError, Bool.false_eq_true, if_false, hset]
  · intro tok2 ftok expr2 g ps body d2 r2 r1 s2 s3 s4 e hn2 hf hd2 hf2 happ2 happ1 he
    obtain ⟨j, hj⟩ : ∃ j, k = j + 1 := ⟨k - 1, by omega⟩
    subst hj
    have hset := EnvSet_ok env g r1 s4 e he
    refine ⟨_, ?_, hset, EnvGet_of_ownBinding env g r1 _ (ownBinding_EnvSet env g r1 s4 _ () hset)⟩
    have hinner := doEvalDecorator_literal W (j + 1) j tok2 ftok expr2 g ps body env s1 s2 d2 hd2 hf2
    have hchain := doEvalDecorator_chain W (Eval W (j + 1 + 1)) (Apply W (j + 1 + 1)) (j + 1 + 1)
      (j + 1) tok tok2 expr expr2 (.FunctionLiteral ftok g ps body) env s s1 d g hd hf rfl
    rw [Eval_succ]
    simp only [EvalStep, evalDecorator, bind_run, hchain, hinner, happ2, pure_run, isError,
      Bool.false_eq_true, if_false, happ1, hset]
  · intro decorated hf
    have heq : Eval W (k + 1 + 1) (.Decorator tok expr decorated) env s
        = decoratorError W (k + 1) tok d s1 := by
      rw [Eval_succ]
      simp only [EvalStep, evalDecorator, bind_run,
        doEvalDecorator_not_function W (k + 1) k tok expr decorated env s s1 d hd hf]
      cases hE : decoratorError W (k + 1) tok d s1 with
      | ok p =>
        obtain ⟨res, s9⟩ := p
        have h1 := (herr tok d s1 res s9 hf hE).1
        simp only [pure_run, h1, if_true]
      | panic m => rfl
      | outOfFuel => rfl
    refine ⟨heq, ?_⟩
    intro res s9 h
    rw [heq] at h
    exact herr tok d s1 res s9 hf h
  · intro tok2 ftok expr2 g ps body d2 s2 hn2 hf hd2 hf2
    obtain ⟨j, hj⟩ : ∃ j, k = j + 1 := ⟨k - 1, by omega⟩
    subst hj
    have hinner := doEvalDecorator_not_function W (j + 1 + 1) j tok2 expr2
      (.FunctionLiteral ftok g ps body) env s1 s2 d2 hd2 hf2
    have heq : Eval W (j + 1 + 1 + 1)
        (.Decorator tok expr (.Decorator tok2 expr2 (.FunctionLiteral ftok g ps body))) env s
        = decoratorError W (j + 1 + 1) tok2 d2 s2 := by
      have hchain := doEvalDecorator_chain W (Eval W (j + 1 + 1)) (Apply W (j + 1 + 1))
        (j + 1 + 1) (j + 1) tok tok2 expr expr2 (.FunctionLiteral ftok g ps body) env s s1 d g hd
        hf rfl
      rw [Eval_succ]
      simp only [EvalStep, evalDecorator, bind_run, hchain, hinner]
      cases hE : decoratorError W (j + 1 + 1) tok2 d2 s2 with
      | ok p =>
        obtain ⟨res, s9⟩ := p
        have h1 := (herr tok2 d2 s2 res s9 hf2 hE).1
        simp only [pure_run, h1, if_true]
      | panic m => rfl
      | outOfFuel => rfl
    refine ⟨heq, ?_⟩
    intro res s9 h
    rw [heq] at h
    exact herr tok2 d2 s2 res s9 hf2 h

/-- Witness of `decorator_binds_decorated_name`: after `f d(fn) { dön 7 }` the
statement `@d f g() { 1 }` binds `g` to 7, the value of `d(g)`. -/
theorem decorator_binds_decorated_name_witness :
    ∃ s3, Eval bareWorld 9 decoratedStatement 0 decoratorBound = .ok (NULL, s3) ∧
      EnvGet 0 "g" s3 = .ok (some (.Number 7), s3) := by
  have happ : Apply bareWorld 8 (tk token.FUNCTION 22 "f") sevenDecorator 0 [decoratedG]
      decoratorBound = .ok (.Number 7, stateOf (Apply bareWorld 8 (tk token.FUNCTION 22 "f")
        sevenDecorator 0 [decoratedG] decoratorBound)) :=
    ok_of_valueOf (yields_sound (by decide!))
  obtain ⟨e, he⟩ : ∃ e, (stateOf (Apply bareWorld 8 (tk token.FUNCTION 22 "f")
      sevenDecorator 0 [decoratedG] decoratorBound)).envs.get? 0 = some e := ⟨_, rfl⟩
  obtain ⟨s3, h1, _, h3⟩ := (decorator_binds_decorated_name bareWorld 8 (tk token.AT 19 "@")
    (.Identifier (tk token.IDENT 20 "d") "d") 0 decoratorBound decoratorBound sevenDecorator
    (Eval_Identifier_bound bareWorld 7 _ "d" _ 0 decoratorBound rfl)).1
    (tk token.FUNCTION 22 "f") "g" []
    (.BlockStatement (tk token.LBRACE 28 "\x7b")
      [exprStmt (tk token.NUMBER 30 "1") (.NumberLiteral (tk token.NUMBER 30 "1") 1)])
    (.Number 7) _ e rfl happ he
  exact ⟨s3, h1, h3⟩

/-! ## Blocks stop at an error or a return value -/

/-- The loop of `evalBlockStatement` over statements that run through: it
arrives at the rest of the block with the deferred statements collected. -/
theorem evalBlockLoop_runsThrough (ev : Evaluator) (env : Nat) (rest : List Node) :
    ∀ (before : List Node) (s s1 : State) (result : Object) (acc : List Node),
      runsThrough ev env before s s1 →
      ∃ result1, evalBlockLoop ev env (before ++ rest) result acc s
        = evalBlockLoop ev env rest result1 (acc ++ before.filter isDeferredStatement) s1 := by
  intro before
  induction before with
  | nil =>
    intro s s1 result acc h
    simp only [runsThrough] at h
    subst h
    exact ⟨result, by simp⟩
  | cons st more ih =>
    intro s s1 result acc h
    simp only [runsThrough] at h
    rcases h with ⟨hd, hrest⟩ | ⟨hd, v, s2, hv, hstop, hrest⟩
    · obtain ⟨r1, hr1⟩ := ih s s1 result (acc ++ [st]) hrest
      refine ⟨r1, ?_⟩
      simp only [List.append_assoc, List.singleton_append] at hr1
      simp only [List.cons_append, evalBlockLoop, hd, if_true, List.filter_cons]
      exact hr1
    · obtain ⟨r1, hr1⟩ := ih s2 s1 v acc hrest
      refine ⟨r1, ?_⟩
      simp only [List.cons_append, evalBlockLoop, hd, Bool.false_eq_true, if_false, bind_run, hv,
        List.filter_cons]
      cases v <;>
        first
        | (simp only [blockStop] at hstop; exact Option.noConfusion hstop)
        | (simp only [Type_, lift_run, bind_run, object.RETURN_VALUE_OBJ, object.ERROR_OBJ,
            object.NULL_OBJ, object.BOOLEAN_OBJ, object.NUMBER_OBJ, object.STRING_OBJ,
            object.ARRAY_OBJ, object.HASH_OBJ, object.FUNCTION_OBJ, object.BUILTIN_OBJ]
           simp only [String.reduceEq, or_self, if_false]
           exact hr1)
        | exact hr1

/-- C25: in a block, once a non-deferred statement produces an `Error` or a
`ReturnValue`, no later statement of the block is evaluated and the result of
the block is that value unchanged (a `ReturnValue` is not unwrapped); only the
deferred statements met before it are still evaluated. -/
theorem block_stops_at_error_or_return (W : World) (n : Nat) (tok : Token)
    (before : List Node) (st : Node) (after : List Node) (env : Nat) (s s1 s2 : State)
    (v : Object) (hbefore : runsThrough (Eval W n) env before s s1)
    (hst : isDeferredStatement st = false) (hv : Eval W n st env s1 = .ok (v, s2))
    (hstop : isError v = true ∨ ∃ x, v = .ReturnValue x) :
    Eval W (n + 1) (.BlockStatement tok (before ++ st :: after)) env s
      = (evalDeferred (Eval W n) env (before.filter isDeferredStatement) >>= fun _ => pure v) s2 := by
  obtain ⟨r1, hr1⟩ := evalBlockLoop_runsThrough (Eval W n) env (st :: after) before s s1
    Object.nil [] hbefore
  rw [Eval_succ]
  simp only [EvalStep, evalBlockStatement, bind_run, hr1, List.nil_append]
  have hloop : evalBlockLoop (Eval W n) env (st :: after) r1
      (before.filter isDeferredStatement) s1
      = .ok ((v, before.filter isDeferredStatement), s2) := by
    simp only [evalBlockLoop, hst, Bool.false_eq_true, if_false, bind_run, hv]
    rcases hstop with he | ⟨x, hx⟩
    · cases v <;> simp only [isError, Bool.false_eq_true] at he <;>
        simp [Type_, lift_run, bind_run, pure_run, object.ERROR_OBJ, object.RETURN_VALUE_OBJ]
    · subst hx
      simp [Type_, lift_run, bind_run, pure_run, object.ERROR_OBJ, object.RETURN_VALUE_OBJ]
  rw [hloop]

/-- Witness of `block_stops_at_error_or_return`: the body `{ 1; dön 2; y }` of
`f() { 1; dön 2; y }` yields `ReturnValue(2)`; the statement `y`, which would
be an error, is not evaluated. -/
theorem block_stops_at_error_or_return_witness :
    Eval bareWorld 6 (.BlockStatement (tk token.LBRACE 4 "\x7b") [stmtOne, stmtReturnTwo, stmtY]) 0
        (startOf oneReturnTwoThenYSrc)
      = .ok (.ReturnValue (.Number 2), startOf oneReturnTwoThenYSrc) :=
  block_stops_at_error_or_return bareWorld 5 (tk token.LBRACE 4 "\x7b") [stmtOne] stmtReturnTwo
    [stmtY] 0 (startOf oneReturnTwoThenYSrc) (startOf oneReturnTwoThenYSrc)
    (startOf oneReturnTwoThenYSrc) (.ReturnValue (.Number 2))
    (Or.inr ⟨rfl, .Number 1, startOf oneReturnTwoThenYSrc, rfl, rfl, rfl⟩) rfl rfl
    (Or.inr ⟨.Number 2, rfl⟩)

/-! ## Errors of callbacks in the higher-order built-ins -/

/-- C26 (the code at the failing inputs): the callback `f(x) { y }` produces an
error on every element.  `haritala` (map) and `filtre` (filter) return that
error, but `bazısında` (some) and `hepsinde` (every) take it for a truthy value
and yield `true`, `bul` (find) takes it for a truthy value and yields the
element 1, and in `azalt([1, 2], f(a, x) { eğer x == 1 { y }; 7 }, 0)` (reduce)
the error of the first call is carried on as the accumulator and the result is
7. -/
theorem callback_error_lost_in_some_every_find_reduce :
    yieldsError (valueOf (Apply arrayWorld 20 (tk token.LPAREN 3 "(") (failingCallbackFn 9) 0
      [.Number 1] (startOf (callWithFailingCallbackSrc "bul")))) = true ∧
    yieldsError (valueOf (Eval arrayWorld 30 (callWithFailingCallback "haritala") 0
      (startOf (callWithFailingCallbackSrc "haritala")))) = true ∧
    yieldsError (valueOf (Eval arrayWorld 30 (callWithFailingCallback "filtre") 0
      (startOf (callWithFailingCallbackSrc "filtre")))) = true ∧
    valueOf (Eval arrayWorld 30 (callWithFailingCallback "bazısında") 0
      (startOf (callWithFailingCallbackSrc "bazısında"))) = .ok (.Boolean true) ∧
    valueOf (Eval arrayWorld 30 (callWithFailingCallback "hepsinde") 0
      (startOf (callWithFailingCallbackSrc "hepsinde"))) = .ok (.Boolean true) ∧
    valueOf (Eval arrayWorld 30 (callWithFailingCallback "bul") 0
      (startOf (callWithFailingCallbackSrc "bul"))) = .ok (.Number 1) ∧
    valueOf (Eval arrayWorld 30 reduceWithFailingCallback 0
      (startOf reduceWithFailingCallbackSrc)) = .ok (.Number 7) :=
  ⟨by decide!, by decide!, by decide!, yields_sound (by decide!), yields_sound (by decide!),
   yields_sound (by decide!), yields_sound (by decide!)⟩

/-! ## The built-in unique -/

/-- The key of an element that has a type and can be inspected. -/
theorem GenerateEqualityString_ok (W : World) (s : State) (fuel : Nat) (v : Object)
    (t i : String) (ht : Type_ v = .ok t) (hi : inspectAux W s fuel false v = .ok i) :
    GenerateEqualityString W fuel v s = .ok (keyIn W s fuel v, s) := by
  simp only [GenerateEqualityString, bind_run, lift_run, ht, Inspect, hi, pure_run, keyIn]

/-- The first occurrences of a list with one more element at its end. -/
theorem firstOccurrences_snoc (key : Object → String) (l : List Object) (v : Object) :
    firstOccurrences key (l ++ [v])
      = firstOccurrences key l ++
        (if l.any (fun w => decide (key w = key v)) then [] else [v]) := by
  unfold firstOccurrences
  rw [List.length_append, List.length_singleton, List.range_succ, List.filterMap_append]
  congr 1
  · apply List.filterMap_congr
    intro i hi
    have hlt : i < l.length := List.mem_range.mp hi
    rw [List.get?_eq_getElem?, List.get?_eq_getElem?, List.getElem?_append_left hlt,
      List.take_append_of_le_length (le_of_lt hlt)]
  · have h1 : (l ++ [v]).get? l.length = some v := get?_append_new l v
    simp only [List.filterMap_cons, List.filterMap_nil, h1, List.take_left']
    cases l.any (fun w => decide (key w = key v)) <;> rfl

/-- The loop of `uniqueFn`: when the elements before the rest of the slice are
`pre`, `existingElements` holds their keys and `result` their first
occurrences, the loop yields the first occurrences of the whole slice. -/
theorem uniqueLoop_spec (W : World) (fuel : Nat) (s : State) (key : Object → String) :
    ∀ (rest pre : List Object) (existing : List (String × Bool)),
      (∀ v ∈ rest, GenerateEqualityString W fuel v s = .ok (key v, s)) →
      (∀ k, (mapGet existing k).isSome = pre.any (fun w => decide (key w = k))) →
      uniqueLoop W fuel rest existing (firstOccurrences key pre) s
        = .ok (firstOccurrences key (pre ++ rest), s) := by
  intro rest
  induction rest with
  | nil =>
    intro pre existing _ _
    simp only [uniqueLoop, pure_run, List.append_nil]
  | cons v rest ih =>
    intro pre existing hkeys hex
    have hv := hkeys v (List.mem_cons_self v rest)
    have hrest : ∀ w ∈ rest, GenerateEqualityString W fuel w s = .ok (key w, s) :=
      fun w hw => hkeys w (List.mem_cons_of_mem v hw)
    have hsnoc := firstOccurrences_snoc key pre v
    have happ : pre ++ v :: rest = (pre ++ [v]) ++ rest := by simp
    simp only [uniqueLoop, bind_run, hv]
    cases hm : mapGet existing (key v) with
    | none =>
      have hany : pre.any (fun w => decide (key w = key v)) = false := by
        rw [← hex (key v), hm]; rfl
      rw [hany] at hsnoc
      simp only [Bool.false_eq_true, if_false] at hsnoc
      rw [happ, ← hsnoc]
      apply ih (pre ++ [v]) (mapSet existing (key v) true) hrest
      intro k
      rw [mapGet_mapSet, List.any_append, ← hex k]
      by_cases hk : key v = k
      · simp [hk]
      · simp [hk]
    | some b =>
      have hany : pre.any (fun w => decide (key w = key v)) = true := by
        rw [← hex (key v), hm]; rfl
      rw [hany] at hsnoc
      simp only [if_true, List.append_nil] at hsnoc
      rw [happ, ← hsnoc]
      apply ih (pre ++ [v]) existing hrest
      intro k
      rw [List.any_append, ← hex k]
      by_cases hk : key v = k
      · subst hk
        simp [hm]
      · simp [hk]

/-- Appending elements that all occur before adds no first occurrence. -/
theorem firstOccurrences_append_known (key : Object → String) :
    ∀ (m pre : List Object), (∀ v ∈ m, v ∈ pre) →
      firstOccurrences key (pre ++ m) = firstOccurrences key pre := by
  intro m
  induction m with
  | nil => intro pre _; rw [List.append_nil]
  | cons v m ih =>
    intro pre h
    have happ : pre ++ v :: m = (pre ++ [v]) ++ m := by simp
    have hv : v ∈ pre := h v (List.mem_cons_self v m)
    rw [happ, ih (pre ++ [v]) (fun w hw =>
      List.mem_append_left [v] (h w (List.mem_cons_of_mem v hw)))]
    rw [firstOccurrences_snoc]
    have hany : pre.any (fun w => decide (key w = key v)) = true :=
      List.any_eq_true.mpr ⟨v, hv, by simp⟩
    simp only [hany, if_true, List.append_nil]

/-- The first occurrences of a list followed by itself are those of the list. -/
theorem firstOccurrences_twice (key : Object → String) (l : List Object) :
    firstOccurrences key (l ++ l) = firstOccurrences key l :=
  firstOccurrences_append_known key l l (fun _ hv => hv)

/-- A successful run over a list stays the same under a function that agrees
with the first wherever that one succeeds. -/
theorem mapOutcome_congr_ok {α β : Type} (f g : α → Outcome β) :
    ∀ (l : List α) (ys : List β), (∀ x ∈ l, ∀ y, f x = .ok y → g x = .ok y) →
      mapOutcome f l = .ok ys → mapOutcome g l = .ok ys := by
  intro l
  induction l with
  | nil => intro ys _ h; exact h
  | cons a as ih =>
    intro ys hfg h
    simp only [mapOutcome] at h ⊢
    obtain ⟨b, hb, h2⟩ := (Outcome_bind_ok _ _ _).mp h
    obtain ⟨bs, hbs, h3⟩ := (Outcome_bind_ok _ _ _).mp h2
    rw [hfg a (List.mem_cons_self a as) b hb,
      ih bs (fun x hx => hfg x (List.mem_cons_of_mem a hx)) hbs]
    exact h3

/-- An inspect text stays the same when arrays are added to the heap. -/
theorem inspectAux_grow (W : World) (s s1 : State)
    (harr : ∀ r x, s.arrays.get? r = some x → s1.arrays.get? r = some x)
    (hh : s1.hashes = s.hashes) (hm : s1.maps = s.maps) :
    ∀ (fuel : Nat) (json : Bool) (o : Object) (str : String),
      inspectAux W s fuel json o = .ok str → inspectAux W s1 fuel json o = .ok str := by
  intro fuel
  induction fuel with
  | zero => intro json o str h; simp [inspectAux] at h
  | succ n ih =>
    intro json o str h
    cases o with
    | Array r =>
      simp only [inspectAux] at h ⊢
      cases ha : s.arrays.get? r with
      | none => rw [ha] at h; cases h
      | some a =>
        rw [ha] at h
        rw [harr r a ha]
        simp only [] at h ⊢
        obtain ⟨els, h1, h2⟩ := (Outcome_bind_ok _ _ _).mp h
        rw [mapOutcome_congr_ok _ _ a.Elements els (fun x _ y hy => ih true x y hy) h1]
        exact h2
    | Hash r =>
      simp only [inspectAux, hh, hm] at h ⊢
      cases hr : s.hashes.get? r with
      | none => rw [hr] at h; cases h
      | some hobj =>
        rw [hr] at h
        simp only [] at h ⊢
        cases hp : s.maps.get? hobj.Pairs with
        | none => rw [hp] at h; cases h
        | some m =>
          rw [hp] at h
          simp only [] at h ⊢
          obtain ⟨ps, h1, h2⟩ := (Outcome_bind_ok _ _ _).mp h
          rw [mapOutcome_congr_ok _ _ m ps (fun e _ y hy => by
            obtain ⟨k, hk, h3⟩ := (Outcome_bind_ok _ _ _).mp hy
            obtain ⟨v, hv, h4⟩ := (Outcome_bind_ok _ _ _).mp h3
            rw [ih true e.2.Key k hk, ih true e.2.Value v hv]
            exact h4) h1]
          exact h2
    | ReturnValue v =>
      simp only [inspectAux] at h ⊢
      exact ih false v str h
    | nil => exact h
    | Null => exact h
    | Boolean b => exact h
    | Number v => exact h
    | String v a b => exact h
    | Function t nm ps b e => exact h
    | Builtin nm => exact h
    | Error m => exact h
    | BreakError m => exact h
    | ContinueError m => exact h

/-- No type name holds a colon. -/
theorem Type_no_colon (v : Object) (t : String) (h : Type_ v = .ok t) : ':' ∉ t.data := by
  cases v <;> simp only [Type_, Outcome.ok.injEq] at h <;> first | (subst h; decide) | cases h

/-- Two texts with a colon after a part without colons are the same exactly
when the parts before and after the colon are. -/
theorem append_colon_inj :
    ∀ (a b x y : List Char), ':' ∉ a → ':' ∉ b → a ++ ':' :: x = b ++ ':' :: y →
      a = b ∧ x = y := by
  intro a
  induction a with
  | nil =>
    intro b x y _ hb h
    cases b with
    | nil => simp only [List.nil_append, List.cons.injEq, true_and] at h; exact ⟨rfl, h⟩
    | cons c b =>
      simp only [List.nil_append, List.cons_append, List.cons.injEq] at h
      exact absurd (List.mem_cons.mpr (Or.inl h.1)) hb
  | cons c a ih =>
    intro b x y ha hb h
    cases b with
    | nil =>
      simp only [List.nil_append, List.cons_append, List.cons.injEq] at h
      exact absurd (List.mem_cons.mpr (Or.inl h.1.symm)) ha
    | cons d b =>
      simp only [List.cons_append, List.cons.injEq] at h
      obtain ⟨h1, h2⟩ := ih b x y (fun hm => ha (List.mem_cons_of_mem c hm))
        (fun hm => hb (List.mem_cons_of_mem d hm)) h.2
      exact ⟨by rw [h.1, h1], h2⟩

/-- Two elements that have a type and can be inspected have the same key
exactly when they have the same type and the same inspect text. -/
theorem keyIn_eq_iff (W : World) (s : State) (fuel : Nat) (v w : Object) (tv iv tw iw : String)
    (h1 : Type_ v = .ok tv) (h2 : inspectAux W s fuel false v = .ok iv)
    (h3 : Type_ w = .ok tw) (h4 : inspectAux W s fuel false w = .ok iw) :
    keyIn W s fuel v = keyIn W s fuel w ↔
      Type_ v = Type_ w ∧ inspectAux W s fuel false v = inspectAux W s fuel false w := by
  simp only [keyIn, h1, h2, h3, h4, Outcome.ok.injEq]
  constructor
  · intro h
    have hd := congrArg String.data h
    simp only [String.data_append] at hd
    have := append_colon_inj tv.data tw.data iv.data iw.data (Type_no_colon v tv h1)
      (Type_no_colon w tw h3) (by simpa using hd)
    exact ⟨String.ext this.1, String.ext this.2⟩
  · rintro ⟨ht, hi⟩
    rw [ht, hi]

/-- The argument `[array]` passes the validation of `uniqueFn`. -/
theorem validateArgs_unique (W : World) (fuel : Nat) (tok : Token) (r : Nat) (s : State) :
    validateArgs W fuel tok "unique" [.Array r] 1 [[object.ARRAY_OBJ]] s = .ok (none, s) := by
  simp [validateArgs, validateArgsLoop, Type_, Contains, bind_run, lift_run, pure_run,
    object.ARRAY_OBJ]

/-- Go `uniqueFn` on an array whose elements have the keys `key`: it allocates
an array of the first occurrences. -/
theorem uniqueFn_array (W : World) (fuel : Nat) (ap : Applier) (tok : Token) (env : Nat)
    (s : State) (r : Nat) (a : ArrayObj) (key : Object → String)
    (ha : s.arrays.get? r = some a)
    (hkeys : ∀ v ∈ a.Elements, GenerateEqualityString W fuel v s = .ok (key v, s)) :
    uniqueFn W fuel ap tok env [.Array r] s
      = newArray (firstOccurrences key a.Elements) false s := by
  have hloop := uniqueLoop_spec W fuel s key a.Elements [] [] hkeys (fun k => rfl)
  have hnil : firstOccurrences key [] = [] := rfl
  rw [hnil, List.nil_append] at hloop
  simp only [uniqueFn, bind_run, validateArgs_unique, getArray, ha, hloop]

/-- C27: `unique` keeps the first occurrence of each distinct element, distinct
by type and inspect string, in the original order; so for every array `a`
whose elements can be inspected, `unique(a + a)` has the same elements in the
same order as `unique(a)`. -/
theorem unique_keeps_first_occurrences (W : World) (fuel : Nat) (ap : Applier) (tok : Token)
    (env : Nat) (s : State) (r : Nat) (a : ArrayObj) (ha : s.arrays.get? r = some a)
    (hins : ∀ v ∈ a.Elements, ∃ t i, Type_ v = .ok t ∧ inspectAux W s fuel false v = .ok i) :
    uniqueFn W fuel ap tok env [.Array r] s
      = newArray (firstOccurrences (keyIn W s fuel) a.Elements) false s ∧
    (∀ v ∈ a.Elements, ∀ w ∈ a.Elements,
      (keyIn W s fuel v = keyIn W s fuel w ↔
        Type_ v = Type_ w ∧ inspectAux W s fuel false v = inspectAux W s fuel false w)) ∧
    ∃ s1, evalArrayInfixExpression tok "+" (.Array r) (.Array r) s
        = .ok (.Array s.arrays.length, s1) ∧
      uniqueFn W fuel ap tok env [.Array s.arrays.length] s1
        = newArray (firstOccurrences (keyIn W s fuel) a.Elements) false s1 := by
  refine ⟨?_, ?_, ?_⟩
  · apply uniqueFn_array W fuel ap tok env s r a (keyIn W s fuel) ha
    intro v hv
    obtain ⟨t, i, ht, hi⟩ := hins v hv
    exact GenerateEqualityString_ok W s fuel v t i ht hi
  · intro v hv w hw
    obtain ⟨tv, iv, h1, h2⟩ := hins v hv
    obtain ⟨tw, iw, h3, h4⟩ := hins w hw
    exact keyIn_eq_iff W s fuel v w tv iv tw iw h1 h2 h3 h4
  · obtain ⟨s1, hsum, harr, hhash, hmaps⟩ : ∃ s1,
        evalArrayInfixExpression tok "+" (.Array r) (.Array r) s
          = .ok (.Array s.arrays.length, s1) ∧
        s1.arrays = s.arrays ++ [(⟨a.Elements ++ a.Elements, false, 0⟩ : ArrayObj)] ∧
        s1.hashes = s.hashes ∧ s1.maps = s.maps := by
      refine ⟨{ s with arrays := s.arrays ++ [⟨a.Elements ++ a.Elements, false, 0⟩] }, ?_, ?_⟩
      swap
      · exact ⟨rfl, rfl, rfl⟩
      simp only [evalArrayInfixExpression, if_true, bind_run, getArray, ha]
      rfl
    refine ⟨s1, hsum, ?_⟩
    have hnew : s1.arrays.get? s.arrays.length = some ⟨a.Elements ++ a.Elements, false, 0⟩ := by
      rw [harr]
      exact get?_append_new _ _
    have hgrow : ∀ r x, s.arrays.get? r = some x → s1.arrays.get? r = some x := by
      intro r0 x hx
      rw [harr]
      exact get?_append_old _ _ x r0 hx
    have hkeys : ∀ v ∈ a.Elements ++ a.Elements,
        GenerateEqualityString W fuel v s1 = .ok (keyIn W s fuel v, s1) := by
      intro v hv
      have hv2 : v ∈ a.Elements := by
        rcases List.mem_append.mp hv with h | h <;> exact h
      obtain ⟨t, i, ht, hi⟩ := hins v hv2
      have hi1 := inspectAux_grow W s s1 hgrow hhash hmaps fuel false v i hi
      have hk : keyIn W s1 fuel v = keyIn W s fuel v := by
        simp only [keyIn, ht, hi, hi1]
      rw [← hk]
      exact GenerateEqualityString_ok W s1 fuel v t i ht hi1
    have h := uniqueFn_array W fuel ap tok env s1 s.arrays.length _ (keyIn W s fuel) hnew hkeys
    rw [h]
    simp only [firstOccurrences_twice]

/-- Witness of `unique_keeps_first_occurrences`: the array
`[1, "1", 1, 2, "1"]`, whose first occurrences are `[1, "1", 2]`. -/
theorem unique_keeps_first_occurrences_witness :
    uniqueFn bareWorld 5 (Apply bareWorld 5) (tk token.LPAREN 5 "(") 0 [.Array 0] mixedOnes
      = newArray (firstOccurrences (keyIn bareWorld mixedOnes 5)
          [.Number 1, .String "1" none none, .Number 1, .Number 2, .String "1" none none])
          false mixedOnes ∧
    firstOccurrences (keyIn bareWorld mixedOnes 5)
        [.Number 1, .String "1" none none, .Number 1, .Number 2, .String "1" none none]
      = [.Number 1, .String "1" none none, .Number 2] :=
  ⟨(unique_keeps_first_occurrences bareWorld 5 (Apply bareWorld 5) (tk token.LPAREN 5 "(") 0
      mixedOnes 0 _ rfl (by
        intro v hv
        simp only [List.mem_cons, List.mem_singleton, List.not_mem_nil, or_false] at hv
        rcases hv with h | h | h | h | h <;> subst h <;> exact ⟨_, _, rfl, rfl⟩)).1,
   rfl⟩

/-! ## The built-in reverse -/

/-- Writing at the position where the second part of a list starts. -/
theorem setAt_append_cons {α : Type} (x y : α) (b : List α) :
    ∀ (m : List α), setAt (m ++ y :: b) m.length x = m ++ x :: b := by
  intro m
  induction m with
  | nil => rfl
  | cons c m ih =>
    unfold setAt at ih ⊢
    simp only [List.cons_append, List.length_cons, List.set_cons_succ, ih]

/-- The exchange does not touch the head of a list when both positions are
past it. -/
theorem swapAt_cons_succ {α : Type} (c : α) (l : List α) (i j : Nat) :
    swapAt (c :: l) (i + 1) (j + 1) = c :: swapAt l i j := by
  unfold swapAt
  simp only [List.get?_cons_succ]
  cases l.get? i <;> cases l.get? j <;> simp [setAt]

/-- The exchange of the first and the last element of the middle part of a
list. -/
theorem swapAt_ends {α : Type} (x y : α) (m b : List α) :
    ∀ (a : List α), swapAt (a ++ (x :: (m ++ (y :: b)))) a.length (a.length + m.length + 1)
      = a ++ (y :: (m ++ (x :: b))) := by
  intro a
  induction a with
  | nil =>
    have h1 : (x :: (m ++ y :: b)).get? (m.length + 1) = some y := by
      simp only [List.get?_cons_succ]
      exact get?_append_cons y b m
    simp only [List.nil_append, List.length_nil, Nat.zero_add, swapAt, h1, List.get?_cons_zero]
    have h2 := setAt_append_cons x y b m
    unfold setAt at h2 ⊢
    simp only [List.set_cons_zero, List.set_cons_succ, h2]
  | cons c a ih =>
    have : (c :: a).length + m.length + 1 = (a.length + m.length + 1) + 1 := by
      simp only [List.length_cons]; omega
    rw [this, List.length_cons, List.cons_append, swapAt_cons_succ, ih, List.cons_append]

/-- The loop of `reverseFn` reverses the part of the slice between its two
indices. -/
theorem reverseLoop_middle {α : Type} :
    ∀ (k : Nat) (m a b : List α), m.length ≤ k →
      reverseLoop k (a.length : Int) ((a.length : Int) + (m.length : Int) - 1) (a ++ (m ++ b))
        = a ++ (m.reverse ++ b) := by
  intro k
  induction k with
  | zero =>
    intro m a b h
    have : m = [] := List.length_eq_zero.mp (by omega)
    subst this
    rfl
  | succ k ih =>
    intro m a b h
    cases m with
    | nil =>
      have hlt : ¬ ((a.length : Int) < (a.length : Int) + ((([] : List α).length : Nat) : Int) - 1) := by
        simp only [List.length_nil, Nat.cast_zero]; omega
      simp only [reverseLoop, hlt, if_false, List.reverse_nil]
    | cons x m1 =>
      rcases List.eq_nil_or_concat m1 with h1 | ⟨m2, y, h1⟩
      · subst h1
        have hlt : ¬ ((a.length : Int) < (a.length : Int) + (([x].length : Nat) : Int) - 1) := by
          simp only [List.length_singleton, Nat.cast_one]; omega
        simp only [reverseLoop, hlt, if_false, List.reverse_singleton]
      · rw [List.concat_eq_append] at h1
        subst h1
        have h3 : (x :: (m2 ++ [y])).length = m2.length + 2 := by simp
        have hlen : ((x :: (m2 ++ [y])).length : Int) = (m2.length : Int) + 2 := by
          rw [h3]
          push_cast
          rfl
        have hlt : (a.length : Int) < (a.length : Int) + ((x :: (m2 ++ [y])).length : Int) - 1 := by
          rw [hlen]; omega
        simp only [reverseLoop, hlt, if_true]
        have hj : ((a.length : Int) + ((x :: (m2 ++ [y])).length : Int) - 1).toNat
            = a.length + m2.length + 1 := by
          rw [hlen]; omega
        have hi : ((a.length : Int)).toNat = a.length := by omega
        rw [hj, hi]
        have hsw : swapAt (a ++ (x :: (m2 ++ [y]) ++ b)) a.length (a.length + m2.length + 1)
            = (a ++ [y]) ++ (m2 ++ (x :: b)) := by
          have := swapAt_ends x y m2 b a
          simp only [List.cons_append, List.append_assoc, List.singleton_append,
            List.nil_append] at this ⊢
          exact this
        rw [hsw]
        have hm2 : m2.length ≤ k := by
          rw [h3] at h
          omega
        have hrec := ih m2 (a ++ [y]) (x :: b) hm2
        have e1 : ((a.length : Int) + 1) = (((a ++ [y]).length : Nat) : Int) := by
          simp only [List.length_append, List.length_singleton]; push_cast; rfl
        have e2 : ((a.length : Int) + ((x :: (m2 ++ [y])).length : Int) - 1 - 1)
            = (((a ++ [y]).length : Nat) : Int) + (m2.length : Int) - 1 := by
          rw [hlen]
          simp only [List.length_append, List.length_singleton]
          push_cast
          omega
        rw [e1, e2, hrec]
        simp only [List.reverse_cons, List.reverse_append, List.reverse_singleton,
          List.append_assoc, List.singleton_append, List.cons_append, List.nil_append,
          List.reverse_nil]

/-- The loop of `reverseFn` over a whole slice reverses it. -/
theorem reverseLoop_eq {α : Type} (l : List α) :
    reverseLoop l.length 0 ((l.length : Int) - 1) l = l.reverse := by
  have h := reverseLoop_middle l.length l ([] : List α) [] (le_refl _)
  simp only [List.length_nil, Nat.cast_zero, zero_add, List.nil_append, List.append_nil] at h
  exact h

/-- The arguments `[array]` pass the validation of `reverseFn` with the first
spec. -/
theorem validateVarArgs_reverse_array (tok : Token) (r : Nat) (s : State) :
    validateVarArgs tok "reverse" [.Array r] [[[object.ARRAY_OBJ]], [[object.STRING_OBJ]]] s
      = .ok (.inr 0, s) := by
  simp [validateVarArgs, specBounds, findSpec, specMatches, Type_, Contains, bind_run, lift_run,
    pure_run, object.ARRAY_OBJ]
  rfl

/-- Go `reverseFn` on an array allocates an array of the elements in reverse
order. -/
theorem reverseFn_array (W : World) (fuel : Nat) (ap : Applier) (tok : Token) (env : Nat)
    (s : State) (r : Nat) (a : ArrayObj) (ha : s.arrays.get? r = some a) :
    reverseFn W fuel ap tok env [.Array r] s = newArray a.Elements.reverse false s := by
  simp only [reverseFn, bind_run, validateVarArgs_reverse_array, if_true, getArray, ha,
    reverseLoop_eq]

/-- C28: for every array `a`, `reverse(a)` is a new array holding the elements
of `a` in reverse order, and `reverse(reverse(a))` is a new array holding the
elements of `a` in the order of `a`; `a` itself is not changed. -/
theorem reverse_of_reverse_is_the_array (W : World) (fuel : Nat) (ap : Applier) (tok : Token)
    (env : Nat) (s : State) (r : Nat) (a : ArrayObj) (ha : s.arrays.get? r = some a) :
    ∃ s1 s2,
      reverseFn W fuel ap tok env [.Array r] s = .ok (.Array s.arrays.length, s1) ∧
      (s1.arrays.get? s.arrays.length).map (fun x => x.Elements) = some a.Elements.reverse ∧
      reverseFn W fuel ap tok env [.Array s.arrays.length] s1
        = .ok (.Array s1.arrays.length, s2) ∧
      (s2.arrays.get? s1.arrays.length).map (fun x => x.Elements) = some a.Elements ∧
      s2.arrays.get? r = some a := by
  obtain ⟨s1, h1, harr1⟩ : ∃ s1, reverseFn W fuel ap tok env [.Array r] s
      = .ok (.Array s.arrays.length, s1) ∧
      s1.arrays = s.arrays ++ [(⟨a.Elements.reverse, false, 0⟩ : ArrayObj)] :=
    ⟨_, reverseFn_array W fuel ap tok env s r a ha, rfl⟩
  have hnew : s1.arrays.get? s.arrays.length = some ⟨a.Elements.reverse, false, 0⟩ := by
    rw [harr1]
    exact get?_append_new _ _
  obtain ⟨s2, h2, harr2⟩ : ∃ s2, reverseFn W fuel ap tok env [.Array s.arrays.length] s1
      = .ok (.Array s1.arrays.length, s2) ∧
      s2.arrays = s1.arrays ++ [(⟨a.Elements.reverse.reverse, false, 0⟩ : ArrayObj)] :=
    ⟨_, reverseFn_array W fuel ap tok env s1 s.arrays.length _ hnew, rfl⟩
  refine ⟨s1, s2, h1, ?_, h2, ?_, ?_⟩
  · rw [hnew]
    rfl
  · rw [harr2, get?_append_new, List.reverse_reverse]
    rfl
  · rw [harr2, harr1]
    exact get?_append_old _ _ a r (get?_append_old _ _ a r ha)

/-- Witness of `reverse_of_reverse_is_the_array`: the array `[10, 20, 30]` of
the heap `threeBound`. -/
theorem reverse_of_reverse_is_the_array_witness :
    ∃ s1 s2,
      reverseFn bareWorld 5 (Apply bareWorld 5) (tk token.LPAREN 7 "(") 0 [.Array 0] threeBound
        = .ok (.Array threeBound.arrays.length, s1) ∧
      (s1.arrays.get? threeBound.arrays.length).map (fun x => x.Elements)
        = some [.Number 30, .Number 20, .Number 10] ∧
      reverseFn bareWorld 5 (Apply bareWorld 5) (tk token.LPAREN 7 "(") 0
        [.Array threeBound.arrays.length] s1 = .ok (.Array s1.arrays.length, s2) ∧
      (s2.arrays.get? s1.arrays.length).map (fun x => x.Elements)
        = some [.Number 10, .Number 20, .Number 30] ∧
      s2.arrays.get? 0 = some threeNumbers :=
  reverse_of_reverse_is_the_array bareWorld 5 (Apply bareWorld 5) (tk token.LPAREN 7 "(") 0
    threeBound 0 threeNumbers threeBound_array

/-! ## Line and column of a position -/

/-- The line map built so far is a prefix of the line map. -/
theorem buildLineMapLoop_acc :
    ∀ (cs : List Char) (b idx i : Int) (acc : List (Int × Int)),
      buildLineMapLoop cs b idx i acc = acc ++ buildLineMapLoop cs b idx i [] := by
  intro cs
  induction cs with
  | nil => intro b idx i acc; simp [buildLineMapLoop]
  | cons c cs ih =>
    intro b idx i acc
    by_cases hc : c = Char.ofNat 10
    · simp only [buildLineMapLoop, hc, if_true]
      rw [ih (i + 1) i (i + 1) (acc ++ [(b, i)]), ih (i + 1) i (i + 1) ([] ++ [(b, i)])]
      simp
    · simp only [buildLineMapLoop, hc, if_false]
      exact ih b i (i + 1) acc

/-- The line of a position, found by `linePosition` in the line map that
`buildLineMap` builds: when the source is `done ++ cur ++ cs`, with `done` the
lines already closed, `cur` the line under construction and `cs` the rest, and
the position is not in `done`, the loop finds a split `done1 ++ cur1 ++ rest1`
of the source into the closed lines before the line of the position, that line
and what follows it. -/
theorem linePositionLoop_build (pos : Nat) :
    ∀ (cs done cur : List Char) (idx : Int) (k : Int) (acc : Int × Int × Int),
      (∀ c ∈ cur, c ≠ newline) → (done = [] ∨ done.getLast? = some newline) →
      done.length ≤ pos → pos < done.length + cur.length + cs.length →
      (cs = [] → idx + 1 = ((done.length + cur.length : Nat) : Int)) →
      ∃ (done1 cur1 rest1 : List Char),
        done ++ cur ++ cs = done1 ++ cur1 ++ rest1 ∧
        (∀ c ∈ cur1, c ≠ newline) ∧ (done1 = [] ∨ done1.getLast? = some newline) ∧
        (rest1 = [] ∨ rest1.head? = some newline) ∧
        done1.length ≤ pos ∧ pos ≤ done1.length + cur1.length ∧
        linePositionLoop (pos : Int)
            (buildLineMapLoop cs (done.length : Int) idx ((done.length + cur.length : Nat) : Int) [])
            k acc
          = (k + ((done1.filter (fun c => c = newline)).length : Int)
                - ((done.filter (fun c => c = newline)).length : Int),
             (done1.length : Int), ((done1.length + cur1.length : Nat) : Int)) := by
  intro cs
  induction cs with
  | nil =>
    intro done cur idx k acc hcur hdone hle hlt hidx
    refine ⟨done, cur, [], rfl, hcur, hdone, Or.inl rfl, hle, ?_, ?_⟩
    · simp only [List.length_nil, Nat.add_zero] at hlt; omega
    · have h1 := hidx rfl
      simp only [buildLineMapLoop, List.nil_append, linePositionLoop, h1]
      split <;> simp
  | cons c cs ih =>
    intro done cur idx k acc hcur hdone hle hlt hidx
    by_cases hc : c = Char.ofNat 10
    · subst hc
      simp only [buildLineMapLoop, if_true]
      rw [buildLineMapLoop_acc]
      simp only [List.nil_append, List.singleton_append, linePositionLoop]
      by_cases hp : pos ≤ done.length + cur.length
      · refine ⟨done, cur, Char.ofNat 10 :: cs, rfl, hcur, hdone, Or.inr rfl, hle, hp, ?_⟩
        have h1 : (pos : Int) ≥ (done.length : Int) ∧
            (pos : Int) ≤ ((done.length + cur.length : Nat) : Int) := by
          constructor <;> omega
        simp only [h1, and_self, if_true]
        simp
      · have h1 : ¬ ((pos : Int) ≥ (done.length : Int) ∧
            (pos : Int) ≤ ((done.length + cur.length : Nat) : Int)) := by
          intro h
          omega
        simp only [h1, if_false]
        have hlen : (done ++ cur ++ [Char.ofNat 10]).length = done.length + cur.length + 1 := by
          simp only [List.length_append, List.length_singleton]
        obtain ⟨done1, cur1, rest1, hsplit, hc1, hd1, hr1, hle1, hp1, hloop⟩ :=
          ih (done ++ cur ++ [Char.ofNat 10]) [] ((done.length + cur.length : Nat) : Int) (k + 1)
            (k, (done.length : Int), ((done.length + cur.length : Nat) : Int))
            (fun c hc => by cases hc)
            (Or.inr (by simp [newline]))
            (by rw [hlen]; omega)
            (by rw [hlen]; simp only [List.length_nil, List.length_cons] at hlt ⊢; omega)
            (fun _ => by rw [hlen]; simp only [List.length_nil]; push_cast; omega)
        refine ⟨done1, cur1, rest1, ?_, hc1, hd1, hr1, hle1, hp1, ?_⟩
        · rw [← hsplit]; simp
        · have e1 : (((done.length + cur.length : Nat) : Int) + 1)
              = (((done ++ cur ++ [Char.ofNat 10]).length : Nat) : Int) := by
            rw [hlen]; push_cast; rfl
          have e2 : (((done ++ cur ++ [Char.ofNat 10]).length + ([] : List Char).length : Nat) : Int)
              = (((done ++ cur ++ [Char.ofNat 10]).length : Nat) : Int) := by
            simp
          rw [e2] at hloop
          rw [e1]
          refine Eq.trans hloop ?_
          have hcount : ((done ++ cur ++ [Char.ofNat 10]).filter (fun c => c = newline)).length
              = (done.filter (fun c => c = newline)).length + 1 := by
            have hcur0 : cur.filter (fun c => decide (c = newline)) = [] := by
              apply List.filter_eq_nil_iff.mpr
              intro c hc
              simpa using hcur c hc
            have hnl : List.filter (fun c => decide (c = newline)) [Char.ofNat 10]
                = [Char.ofNat 10] := by decide
            simp only [List.filter_append, hcur0, hnl, List.append_nil, List.length_append,
              List.length_singleton]
          rw [hcount]
          push_cast
          congr 1
          omega
    · simp only [buildLineMapLoop, hc, if_false]
      have hlen : (cur ++ [c]).length = cur.length + 1 := by simp
      obtain ⟨done1, cur1, rest1, hsplit, hc1, hd1, hr1, hle1, hp1, hloop⟩ :=
        ih done (cur ++ [c]) ((done.length + cur.length : Nat) : Int) k acc
          (fun x hx => by
            rcases List.mem_append.mp hx with h | h
            · exact hcur x h
            · simp only [List.mem_singleton] at h; rw [h]; exact hc)
          hdone hle
          (by rw [hlen]; simp only [List.length_cons] at hlt; omega)
          (fun _ => by rw [hlen]; push_cast; omega)
      refine ⟨done1, cur1, rest1, ?_, hc1, hd1, hr1, hle1, hp1, ?_⟩
      · rw [← hsplit]; simp
      · have e1 : (((done.length + cur.length : Nat) : Int) + 1)
            = ((done.length + (cur ++ [c]).length : Nat) : Int) := by
          rw [hlen]; push_cast; omega
        rw [e1, hloop]

/-- The scan of a text up to the first newline stops at once when the text is
empty or starts with a newline. -/
theorem takeWhile_stops (rest : List Char) (h : rest = [] ∨ rest.head? = some newline) :
    rest.takeWhile (fun c => decide (c ≠ newline)) = [] := by
  rcases h with h | h
  · rw [h]; rfl
  · cases rest with
    | nil => rfl
    | cons c cs =>
      simp only [List.head?_cons, Option.some.injEq] at h
      subst h
      rfl

/-- The parts of a source at a position, from a split of the source into the
lines closed before the line of the position, that line, and what follows. -/
theorem line_of_split (done1 cur1 rest1 : List Char) (pos : Nat)
    (hc1 : ∀ c ∈ cur1, c ≠ newline) (hd1 : done1 = [] ∨ done1.getLast? = some newline)
    (hr1 : rest1 = [] ∨ rest1.head? = some newline)
    (hle : done1.length ≤ pos) (hp : pos ≤ done1.length + cur1.length) :
    newlinesBefore (done1 ++ cur1 ++ rest1) pos = (done1.filter (fun c => c = newline)).length ∧
    lineStart (done1 ++ cur1 ++ rest1) pos = done1.length ∧
    lineText (done1 ++ cur1 ++ rest1) pos = cur1 := by
  have htake : (done1 ++ cur1 ++ rest1).take pos = done1 ++ cur1.take (pos - done1.length) := by
    rw [List.append_assoc, List.take_append_eq_append_take, List.take_of_length_le hle,
      List.take_append_eq_append_take]
    have h0 : pos - done1.length - cur1.length = 0 := by omega
    rw [h0, List.take_zero, List.append_nil]
  have hnone : ∀ c ∈ cur1.take (pos - done1.length), c ≠ newline :=
    fun c hc => hc1 c (List.mem_of_mem_take hc)
  have hstart : lineStart (done1 ++ cur1 ++ rest1) pos = done1.length := by
    unfold lineStart
    rw [htake, List.reverse_append]
    rw [List.takeWhile_append_of_pos (by
      intro c hc
      simpa using hnone c (List.mem_reverse.mp hc))]
    have hstop : done1.reverse.takeWhile (fun c => decide (c ≠ newline)) = [] := by
      apply takeWhile_stops
      rcases hd1 with h | h
      · left; rw [h]; rfl
      · right; rw [List.head?_reverse]; exact h
    rw [hstop, List.append_nil, List.length_reverse, List.length_take]
    omega
  refine ⟨?_, hstart, ?_⟩
  · unfold newlinesBefore
    rw [htake, List.filter_append]
    have h0 : (cur1.take (pos - done1.length)).filter (fun c => decide (c = newline)) = [] := by
      apply List.filter_eq_nil_iff.mpr
      intro c hc
      simpa using hnone c hc
    rw [h0, List.append_nil]
  · unfold lineText
    rw [hstart, List.append_assoc, List.drop_left,
      List.takeWhile_append_of_pos (by intro c hc; simpa using hc1 c hc),
      takeWhile_stops rest1 hr1, List.append_nil]

/-- Go `lexer.New` keeps the source and builds its line map. -/
theorem New_input_lineMap (src : String) (l : Lexer) (h : New src = .ok l) :
    l.input = src.data ∧ l.lineMap = buildLineMapLoop src.data 0 0 0 [] := by
  unfold New readChar at h
  simp only [buildLineMap] at h
  split at h <;>
    (obtain ⟨ch, _, h2⟩ := (Outcome_bind_ok _ _ _).mp h
     cases h2
     exact ⟨rfl, rfl⟩)

/-- C29: for every source and every position `pos` with
`0 ≤ pos < length of the source` (in characters), `ErrorLine(pos)` returns the
line number `1 + (number of newline characters before pos)`, the column
`pos - (offset of the first character of that line) + 1`, and the text of that
line without its terminating newline. -/
theorem ErrorLine_line_column_text (src : String) (pos : Nat) (l : Lexer)
    (hl : New src = .ok l) (hpos : pos < src.data.length) :
    ErrorLine l (pos : Int)
      = .ok (1 + (newlinesBefore src.data pos : Int),
             (pos : Int) - (lineStart src.data pos : Int) + 1,
             String.mk (lineText src.data pos)) := by
  obtain ⟨hin, hmap⟩ := New_input_lineMap src l hl
  obtain ⟨done1, cur1, rest1, hsplit, hc1, hd1, hr1, hle1, hp1, hloop⟩ :=
    linePositionLoop_build pos src.data [] [] 0 0 (0, 0, 0) (fun c hc => by cases hc)
      (Or.inl rfl) (Nat.zero_le _) (by simpa using hpos)
      (fun h => by rw [h] at hpos; cases hpos)
  simp only [List.nil_append, List.length_nil, Nat.add_zero, Nat.cast_zero, List.filter_nil,
    zero_add, sub_zero] at hsplit hloop
  obtain ⟨hnl, hstart, htext⟩ := line_of_split done1 cur1 rest1 pos hc1 hd1 hr1 hle1 hp1
  rw [← hsplit] at hnl hstart htext
  have hslice : runeSlice src.data (done1.length : Int) ((done1.length + cur1.length : Nat) : Int)
      = .ok cur1 := by
    have hlen : done1.length + cur1.length ≤ src.data.length := by
      rw [hsplit]; simp only [List.length_append]; omega
    have hno : ¬ ((done1.length : Int) < 0 ∨
        ((done1.length + cur1.length : Nat) : Int) < (done1.length : Int) ∨
        (src.data.length : Int) < ((done1.length + cur1.length : Nat) : Int)) := by
      intro h
      omega
    simp only [runeSlice, hno, if_false, Int.toNat_ofNat]
    rw [hsplit, List.append_assoc, List.drop_left]
    have h1 : done1.length + cur1.length - done1.length = cur1.length := by omega
    rw [h1, List.take_left]
  simp only [ErrorLine, linePosition, hmap, hin, hloop, hslice, hnl, hstart, htext, runesToString]
  simp only [bind, Outcome.bind, pure]
  congr 2
  omega

/-- Witness of `ErrorLine_line_column_text`: the position 5 (the `d`) of the
source of three lines `ab`, (empty) and `cde` is in line 3 at column 2. -/
theorem ErrorLine_line_column_text_witness :
    ErrorLine (startOf threeLines).lex ((5 : Nat) : Int)
      = .ok (1 + (newlinesBefore threeLines.data 5 : Int),
             ((5 : Nat) : Int) - (lineStart threeLines.data 5 : Int) + 1,
             String.mk (lineText threeLines.data 5)) ∧
    ErrorLine (startOf threeLines).lex 5 = .ok (3, 2, "cde") :=
  ⟨ErrorLine_line_column_text threeLines 5 (startOf threeLines).lex (by decide) (by decide),
   by decide⟩

/-! ## Signs in number tokens -/

/-- C30 (the code at the failing input): the source `12-3` lexes as NUMBER
`12`, MINUS, NUMBER `3`, but `1e5-3` lexes as the single NUMBER token `1e5-3`:
once the exponent marker `e` has been read, `readNumber` consumes every later
`+` or `-`, not only the sign that directly follows the `e`. -/
theorem sign_after_exponent_digits_is_consumed :
    (New "12-3").bind (fun l => (tokenStream asciiTables 10 10 l).bind (fun r => .ok r.1))
      = .ok [{ Type_ := token.NUMBER, Position := 0, Literal := "12" },
             { Type_ := token.MINUS, Position := 2, Literal := "-" },
             { Type_ := token.NUMBER, Position := 3, Literal := "3" },
             { Type_ := token.EOF, Position := 4, Literal := "" }] ∧
    (New "1e5-3").bind (fun l => (tokenStream asciiTables 10 10 l).bind (fun r => .ok r.1))
      = .ok [{ Type_ := token.NUMBER, Position := 0, Literal := "1e5-3" },
             { Type_ := token.EOF, Position := 5, Literal := "" }] := by
  decide

/-! ## For-in loops reset the cursor and restore the bindings -/

/-- Deleting a key leaves the other keys of a Go map alone. -/
theorem mapGet_mapDelete_ne {κ ν : Type} [DecidableEq κ] (m : List (κ × ν)) (k k1 : κ)
    (h : k1 ≠ k) : mapGet (mapDelete m k) k1 = mapGet m k1 := by
  induction m with
  | nil => rfl
  | cons e rest ih =>
    obtain ⟨k0, v0⟩ := e
    unfold mapDelete at ih ⊢
    by_cases h0 : k0 = k
    · subst h0
      simp only [List.filter, ne_eq, not_true_eq_false, decide_False]
      rw [ih]
      simp only [mapGet, if_neg (Ne.symm h)]
    · simp only [List.filter, ne_eq, h0, not_false_eq_true, decide_True, mapGet]
      rw [ih]

/-- The restored store binds the name to what it was bound to before. -/
theorem mapGet_restoredStore_self (store : List (String × Object)) (name : String)
    (existing : Option Object) : mapGet (restoredStore store name existing) name = existing := by
  cases existing with
  | some v => exact mapGet_mapSet_self store name v
  | none => exact mapGet_mapDelete_self store name

/-- The restoration of a name leaves the other names of the store alone. -/
theorem mapGet_restoredStore_other (store : List (String × Object)) (name other : String)
    (existing : Option Object) (h : other ≠ name) :
    mapGet (restoredStore store name existing) other = mapGet store other := by
  cases existing with
  | some v =>
    simp only [restoredStore]
    rw [mapGet_mapSet, if_neg (Ne.symm h)]
  | none => exact mapGet_mapDelete_ne store name other h

/-- The deferred restoration of a name, on an existing environment. -/
theorem restoreIdentifier_ok (env : Nat) (name : String) (existing : Option Object) (s : State)
    (e : Environment) (he : s.envs.get? env = some e) :
    restoreIdentifier env name existing s
      = putEnv env { e with store := restoredStore e.store name existing } s := by
  cases existing with
  | some v => exact EnvSet_ok env name v s e he
  | none => exact EnvDelete_ok env name s e he

/-- The two deferred restorations of a for-in loop, on a chain of environments
whose outer frames do not bind a name that was not bound before: afterwards the
key and the value identifier are looked up as before the loop, and nothing but
the environment of the loop has changed. -/
theorem restore_key_and_value (env : Nat) (outers : List Nat) (key value : String)
    (beforeKey beforeValue : Option Object) (s : State)
    (hchain : isChain s.envs (env :: outers) = true)
    (hsame : key = value → beforeKey = beforeValue)
    (hkouter : beforeKey = none → innermostBinding s outers key = none)
    (hvouter : beforeValue = none → innermostBinding s outers value = none) :
    ∃ s3, (restoreIdentifier env key beforeKey >>= fun _ =>
          restoreIdentifier env value beforeValue) s = .ok ((), s3) ∧
      s3.arrays = s.arrays ∧ s3.hashes = s.hashes ∧
      EnvGet env key s3 = .ok (beforeKey, s3) ∧ EnvGet env value s3 = .ok (beforeValue, s3) := by
  have hr : env < s.envs.length :=
    isChain_bound s.envs (env :: outers) hchain env (List.mem_cons_self env outers)
  obtain ⟨e, he⟩ : ∃ e, s.envs.get? env = some e := by
    rw [List.get?_eq_getElem?]
    exact ⟨s.envs[env], List.getElem?_eq_getElem hr⟩
  obtain ⟨store0, args0, outer0, dir0, version0⟩ := e
  have hnd := isChain_nodup s.envs (env :: outers) hchain
  have hnotin : env ∉ outers := (List.nodup_cons.mp hnd).1
  let e1 : Environment := ⟨restoredStore store0 key beforeKey, args0, outer0, dir0, version0⟩
  let e2 : Environment :=
    ⟨restoredStore (restoredStore store0 key beforeKey) value beforeValue, args0, outer0, dir0,
      version0⟩
  have h1 : (setAt s.envs env e1).get? env = some e1 := get?_setAt s.envs env e1 _ he
  have h2 : (setAt (setAt s.envs env e1) env e2).get? env = some e2 :=
    get?_setAt (setAt s.envs env e1) env e2 _ h1
  have hother : ∀ f, f ≠ env → (setAt (setAt s.envs env e1) env e2).get? f = s.envs.get? f := by
    intro f hf
    rw [get?_setAt_ne _ env f e2 hf, get?_setAt_ne _ env f e1 hf]
  refine ⟨{ s with envs := setAt (setAt s.envs env e1) env e2 }, ?_, rfl, rfl, ?_⟩
  · rw [bind_run, restoreIdentifier_ok env key beforeKey s _ he]
    simp only [putEnv]
    exact restoreIdentifier_ok env value beforeValue { s with envs := setAt s.envs env e1 } e1 h1
  · have hchain3 : isChain (setAt (setAt s.envs env e1) env e2) (env :: outers) = true := by
      rw [isChain_congr s.envs _ (env :: outers)]
      · exact hchain
      · intro f hf
        by_cases hfe : f = env
        · subst hfe
          rw [h2, he]
          rfl
        · rw [hother f hfe]
    have houters : ∀ (name : String),
        innermostBinding { s with envs := setAt (setAt s.envs env e1) env e2 } outers name
          = innermostBinding s outers name := by
      intro name
      apply innermostBinding_congr
      intro f hf
      exact hother f (fun h => hnotin (h ▸ hf))
    have hget : ∀ (name : String),
        EnvGet env name { s with envs := setAt (setAt s.envs env e1) env e2 }
          = .ok ((mapGet e2.store name).orElse (fun _ => innermostBinding s outers name),
              { s with envs := setAt (setAt s.envs env e1) env e2 }) := by
      intro name
      rw [EnvGet_chain _ env outers name hchain3]
      have hown : ownBinding { s with envs := setAt (setAt s.envs env e1) env e2 } env name
          = mapGet e2.store name := by
        simp only [ownBinding, h2]
      have hcons : innermostBinding { s with envs := setAt (setAt s.envs env e1) env e2 }
          (env :: outers) name
            = (mapGet e2.store name).orElse (fun _ => innermostBinding s outers name) := by
        rw [← houters name, ← hown]
        unfold innermostBinding
        rw [List.findSome?_cons]
        cases ownBinding { s with envs := setAt (setAt s.envs env e1) env e2 } env name <;> rfl
      rw [hcons]
    constructor
    · rw [hget key]
      have hk : mapGet e2.store key = beforeKey := by
        show mapGet (restoredStore (restoredStore store0 key beforeKey) value beforeValue) key = _
        by_cases hkv : key = value
        · rw [hsame hkv, ← hkv]
          exact mapGet_restoredStore_self _ key beforeValue
        · rw [mapGet_restoredStore_other _ value key beforeValue hkv]
          exact mapGet_restoredStore_self _ key beforeKey
      rw [hk]
      cases beforeKey with
      | some v => rfl
      | none => simp only [Option.orElse, hkouter rfl]
    · rw [hget value]
      have hv : mapGet e2.store value = beforeValue :=
        mapGet_restoredStore_self _ value beforeValue
      rw [hv]
      cases beforeValue with
      | some v => rfl
      | none => simp only [Option.orElse, hvouter rfl]

/-- C34: a for-in loop over an array or a hash resets the cursor and restores
the bindings on every path.  Whatever the loop over the iterable returns (the
null of an exhausted iteration or of a break, a return value, or the error of
the body), the for-in expression returns it, and afterwards the cursor of the
iterable is 0 and looking up the key identifier and the value identifier in the
environment gives what it gave when the loop started: the value, or not found
(no code of the loop binds an identifier in an enclosing environment: the
evaluator writes to the current environment only). -/
theorem for_in_resets_cursor_and_restores_bindings (W : World) (ev : Evaluator) (fuel : Nat)
    (tok : Token) (key value : String) (iterableNode block alternative : Node) (env : Nat)
    (s s1 s2 : State) (iterable res : Object) (beforeKey beforeValue : Option Object)
    (outers : List Nat)
    (hiter : ev iterableNode env s = .ok (iterable, s1))
    (hkind : isArrayOrHash iterable = true)
    (hkey : EnvGet env key s1 = .ok (beforeKey, s1))
    (hvalue : EnvGet env value s1 = .ok (beforeValue, s1))
    (hloop : loopIterable ev (IterableNext W fuel iterable) env key value block alternative fuel 0
      s1 = .ok (res, s2))
    (hheap : (cursor s2 iterable).isSome = true)
    (hchain : isChain s2.envs (env :: outers) = true)
    (hkouter : beforeKey = none → innermostBinding s2 outers key = none)
    (hvouter : beforeValue = none → innermostBinding s2 outers value = none) :
    ∃ s3, evalForInExpression W ev fuel tok key value iterableNode block alternative env s
        = .ok (res, s3) ∧
      cursor s3 iterable = some 0 ∧
      EnvGet env key s3 = .ok (beforeKey, s3) ∧
      EnvGet env value s3 = .ok (beforeValue, s3) := by
  have hsame : key = value → beforeKey = beforeValue := by
    intro hkv
    rw [hkv, hvalue] at hkey
    simp only [Outcome.ok.injEq, Prod.mk.injEq, and_true] at hkey
    exact hkey.symm
  cases iterable with
  | Array r =>
    simp only [IterableNext] at hloop
    obtain ⟨a, ha⟩ : ∃ a, s2.arrays.get? r = some a := by
      simp only [cursor] at hheap
      cases hg : s2.arrays.get? r with
      | some a => exact ⟨a, rfl⟩
      | none => rw [hg] at hheap; cases hheap
    obtain ⟨s3, hrun, harr, _, hk, hv⟩ := restore_key_and_value env outers key value beforeKey
      beforeValue { s2 with arrays := setAt s2.arrays r { a with position := 0 } } hchain hsame
      hkouter hvouter
    refine ⟨s3, ?_, ?_, hk, hv⟩
    · unfold evalForInExpression
      simp only [bind_run, hiter, hkey, hvalue, hloop, ArrayReset, getArray, ha, putArray]
      simp only [bind_run] at hrun
      cases hr1 : restoreIdentifier env key beforeKey
          { s2 with arrays := setAt s2.arrays r { a with position := 0 } } with
      | ok p =>
        obtain ⟨u, t⟩ := p
        rw [hr1] at hrun
        simp only [] at hrun ⊢
        rw [hrun]
        rfl
      | panic m => rw [hr1] at hrun; cases hrun
      | outOfFuel => rw [hr1] at hrun; cases hrun
    · simp only [cursor, harr, get?_setAt s2.arrays r _ a ha, Option.map]
  | Hash r =>
    simp only [IterableNext] at hloop
    obtain ⟨h, hh⟩ : ∃ h, s2.hashes.get? r = some h := by
      simp only [cursor] at hheap
      cases hg : s2.hashes.get? r with
      | some h => exact ⟨h, rfl⟩
      | none => rw [hg] at hheap; cases hheap
    obtain ⟨s3, hrun, _, hhash, hk, hv⟩ := restore_key_and_value env outers key value beforeKey
      beforeValue { s2 with hashes := setAt s2.hashes r { h with Position := 0 } } hchain hsame
      hkouter hvouter
    refine ⟨s3, ?_, ?_, hk, hv⟩
    · unfold evalForInExpression
      simp only [bind_run, hiter, hkey, hvalue, hloop, HashReset, getHash, hh, putHash]
      simp only [bind_run] at hrun
      cases hr1 : restoreIdentifier env key beforeKey
          { s2 with hashes := setAt s2.hashes r { h with Position := 0 } } with
      | ok p =>
        obtain ⟨u, t⟩ := p
        rw [hr1] at hrun
        simp only [] at hrun ⊢
        rw [hrun]
        rfl
      | panic m => rw [hr1] at hrun; cases hrun
      | outOfFuel => rw [hr1] at hrun; cases hrun
    · simp only [cursor, hhash, get?_setAt s2.hashes r _ h hh, Option.map]
  | _ => cases hkind

/-- Witness of `for_in_resets_cursor_and_restores_bindings`: in
`a = [10, 20, 30]; döngü k, v in a { y }` the body fails in the first
iteration; the loop returns the error, the cursor of `a` is 0 again, and `k`
and `v` are not bound, as before the loop. -/
theorem for_in_resets_cursor_and_restores_bindings_witness :
    isArrayOrHash (.Array 0) = true ∧
    ∃ s3, failingForIn = .ok (unboundYError, s3) ∧
      cursor s3 (.Array 0) = some 0 ∧
      EnvGet 0 "k" s3 = .ok (none, s3) ∧
      EnvGet 0 "v" s3 = .ok (none, s3) :=
  ⟨rfl,
   for_in_resets_cursor_and_restores_bindings bareWorld (Eval bareWorld 8) 10
    (tk token.FOR 18 "döngü") "k" "v" loopedA failingBlock .nil 0 beforeFailingForIn
    (stateOf (Eval bareWorld 8 loopedA 0 beforeFailingForIn))
    (stateOf (loopIterable (Eval bareWorld 8) (IterableNext bareWorld 10 (.Array 0)) 0 "k" "v"
      failingBlock .nil 10 0 (stateOf (Eval bareWorld 8 loopedA 0 beforeFailingForIn))))
    (.Array 0) unboundYError none none []
    (ok_of_valueOf (yields_sound (by decide!)))
    rfl
    (EnvGet_of_value (yieldsOption_sound (by decide!)))
    (EnvGet_of_value (yieldsOption_sound (by decide!)))
    (ok_of_valueOf (yields_sound (by decide!)))
    (by decide!)
    (by decide!)
    (fun _ => rfl) (fun _ => rfl)⟩

/-! ## Totality of the lexer -/

/-- C35 (the code at the failing input): on the source `$(`, a command opened
at the end of the input, the first call of `NextToken` does not return a token:
`readCommand` slices the input from the position after `$(` to the position
before the end, outside its bounds, and panics.  On the empty source and on an
unterminated string literal the token stream ends in an EOF token. -/
theorem command_at_end_of_input_panics :
    firstToken "$(" = .panic "slice bounds out of range" ∧
    tokensOf "$(" = .panic "slice bounds out of range" ∧
    tokensOf "" = .ok [(token.EOF, 0, "")] ∧
    tokensOf "\"abc" = .ok [(token.STRING, 0, "abc"), (token.EOF, 5, "")] ∧
    tokensOf "$()" = .ok [(token.COMMAND, 0, ""), (token.EOF, 4, "")] := by
  decide

/-! ## Positions of tokens -/

/-- C36 (the code at the failing inputs): in `a <= b`, `a <=> b`, `a ** b` and
`a **= b` the operator starts at the offset 2, but its token carries the
position 3: these four branches of `NextToken` read a character before they
record the position.  The sibling branches record it first: the tokens of
`>=`, `==`, `<<` and `*=` in the same place carry the position 2. -/
theorem position_of_some_operators_is_off_by_one :
    tokensOf "a <= b"
      = .ok [(token.IDENT, 0, "a"), (token.LT_EQ, 3, "<="), (token.IDENT, 5, "b"),
          (token.EOF, 6, "")] ∧
    tokensOf "a <=> b"
      = .ok [(token.IDENT, 0, "a"), (token.COMBINED_COMP, 3, "<=>"), (token.IDENT, 6, "b"),
          (token.EOF, 7, "")] ∧
    tokensOf "a ** b"
      = .ok [(token.IDENT, 0, "a"), (token.EXPONENT, 3, "**"), (token.IDENT, 5, "b"),
          (token.EOF, 6, "")] ∧
    tokensOf "a **= b"
      = .ok [(token.IDENT, 0, "a"), (token.COMP_EXPONENT, 3, "**="), (token.IDENT, 6, "b"),
          (token.EOF, 7, "")] ∧
    tokensOf "a >= b"
      = .ok [(token.IDENT, 0, "a"), (token.GT_EQ, 2, ">="), (token.IDENT, 5, "b"),
          (token.EOF, 6, "")] ∧
    tokensOf "a == b"
      = .ok [(token.IDENT, 0, "a"), (token.EQ, 2, "=="), (token.IDENT, 5, "b"),
          (token.EOF, 6, "")] ∧
    tokensOf "a << b"
      = .ok [(token.IDENT, 0, "a"), (token.BIT_LSHIFT, 2, "<<"), (token.IDENT, 5, "b"),
          (token.EOF, 6, "")] ∧
    tokensOf "a *= b"
      = .ok [(token.IDENT, 0, "a"), (token.COMP_ASTERISK, 2, "*="), (token.IDENT, 5, "b"),
          (token.EOF, 6, "")] :=
  ⟨by decide, by decide, by decide, by decide, by decide, by decide, by decide, by decide⟩

/-! ## Hash addition in place -/

/-- C38: hash `+` writes into the left operand.  For hashes `h` and `g` of the
heap (the map of `g` well keyed), `h + g` evaluates to a hash, and afterwards
the pair map of `h` itself holds every pair of `g`: looking up in `h` a key `k`
of `g` yields the value `g` holds under `k`.  The hash objects `h` and `g` are
as before, and so is what the pair map of `g` holds under every key (also when
`g` shares its pair map with `h`); when the two maps are distinct the map of
`g` is untouched. -/
theorem hash_plus_writes_into_left_operand (tok : Token) (s : State) (h g : Nat)
    (hh gh : HashObj) (hm gm : PairMap)
    (hhh : s.hashes.get? h = some hh) (hhm : s.maps.get? hh.Pairs = some hm)
    (hgh : s.hashes.get? g = some gh) (hgm : s.maps.get? gh.Pairs = some gm)
    (wf : WellKeyed gm) :
    ∃ r s1, evalHashInfixExpression tok "+" (.Hash h) (.Hash g) s = .ok (.Hash r, s1) ∧
      (∀ (k : String) (v : Object), hashLookup s g k = some v → hashLookup s1 h k = some v) ∧
      (∃ hm1, s1.maps.get? hh.Pairs = some hm1 ∧
        ∀ (key : HashKey) (p : HashPair), mapGet gm key = some p → mapGet hm1 key = some p) ∧
      s1.hashes.get? h = some hh ∧
      s1.hashes.get? g = some gh ∧
      (∀ k : String, hashLookup s1 g k = hashLookup s g k) ∧
      (∃ gm1, s1.maps.get? gh.Pairs = some gm1 ∧
        ∀ key : HashKey, mapGet gm1 key = mapGet gm key) ∧
      (gh.Pairs ≠ hh.Pairs → s1.maps.get? gh.Pairs = some gm) := by
  obtain ⟨merged, hmerge, hspec⟩ := mergePairs_spec gm wf hm
  have hinh : ∀ (key : HashKey) (p : HashPair), mapGet gm key = some p →
      mapGet merged key = some p := by
    intro key p hp
    rw [hspec key, hp]
  have hlt : ∀ (x : Nat) (o : HashObj), s.hashes.get? x = some o →
      (s.hashes ++ [({ Pairs := hh.Pairs, Position := 0 } : HashObj)]).get? x = some o := by
    intro x o hx
    have hxl : x < s.hashes.length := by
      by_contra hc
      rw [List.get?_eq_none.mpr (by omega)] at hx
      cases hx
    rw [List.get?_eq_getElem?, List.getElem?_append_left hxl, ← List.get?_eq_getElem?, hx]
  have h2 : (setAt s.maps hh.Pairs merged).get? hh.Pairs = some merged :=
    get?_setAt s.maps hh.Pairs merged hm hhm
  have hg2 : ∃ gm1, (setAt s.maps hh.Pairs merged).get? gh.Pairs = some gm1 ∧
      ∀ key : HashKey, mapGet gm1 key = mapGet gm key := by
    by_cases hal : gh.Pairs = hh.Pairs
    · rw [hal]
      refine ⟨merged, h2, ?_⟩
      have hgm2 : gm = hm := by
        rw [hal, hhm] at hgm
        exact (Option.some.inj hgm).symm
      intro key
      rw [hspec key, ← hgm2]
      cases mapGet gm key <;> rfl
    · exact ⟨gm, by rw [get?_setAt_ne s.maps hh.Pairs gh.Pairs merged hal]; exact hgm,
        fun _ => rfl⟩
  obtain ⟨gm1, hgm1, hsame⟩ := hg2
  refine ⟨s.hashes.length,
    { s with maps := setAt s.maps hh.Pairs merged,
             hashes := s.hashes ++ [{ Pairs := hh.Pairs, Position := 0 }] }, ?_, ?_, ?_, ?_, ?_,
    ?_, ?_, ?_⟩
  · unfold evalHashInfixExpression
    simp only [bind_run, getHash, hhh, hgh, getMap, hhm, hgm, lift_run, hmerge, putMap, newHash,
      if_true]
  · intro k v hv
    simp only [hashLookup, hgh, hgm] at hv
    simp only [hashLookup, hlt h hh hhh, h2]
    cases hp : mapGet gm (stringHashKey k) with
    | none => rw [hp] at hv; cases hv
    | some p =>
      rw [hp] at hv
      rw [hinh _ p hp]
      exact hv
  · exact ⟨merged, h2, hinh⟩
  · exact hlt h hh hhh
  · exact hlt g gh hgh
  · intro k
    simp only [hashLookup, hlt g gh hgh, hgm1, hgh, hgm, hsame]
  · exact ⟨gm1, hgm1, hsame⟩
  · intro hne
    show (setAt s.maps hh.Pairs merged).get? gh.Pairs = some gm
    rw [get?_setAt_ne s.maps hh.Pairs gh.Pairs merged hne]
    exact hgm

/-- Witness of `hash_plus_writes_into_left_operand`:
`{"a": 1, "c": 5} + {"b": 3, "a": 2}` leaves the left hash holding `a: 2`,
`b: 3` and `c: 5`. -/
theorem hash_plus_writes_into_left_operand_witness :
    WellKeyed [pairOf "b" (.Number 3), pairOf "a" (.Number 2)] ∧
    ∃ r s1, evalHashInfixExpression (tk token.PLUS 0 "+") "+" (.Hash 0) (.Hash 1) twoHashes
        = .ok (.Hash r, s1) ∧
      (∀ (k : String) (v : Object),
        hashLookup twoHashes 1 k = some v → hashLookup s1 0 k = some v) ∧
      (∃ hm1, s1.maps.get? 0 = some hm1 ∧
        ∀ (key : HashKey) (p : HashPair),
          mapGet [pairOf "b" (.Number 3), pairOf "a" (.Number 2)] key = some p →
            mapGet hm1 key = some p) ∧
      s1.hashes.get? 0 = some { Pairs := 0, Position := 0 } ∧
      s1.hashes.get? 1 = some { Pairs := 1, Position := 0 } ∧
      (∀ k : String, hashLookup s1 1 k = hashLookup twoHashes 1 k) ∧
      (∃ gm1, s1.maps.get? 1 = some gm1 ∧
        ∀ key : HashKey, mapGet gm1 key
          = mapGet [pairOf "b" (.Number 3), pairOf "a" (.Number 2)] key) ∧
      ((1 : Nat) ≠ 0 → s1.maps.get? 1 = some [pairOf "b" (.Number 3), pairOf "a" (.Number 2)]) :=
  ⟨twoHashes_wellKeyed.1,
   hash_plus_writes_into_left_operand (tk token.PLUS 0 "+") twoHashes 0 1
    { Pairs := 0, Position := 0 } { Pairs := 1, Position := 0 }
    [pairOf "a" (.Number 1), pairOf "c" (.Number 5)]
    [pairOf "b" (.Number 3), pairOf "a" (.Number 2)] rfl rfl rfl rfl twoHashes_wellKeyed.1⟩

/-! ## Enclosed environments -/

/-- A lookup that ends keeps its result when the heap grows by new
environments and the lookup is given more steps. -/
theorem envGetAux_append (envs extra : List Environment) (name : String)
    (v : Option Object) :
    ∀ (n r : Nat), envGetAux envs n r name = .ok v →
      ∀ m, n ≤ m → envGetAux (envs ++ extra) m r name = .ok v := by
  intro n
  induction n with
  | zero => intro r h; simp [envGetAux] at h
  | succ n ih =>
    intro r h m hm
    obtain ⟨m1, rfl⟩ : ∃ m1, m = m1 + 1 := ⟨m - 1, by omega⟩
    unfold envGetAux at h ⊢
    cases he : envs.get? r with
    | none => rw [he] at h; cases h
    | some e =>
      have hr : r < envs.length := by
        by_contra hc
        rw [List.get?_eq_none.mpr (by omega)] at he
        cases he
      have he2 : (envs ++ extra).get? r = some e := by
        rw [List.get?_eq_getElem?, List.getElem?_append_left hr, ← List.get?_eq_getElem?, he]
      rw [he] at h
      rw [he2]
      simp only [] at h ⊢
      cases hg : mapGet e.store name with
      | some obj => rw [hg] at h; exact h
      | none =>
        rw [hg] at h
        simp only [] at h ⊢
        cases ho : e.outer with
        | none => rw [ho] at h; exact h
        | some o =>
          rw [ho] at h
          simp only [] at h ⊢
          exact ih o h m1 (by omega)

/-- C39 (counterexample): after `Set("ANK_VERSION", 5)` on the top-level
environment, a freshly enclosed environment does not return 5 for
`Get("ANK_VERSION")` but the version string its own frame binds, while the
lookup in the outer environment returns 5. -/
theorem enclosed_environment_binds_ANK_VERSION :
    valueOf (lookupsAfterEnclosing "ANK_VERSION" (.Number 5) (startOf ""))
      = .ok (some (.String "1.0" none none), some (.Number 5)) := by
  rfl

/-- C39 (amended): `NewEnclosedEnvironment(outer, args)` succeeds on every
environment `outer` of the heap, and right after it the new frame binds
`ANK_VERSION` (to the version string of `outer`) and no other name: looking up
any name `n` other than `ANK_VERSION` in the new environment gives what the
lookup in `outer` gives, so when `outer.Set(n, v)` came last the lookup
returns `v`. -/
theorem enclosed_environment_lookup (outer : Nat) (args : List Object) (s : State)
    (n : String) (found : Option Object) (hn : n ≠ "ANK_VERSION")
    (hget : EnvGet outer n s = .ok (found, s)) :
    ∃ r s1 o, NewEnclosedEnvironment outer args s = .ok (r, s1) ∧
      s.envs.get? outer = some o ∧
      EnvGet r n s1 = .ok (found, s1) ∧
      ownBinding s1 r n = none ∧
      ownBinding s1 r "ANK_VERSION" = some (.String o.Version none none) ∧
      EnvGet r "ANK_VERSION" s1 = .ok (some (.String o.Version none none), s1) ∧
      (∀ (s0 : State) (v : Object), EnvSet outer n v s0 = .ok ((), s) → found = some v) := by
  have haux : envGetAux s.envs (s.envs.length + 1) outer n = .ok found := by
    unfold EnvGet at hget
    cases hg : envGetAux s.envs (s.envs.length + 1) outer n with
    | ok w =>
      rw [hg] at hget
      simp only [Outcome.ok.injEq, Prod.mk.injEq, and_true] at hget
      rw [hget]
    | panic m => rw [hg] at hget; cases hget
    | outOfFuel => rw [hg] at hget; cases hget
  obtain ⟨o, ho⟩ : ∃ o, s.envs.get? outer = some o := by
    cases he : s.envs.get? outer with
    | some e => exact ⟨e, rfl⟩
    | none => unfold envGetAux at haux; rw [he] at haux; cases haux
  obtain ⟨store0, args0, outer0, dir0, version0⟩ := o
  have hlast : ∀ (a b : Environment), setAt (s.envs ++ [a]) s.envs.length b = s.envs ++ [b] := by
    intro a b
    unfold setAt
    simp
  have hlen : ∀ (b : Environment), (s.envs ++ [b]).get? s.envs.length = some b := by
    intro b
    simp
  refine ⟨s.envs.length, { s with envs := s.envs ++
      [(⟨[("ANK_VERSION", .String version0 none none)], args, some outer, dir0, version0⟩ :
        Environment)] }, _, ?_, ho, ?_, ?_, ?_, ?_, ?_⟩
  · simp only [NewEnclosedEnvironment, bind_run, getEnv, ho, NewEnvironment, hlen, putEnv, hlast,
      pure_run]
  · have hn2 : ¬ ("ANK_VERSION" = n) := fun h => hn h.symm
    simp only [EnvGet, List.length_append, List.length_singleton]
    rw [envGetAux, hlen]
    simp only [mapGet, hn2, if_false]
    rw [envGetAux_append s.envs _ n found (s.envs.length + 1) outer haux (s.envs.length + 1)
      (le_refl _)]
  · have hn2 : ¬ ("ANK_VERSION" = n) := fun h => hn h.symm
    simp only [ownBinding, hlen, mapGet, hn2, if_false]
  · simp only [ownBinding, hlen, mapGet, if_true]
  · exact EnvGet_of_ownBinding _ _ _ _ (by simp only [ownBinding, hlen, mapGet, if_true])
  · intro s0 v hset
    have h1 := EnvGet_of_ownBinding outer n v s (ownBinding_EnvSet outer n v s0 s () hset)
    rw [h1] at hget
    simp only [Outcome.ok.injEq, Prod.mk.injEq, and_true] at hget
    exact hget.symm

/-- Witness of `enclosed_environment_lookup`: the name `x` after
`Set("x", 5)` on the top-level environment. -/
theorem enclosed_environment_lookup_witness :
    "x" ≠ "ANK_VERSION" ∧
    EnvGet 0 "x" (stateOf (EnvSet 0 "x" (.Number 5) (startOf "")))
      = .ok (some (.Number 5), stateOf (EnvSet 0 "x" (.Number 5) (startOf ""))) ∧
    ∃ r s1 o, NewEnclosedEnvironment 0 [] (stateOf (EnvSet 0 "x" (.Number 5) (startOf "")))
        = .ok (r, s1) ∧
      (stateOf (EnvSet 0 "x" (.Number 5) (startOf ""))).envs.get? 0 = some o ∧
      EnvGet r "x" s1 = .ok (some (.Number 5), s1) ∧
      ownBinding s1 r "x" = none ∧
      ownBinding s1 r "ANK_VERSION" = some (.String o.Version none none) ∧
      EnvGet r "ANK_VERSION" s1 = .ok (some (.String o.Version none none), s1) ∧
      (∀ (s0 : State) (v : Object),
        EnvSet 0 "x" v s0 = .ok ((), stateOf (EnvSet 0 "x" (.Number 5) (startOf ""))) →
          some (.Number 5) = some v) :=
  ⟨by decide, rfl,
   enclosed_environment_lookup 0 [] (stateOf (EnvSet 0 "x" (.Number 5) (startOf ""))) "x"
    (some (.Number 5)) (by decide) rfl⟩

/-! ## The operator !in -/

/-- The line of an error position is found or the slice panics: `ErrorLine`
does not run out of fuel. -/
theorem ErrorLine_not_outOfFuel (l : Lexer) (pos : Int) : ErrorLine l pos ≠ .outOfFuel := by
  unfold ErrorLine
  simp only [runeSlice]
  split
  · intro h; cases h
  · intro h; cases h

/-- For every value `x` and every value `y` that is not an array, a string or a
hash, `evalNotInExpression` does not return the error of `x in y`: it panics
(on the type assertion applied to that error). -/
theorem not_in_panics_where_in_is_an_error (W : World) (fuel : Nat) (tok : Token)
    (left right : Object) (s : State) (hright : inIsDefined right = false) :
    ∃ m, evalNotInExpression W fuel tok left right s = .panic m := by
  cases right with
  | Array _ => cases hright
  | String _ _ _ => cases hright
  | Hash _ => cases hright
  | nil => exact ⟨_, rfl⟩
  | _ =>
    simp only [evalNotInExpression, evalInExpression, bind_run, lift_run, Type_, newError,
      get_run]
    cases hl : ErrorLine s.lex tok.Position with
    | ok p => obtain ⟨a, b, c⟩ := p; exact ⟨_, rfl⟩
    | panic m => exact ⟨_, rfl⟩
    | outOfFuel => exact absurd hl (ErrorLine_not_outOfFuel _ _)

/-- C40 (the code at the failing input): the program `1 !in null` does not
evaluate to the error of `1 in null`; it panics on the type assertion of
`evalNotInExpression`, as `x !in y` does for every `x` when `y` is a null. -/
theorem one_not_in_null_panics :
    panicOf (Eval bareWorld 5 oneNotInNull 0 (startOf oneNotInNullSrc))
      = some "interface conversion: not *object.Boolean" ∧
    yieldsError (valueOf (evalInExpression bareWorld 5 (tk token.NOT_IN 2 "!in") (.Number 1)
      .Null (startOf oneNotInNullSrc))) = true ∧
    ∀ (x : Object) (s : State), ∃ m,
      evalNotInExpression bareWorld 5 (tk token.NOT_IN 2 "!in") x .Null s = .panic m :=
  ⟨by decide, by decide,
   fun x s => not_in_panics_where_in_is_an_error bareWorld 5 _ x .Null s rfl⟩

/-! ## Runs of the parser -/

theorem parse_bind {α β : Type} (x : parser.ParseM α) (f : α → parser.ParseM β)
    (p : parser.Parser) :
    (x >>= f) p = match x p with
      | .ok (a, p1) => f a p1
      | .panic m => .panic m
      | .outOfFuel => .outOfFuel := by
  show (x p).bind _ = _
  cases x p <;> rfl

theorem parse_pure {α : Type} (a : α) (p : parser.Parser) :
    (pure a : parser.ParseM α) p = .ok (a, p) := rfl

theorem parse_get (p : parser.Parser) : (get : parser.ParseM parser.Parser) p = .ok (p, p) := rfl

theorem parse_set (q p : parser.Parser) : (set q : parser.ParseM PUnit) p = .ok (⟨⟩, q) := rfl

theorem parse_modify (f : parser.Parser → parser.Parser) (p : parser.Parser) :
    (modify f : parser.ParseM PUnit) p = .ok (⟨⟩, f p) := rfl

theorem parse_lift {α : Type} (o : Outcome α) (p : parser.Parser) :
    (monadLift o : parser.ParseM α) p = match o with
      | .ok a => .ok (a, p)
      | .panic m => .panic m
      | .outOfFuel => .outOfFuel := by
  cases o <;> rfl

/-- `nextToken` when the token that becomes current is not an illegal one. -/
theorem nextToken_ok (h : parser.Host) (p : parser.Parser) (t : Token) (l1 : Lexer)
    (hp : p.peekToken.Type_ ≠ token.ILLEGAL)
    (hl : NextToken h.tables (parser.lexFuel p.l) p.l = .ok (t, l1)) :
    parser.nextToken h p = .ok ((), parser.advance p t l1) := by
  simp only [parser.nextToken, parse_bind, parse_get, parse_lift, hl, parse_set, hp, if_false,
    parse_pure]
  rfl

/-- The next tokens of a lexer, one at a time. -/
theorem readTokens_succ (h : parser.Host) (n : Nat) (l l2 : Lexer) (t : Token) (ts : List Token)
    (hr : readTokens h (n + 1) l = .ok (t :: ts, l2)) :
    ∃ l1, NextToken h.tables (parser.lexFuel l) l = .ok (t, l1) ∧
      readTokens h n l1 = .ok (ts, l2) := by
  unfold readTokens at hr
  cases hn : NextToken h.tables (parser.lexFuel l) l with
  | ok r =>
    obtain ⟨t1, l1⟩ := r
    rw [hn] at hr
    simp only [bind, Outcome.bind] at hr
    cases hrest : readTokens h n l1 with
    | ok r2 =>
      obtain ⟨ts1, l3⟩ := r2
      rw [hrest] at hr
      simp only [pure, Outcome.ok.injEq, Prod.mk.injEq, List.cons.injEq] at hr
      obtain ⟨⟨rfl, rfl⟩, rfl⟩ := hr
      exact ⟨l1, rfl, hrest⟩
    | panic m => rw [hrest] at hr; cases hr
    | outOfFuel => rw [hrest] at hr; cases hr
  | panic m => rw [hn] at hr; simp only [bind, Outcome.bind] at hr; cases hr
  | outOfFuel => rw [hn] at hr; simp only [bind, Outcome.bind] at hr; cases hr

/-- Reading no token leaves the lexer alone. -/
theorem readTokens_zero (h : parser.Host) (l l2 : Lexer) (ts : List Token)
    (hr : readTokens h 0 l = .ok (ts, l2)) : ts = [] ∧ l2 = l := by
  simp only [readTokens, Outcome.ok.injEq, Prod.mk.injEq] at hr
  exact ⟨hr.1.symm, hr.2.symm⟩

/-- What the table of the parser holds for the binary operators of the ladder:
the level, the infix function `parseInfixExpression`, and that none of them is
a semicolon or an illegal token. -/
theorem binaryOperators_table :
    ∀ x ∈ binaryOperators,
      mapGet parser.precedences x.1 = some x.2 ∧
      mapGet parser.infixParseFns x.1 = some parser.InfixParseFn.parseInfixExpression ∧
      x.1 ≠ token.SEMICOLON ∧ x.1 ≠ token.ILLEGAL ∧ parser.LOWEST < x.2 := by
  decide

/-- The loop of `parseExpression` ends at a semicolon, at a token that does not
bind tighter than the precedence, and at a token without an infix function. -/
theorem parseInfixLoop_end (h : parser.Host) (pe : parser.ExpressionParser) (k precedence j : Nat)
    (left : Node) (p : parser.Parser)
    (hend : p.peekToken.Type_ = token.SEMICOLON ∨
      ¬ (precedence < parser.precedenceOf p.peekToken.Type_) ∨
      mapGet parser.infixParseFns p.peekToken.Type_ = none) :
    parser.parseInfixLoop h pe k precedence (j + 1) left p = .ok (left, p) := by
  unfold parser.parseInfixLoop
  simp only [parse_bind, parse_get]
  by_cases hc : p.peekToken.Type_ ≠ token.SEMICOLON ∧ precedence < parser.peekPrecedence p
  · rw [if_pos hc]
    rcases hend with h1 | h2 | h3
    · exact absurd h1 hc.1
    · exact absurd hc.2 h2
    · rw [h3]
      rfl
  · rw [if_neg hc]
    rfl

/-- One round of the loop of `parseExpression` at a binary operator: the
operator is read, then the right operand at the level of the operator. -/
theorem parseInfixLoop_binary (h : parser.Host) (pe : parser.ExpressionParser)
    (k precedence j lvl : Nat) (left right : Node) (p p2 : parser.Parser) (t1 t2 : Token)
    (l1 l2 : Lexer)
    (hop : (p.peekToken.Type_, lvl) ∈ binaryOperators) (hlt : precedence < lvl)
    (h1 : NextToken h.tables (parser.lexFuel p.l) p.l = .ok (t1, l1))
    (ht1 : t1.Type_ ≠ token.ILLEGAL)
    (h2 : NextToken h.tables (parser.lexFuel l1) l1 = .ok (t2, l2))
    (hright : pe lvl (parser.advance (parser.advance p t1 l1) t2 l2) = .ok (right, p2)) :
    parser.parseInfixLoop h pe k precedence (j + 1) left p
      = parser.parseInfixLoop h pe k precedence j (infixOf p.peekToken left right) p2 := by
  obtain ⟨hprec, hfn, hsemi, hill, _⟩ := binaryOperators_table _ hop
  simp only [] at hprec hfn hsemi hill
  have hpp : parser.peekPrecedence p = lvl := by
    simp only [parser.peekPrecedence, hprec]
  have hn1 := nextToken_ok h p t1 l1 hill h1
  have hn2 := nextToken_ok h (parser.advance p t1 l1) t2 l2 ht1 h2
  have hcp : parser.curPrecedence (parser.advance p t1 l1) = lvl := by
    simp only [parser.curPrecedence, parser.advance, hprec]
  rw [parser.parseInfixLoop]
  simp only [parse_bind, parse_get, hpp, hsemi, ne_eq, not_false_eq_true, hlt, and_self, if_true,
    hfn, hn1, parser.callInfixFn, parser.parseInfixExpression, hcp, hn2, hright, parse_pure]
  rfl

/-- The body of `parseExpression` at an identifier: the identifier, then the
loop. -/
theorem parseExpressionStep_identifier (h : parser.Host) (pe : parser.ExpressionParser)
    (k precedence : Nat) (p : parser.Parser) (hc : p.curToken.Type_ = token.IDENT) :
    parser.parseExpressionStep h pe k precedence p
      = parser.parseInfixLoop h pe k precedence k (identifierOf p.curToken) p := by
  have hfn : mapGet parser.prefixParseFns p.curToken.Type_
      = some parser.PrefixParseFn.parseIdentifier := by
    rw [hc]
    decide
  simp only [parser.parseExpressionStep, parse_bind, parse_get, hfn, parser.callPrefixFn,
    parser.parseIdentifier, parse_pure]
  rfl

/-- An identifier followed by a token that ends the expression parses as the
identifier and takes no token. -/
theorem parseExpression_identifier (h : parser.Host) (n precedence : Nat) (p : parser.Parser)
    (hc : p.curToken.Type_ = token.IDENT)
    (hend : p.peekToken.Type_ = token.SEMICOLON ∨
      ¬ (precedence < parser.precedenceOf p.peekToken.Type_) ∨
      mapGet parser.infixParseFns p.peekToken.Type_ = none) :
    parser.parseExpression h (n + 2) precedence p = .ok (identifierOf p.curToken, p) := by
  show parser.parseExpressionStep h (parser.parseExpression h (n + 1)) (n + 1) precedence p = _
  rw [parseExpressionStep_identifier h _ _ _ p hc]
  exact parseInfixLoop_end h _ _ _ n _ p hend

theorem sameList_sound {α : Type} (eq : α → α → Bool)
    (hs : ∀ a b, eq a b = true → a = b) :
    ∀ (as bs : List α), sameList eq as bs = true → as = bs := by
  intro as
  induction as with
  | nil =>
    intro bs h
    cases bs with
    | nil => rfl
    | cons b bs => simp [sameList] at h
  | cons a as ih =>
    intro bs h
    cases bs with
    | nil => simp [sameList] at h
    | cons b bs =>
      simp only [sameList, Bool.and_eq_true] at h
      rw [hs a b h.1, ih bs h.2]

set_option maxHeartbeats 8000000 in
theorem sameNodeAux_sound : ∀ (n : Nat) (a b : Node), sameNodeAux n a b = true → a = b := by
  intro n
  induction n with
  | zero => intro a b h; simp [sameNodeAux] at h
  | succ n ih =>
    have hl := sameList_sound (sameNodeAux n) ih
    have hp := sameList_sound (fun (x y : Node × Node) =>
      sameNodeAux n x.1 y.1 && sameNodeAux n x.2 y.2) (by
        intro x y hxy
        simp only [Bool.and_eq_true] at hxy
        exact Prod.ext (ih _ _ hxy.1) (ih _ _ hxy.2))
    have hq := sameList_sound (fun (x y : String × Node) =>
      decide (x.1 = y.1) && sameNodeAux n x.2 y.2) (by
        intro x y hxy
        simp only [Bool.and_eq_true, decide_eq_true_eq] at hxy
        exact Prod.ext hxy.1 (ih _ _ hxy.2))
    intro a b h
    rw [sameNodeAux.eq_def] at h
    simp only [] at h
    cases a <;> cases b <;>
      simp only [Bool.and_eq_true, decide_eq_true_eq, Bool.false_eq_true] at h <;>
      first
      | rfl
      | (rw [h])
      | (rw [ih _ _ h])
      | (rw [hl _ _ h])
      | (rw [h.1, h.2])
      | (rw [h.1, ih _ _ h.2])
      | (rw [h.1, hl _ _ h.2])
      | (rw [h.1, hp _ _ h.2])
      | (rw [h.1.1, h.1.2, ih _ _ h.2])
      | (rw [h.1.1, h.1.2, h.2])
      | (rw [h.1.1, ih _ _ h.1.2, ih _ _ h.2])
      | (rw [h.1.1.1, h.1.1.2, ih _ _ h.1.2, ih _ _ h.2])
      | (rw [h.1.1.1, h.1.1.2, hq _ _ h.1.2, ih _ _ h.2])
      | (rw [h.1.1.1, ih _ _ h.1.1.2, hl _ _ h.1.2, h.2])
      | (rw [h.1.1.1, ih _ _ h.1.1.2, ih _ _ h.1.2, h.2])
      | (rw [h.1.1.1.1, ih _ _ h.1.1.1.2, ih _ _ h.1.1.2, ih _ _ h.1.2, h.2])
      | (rw [h.1.1.1.1.1, h.1.1.1.1.2, hl _ _ h.1.1.1.2, ih _ _ h.1.1.2, ih _ _ h.1.2,
          ih _ _ h.2])
      | (rw [h.1.1.1.1.1, h.1.1.1.1.2, ih _ _ h.1.1.1.2, ih _ _ h.1.1.2, ih _ _ h.1.2,
          ih _ _ h.2])
      | (rw [h.1.1.1.1.1, h.1.1.1.1.2, h.1.1.1.2, ih _ _ h.1.1.2, ih _ _ h.1.2, ih _ _ h.2])
      | (rw [h.1.1.1.1.1, ih _ _ h.1.1.1.1.2, ih _ _ h.1.1.1.2, hl _ _ h.1.1.2, h.1.2, h.2])

theorem sameNode_sound (a b : Node) (h : sameNode a b = true) : a = b :=
  sameNodeAux_sound 40 a b h

theorem parsesTo_sound {o : Outcome (List Node)} {expected : List Node}
    (h : parsesTo o expected = true) : o = .ok expected := by
  cases o with
  | ok a =>
    simp only [parsesTo] at h
    rw [sameList_sound sameNode sameNode_sound _ _ h]
  | panic m => simp [parsesTo] at h
  | outOfFuel => simp [parsesTo] at h

/-! ## The precedence ladder -/

/-- C31: binary operators follow the precedence ladder and associate to the
left.  Let the parser stand at an identifier `a` followed by the tokens
`o1 b o2 c` and a token `e` that ends the expression (a semicolon or a token
without an infix function, such as the end of the input), where `b` and `c`
are identifiers and `o1` and `o2` are binary operators that the ladder lists at
the levels `lvl1` and `lvl2`.  Then `parseExpression` returns `(a o1 b) o2 c`
when `lvl1 >= lvl2` and `a o1 (b o2 c)` otherwise, and stops at `c` before `e`
without an error.  The levels are the ones the table of the parser gives the
operators, and they are ordered AND < EQUALS < LESSGREATER < SUM < PRODUCT <
RANGE. -/
theorem binary_operators_follow_the_ladder (h : parser.Host) (n : Nat) (p : parser.Parser)
    (b o2 c e : Token) (l4 : Lexer) (lvl1 lvl2 : Nat)
    (ha : p.curToken.Type_ = token.IDENT)
    (ho1 : (p.peekToken.Type_, lvl1) ∈ binaryOperators)
    (htoks : readTokens h 4 p.l = .ok ([b, o2, c, e], l4))
    (hb : b.Type_ = token.IDENT)
    (ho2 : (o2.Type_, lvl2) ∈ binaryOperators)
    (hc : c.Type_ = token.IDENT)
    (he : e.Type_ = token.SEMICOLON ∨ mapGet parser.infixParseFns e.Type_ = none) :
    (∃ p4, parser.parseExpression h (n + 4) parser.LOWEST p
        = .ok (ladderTree lvl1 lvl2 p.curToken p.peekToken b o2 c, p4) ∧
      p4.curToken = c ∧ p4.peekToken = e ∧ p4.l = l4 ∧ p4.errors = p.errors) ∧
    parser.precedenceOf p.peekToken.Type_ = lvl1 ∧ parser.precedenceOf o2.Type_ = lvl2 ∧
    parser.LOWEST < parser.AND ∧ parser.AND < parser.EQUALS ∧
    parser.EQUALS < parser.LESSGREATER ∧ parser.LESSGREATER < parser.SUM ∧
    parser.SUM < parser.PRODUCT ∧ parser.PRODUCT < parser.RANGE := by
  obtain ⟨l1, hn1, htoks1⟩ := readTokens_succ h 3 p.l l4 b _ htoks
  obtain ⟨l2, hn2, htoks2⟩ := readTokens_succ h 2 l1 l4 o2 _ htoks1
  obtain ⟨l3, hn3, htoks3⟩ := readTokens_succ h 1 l2 l4 c _ htoks2
  obtain ⟨l5, hn4, htoks4⟩ := readTokens_succ h 0 l3 l4 e _ htoks3
  obtain ⟨_, rfl⟩ := readTokens_zero h l5 l4 _ htoks4
  obtain ⟨hprec1, _, _, _, hlow1⟩ := binaryOperators_table _ ho1
  obtain ⟨hprec2, _, _, hill2, hlow2⟩ := binaryOperators_table _ ho2
  simp only [] at hprec1 hprec2 hill2 hlow1 hlow2
  have hp1 : parser.precedenceOf p.peekToken.Type_ = lvl1 := by
    simp only [parser.precedenceOf, hprec1]
  have hp2 : parser.precedenceOf o2.Type_ = lvl2 := by
    simp only [parser.precedenceOf, hprec2]
  have hbi : b.Type_ ≠ token.ILLEGAL := by rw [hb]; decide
  have hci : c.Type_ ≠ token.ILLEGAL := by rw [hc]; decide
  refine ⟨?_, hp1, hp2, by decide, by decide, by decide, by decide, by decide, by decide⟩
  -- the parser after each of the four tokens
  let p1 := parser.advance p b l1
  let p2 := parser.advance p1 o2 l2
  let p3 := parser.advance p2 c l3
  let p4 := parser.advance p3 e l4
  have hendc : ∀ (m lvl : Nat), parser.parseExpression h (m + 2) lvl p4
      = .ok (identifierOf c, p4) := by
    intro m lvl
    have := parseExpression_identifier h m lvl p4 hc
      (he.elim (fun h1 => Or.inl h1) (fun h2 => Or.inr (Or.inr h2)))
    exact this
  have hende : p4.peekToken.Type_ = token.SEMICOLON ∨
      ¬ (parser.LOWEST < parser.precedenceOf p4.peekToken.Type_) ∨
      mapGet parser.infixParseFns p4.peekToken.Type_ = none :=
    he.elim (fun h1 => Or.inl h1) (fun h2 => Or.inr (Or.inr h2))
  refine ⟨p4, ?_, rfl, rfl, rfl, rfl⟩
  show parser.parseExpressionStep h (parser.parseExpression h (n + 3)) (n + 3) parser.LOWEST p = _
  rw [parseExpressionStep_identifier h _ _ _ p ha]
  by_cases hlv : lvl1 ≥ lvl2
  · -- the right operand of `o1` is `b`
    have hright : parser.parseExpression h (n + 3) lvl1 p2 = .ok (identifierOf b, p2) :=
      parseExpression_identifier h (n + 1) lvl1 p2 hb
        (Or.inr (Or.inl (by
          show ¬ (lvl1 < parser.precedenceOf o2.Type_)
          rw [hp2]; omega)))
    rw [parseInfixLoop_binary h _ (n + 3) parser.LOWEST (n + 2) lvl1 _ _ p p2 b o2 l1 l2 ho1 hlow1
      hn1 hbi hn2 hright]
    rw [parseInfixLoop_binary h _ (n + 3) parser.LOWEST (n + 1) lvl2 _ _ p2 p4 c e l3 l4 ho2 hlow2
      hn3 hci hn4 (hendc (n + 1) lvl2)]
    rw [parseInfixLoop_end h _ _ _ n _ p4 hende]
    simp only [ladderTree, hlv, if_true]
    rfl
  · -- the right operand of `o1` is `b o2 c`
    have hlt : lvl1 < lvl2 := by omega
    have hright : parser.parseExpression h (n + 3) lvl1 p2
        = .ok (infixOf o2 (identifierOf b) (identifierOf c), p4) := by
      show parser.parseExpressionStep h (parser.parseExpression h (n + 2)) (n + 2) lvl1 p2 = _
      rw [parseExpressionStep_identifier h _ _ _ p2 hb]
      rw [parseInfixLoop_binary h _ (n + 2) lvl1 (n + 1) lvl2 _ _ p2 p4 c e l3 l4 ho2 hlt
        hn3 hci hn4 (hendc n lvl2)]
      exact parseInfixLoop_end h _ _ _ n _ p4
        (he.elim (fun h1 => Or.inl h1) (fun h2 => Or.inr (Or.inr h2)))
    rw [parseInfixLoop_binary h _ (n + 3) parser.LOWEST (n + 2) lvl1 _ _ p p4 b o2 l1 l2 ho1 hlow1
      hn1 hbi hn2 hright]
    rw [parseInfixLoop_end h _ _ _ (n + 1) _ p4 hende]
    simp only [ladderTree, hlv, if_false]

/-- Witness of `binary_operators_follow_the_ladder`: in `a + b * c` the
operator `+` is of the level SUM and `*` of the level PRODUCT, so the tree is
`a + (b * c)`; the program of the source is the expression statement of that
tree, and the programs of `a * b + c` and `a - b - c` associate to the left. -/
theorem binary_operators_follow_the_ladder_witness :
    (parserOf sumOfProductSrc).curToken = tk token.IDENT 0 "a" ∧
    (parserOf sumOfProductSrc).peekToken = tk token.PLUS 2 "+" ∧
    (token.PLUS, parser.SUM) ∈ binaryOperators ∧
    (token.ASTERISK, parser.PRODUCT) ∈ binaryOperators ∧
    readTokens asciiHost 4 (parserOf sumOfProductSrc).l
      = .ok ([tk token.IDENT 4 "b", tk token.ASTERISK 6 "*", tk token.IDENT 8 "c",
          tk token.EOF 9 ""], lexerAfter asciiHost 4 (parserOf sumOfProductSrc).l) ∧
    mapGet parser.infixParseFns token.EOF = none ∧
    (∃ p4, parser.parseExpression asciiHost 4 parser.LOWEST (parserOf sumOfProductSrc)
        = .ok (ladderTree parser.SUM parser.PRODUCT (parserOf sumOfProductSrc).curToken
            (parserOf sumOfProductSrc).peekToken (tk token.IDENT 4 "b")
            (tk token.ASTERISK 6 "*") (tk token.IDENT 8 "c"), p4) ∧
      p4.curToken = tk token.IDENT 8 "c" ∧ p4.peekToken = tk token.EOF 9 "" ∧
      p4.l = lexerAfter asciiHost 4 (parserOf sumOfProductSrc).l ∧
      p4.errors = (parserOf sumOfProductSrc).errors) ∧
    statementsOf 6 sumOfProductSrc = .ok
      [.ExpressionStatement (tk token.IDENT 0 "a")
        (infixOf (tk token.PLUS 2 "+") (identifierOf (tk token.IDENT 0 "a"))
          (infixOf (tk token.ASTERISK 6 "*") (identifierOf (tk token.IDENT 4 "b"))
            (identifierOf (tk token.IDENT 8 "c"))))] ∧
    statementsOf 6 "a * b + c" = .ok
      [.ExpressionStatement (tk token.IDENT 0 "a")
        (infixOf (tk token.PLUS 6 "+")
          (infixOf (tk token.ASTERISK 2 "*") (identifierOf (tk token.IDENT 0 "a"))
            (identifierOf (tk token.IDENT 4 "b")))
          (identifierOf (tk token.IDENT 8 "c")))] ∧
    statementsOf 6 "a - b - c" = .ok
      [.ExpressionStatement (tk token.IDENT 0 "a")
        (infixOf (tk token.MINUS 6 "-")
          (infixOf (tk token.MINUS 2 "-") (identifierOf (tk token.IDENT 0 "a"))
            (identifierOf (tk token.IDENT 4 "b")))
          (identifierOf (tk token.IDENT 8 "c")))] :=
  ⟨by decide!, by decide!, by decide, by decide, by decide!, by decide,
   (binary_operators_follow_the_ladder asciiHost 0 (parserOf sumOfProductSrc)
      (tk token.IDENT 4 "b") (tk token.ASTERISK 6 "*") (tk token.IDENT 8 "c")
      (tk token.EOF 9 "") (lexerAfter asciiHost 4 (parserOf sumOfProductSrc).l)
      parser.SUM parser.PRODUCT (by decide!) (by decide!) (by decide!) rfl (by decide) rfl
      (Or.inr (by decide))).1,
   parsesTo_sound (by decide!), parsesTo_sound (by decide!), parsesTo_sound (by decide!)⟩

/-! ## The unary sign and the dot -/

/-- C32 (counterexample): the program of `-x.y` is the expression statement of
`(-x).y`, a property expression whose object is the prefix expression `-x`, and
not of the prefix expression `-(x.y)`; likewise for `+x.y`. -/
theorem minus_x_dot_y_is_a_property_of_minus_x :
    statementsOf 6 minusDottedSrc = .ok
      [.ExpressionStatement (tk token.MINUS 0 "-")
        (signThenDot (tk token.MINUS 0 "-") (tk token.IDENT 1 "x") (tk token.DOT 2 ".")
          (tk token.IDENT 3 "y"))] ∧
    statementsOf 6 minusDottedSrc ≠ .ok
      [.ExpressionStatement (tk token.MINUS 0 "-")
        (dotThenSign (tk token.MINUS 0 "-") (tk token.IDENT 1 "x") (tk token.DOT 2 ".")
          (tk token.IDENT 3 "y"))] ∧
    statementsOf 6 plusDottedSrc = .ok
      [.ExpressionStatement (tk token.PLUS 0 "+")
        (signThenDot (tk token.PLUS 0 "+") (tk token.IDENT 1 "x") (tk token.DOT 2 ".")
          (tk token.IDENT 3 "y"))] ∧
    statementsOf 6 plusDottedSrc ≠ .ok
      [.ExpressionStatement (tk token.PLUS 0 "+")
        (dotThenSign (tk token.PLUS 0 "+") (tk token.IDENT 1 "x") (tk token.DOT 2 ".")
          (tk token.IDENT 3 "y"))] := by
  have h1 : statementsOf 6 minusDottedSrc = .ok
      [.ExpressionStatement (tk token.MINUS 0 "-")
        (signThenDot (tk token.MINUS 0 "-") (tk token.IDENT 1 "x") (tk token.DOT 2 ".")
          (tk token.IDENT 3 "y"))] := parsesTo_sound (by decide!)
  have h2 : statementsOf 6 plusDottedSrc = .ok
      [.ExpressionStatement (tk token.PLUS 0 "+")
        (signThenDot (tk token.PLUS 0 "+") (tk token.IDENT 1 "x") (tk token.DOT 2 ".")
          (tk token.IDENT 3 "y"))] := parsesTo_sound (by decide!)
  refine ⟨h1, ?_, h2, ?_⟩
  · rw [h1]
    intro h
    simp [signThenDot, dotThenSign] at h
  · rw [h2]
    intro h
    simp [signThenDot, dotThenSign] at h

/-- C32 (amended): a unary `-` or `+` binds to the next token only.  Let the
parser stand at a sign `-` or `+` followed by an identifier `x`, a dot, an
identifier `y` and a token `e` that ends the expression (a semicolon or a token
without an infix function, such as the end of the input).  Then
`parseExpression` returns `(-x).y`, the property expression whose object is
the prefix expression of `x` alone, and stops at `y` before `e` without an
error. -/
theorem unary_sign_binds_before_the_dot (h : parser.Host) (n : Nat) (p : parser.Parser)
    (d y e : Token) (l3 : Lexer)
    (hs : p.curToken.Type_ = token.MINUS ∨ p.curToken.Type_ = token.PLUS)
    (hx : p.peekToken.Type_ = token.IDENT)
    (htoks : readTokens h 3 p.l = .ok ([d, y, e], l3))
    (hd : d.Type_ = token.DOT)
    (hy : y.Type_ = token.IDENT)
    (he : e.Type_ = token.SEMICOLON ∨ mapGet parser.infixParseFns e.Type_ = none) :
    ∃ p3, parser.parseExpression h (n + 3) parser.LOWEST p
        = .ok (signThenDot p.curToken p.peekToken d y, p3) ∧
      p3.curToken = y ∧ p3.peekToken = e ∧ p3.l = l3 ∧ p3.errors = p.errors := by
  obtain ⟨l1, hn1, htoks1⟩ := readTokens_succ h 2 p.l l3 d _ htoks
  obtain ⟨l2, hn2, htoks2⟩ := readTokens_succ h 1 l1 l3 y _ htoks1
  obtain ⟨l4, hn3, htoks3⟩ := readTokens_succ h 0 l2 l3 e _ htoks2
  obtain ⟨_, rfl⟩ := readTokens_zero h l4 l3 _ htoks3
  have hxi : p.peekToken.Type_ ≠ token.ILLEGAL := by rw [hx]; decide
  have hdi : d.Type_ ≠ token.ILLEGAL := by rw [hd]; decide
  have hyi : y.Type_ ≠ token.ILLEGAL := by rw [hy]; decide
  have hfn : mapGet parser.prefixParseFns p.curToken.Type_
      = some parser.PrefixParseFn.parsePrefixExpression := by
    rcases hs with h1 | h1 <;> rw [h1] <;> decide
  have hprec : (if p.curToken.Type_ = token.PLUS ∨ p.curToken.Type_ = token.MINUS
      then parser.HIGHEST else parser.PREFIX) = parser.HIGHEST := by
    rw [if_pos (hs.elim Or.inr Or.inl)]
  have hel : e.Type_ ≠ token.LPAREN := by
    rcases he with h1 | h1
    · rw [h1]; decide
    · intro h2
      rw [h2] at h1
      exact absurd h1 (by decide)
  let p1 := parser.advance p d l1
  let p2 := parser.advance p1 y l2
  let p3 := parser.advance p2 e l3
  have hright : parser.parseExpression h (n + 2) parser.HIGHEST p1
      = .ok (identifierOf p.peekToken, p1) :=
    parseExpression_identifier h n parser.HIGHEST p1 hx
      (Or.inr (Or.inl (by
        show ¬ (parser.HIGHEST < parser.precedenceOf d.Type_)
        rw [hd]
        decide)))
  have hdot : mapGet parser.infixParseFns d.Type_
      = some parser.InfixParseFn.parseDottedExpression := by
    rw [hd]; decide
  have hcond : p1.peekToken.Type_ ≠ token.SEMICOLON ∧ parser.LOWEST < parser.peekPrecedence p1 := by
    constructor
    · show d.Type_ ≠ token.SEMICOLON
      rw [hd]; decide
    · show parser.LOWEST < parser.precedenceOf d.Type_
      rw [hd]; decide
  refine ⟨{ p3 with prevPropertyExpression := signThenDot p.curToken p.peekToken d y,
                    prevIndexExpression := .nil }, ?_, rfl, rfl, rfl, rfl⟩
  show parser.parseExpressionStep h (parser.parseExpression h (n + 2)) (n + 2) parser.LOWEST p = _
  simp only [parser.parseExpressionStep, parse_bind, parse_get, hfn, parser.callPrefixFn,
    parser.parsePrefixExpression, hprec, nextToken_ok h p d l1 hxi hn1, hright, parse_pure]
  rw [parser.parseInfixLoop]
  simp only [parse_bind, parse_get]
  rw [if_pos hcond]
  have hdot1 : mapGet parser.infixParseFns p1.peekToken.Type_
      = some parser.InfixParseFn.parseDottedExpression := hdot
  rw [hdot1]
  simp only [parse_bind, nextToken_ok h p1 y l2 hdi hn2, parser.callInfixFn,
    parser.parseDottedExpression, parse_get, nextToken_ok h p2 e l3 hyi hn3]
  have hpk : ¬ ((parser.advance p2 e l3).peekToken.Type_ = token.LPAREN) := hel
  simp only [hpk, if_false, parser.parseIdentifier, parse_bind, parse_get, parse_pure,
    parse_modify]
  exact parseInfixLoop_end h _ _ _ n _ _
    (he.elim (fun h1 => Or.inl h1) (fun h2 => Or.inr (Or.inr h2)))

/-- Witness of `unary_sign_binds_before_the_dot`: the source `-x.y`. -/
theorem unary_sign_binds_before_the_dot_witness :
    (parserOf minusDottedSrc).curToken = tk token.MINUS 0 "-" ∧
    (parserOf minusDottedSrc).peekToken = tk token.IDENT 1 "x" ∧
    readTokens asciiHost 3 (parserOf minusDottedSrc).l
      = .ok ([tk token.DOT 2 ".", tk token.IDENT 3 "y", tk token.EOF 4 ""],
          lexerAfter asciiHost 3 (parserOf minusDottedSrc).l) ∧
    ∃ p3, parser.parseExpression asciiHost 3 parser.LOWEST (parserOf minusDottedSrc)
        = .ok (signThenDot (parserOf minusDottedSrc).curToken
            (parserOf minusDottedSrc).peekToken (tk token.DOT 2 ".") (tk token.IDENT 3 "y"),
            p3) ∧
      p3.curToken = tk token.IDENT 3 "y" ∧ p3.peekToken = tk token.EOF 4 "" ∧
      p3.l = lexerAfter asciiHost 3 (parserOf minusDottedSrc).l ∧
      p3.errors = (parserOf minusDottedSrc).errors :=
  ⟨by decide!, by decide!, by decide!,
   unary_sign_binds_before_the_dot asciiHost 0 (parserOf minusDottedSrc)
    (tk token.DOT 2 ".") (tk token.IDENT 3 "y") (tk token.EOF 4 "")
    (lexerAfter asciiHost 3 (parserOf minusDottedSrc).l)
    (Or.inl (by decide!)) (by decide!) (by decide!) rfl rfl (Or.inr (by decide))⟩

/-! ## Simple tokens and statements -/

/-- A token that is an expression by itself has one of the simple prefix
functions, which returns its node and takes no token. -/
theorem callPrefixFn_simple (h : parser.Host) (pe : parser.ExpressionParser) (k : Nat)
    (p : parser.Parser) (nd : Node) (hs : simpleNode p.curToken = some nd) :
    ∃ fn, mapGet parser.prefixParseFns p.curToken.Type_ = some fn ∧
      parser.callPrefixFn h pe k fn p = .ok (nd, p) := by
  unfold simpleNode at hs
  by_cases h1 : p.curToken.Type_ = token.IDENT
  · rw [if_pos h1] at hs
    refine ⟨.parseIdentifier, by rw [h1]; decide, ?_⟩
    simp only [parser.callPrefixFn, parser.parseIdentifier, parse_bind, parse_get, parse_pure]
    rw [Option.some.inj hs]
  · rw [if_neg h1] at hs
    by_cases h2 : p.curToken.Type_ = token.STRING
    · rw [if_pos h2] at hs
      refine ⟨.ParseStringLiteral, by rw [h2]; decide, ?_⟩
      simp only [parser.callPrefixFn, parser.ParseStringLiteral, parse_bind, parse_get,
        parse_pure]
      rw [Option.some.inj hs]
    · rw [if_neg h2] at hs
      by_cases h3 : p.curToken.Type_ = token.NULL
      · rw [if_pos h3] at hs
        refine ⟨.ParseNullLiteral, by rw [h3]; decide, ?_⟩
        simp only [parser.callPrefixFn, parser.ParseNullLiteral, parse_bind, parse_get,
          parse_pure]
        rw [Option.some.inj hs]
      · rw [if_neg h3] at hs
        by_cases h4 : p.curToken.Type_ = token.TRUE ∨ p.curToken.Type_ = token.FALSE
        · rw [if_pos h4] at hs
          refine ⟨.ParseBoolean, by rcases h4 with h5 | h5 <;> rw [h5] <;> decide, ?_⟩
          simp only [parser.callPrefixFn, parser.ParseBoolean, parse_bind, parse_get,
            parse_pure]
          rw [Option.some.inj hs]
        · rw [if_neg h4] at hs
          cases hs

/-- A simple token is not an illegal token. -/
theorem simpleNode_not_illegal (t : Token) (nd : Node) (hs : simpleNode t = some nd) :
    t.Type_ ≠ token.ILLEGAL := by
  intro hi
  unfold simpleNode at hs
  rw [hi] at hs
  simp only [show ¬ (token.ILLEGAL = token.IDENT) by decide,
    show ¬ (token.ILLEGAL = token.STRING) by decide,
    show ¬ (token.ILLEGAL = token.NULL) by decide,
    show ¬ (token.ILLEGAL = token.TRUE ∨ token.ILLEGAL = token.FALSE) by decide, if_false] at hs
  cases hs

/-- A simple token followed by a token that ends the expression parses as its
node and takes no token. -/
theorem parseExpression_simple (h : parser.Host) (n precedence : Nat) (p : parser.Parser)
    (nd : Node) (hs : simpleNode p.curToken = some nd)
    (hend : p.peekToken.Type_ = token.SEMICOLON ∨
      ¬ (precedence < parser.precedenceOf p.peekToken.Type_) ∨
      mapGet parser.infixParseFns p.peekToken.Type_ = none) :
    parser.parseExpression h (n + 2) precedence p = .ok (nd, p) := by
  obtain ⟨fn, hfn, hcall⟩ := callPrefixFn_simple h (parser.parseExpression h (n + 1)) (n + 1) p
    nd hs
  show parser.parseExpressionStep h (parser.parseExpression h (n + 1)) (n + 1) precedence p = _
  simp only [parser.parseExpressionStep, parse_bind, parse_get, hfn, hcall]
  exact parseInfixLoop_end h _ _ _ n _ p hend

/-- At an identifier that is followed neither by a comma nor by `=`,
`parseAssignStatement` returns no statement and leaves the parser alone. -/
theorem parseAssignStatement_no_assignment (h : parser.Host) (pe : parser.ExpressionParser)
    (k : Nat) (p : parser.Parser) (hc : p.curToken.Type_ = token.IDENT)
    (h1 : p.peekToken.Type_ ≠ token.COMMA) (h2 : p.peekToken.Type_ ≠ token.ASSIGN) :
    parser.parseAssignStatement h pe k p = .ok (.nil, p) := by
  simp only [parser.parseAssignStatement, parse_bind, parse_get, h1, if_false, hc, if_true,
    parser.parseAssignValue, ne_eq, h2, not_false_eq_true, parse_pure]

/-- A statement that is no return and no assignment is an expression
statement. -/
theorem parseStatement_expression (h : parser.Host) (pe : parser.ExpressionParser) (k : Nat)
    (p p1 : parser.Parser) (e : Node)
    (hr : p.curToken.Type_ ≠ token.RETURN)
    (ha : parser.parseAssignStatement h pe k p = .ok (.nil, p))
    (he : pe parser.LOWEST p = .ok (e, p1))
    (hsemi : p1.peekToken.Type_ ≠ token.SEMICOLON) :
    parser.parseStatement h pe k p = .ok (.ExpressionStatement p.curToken e, p1) := by
  simp only [parser.parseStatement, parse_bind, parse_get, hr, if_false, ha, isNilNode,
    Bool.true_eq_false, parser.parseExpressionStatement, he, parser.skipSemicolon, hsemi,
    parse_pure]

/-- One round of the loop of `ParseProgram`. -/
theorem parseProgramLoop_step (h : parser.Host) (pe : parser.ExpressionParser) (k j : Nat)
    (acc : List Node) (p p1 p2 : parser.Parser) (st : Node)
    (hc : p.curToken.Type_ ≠ token.EOF)
    (hst : parser.parseStatement h pe k p = .ok (st, p1))
    (hnil : isNilNode st = false)
    (hnext : parser.nextToken h p1 = .ok ((), p2)) :
    parser.parseProgramLoop h pe k (j + 1) acc p
      = parser.parseProgramLoop h pe k j (acc ++ [st]) p2 := by
  rw [parser.parseProgramLoop]
  simp only [parse_bind, parse_get, ne_eq, hc, not_false_eq_true, if_true, hst, hnil, hnext]

/-- The loop of `ParseProgram` ends at the end of the input. -/
theorem parseProgramLoop_end (h : parser.Host) (pe : parser.ExpressionParser) (k j : Nat)
    (acc : List Node) (p : parser.Parser) (hc : p.curToken.Type_ = token.EOF) :
    parser.parseProgramLoop h pe k (j + 1) acc p = .ok (acc, p) := by
  rw [parser.parseProgramLoop]
  simp only [parse_bind, parse_get, ne_eq, hc, not_true_eq_false, if_false, parse_pure]

/-- The types of the simple tokens. -/
theorem simpleNode_type (t : Token) (nd : Node) (hs : simpleNode t = some nd) :
    t.Type_ = token.IDENT ∨ t.Type_ = token.STRING ∨ t.Type_ = token.NULL ∨
      t.Type_ = token.TRUE ∨ t.Type_ = token.FALSE := by
  unfold simpleNode at hs
  by_cases h1 : t.Type_ = token.IDENT
  · exact Or.inl h1
  · by_cases h2 : t.Type_ = token.STRING
    · exact Or.inr (Or.inl h2)
    · by_cases h3 : t.Type_ = token.NULL
      · exact Or.inr (Or.inr (Or.inl h3))
      · by_cases h4 : t.Type_ = token.TRUE ∨ t.Type_ = token.FALSE
        · exact Or.inr (Or.inr (Or.inr h4))
        · rw [if_neg h1, if_neg h2, if_neg h3, if_neg h4] at hs
          cases hs

/-- A simple token is no colon, comma or semicolon. -/
theorem simpleNode_no_separator (t : Token) (nd : Node) (hs : simpleNode t = some nd) :
    t.Type_ ≠ token.COLON ∧ t.Type_ ≠ token.COMMA ∧ t.Type_ ≠ token.SEMICOLON := by
  rcases simpleNode_type t nd hs with h | h | h | h | h <;> rw [h] <;> decide

/-- The expression `a[i]` for an identifier `a` and a simple token `i`: the
index expression, which the parser also keeps in `prevIndexExpression`. -/
theorem parseExpression_index (h : parser.Host) (n : Nat) (p : parser.Parser)
    (i rb e : Token) (l1 l2 l3 : Lexer) (ni : Node)
    (ha : p.curToken.Type_ = token.IDENT) (hlb : p.peekToken.Type_ = token.LBRACKET)
    (h1 : NextToken h.tables (parser.lexFuel p.l) p.l = .ok (i, l1))
    (h2 : NextToken h.tables (parser.lexFuel l1) l1 = .ok (rb, l2))
    (h3 : NextToken h.tables (parser.lexFuel l2) l2 = .ok (e, l3))
    (hi : simpleNode i = some ni) (hrb : rb.Type_ = token.RBRACKET)
    (he : e.Type_ = token.SEMICOLON ∨ mapGet parser.infixParseFns e.Type_ = none) :
    parser.parseExpression h (n + 3) parser.LOWEST p
      = .ok (indexOf p.peekToken p.curToken ni,
          { parser.advance (parser.advance (parser.advance p i l1) rb l2) e l3 with
            prevIndexExpression := indexOf p.peekToken p.curToken ni,
            prevPropertyExpression := .nil }) := by
  have hlbi : p.peekToken.Type_ ≠ token.ILLEGAL := by rw [hlb]; decide
  have hii := simpleNode_not_illegal i ni hi
  have hrbi : rb.Type_ ≠ token.ILLEGAL := by rw [hrb]; decide
  obtain ⟨hicolon, _, _⟩ := simpleNode_no_separator i ni hi
  let p1 := parser.advance p i l1
  let p2 := parser.advance p1 rb l2
  let p3 := parser.advance p2 e l3
  have hcond : p.peekToken.Type_ ≠ token.SEMICOLON ∧ parser.LOWEST < parser.peekPrecedence p := by
    constructor
    · rw [hlb]; decide
    · show parser.LOWEST < parser.precedenceOf p.peekToken.Type_
      rw [hlb]; decide
  have hfn : mapGet parser.infixParseFns p.peekToken.Type_
      = some parser.InfixParseFn.parseIndexExpression := by
    rw [hlb]; decide
  have hindex : parser.parseExpression h (n + 2) parser.LOWEST p2 = .ok (ni, p2) :=
    parseExpression_simple h n parser.LOWEST p2 ni hi
      (Or.inr (Or.inr (by
        show mapGet parser.infixParseFns rb.Type_ = none
        rw [hrb]; decide)))
  have hpk1 : ¬ (p1.peekToken.Type_ = token.COLON) := hicolon
  have hpk2 : ¬ (p2.peekToken.Type_ = token.COLON) := by
    show ¬ (rb.Type_ = token.COLON)
    rw [hrb]; decide
  have hpk3 : p2.peekToken.Type_ = token.RBRACKET := hrb
  show parser.parseExpressionStep h (parser.parseExpression h (n + 2)) (n + 2) parser.LOWEST p = _
  rw [parseExpressionStep_identifier h _ _ _ p ha]
  rw [parser.parseInfixLoop]
  simp only [parse_bind, parse_get]
  rw [if_pos hcond, hfn]
  simp only [parse_bind, nextToken_ok h p i l1 hlbi h1, parser.callInfixFn,
    parser.parseIndexExpression, parse_get, hpk1, if_false, nextToken_ok h p1 rb l2 hii h2,
    hindex, parse_pure, parser.parseIndexEnd, hpk2, parser.expectPeek, hpk3, if_true,
    show ¬ (token.RBRACKET = token.COLON) by decide,
    nextToken_ok h p2 e l3 hrbi h3, Bool.not_true, Bool.false_eq_true, parse_modify]
  refine parseInfixLoop_end h _ _ _ n _ _ ?_
  exact he.elim (fun h1 => Or.inl h1) (fun h2 => Or.inr (Or.inr h2))

/-- The expression `a.p` for identifiers `a` and `p`: the property
expression, which the parser also keeps in `prevPropertyExpression`. -/
theorem parseExpression_property (h : parser.Host) (n : Nat) (p : parser.Parser)
    (pr e : Token) (l1 l2 : Lexer)
    (ha : p.curToken.Type_ = token.IDENT) (hd : p.peekToken.Type_ = token.DOT)
    (h1 : NextToken h.tables (parser.lexFuel p.l) p.l = .ok (pr, l1))
    (h2 : NextToken h.tables (parser.lexFuel l1) l1 = .ok (e, l2))
    (hpr : pr.Type_ = token.IDENT)
    (he : e.Type_ = token.SEMICOLON ∨ mapGet parser.infixParseFns e.Type_ = none) :
    parser.parseExpression h (n + 3) parser.LOWEST p
      = .ok (propertyOf p.peekToken p.curToken pr,
          { parser.advance (parser.advance p pr l1) e l2 with
            prevPropertyExpression := propertyOf p.peekToken p.curToken pr,
            prevIndexExpression := .nil }) := by
  have hdi : p.peekToken.Type_ ≠ token.ILLEGAL := by rw [hd]; decide
  have hpri : pr.Type_ ≠ token.ILLEGAL := by rw [hpr]; decide
  have hel : e.Type_ ≠ token.LPAREN := by
    rcases he with h3 | h3
    · rw [h3]; decide
    · intro h4
      rw [h4] at h3
      exact absurd h3 (by decide)
  let p1 := parser.advance p pr l1
  let p2 := parser.advance p1 e l2
  have hcond : p.peekToken.Type_ ≠ token.SEMICOLON ∧ parser.LOWEST < parser.peekPrecedence p := by
    constructor
    · rw [hd]; decide
    · show parser.LOWEST < parser.precedenceOf p.peekToken.Type_
      rw [hd]; decide
  have hfn : mapGet parser.infixParseFns p.peekToken.Type_
      = some parser.InfixParseFn.parseDottedExpression := by
    rw [hd]; decide
  have hpk : ¬ (p2.peekToken.Type_ = token.LPAREN) := hel
  show parser.parseExpressionStep h (parser.parseExpression h (n + 2)) (n + 2) parser.LOWEST p = _
  rw [parseExpressionStep_identifier h _ _ _ p ha]
  rw [parser.parseInfixLoop]
  simp only [parse_bind, parse_get]
  rw [if_pos hcond, hfn]
  simp only [parse_bind, nextToken_ok h p pr l1 hdi h1, parser.callInfixFn,
    parser.parseDottedExpression, parse_get, nextToken_ok h p1 e l2 hpri h2, hpk, if_false,
    parser.parseIdentifier, parse_pure, parse_modify]
  refine parseInfixLoop_end h _ _ _ n _ _ ?_
  exact he.elim (fun h1 => Or.inl h1) (fun h2 => Or.inr (Or.inr h2))

/-! ## Assignments to an index or a property -/

/-- At the token `=` after an index expression, `parseAssignStatement` returns
the assignment whose `Index` is the index expression the parser kept; the
value is a simple token. -/
theorem parseAssignStatement_index (h : parser.Host) (n : Nat) (p : parser.Parser)
    (eof : Token) (l1 : Lexer) (nv : Node)
    (hc : p.curToken.Type_ = token.ASSIGN)
    (hprev : isNilNode p.prevIndexExpression = false)
    (hv : simpleNode p.peekToken = some nv)
    (h1 : NextToken h.tables (parser.lexFuel p.l) p.l = .ok (eof, l1))
    (heof : eof.Type_ = token.EOF) :
    parser.parseAssignStatement h (parser.parseExpression h (n + 2)) (n + 2) p
      = .ok (.AssignStatement p.curToken none [] p.prevIndexExpression .nil nv,
          { parser.advance p eof l1 with prevIndexExpression := .nil }) := by
  obtain ⟨_, hcomma, _⟩ := simpleNode_no_separator p.peekToken nv hv
  have hvi := simpleNode_not_illegal p.peekToken nv hv
  have hci : ¬ (p.curToken.Type_ = token.IDENT) := by rw [hc]; decide
  have hval : parser.parseExpression h (n + 2) parser.LOWEST (parser.advance p eof l1)
      = .ok (nv, parser.advance p eof l1) :=
    parseExpression_simple h n parser.LOWEST (parser.advance p eof l1) nv hv
      (Or.inr (Or.inr (by
        show mapGet parser.infixParseFns eof.Type_ = none
        rw [heof]; decide)))
  have hsemi : ¬ (eof.Type_ = token.SEMICOLON) := by rw [heof]; decide
  have hsemi1 : ¬ ((parser.advance p eof l1).peekToken.Type_ = token.SEMICOLON) := hsemi
  simp only [parser.parseAssignStatement, parse_bind, parse_get, hcomma, if_false, hc,
    show ¬ (token.ASSIGN = token.IDENT) by decide,
    if_true, hprev, nextToken_ok h p eof l1 hvi h1, hval, parse_modify, parser.skipSemicolon,
    hsemi1, parse_pure]

/-- At the token `=` after a property expression, `parseAssignStatement`
returns the assignment whose `Property` is the property expression the parser
kept; the value is a simple token. -/
theorem parseAssignStatement_property (h : parser.Host) (n : Nat) (p : parser.Parser)
    (eof : Token) (l1 : Lexer) (nv : Node)
    (hc : p.curToken.Type_ = token.ASSIGN)
    (hnoindex : isNilNode p.prevIndexExpression = true)
    (hprev : isNilNode p.prevPropertyExpression = false)
    (hv : simpleNode p.peekToken = some nv)
    (h1 : NextToken h.tables (parser.lexFuel p.l) p.l = .ok (eof, l1))
    (heof : eof.Type_ = token.EOF) :
    parser.parseAssignStatement h (parser.parseExpression h (n + 2)) (n + 2) p
      = .ok (.AssignStatement p.curToken none [] .nil p.prevPropertyExpression nv,
          { parser.advance p eof l1 with prevPropertyExpression := .nil }) := by
  obtain ⟨_, hcomma, _⟩ := simpleNode_no_separator p.peekToken nv hv
  have hvi := simpleNode_not_illegal p.peekToken nv hv
  have hci : ¬ (p.curToken.Type_ = token.IDENT) := by rw [hc]; decide
  have hval : parser.parseExpression h (n + 2) parser.LOWEST (parser.advance p eof l1)
      = .ok (nv, parser.advance p eof l1) :=
    parseExpression_simple h n parser.LOWEST (parser.advance p eof l1) nv hv
      (Or.inr (Or.inr (by
        show mapGet parser.infixParseFns eof.Type_ = none
        rw [heof]; decide)))
  have hsemi : ¬ (eof.Type_ = token.SEMICOLON) := by rw [heof]; decide
  have hsemi1 : ¬ ((parser.advance p eof l1).peekToken.Type_ = token.SEMICOLON) := hsemi
  simp only [parser.parseAssignStatement, parse_bind, parse_get, hcomma, if_false, hc,
    show ¬ (token.ASSIGN = token.IDENT) by decide,
    if_true, hnoindex, Bool.true_eq_false, hprev, nextToken_ok h p eof l1 hvi h1, hval,
    parse_modify, parser.skipSemicolon, hsemi1, parse_pure]

/-- C37: an assignment to an index or to a property is parsed as two
statements.  For a source `a[i] = v` (the parser stands at the identifier `a`
followed by `[`, the tokens `i`, `]`, `=`, `v` and the end of the input, where
`i` and `v` are simple tokens: identifiers, strings, `null` or booleans),
`ParseProgram` returns exactly two statements: the expression statement of the
index expression `a[i]`, then the assignment whose `Index` is that same index
expression and whose `Value` is `v`.  Likewise `a.p = v` yields the expression
statement of `a.p`, then the assignment whose `Property` is `a.p`.  No error
is reported. -/
theorem assignment_to_index_or_property_is_two_statements (h : parser.Host) (n : Nat) :
    (∀ (p : parser.Parser) (i rb eq v eof e2 : Token) (l6 : Lexer) (ni nv : Node),
      p.curToken.Type_ = token.IDENT → p.peekToken.Type_ = token.LBRACKET →
      readTokens h 6 p.l = .ok ([i, rb, eq, v, eof, e2], l6) →
      simpleNode i = some ni → rb.Type_ = token.RBRACKET → eq.Type_ = token.ASSIGN →
      simpleNode v = some nv → eof.Type_ = token.EOF →
      ∃ p6, parser.ParseProgram h (n + 3) p
          = .ok (.Program
              [.ExpressionStatement p.curToken (indexOf p.peekToken p.curToken ni),
               .AssignStatement eq none [] (indexOf p.peekToken p.curToken ni) .nil nv], p6) ∧
        p6.errors = p.errors) ∧
    (∀ (p : parser.Parser) (pr eq v eof e2 : Token) (l5 : Lexer) (nv : Node),
      p.curToken.Type_ = token.IDENT → p.peekToken.Type_ = token.DOT →
      readTokens h 5 p.l = .ok ([pr, eq, v, eof, e2], l5) →
      pr.Type_ = token.IDENT → eq.Type_ = token.ASSIGN →
      simpleNode v = some nv → eof.Type_ = token.EOF →
      ∃ p5, parser.ParseProgram h (n + 3) p
          = .ok (.Program
              [.ExpressionStatement p.curToken (propertyOf p.peekToken p.curToken pr),
               .AssignStatement eq none [] .nil (propertyOf p.peekToken p.curToken pr) nv],
              p5) ∧
        p5.errors = p.errors) := by
  constructor
  · intro p i rb eq v eof e2 l6 ni nv ha hlb htoks hi hrb heq hv heof
    obtain ⟨l1, hn1, ht1⟩ := readTokens_succ h 5 p.l l6 i _ htoks
    obtain ⟨l2, hn2, ht2⟩ := readTokens_succ h 4 l1 l6 rb _ ht1
    obtain ⟨l3, hn3, ht3⟩ := readTokens_succ h 3 l2 l6 eq _ ht2
    obtain ⟨l4, hn4, ht4⟩ := readTokens_succ h 2 l3 l6 v _ ht3
    obtain ⟨l5, hn5, ht5⟩ := readTokens_succ h 1 l4 l6 eof _ ht4
    obtain ⟨l7, hn6, ht6⟩ := readTokens_succ h 0 l5 l6 e2 _ ht5
    obtain ⟨_, rfl⟩ := readTokens_zero h l7 l6 _ ht6
    have heqi : eq.Type_ ≠ token.ILLEGAL := by rw [heq]; decide
    have heofi : eof.Type_ ≠ token.ILLEGAL := by rw [heof]; decide
    have heqend : eq.Type_ = token.SEMICOLON ∨ mapGet parser.infixParseFns eq.Type_ = none :=
      Or.inr (by rw [heq]; decide)
    -- the first statement
    have hexp := parseExpression_index h n p i rb eq l1 l2 l3 ni ha hlb hn1 hn2 hn3 hi hrb heqend
    have hst1 := parseStatement_expression h (parser.parseExpression h (n + 3)) (n + 3) p _ _
      (by rw [ha]; decide)
      (parseAssignStatement_no_assignment h _ _ p ha (by rw [hlb]; decide) (by rw [hlb]; decide))
      hexp (by show eq.Type_ ≠ token.SEMICOLON; rw [heq]; decide)
    have hnext1 := nextToken_ok h _ v l4
      (show (⟨l3, p.errors, rb, eq, indexOf p.peekToken p.curToken ni, .nil⟩ :
        parser.Parser).peekToken.Type_ ≠ token.ILLEGAL from heqi) hn4
    -- the second statement
    have hassign : parser.parseAssignStatement h (parser.parseExpression h (n + 3)) (n + 3)
        (parser.advance ⟨l3, p.errors, rb, eq, indexOf p.peekToken p.curToken ni, .nil⟩ v l4)
        = .ok (.AssignStatement eq none [] (indexOf p.peekToken p.curToken ni) .nil nv,
            ⟨l5, p.errors, v, eof, .nil, .nil⟩) :=
      parseAssignStatement_index h (n + 1)
        (parser.advance ⟨l3, p.errors, rb, eq, indexOf p.peekToken p.curToken ni, .nil⟩ v l4)
        eof l5 nv heq rfl hv hn5 heof
    have hret : ¬ ((parser.advance (⟨l3, p.errors, rb, eq, indexOf p.peekToken p.curToken ni,
        .nil⟩ : parser.Parser) v l4).curToken.Type_ = token.RETURN) := by
      show ¬ (eq.Type_ = token.RETURN)
      rw [heq]; decide
    have hst2 : parser.parseStatement h (parser.parseExpression h (n + 3)) (n + 3)
        (parser.advance ⟨l3, p.errors, rb, eq, indexOf p.peekToken p.curToken ni, .nil⟩ v l4)
        = .ok (.AssignStatement eq none [] (indexOf p.peekToken p.curToken ni) .nil nv,
            ⟨l5, p.errors, v, eof, .nil, .nil⟩) := by
      simp only [parser.parseStatement, parse_bind, parse_get, hret, if_false, hassign,
        isNilNode, if_true, parse_pure]
    have hnext2 := nextToken_ok h (⟨l5, p.errors, v, eof, .nil, .nil⟩ : parser.Parser) e2 l6
      heofi hn6
    refine ⟨parser.advance ⟨l5, p.errors, v, eof, .nil, .nil⟩ e2 l6, ?_, rfl⟩
    simp only [parser.ParseProgram, parse_bind]
    rw [parseProgramLoop_step h _ (n + 3) (n + 2) [] p _ _ _ (by rw [ha]; decide) hst1 rfl hnext1]
    rw [parseProgramLoop_step h _ (n + 3) (n + 1) _ _ _ _ _
      (by show eq.Type_ ≠ token.EOF; rw [heq]; decide) hst2 rfl hnext2]
    rw [parseProgramLoop_end h _ (n + 3) n _ _ heof]
    rfl
  · intro p pr eq v eof e2 l5 nv ha hd htoks hpr heq hv heof
    obtain ⟨l1, hn1, ht1⟩ := readTokens_succ h 4 p.l l5 pr _ htoks
    obtain ⟨l2, hn2, ht2⟩ := readTokens_succ h 3 l1 l5 eq _ ht1
    obtain ⟨l3, hn3, ht3⟩ := readTokens_succ h 2 l2 l5 v _ ht2
    obtain ⟨l4, hn4, ht4⟩ := readTokens_succ h 1 l3 l5 eof _ ht3
    obtain ⟨l6, hn5, ht5⟩ := readTokens_succ h 0 l4 l5 e2 _ ht4
    obtain ⟨_, rfl⟩ := readTokens_zero h l6 l5 _ ht5
    have heqi : eq.Type_ ≠ token.ILLEGAL := by rw [heq]; decide
    have heofi : eof.Type_ ≠ token.ILLEGAL := by rw [heof]; decide
    have heqend : eq.Type_ = token.SEMICOLON ∨ mapGet parser.infixParseFns eq.Type_ = none :=
      Or.inr (by rw [heq]; decide)
    have hexp := parseExpression_property h n p pr eq l1 l2 ha hd hn1 hn2 hpr heqend
    have hst1 := parseStatement_expression h (parser.parseExpression h (n + 3)) (n + 3) p _ _
      (by rw [ha]; decide)
      (parseAssignStatement_no_assignment h _ _ p ha (by rw [hd]; decide) (by rw [hd]; decide))
      hexp (by show eq.Type_ ≠ token.SEMICOLON; rw [heq]; decide)
    have hnext1 := nextToken_ok h _ v l3
      (show (⟨l2, p.errors, pr, eq, .nil, propertyOf p.peekToken p.curToken pr⟩ :
        parser.Parser).peekToken.Type_ ≠ token.ILLEGAL from heqi) hn3
    have hassign : parser.parseAssignStatement h (parser.parseExpression h (n + 3)) (n + 3)
        (parser.advance ⟨l2, p.errors, pr, eq, .nil, propertyOf p.peekToken p.curToken pr⟩ v l3)
        = .ok (.AssignStatement eq none [] .nil (propertyOf p.peekToken p.curToken pr) nv,
            ⟨l4, p.errors, v, eof, .nil, .nil⟩) :=
      parseAssignStatement_property h (n + 1)
        (parser.advance ⟨l2, p.errors, pr, eq, .nil, propertyOf p.peekToken p.curToken pr⟩ v l3)
        eof l4 nv heq rfl rfl hv hn4 heof
    have hret : ¬ ((parser.advance (⟨l2, p.errors, pr, eq, .nil,
        propertyOf p.peekToken p.curToken pr⟩ : parser.Parser) v l3).curToken.Type_
          = token.RETURN) := by
      show ¬ (eq.Type_ = token.RETURN)
      rw [heq]; decide
    have hst2 : parser.parseStatement h (parser.parseExpression h (n + 3)) (n + 3)
        (parser.advance ⟨l2, p.errors, pr, eq, .nil, propertyOf p.peekToken p.curToken pr⟩ v l3)
        = .ok (.AssignStatement eq none [] .nil (propertyOf p.peekToken p.curToken pr) nv,
            ⟨l4, p.errors, v, eof, .nil, .nil⟩) := by
      simp only [parser.parseStatement, parse_bind, parse_get, hret, if_false, hassign,
        isNilNode, if_true, parse_pure]
    have hnext2 := nextToken_ok h (⟨l4, p.errors, v, eof, .nil, .nil⟩ : parser.Parser) e2 l5
      heofi hn5
    refine ⟨parser.advance ⟨l4, p.errors, v, eof, .nil, .nil⟩ e2 l5, ?_, rfl⟩
    simp only [parser.ParseProgram, parse_bind]
    rw [parseProgramLoop_step h _ (n + 3) (n + 2) [] p _ _ _ (by rw [ha]; decide) hst1 rfl hnext1]
    rw [parseProgramLoop_step h _ (n + 3) (n + 1) _ _ _ _ _
      (by show eq.Type_ ≠ token.EOF; rw [heq]; decide) hst2 rfl hnext2]
    rw [parseProgramLoop_end h _ (n + 3) n _ _ heof]
    rfl

/-- Witness of `assignment_to_index_or_property_is_two_statements`: the sources
`a[i] = v` and `a.p = v`; the programs of `a[0] = 1` and `h["k"] = 1` are two
statements as well. -/
theorem assignment_to_index_or_property_is_two_statements_witness :
    (parserOf indexAssignSrc).curToken = tk token.IDENT 0 "a" ∧
    (parserOf indexAssignSrc).peekToken = tk token.LBRACKET 1 "[" ∧
    readTokens asciiHost 6 (parserOf indexAssignSrc).l
      = .ok ([tk token.IDENT 2 "i", tk token.RBRACKET 3 "]", tk token.ASSIGN 5 "=",
          tk token.IDENT 7 "v", tk token.EOF 8 "", tk token.EOF 9 ""],
          lexerAfter asciiHost 6 (parserOf indexAssignSrc).l) ∧
    (∃ p6, parser.ParseProgram asciiHost 3 (parserOf indexAssignSrc)
        = .ok (.Program
            [.ExpressionStatement (parserOf indexAssignSrc).curToken
              (indexOf (parserOf indexAssignSrc).peekToken (parserOf indexAssignSrc).curToken
                (identifierOf (tk token.IDENT 2 "i"))),
             .AssignStatement (tk token.ASSIGN 5 "=") none []
              (indexOf (parserOf indexAssignSrc).peekToken (parserOf indexAssignSrc).curToken
                (identifierOf (tk token.IDENT 2 "i"))) .nil
              (identifierOf (tk token.IDENT 7 "v"))], p6) ∧
      p6.errors = (parserOf indexAssignSrc).errors) ∧
    (parserOf propertyAssignSrc).curToken = tk token.IDENT 0 "a" ∧
    (parserOf propertyAssignSrc).peekToken = tk token.DOT 1 "." ∧
    readTokens asciiHost 5 (parserOf propertyAssignSrc).l
      = .ok ([tk token.IDENT 2 "p", tk token.ASSIGN 4 "=", tk token.IDENT 6 "v",
          tk token.EOF 7 "", tk token.EOF 8 ""],
          lexerAfter asciiHost 5 (parserOf propertyAssignSrc).l) ∧
    (∃ p5, parser.ParseProgram asciiHost 3 (parserOf propertyAssignSrc)
        = .ok (.Program
            [.ExpressionStatement (parserOf propertyAssignSrc).curToken
              (propertyOf (parserOf propertyAssignSrc).peekToken
                (parserOf propertyAssignSrc).curToken (tk token.IDENT 2 "p")),
             .AssignStatement (tk token.ASSIGN 4 "=") none [] .nil
              (propertyOf (parserOf propertyAssignSrc).peekToken
                (parserOf propertyAssignSrc).curToken (tk token.IDENT 2 "p"))
              (identifierOf (tk token.IDENT 6 "v"))], p5) ∧
      p5.errors = (parserOf propertyAssignSrc).errors) ∧
    statementsOf 6 "a[0] = 1" = .ok
      [.ExpressionStatement (tk token.IDENT 0 "a")
        (indexOf (tk token.LBRACKET 1 "[") (tk token.IDENT 0 "a")
          (.NumberLiteral (tk token.NUMBER 2 "0") 0)),
       .AssignStatement (tk token.ASSIGN 5 "=") none []
        (indexOf (tk token.LBRACKET 1 "[") (tk token.IDENT 0 "a")
          (.NumberLiteral (tk token.NUMBER 2 "0") 0)) .nil
        (.NumberLiteral (tk token.NUMBER 7 "1") 1)] ∧
    statementsOf 6 "h[\"k\"] = 1" = .ok
      [.ExpressionStatement (tk token.IDENT 0 "h")
        (indexOf (tk token.LBRACKET 1 "[") (tk token.IDENT 0 "h")
          (.StringLiteral (tk token.STRING 2 "k") "k")),
       .AssignStatement (tk token.ASSIGN 7 "=") none []
        (indexOf (tk token.LBRACKET 1 "[") (tk token.IDENT 0 "h")
          (.StringLiteral (tk token.STRING 2 "k") "k")) .nil
        (.NumberLiteral (tk token.NUMBER 9 "1") 1)] :=
  ⟨by decide!, by decide!, by decide!,
   (assignment_to_index_or_property_is_two_statements asciiHost 0).1
    (parserOf indexAssignSrc) (tk token.IDENT 2 "i") (tk token.RBRACKET 3 "]")
    (tk token.ASSIGN 5 "=") (tk token.IDENT 7 "v") (tk token.EOF 8 "") (tk token.EOF 9 "")
    (lexerAfter asciiHost 6 (parserOf indexAssignSrc).l) _ _
    (by decide!) (by decide!) (by decide!) rfl rfl rfl rfl rfl,
   by decide!, by decide!, by decide!,
   (assignment_to_index_or_property_is_two_statements asciiHost 0).2
    (parserOf propertyAssignSrc) (tk token.IDENT 2 "p") (tk token.ASSIGN 4 "=")
    (tk token.IDENT 6 "v") (tk token.EOF 7 "") (tk token.EOF 8 "")
    (lexerAfter asciiHost 5 (parserOf propertyAssignSrc).l) _
    (by decide!) (by decide!) (by decide!) rfl rfl rfl rfl,
   parsesTo_sound (by decide!), parsesTo_sound (by decide!)⟩

/-! ## Rewinding and lists of identifiers -/

/-- The trace of a lexer, one token at a time. -/
theorem lexTrace_succ (h : parser.Host) (n : Nat) (l : Lexer) (x : Token × Lexer)
    (rest : List (Token × Lexer)) (ht : lexTrace h (n + 1) l = .ok (x :: rest)) :
    NextToken h.tables (parser.lexFuel l) l = .ok x ∧ lexTrace h n x.2 = .ok rest := by
  unfold lexTrace at ht
  cases hn : NextToken h.tables (parser.lexFuel l) l with
  | ok r =>
    obtain ⟨t1, l1⟩ := r
    rw [hn] at ht
    simp only [bind, Outcome.bind] at ht
    cases hrest : lexTrace h n l1 with
    | ok r2 =>
      rw [hrest] at ht
      simp only [pure, Outcome.ok.injEq, List.cons.injEq] at ht
      obtain ⟨rfl, rfl⟩ := ht
      exact ⟨rfl, hrest⟩
    | panic m => rw [hrest] at ht; cases ht
    | outOfFuel => rw [hrest] at ht; cases ht
  | panic m => rw [hn] at ht; simp only [bind, Outcome.bind] at ht; cases ht
  | outOfFuel => rw [hn] at ht; simp only [bind, Outcome.bind] at ht; cases ht

/-! ### The lexer moves forward

`Post Q m` says that every result of the computation `m` has the property `Q`;
the rules below follow the lexer function by function.  The outcome is
`post_NextToken`: every token the lexer yields leaves it on the same input and
line map, one rune ahead of its position, and at a greater position. -/

theorem post_pure {β : Type} {Q : β → Prop} {b : β} (h : Q b) : Post Q (pure b : Outcome β) := by
  unfold Post
  intro c hc
  cases hc
  exact h

theorem post_ok {β : Type} {Q : β → Prop} {b : β} (h : Q b) : Post Q (Outcome.ok b) := by
  unfold Post
  intro c hc
  cases hc
  exact h

theorem post_bind {α β : Type} {Q : β → Prop} {m : Outcome α} {f : α → Outcome β}
    (h : Post (fun a => Post Q (f a)) m) : Post Q (m >>= f) := by
  unfold Post at h ⊢
  intro b hb
  cases hm : m with
  | ok a =>
    rw [hm] at hb
    exact h a hm b hb
  | panic msg => rw [hm] at hb; cases hb
  | outOfFuel => rw [hm] at hb; cases hb

theorem post_ite {β : Type} {Q : β → Prop} {c : Prop} [Decidable c] {x y : Outcome β}
    (hx : c → Post Q x) (hy : ¬ c → Post Q y) : Post Q (if c then x else y) := by
  by_cases hc : c
  · rw [if_pos hc]; exact hx hc
  · rw [if_neg hc]; exact hy hc

theorem post_any {β : Type} {Q : β → Prop} {m : Outcome β} (h : ∀ b, Q b) : Post Q m := by
  unfold Post
  exact fun b _ => h b

theorem post_mono {β : Type} {P Q : β → Prop} {m : Outcome β} (hm : Post P m)
    (h : ∀ b, P b → Q b) : Post Q m := by
  unfold Post at hm ⊢
  exact fun b hb => h b (hm b hb)

theorem post_outOfFuel {β : Type} {Q : β → Prop} : Post Q (Outcome.outOfFuel : Outcome β) := by
  unfold Post
  intro b hb
  cases hb

theorem readsOn_refl (l : Lexer) (h1 : l.readPosition = l.position + 1) (h2 : 0 ≤ l.position) :
    readsOn l l := ⟨rfl, rfl, h1, h2, le_refl _⟩

theorem readsOn_trans {a b c : Lexer} (h1 : readsOn a b) (h2 : readsOn b c) : readsOn a c := by
  obtain ⟨i1, m1, _, p1, q1⟩ := h1
  obtain ⟨i2, m2, r2, _, q2⟩ := h2
  exact ⟨i2.trans i1, m2.trans m1, r2, p1, le_trans q1 q2⟩

/-- What `readChar` changes. -/
theorem readChar_fields (l l2 : Lexer) (h : readChar l = .ok l2) :
    l2.input = l.input ∧ l2.lineMap = l.lineMap ∧ l2.position = l.readPosition ∧
      l2.readPosition = l.readPosition + 1 ∧ peekChar l = .ok l2.ch := by
  unfold readChar at h
  unfold peekChar
  by_cases hc : l.readPosition ≥ (l.input.length : Int)
  · rw [if_pos hc] at h
    rw [if_pos hc]
    cases h
    exact ⟨rfl, rfl, rfl, rfl, rfl⟩
  · rw [if_neg hc] at h
    rw [if_neg hc]
    cases hr : runeAt l.input l.readPosition with
    | ok c =>
      rw [hr] at h
      cases h
      exact ⟨rfl, rfl, rfl, rfl, rfl⟩
    | panic m => rw [hr] at h; cases h
    | outOfFuel => rw [hr] at h; cases h

theorem post_readChar {l0 l : Lexer} {Q : Lexer → Prop} (hl : readsOn l0 l)
    (h : ∀ l2, readsOn l0 l2 → l2.position = l.position + 1 → peekChar l = .ok l2.ch → Q l2) :
    Post Q (readChar l) := by
  unfold Post
  intro l2 h2
  obtain ⟨i, m, p, r, pk⟩ := readChar_fields l l2 h2
  obtain ⟨i0, m0, r0, p0, q0⟩ := hl
  exact h l2 ⟨i.trans i0, m.trans m0, by omega, p0, by omega⟩ (by omega) pk

theorem post_elim {β : Type} {Q : β → Prop} {m : Outcome β} {b : β} (h : Post Q m)
    (hm : m = .ok b) : Q b := by
  unfold Post at h
  exact h b hm

theorem post_skipWhitespace (l0 : Lexer) :
    ∀ (n : Nat) (l : Lexer), readsOn l0 l →
      Post (fun l2 => readsOn l0 l2 ∧ l.position ≤ l2.position) (skipWhitespace n l) := by
  intro n
  induction n with
  | zero => intro l _; exact post_outOfFuel
  | succ n ih =>
    intro l hl
    unfold skipWhitespace
    refine post_ite ?_ ?_
    · intro _
      refine post_bind ?_
      refine post_readChar hl ?_
      intro l2 h2 hp _
      exact post_mono (ih l2 h2) (fun b hb => ⟨hb.1, by omega⟩)
    · intro _
      exact post_pure ⟨hl, le_refl _⟩

theorem post_readIdentifierLoop (u : UnicodeTables) (l0 : Lexer) :
    ∀ (n : Nat) (l : Lexer), readsOn l0 l →
      Post (fun l2 => readsOn l0 l2 ∧ l.position ≤ l2.position ∧
        ((isLetter u l.ch || u.IsDigit l.ch) = true → l.position < l2.position))
        (readIdentifierLoop u n l) := by
  intro n
  induction n with
  | zero => intro l _; exact post_outOfFuel
  | succ n ih =>
    intro l hl
    unfold readIdentifierLoop
    refine post_ite ?_ ?_
    · intro _
      refine post_bind ?_
      refine post_readChar hl ?_
      intro l2 h2 hp _
      exact post_mono (ih l2 h2) (fun b hb => ⟨hb.1, by omega, fun _ => by omega⟩)
    · intro hc
      exact post_pure ⟨hl, le_refl _, fun h => absurd h hc⟩

theorem post_readIdentifier (u : UnicodeTables) (l0 : Lexer) (n : Nat) (l : Lexer)
    (hl : readsOn l0 l) (hc : isLetter u l.ch = true) :
    Post (fun r => readsOn l0 r.2 ∧ l.position < r.2.position) (readIdentifier u n l) := by
  unfold readIdentifier
  refine post_bind ?_
  refine post_mono (post_readIdentifierLoop u l0 n l hl) ?_
  intro l2 h2
  refine post_bind ?_
  refine post_any ?_
  intro cs
  exact post_pure ⟨h2.1, h2.2.2 (by rw [hc]; rfl)⟩

theorem post_readToLineEnd (l0 : Lexer) :
    ∀ (n : Nat) (l : Lexer), readsOn l0 l →
      Post (fun l2 => readsOn l0 l2 ∧ l.position < l2.position ∧
        (peekChar l = .ok '(' → l.position + 1 < l2.position)) (readToLineEnd n l) := by
  intro n
  induction n with
  | zero => intro l _; exact post_outOfFuel
  | succ n ih =>
    intro l hl
    unfold readToLineEnd
    refine post_bind ?_
    refine post_readChar hl ?_
    intro l2 h2 hp hpk
    refine post_ite ?_ ?_
    · intro hc
      refine post_pure ⟨h2, by omega, ?_⟩
      intro hpar
      rw [hpk] at hpar
      have hch : l2.ch = '(' := Outcome.ok.inj hpar
      rw [hch] at hc
      exact absurd hc (by decide)
    · intro _
      exact post_mono (ih l2 h2) (fun b hb => ⟨hb.1, by omega, fun _ => by omega⟩)

theorem post_readLine (l0 : Lexer) (n : Nat) (l : Lexer) (hl : readsOn l0 l) :
    Post (fun r => readsOn l0 r.2 ∧ l.position < r.2.position) (readLine n l) := by
  unfold readLine
  refine post_bind ?_
  refine post_mono (post_readToLineEnd l0 n l hl) ?_
  intro l2 h2
  refine post_bind ?_
  refine post_any ?_
  intro cs
  exact post_pure ⟨h2.1, h2.2.1⟩

/-- After `readCommand` the read position may be the position itself; the next
`readChar` sets that right. -/
theorem post_readCommand (l0 : Lexer) (n : Nat) (l : Lexer) (hl : readsOn l0 l)
    (hpk : peekChar l = .ok '(') :
    Post (fun r => r.2.input = l0.input ∧ r.2.lineMap = l0.lineMap ∧
      l.position < r.2.readPosition) (readCommand n l) := by
  unfold readCommand
  refine post_bind ?_
  refine post_mono (post_readToLineEnd l0 n l hl) ?_
  intro l2 h2
  refine post_bind ?_
  refine post_any ?_
  intro p
  refine post_bind ?_
  refine post_any ?_
  intro ret
  refine post_pure ?_
  obtain ⟨⟨i, m, r, _, _⟩, _, h3⟩ := h2
  have h4 := h3 hpk
  simp only []
  split_ifs <;> refine ⟨i, m, ?_⟩ <;> (try dsimp only) <;> omega

theorem post_readLogicalOperator (l0 l : Lexer) (hl : readsOn l0 l) :
    Post (fun r => readsOn l0 r.2 ∧ l.position < r.2.position) (readLogicalOperator l) := by
  unfold readLogicalOperator
  refine post_bind ?_
  refine post_readChar hl ?_
  intro l2 h2 hp _
  refine post_bind ?_
  refine post_any ?_
  intro cs
  exact post_pure ⟨h2, by dsimp only; omega⟩

theorem post_peekChar {l : Lexer} {Q : Char → Prop} (h : ∀ c, Q c) : Post Q (peekChar l) :=
  post_any h

theorem post_prevChar {l : Lexer} {k : Int} {Q : Char → Prop} (h : ∀ c, Q c) :
    Post Q (prevChar l k) := post_any h

theorem post_peekChars {l : Lexer} {k : Int} {Q : String → Prop} (h : ∀ c, Q c) :
    Post Q (peekChars l k) := post_any h

theorem post_runeSlice {cs : List Char} {a b : Int} {Q : List Char → Prop} (h : ∀ c, Q c) :
    Post Q (runeSlice cs a b) := post_any h

theorem post_runeAt {cs : List Char} {a : Int} {Q : Char → Prop} (h : ∀ c, Q c) :
    Post Q (runeAt cs a) := post_any h

theorem post_peekChar_if {c : Prop} [Decidable c] {l : Lexer} {Q : Char → Prop} (h : ∀ x, Q x) :
    Post Q (if c then peekChar l else pure nul) := post_any h

theorem post_prevChar_if {c : Prop} [Decidable c] {l : Lexer} {k : Int} {Q : Char → Prop}
    (h : ∀ x, Q x) : Post Q (if c then prevChar l k else pure nul) := post_any h

/-- A digit is none of the signs and not the dot. -/
theorem isDigit_not_sign (c : Char) (h : isDigit c = true) : c ≠ '+' ∧ c ≠ '-' ∧ c ≠ '.' := by
  refine ⟨?_, ?_, ?_⟩ <;> (intro hc; rw [hc] at h; revert h; decide)

theorem post_readNumberLoop (u : UnicodeTables) (l0 : Lexer) (position : Int) :
    ∀ (n : Nat) (st : NumberScan), readsOn l0 st.l →
      Post (fun r => readsOn l0 (scannedTo r) ∧ st.l.position ≤ (scannedTo r).position ∧
        (isDigit st.l.ch = true → isCharAllowedInNumber u st.l.ch = true →
          st.l.position < (scannedTo r).position))
        (readNumberLoop u position n st) := by
  intro n
  induction n with
  | zero => intro st _; exact post_outOfFuel
  | succ n ih =>
    intro st hl
    unfold readNumberLoop
    repeat' first
      | refine post_mono (ih _ (by assumption)) (fun b hb => ⟨hb.1,
          by have := hb.2.1; dsimp only at this; omega,
          fun _ _ => by have := hb.2.1; dsimp only at this; omega⟩)
      | exact post_outOfFuel
      | refine post_readChar (by assumption) ?_
      | refine post_peekChar ?_
      | refine post_prevChar ?_
      | refine post_runeSlice ?_
      | refine post_runeAt ?_
      | refine post_bind ?_
      | refine post_ite ?_ ?_
      | refine post_pure ?_
      | intro _
      | (fail_if_no_progress dsimp only)
    all_goals first
      | exact ⟨by assumption, by dsimp only [scannedTo]; omega,
          fun _ _ => by dsimp only [scannedTo]; omega⟩
      | (refine ⟨by assumption, by dsimp only [scannedTo]; omega, fun hd ha => ?_⟩
         have := isDigit_not_sign _ hd
         tauto)

theorem post_readNumber (u : UnicodeTables) (hdig : ∀ c, isDigit c = true → u.ToLower c = c)
    (l0 : Lexer) (n : Nat) (l : Lexer) (hl : readsOn l0 l) (hd : isDigit l.ch = true) :
    Post (fun r => readsOn l0 r.2 ∧ l.position < r.2.position) (readNumber u n l) := by
  have hallowed : isCharAllowedInNumber u l.ch = true := by
    unfold isCharAllowedInNumber
    simp only [hdig l.ch hd, hd, Bool.true_or]
  unfold readNumber
  refine post_bind (post_mono (post_readNumberLoop u l0 l.position n _ hl) ?_)
  intro r hr
  have h3 := hr.2.2 hd hallowed
  cases r with
  | inl res => exact post_pure ⟨hr.1, h3⟩
  | inr l2 =>
    dsimp only
    refine post_bind (post_runeAt ?_)
    intro last
    refine post_bind (post_runeSlice ?_)
    intro cs
    refine post_ite ?_ ?_ <;> (intro _; exact post_pure ⟨hr.1, h3⟩)

theorem post_readStringLoop (l0 : Lexer) (quote : Char) :
    ∀ (n : Nat) (l : Lexer) (chars : List Char) (de : Bool), readsOn l0 l →
      Post (fun r => readsOn l0 r.2 ∧ l.position < r.2.position)
        (readStringLoop quote n l chars de) := by
  intro n
  induction n with
  | zero => intro l _ _ _; exact post_outOfFuel
  | succ n ih =>
    intro l chars de hl
    unfold readStringLoop
    repeat' first
      | refine post_mono (ih _ _ _ (by assumption)) (fun b hb => ⟨hb.1, by omega⟩)
      | exact post_outOfFuel
      | refine post_readChar (by assumption) ?_
      | refine post_peekChar ?_
      | refine post_prevChar ?_
      | refine post_runeSlice ?_
      | refine post_runeAt ?_
      | refine post_bind ?_
      | refine post_ite ?_ ?_
      | refine post_pure ?_
      | intro _
      | (fail_if_no_progress dsimp only)
    all_goals exact ⟨by assumption, by dsimp only; omega⟩

theorem post_readString (l0 : Lexer) (n : Nat) (quote : Char) (l : Lexer) (hl : readsOn l0 l) :
    Post (fun r => readsOn l0 r.2 ∧ l.position < r.2.position) (readString n quote l) :=
  post_readStringLoop l0 quote n l [] false hl

theorem post_peekChar_eq {l : Lexer} {Q : Char → Prop} (h : ∀ c, peekChar l = .ok c → Q c) :
    Post Q (peekChar l) := by
  unfold Post
  exact fun c hc => h c hc

theorem step_skipWhitespace {l0 l : Lexer} {n : Nat} {Q : Lexer → Prop} (hl : readsOn l0 l)
    (k : ∀ l2, readsOn l0 l2 → l.position ≤ l2.position → Q l2) :
    Post Q (skipWhitespace n l) :=
  post_mono (post_skipWhitespace l0 n l hl) (fun l2 h => k l2 h.1 h.2)

theorem step_readLine {l0 l : Lexer} {n : Nat} {Q : String × Lexer → Prop} (hl : readsOn l0 l)
    (k : ∀ lit l2, readsOn l0 l2 → l.position < l2.position → Q (lit, l2)) :
    Post Q (readLine n l) :=
  post_mono (post_readLine l0 n l hl) (fun r h => k r.1 r.2 h.1 h.2)

theorem step_readString {l0 l : Lexer} {n : Nat} {quote : Char} {Q : String × Lexer → Prop}
    (hl : readsOn l0 l)
    (k : ∀ lit l2, readsOn l0 l2 → l.position < l2.position → Q (lit, l2)) :
    Post Q (readString n quote l) :=
  post_mono (post_readString l0 n quote l hl) (fun r h => k r.1 r.2 h.1 h.2)

theorem step_readLogicalOperator {l0 l : Lexer} {Q : String × Lexer → Prop} (hl : readsOn l0 l)
    (k : ∀ lit l2, readsOn l0 l2 → l.position < l2.position → Q (lit, l2)) :
    Post Q (readLogicalOperator l) :=
  post_mono (post_readLogicalOperator l0 l hl) (fun r h => k r.1 r.2 h.1 h.2)

theorem step_readIdentifier {u : UnicodeTables} {l0 l : Lexer} {n : Nat}
    {Q : String × Lexer → Prop} (hl : readsOn l0 l) (hc : isLetter u l.ch = true)
    (k : ∀ lit l2, readsOn l0 l2 → l.position < l2.position → Q (lit, l2)) :
    Post Q (readIdentifier u n l) :=
  post_mono (post_readIdentifier u l0 n l hl hc) (fun r h => k r.1 r.2 h.1 h.2)

theorem step_readNumber {u : UnicodeTables} (hdig : ∀ c, isDigit c = true → u.ToLower c = c)
    {l0 l : Lexer} {n : Nat} {Q : (String × String) × Lexer → Prop} (hl : readsOn l0 l)
    (hd : isDigit l.ch = true)
    (k : ∀ lit kind l2, readsOn l0 l2 → l.position < l2.position → Q ((lit, kind), l2)) :
    Post Q (readNumber u n l) :=
  post_mono (post_readNumber u hdig l0 n l hl hd) (fun r h => k r.1.1 r.1.2 r.2 h.1 h.2)

theorem step_readCommand {l0 l : Lexer} {n : Nat} {c : Char} {Q : String × Lexer → Prop}
    (hl : readsOn l0 l) (hpk : peekChar l = .ok c) (hc : c = '(')
    (k : ∀ lit l2, l2.input = l0.input → l2.lineMap = l0.lineMap →
      l.position < l2.readPosition → Q (lit, l2)) :
    Post Q (readCommand n l) :=
  post_mono (post_readCommand l0 n l hl (by rw [hpk, hc]))
    (fun r h => k r.1 r.2 h.1 h.2.1 h.2.2)

/-- The `readChar` after `readCommand`, which may have left the read position
at the position. -/
theorem post_readChar_loose {l0 l lx : Lexer} {Q : Lexer → Prop} (hl : readsOn l0 l)
    (h1 : lx.input = l0.input) (h2 : lx.lineMap = l0.lineMap)
    (h3 : l.position < lx.readPosition)
    (k : ∀ l3, readsOn l0 l3 → l.position < l3.position → Q l3) : Post Q (readChar lx) := by
  unfold Post
  intro l3 hr
  obtain ⟨i, m, p, r, _⟩ := readChar_fields lx l3 hr
  obtain ⟨_, _, _, p0, q0⟩ := hl
  exact k l3 ⟨i.trans h1, m.trans h2, by omega, p0, by omega⟩ (by omega)

set_option maxHeartbeats 8000000 in
/-- A call of `NextToken` keeps the input and the line map, leaves the read
position one past the position, and moves the position forward. -/
theorem post_NextToken (u : UnicodeTables) (hdig : ∀ c, isDigit c = true → u.ToLower c = c) :
    ∀ (n : Nat) (l0 l : Lexer), readsOn l0 l →
      Post (fun r => readsOn l0 r.2 ∧ l.position < r.2.position) (NextToken u n l) := by
  intro n
  induction n with
  | zero => intro l0 l _; exact post_outOfFuel
  | succ n ih =>
    intro l0 l hl
    unfold NextToken
    repeat' first
      | with_reducible refine post_mono (ih _ _ (by assumption)) (fun b hb => ⟨hb.1, by omega⟩)
      | with_reducible exact post_outOfFuel
      | with_reducible refine step_skipWhitespace (by assumption) ?_
      | with_reducible refine step_readLine (by assumption) ?_
      | with_reducible refine step_readString (by assumption) ?_
      | with_reducible refine step_readLogicalOperator (by assumption) ?_
      | with_reducible refine step_readIdentifier (by assumption) (by assumption) ?_
      | with_reducible refine step_readNumber hdig (by assumption) (by assumption) ?_
      | with_reducible refine step_readCommand (by assumption) (by assumption) (by assumption) ?_
      | with_reducible refine post_readChar (by assumption) ?_
      | refine post_readChar_loose hl (by dsimp only; assumption) (by dsimp only; assumption)
          (by dsimp only; omega) ?_
      | with_reducible refine post_peekChar_eq ?_
      | with_reducible refine post_peekChars ?_
      | with_reducible refine post_prevChar ?_
      | with_reducible refine post_runeSlice ?_
      | with_reducible refine post_runeAt ?_
      | with_reducible refine post_bind ?_
      | with_reducible refine post_ite ?_ ?_
      | with_reducible refine post_pure ?_
      | intro _
      | (fail_if_no_progress dsimp only)
    all_goals exact ⟨by assumption, by (try dsimp only at *); omega⟩

/-! ### The tokens of a source, read again -/

/-- The trace of a lexer, built from its first token and the trace after it. -/
theorem lexTrace_cons (h : parser.Host) (n : Nat) (l : Lexer) (x : Token × Lexer)
    (rest : List (Token × Lexer)) (hn : NextToken h.tables (parser.lexFuel l) l = .ok x)
    (hr : lexTrace h n x.2 = .ok rest) : lexTrace h (n + 1) l = .ok (x :: rest) := by
  obtain ⟨t, l1⟩ := x
  unfold lexTrace
  rw [hn]
  simp only [bind, Outcome.bind]
  rw [hr]
  rfl

/-- One more token at the end of a trace. -/
theorem lexTrace_snoc (h : parser.Host) (y x : Token × Lexer)
    (hx : NextToken h.tables (parser.lexFuel y.2) y.2 = .ok x) :
    ∀ (tr : List (Token × Lexer)) (l : Lexer),
      lexTrace h (tr.length + 1) l = .ok (tr ++ [y]) →
      lexTrace h (tr.length + 2) l = .ok (tr ++ [y, x]) := by
  intro tr
  induction tr with
  | nil =>
    intro l ht
    obtain ⟨hn, _⟩ := lexTrace_succ h 0 l y [] ht
    exact lexTrace_cons h 1 l y [x] hn (lexTrace_cons h 0 y.2 x [] hx rfl)
  | cons z rest ih =>
    intro l ht
    obtain ⟨hn, hrest⟩ := lexTrace_succ h (rest.length + 1) l z (rest ++ [y]) ht
    exact lexTrace_cons h (rest.length + 2) l z (rest ++ [y, x]) hn (ih z.2 hrest)

/-- Along a trace the lexer keeps its input and its line map, and its position
grows with every token. -/
theorem lexTrace_positions (h : parser.Host)
    (hdig : ∀ c, isDigit c = true → h.tables.ToLower c = c) (l0 : Lexer) (last : Token × Lexer) :
    ∀ (tr : List (Token × Lexer)) (l : Lexer), readsOn l0 l →
      lexTrace h (tr.length + 1) l = .ok (tr ++ [last]) →
      readsOn l0 last.2 ∧ l.position < last.2.position ∧
        ∀ x ∈ tr, x.2.position < last.2.position := by
  intro tr
  induction tr with
  | nil =>
    intro l hl ht
    obtain ⟨hn, _⟩ := lexTrace_succ h 0 l last [] ht
    obtain ⟨h1, h2⟩ := post_elim (post_NextToken h.tables hdig _ l0 l hl) hn
    exact ⟨h1, h2, fun x hx => absurd hx (List.not_mem_nil x)⟩
  | cons z rest ih =>
    intro l hl ht
    obtain ⟨hn, hrest⟩ := lexTrace_succ h (rest.length + 1) l z (rest ++ [last]) ht
    obtain ⟨h1, h2⟩ := post_elim (post_NextToken h.tables hdig _ l0 l hl) hn
    obtain ⟨h3, h4, h5⟩ := ih z.2 h1 hrest
    refine ⟨h3, by omega, ?_⟩
    intro x hx
    rcases List.mem_cons.mp hx with hx1 | hx1
    · rw [hx1]; exact h4
    · exact h5 x hx1

/-- What `lexer.New` returns: the lexer at the first rune of the source, with
the line map of the source. -/
theorem New_fields (src : String) (l0 : Lexer) (hl0 : New src = .ok l0) :
    l0.position = 0 ∧ l0.readPosition = 1 ∧ l0.input = src.data ∧
      l0.lineMap = buildLineMapLoop src.data 0 0 0 [] ∧
      (src.data ≠ [] → runeAt src.data 0 = .ok l0.ch) := by
  unfold New readChar buildLineMap at hl0
  dsimp only at hl0
  by_cases he : (0 : Int) ≥ (src.data.length : Int)
  · rw [if_pos he] at hl0
    cases hl0
    refine ⟨rfl, rfl, rfl, rfl, ?_⟩
    intro hne
    have : 0 < src.data.length := List.length_pos.mpr hne
    omega
  · rw [if_neg he] at hl0
    cases hc : runeAt src.data 0 with
    | ok c =>
      rw [hc] at hl0
      cases hl0
      exact ⟨rfl, rfl, rfl, rfl, fun _ => rfl⟩
    | panic m => rw [hc] at hl0; cases hl0
    | outOfFuel => rw [hc] at hl0; cases hl0

/-- The lexer `lexer.New` returns reads its own input. -/
theorem New_readsOn (src : String) (l0 : Lexer) (hl0 : New src = .ok l0) : readsOn l0 l0 := by
  obtain ⟨h1, h2, _⟩ := New_fields src l0 hl0
  exact ⟨rfl, rfl, by omega, by omega, le_refl _⟩

/-- The lexer `Rewind(0)` leaves is the one `lexer.New` returned for the
source: `Rewind` sets the rune, the position and the read position, and its
loop does not run. -/
theorem Rewind_to_start (u : UnicodeTables) (src : String) (l0 l : Lexer) (fuel : Nat)
    (hl0 : New src = .ok l0) (hsrc : src.data ≠ []) (hi : l.input = l0.input)
    (hm : l.lineMap = l0.lineMap) : Rewind u (fuel + 1) l 0 = .ok l0 := by
  obtain ⟨h1, h2, h3, _, h5⟩ := New_fields src l0 hl0
  have hc := h5 hsrc
  unfold Rewind
  rw [hi, h3, hc]
  simp only [bind, Outcome.bind, rewindLoop, lt_irrefl, if_false, pure]
  obtain ⟨p0, r0, c0, i0, m0⟩ := l0
  obtain ⟨p, r, c, i, m⟩ := l
  dsimp only at h1 h2 h3 hi hm ⊢
  subst h1 h2 hi hm h3
  rfl

/-- When `Rewind(0)` returns, the source is not empty. -/
theorem Rewind_returns (u : UnicodeTables) (src : String) (l0 l l1 : Lexer) (fuel : Nat)
    (hl0 : New src = .ok l0) (hi : l.input = l0.input)
    (hr : Rewind u fuel l 0 = .ok l1) : src.data ≠ [] := by
  obtain ⟨_, _, h3, _, _⟩ := New_fields src l0 hl0
  intro he
  unfold Rewind at hr
  rw [hi, h3, he] at hr
  cases hr

/-- The entries of the line map of a source that is not empty lie inside the
source: every entry `(b, e)` has `0 ≤ b ≤ e ≤ len`. -/
theorem buildLineMapLoop_inside (len : Int) :
    ∀ (cs : List Char) (b idx i : Int) (acc : List (Int × Int)),
      len = i + cs.length → 0 ≤ b → b ≤ i → (cs = [] → idx + 1 = i) →
      (∀ e ∈ acc, 0 ≤ e.1 ∧ e.1 ≤ e.2 ∧ e.2 ≤ len) →
      ∀ e ∈ buildLineMapLoop cs b idx i acc, 0 ≤ e.1 ∧ e.1 ≤ e.2 ∧ e.2 ≤ len := by
  intro cs
  induction cs with
  | nil =>
    intro b idx i acc hlen hb hbi hidx hacc e he
    unfold buildLineMapLoop at he
    have h1 := hidx rfl
    simp only [List.length_nil, Nat.cast_zero, add_zero] at hlen
    rcases List.mem_append.mp he with he1 | he1
    · exact hacc e he1
    · rw [List.mem_singleton.mp he1]
      dsimp only
      omega
  | cons c cs ih =>
    intro b idx i acc hlen hb hbi _ hacc e he
    unfold buildLineMapLoop at he
    simp only [List.length_cons, Nat.cast_add, Nat.cast_one] at hlen
    have hcs : (0 : Int) ≤ (cs.length : Int) := Int.natCast_nonneg _
    by_cases hc : c = Char.ofNat 10
    · rw [if_pos hc] at he
      refine ih (i + 1) i (i + 1) (acc ++ [(b, i)]) (by omega) (by omega) (le_refl _)
        (fun _ => rfl) ?_ e he
      intro e2 he2
      rcases List.mem_append.mp he2 with he3 | he3
      · exact hacc e2 he3
      · rw [List.mem_singleton.mp he3]
        dsimp only
        omega
    · rw [if_neg hc] at he
      exact ih b i (i + 1) acc (by omega) hb (by omega) (fun _ => rfl) hacc e he

/-- The loop of `linePosition` returns an entry of the line map or the value
it was given. -/
theorem linePositionLoop_entry (pos : Int) :
    ∀ (m : List (Int × Int)) (i : Int) (acc : Int × Int × Int),
      ((linePositionLoop pos m i acc).2.1, (linePositionLoop pos m i acc).2.2) ∈ m ∨
        linePositionLoop pos m i acc = acc := by
  intro m
  induction m with
  | nil => intro i acc; exact Or.inr rfl
  | cons e rest ih =>
    intro i acc
    obtain ⟨b, e1⟩ := e
    unfold linePositionLoop
    by_cases hc : pos ≥ b ∧ pos ≤ e1
    · rw [if_pos hc]
      exact Or.inl (List.mem_cons_self _ _)
    · rw [if_neg hc]
      rcases ih (i + 1) (i, b, e1) with h1 | h1
      · exact Or.inl (List.mem_cons_of_mem _ h1)
      · rw [h1]
        exact Or.inl (List.mem_cons_self _ _)

/-- On a lexer of a source that is not empty `ErrorLine` returns, for every
position. -/
theorem ErrorLine_returns (src : String) (l0 l : Lexer) (hl0 : New src = .ok l0)
    (hsrc : src.data ≠ []) (hi : l.input = l0.input) (hm : l.lineMap = l0.lineMap) (pos : Int) :
    ∃ r, ErrorLine l pos = .ok r := by
  obtain ⟨_, _, h3, h4, _⟩ := New_fields src l0 hl0
  have hin : ∀ e ∈ l.lineMap, 0 ≤ e.1 ∧ e.1 ≤ e.2 ∧ e.2 ≤ (l.input.length : Int) := by
    rw [hm, h4, hi, h3]
    refine buildLineMapLoop_inside _ src.data 0 0 0 [] (by omega) (le_refl _) (le_refl _)
      (fun he => absurd he hsrc) (fun e he => absurd he (List.not_mem_nil e))
  have hb : 0 ≤ (linePosition l pos).2.1 ∧ (linePosition l pos).2.1 ≤ (linePosition l pos).2.2 ∧
      (linePosition l pos).2.2 ≤ (l.input.length : Int) := by
    unfold linePosition
    dsimp only
    rcases linePositionLoop_entry pos l.lineMap 0 (0, 0, 0) with h1 | h1
    · exact hin _ h1
    · rw [h1]
      dsimp only
      exact ⟨le_refl _, le_refl _, Int.natCast_nonneg _⟩
  unfold ErrorLine runeSlice
  have hno : ¬ ((linePosition l pos).2.1 < 0 ∨ (linePosition l pos).2.2 < (linePosition l pos).2.1 ∨
      (l.input.length : Int) < (linePosition l pos).2.2) := by omega
  simp only [hno, if_false, bind, Outcome.bind, pure]
  exact ⟨_, rfl⟩

/-- When the lexer yields a token and `ErrorLine` returns, `nextToken`
returns: the peek token becomes the current one, the token the lexer yields the
peek token. -/
theorem nextToken_runs (h : parser.Host) (p : parser.Parser) (t : Token) (l1 : Lexer)
    (hl : NextToken h.tables (parser.lexFuel p.l) p.l = .ok (t, l1))
    (hE : ∀ pos, ∃ r, ErrorLine l1 pos = .ok r) :
    ∃ errs, parser.nextToken h p
      = .ok ((), ⟨l1, errs, p.peekToken, t, p.prevIndexExpression, p.prevPropertyExpression⟩) := by
  by_cases hp : p.peekToken.Type_ = token.ILLEGAL
  · obtain ⟨r, hr⟩ := hE p.peekToken.Position
    obtain ⟨ln, col, line⟩ := r
    refine ⟨p.errors ++ [("Bu tokenin kullanımı yasak: \x27" ++ p.peekToken.Literal ++ "\x27")
      ++ "\n\x1b[97m\n" ++ toString ln ++ ":" ++ toString col ++ "> " ++ line ++ " "], ?_⟩
    simp only [parser.nextToken, parse_bind, parse_get, parse_lift, hl, parse_set, hp, if_true,
      parser.reportError, hr]
  · exact ⟨p.errors, nextToken_ok h p t l1 hp hl⟩

/-- What `nextToken` leaves when it returns. -/
theorem nextToken_result (h : parser.Host) (p p1 : parser.Parser)
    (hr : parser.nextToken h p = .ok ((), p1)) :
    NextToken h.tables (parser.lexFuel p.l) p.l = .ok (p1.peekToken, p1.l) ∧
      p1.curToken = p.peekToken := by
  simp only [parser.nextToken, parse_bind, parse_get, parse_lift] at hr
  cases hN : NextToken h.tables (parser.lexFuel p.l) p.l with
  | ok r =>
    obtain ⟨t, l1⟩ := r
    rw [hN] at hr
    simp only [parse_set] at hr
    by_cases hi : p.peekToken.Type_ = token.ILLEGAL
    · rw [if_pos hi] at hr
      simp only [parser.reportError, parse_bind, parse_get, parse_lift] at hr
      cases hE : ErrorLine l1 p.peekToken.Position with
      | ok r =>
        rw [hE] at hr
        simp only [parse_set] at hr
        cases hr
        exact ⟨rfl, rfl⟩
      | panic m => rw [hE] at hr; cases hr
      | outOfFuel => rw [hE] at hr; cases hr
    · rw [if_neg hi] at hr
      cases hr
      exact ⟨rfl, rfl⟩
  | panic m => rw [hN] at hr; cases hr
  | outOfFuel => rw [hN] at hr; cases hr

/-- The loop of `(*Parser).Rewind` along a trace of the lexer that ends at the
position: with enough fuel it returns, and what it returns stands on the last
two tokens of the trace, with the lexer the last token left. -/
theorem rewindTokens_replay (h : parser.Host)
    (hdig : ∀ c, isDigit c = true → h.tables.ToLower c = c) (l0 : Lexer) (pos : Int)
    (x last : Token × Lexer)
    (hE : ∀ (l1 : Lexer) (p : Int), readsOn l0 l1 → ∃ r, ErrorLine l1 p = .ok r)
    (hx : x.2.position < pos) (hlast : ¬ (last.2.position < pos)) :
    ∀ (trace : List (Token × Lexer)) (q : parser.Parser) (k : Nat), readsOn l0 q.l →
      lexTrace h (trace.length + 2) q.l = .ok (trace ++ [x, last]) →
      (∀ y ∈ trace, y.2.position < pos) → q.l.position < pos →
      (trace.length + 3 ≤ k → ∃ p2, parser.rewindTokens h pos k q = .ok ((), p2)) ∧
      (∀ p2, parser.rewindTokens h pos k q = .ok ((), p2) →
        p2.curToken = x.1 ∧ p2.peekToken = last.1 ∧ p2.l = last.2) := by
  intro trace
  induction trace with
  | nil =>
    intro q k hql ht _ hq
    obtain ⟨hn1, ht1⟩ := lexTrace_succ h 1 q.l x [last] ht
    obtain ⟨hn2, _⟩ := lexTrace_succ h 0 x.2 last [] ht1
    have hr1 := (post_elim (post_NextToken h.tables hdig _ l0 q.l hql) hn1).1
    have hr2 := (post_elim (post_NextToken h.tables hdig _ l0 x.2 hr1) hn2).1
    obtain ⟨e1, hnext1⟩ := nextToken_runs h q x.1 x.2 hn1 (fun p => hE _ p hr1)
    obtain ⟨e2, hnext2⟩ := nextToken_runs h
      ⟨x.2, e1, q.peekToken, x.1, q.prevIndexExpression, q.prevPropertyExpression⟩ last.1 last.2
      hn2 (fun p => hE _ p hr2)
    have hrun : ∀ k3, parser.rewindTokens h pos (k3 + 3) q
        = .ok ((), ⟨last.2, e2, x.1, last.1, q.prevIndexExpression,
            q.prevPropertyExpression⟩) := by
      intro k3
      rw [parser.rewindTokens]
      simp only [parse_bind, parse_get, CurrentPosition, hq, if_true, hnext1]
      rw [parser.rewindTokens]
      simp only [parse_bind, parse_get, CurrentPosition, hx, if_true, hnext2]
      rw [parser.rewindTokens]
      simp only [parse_bind, parse_get, CurrentPosition, hlast, if_false, parse_pure]
    constructor
    · intro hk
      obtain ⟨k3, rfl⟩ : ∃ k3, k = k3 + 3 := ⟨k - 3, by
        simp only [List.length_nil] at hk; omega⟩
      exact ⟨_, hrun k3⟩
    · intro p2 hp2
      match k, hp2 with
      | 0, hp2 => cases hp2
      | 1, hp2 =>
        rw [parser.rewindTokens] at hp2
        simp only [parse_bind, parse_get, CurrentPosition, hq, if_true, hnext1,
          parser.rewindTokens] at hp2
        cases hp2
      | 2, hp2 =>
        rw [parser.rewindTokens] at hp2
        simp only [parse_bind, parse_get, CurrentPosition, hq, if_true, hnext1] at hp2
        rw [parser.rewindTokens] at hp2
        simp only [parse_bind, parse_get, CurrentPosition, hx, if_true, hnext2,
          parser.rewindTokens] at hp2
        cases hp2
      | k3 + 3, hp2 =>
        rw [hrun k3] at hp2
        cases hp2
        exact ⟨rfl, rfl, rfl⟩
  | cons z rest ih =>
    intro q k hql ht hall hq
    obtain ⟨hn, hrest⟩ := lexTrace_succ h (rest.length + 2) q.l z (rest ++ [x, last]) ht
    have hr1 := (post_elim (post_NextToken h.tables hdig _ l0 q.l hql) hn).1
    obtain ⟨e1, hnext⟩ := nextToken_runs h q z.1 z.2 hn (fun p => hE _ p hr1)
    have hz := hall z (List.mem_cons_self z rest)
    obtain ⟨ih1, ih2⟩ := ih
      ⟨z.2, e1, q.peekToken, z.1, q.prevIndexExpression, q.prevPropertyExpression⟩ (k - 1) hr1
      hrest
      (fun y hy => hall y (List.mem_cons_of_mem z hy)) hz
    have hstep : ∀ k1, parser.rewindTokens h pos (k1 + 1) q = parser.rewindTokens h pos k1
        ⟨z.2, e1, q.peekToken, z.1, q.prevIndexExpression, q.prevPropertyExpression⟩ := by
      intro k1
      rw [parser.rewindTokens]
      simp only [parse_bind, parse_get, CurrentPosition, hq, if_true, hnext]
    constructor
    · intro hk
      obtain ⟨k1, rfl⟩ : ∃ k1, k = k1 + 1 := ⟨k - 1, by
        simp only [List.length_cons] at hk; omega⟩
      rw [hstep]
      exact ih1 (by simp only [List.length_cons] at hk; omega)
    · intro p2 hp2
      match k, hp2, ih2 with
      | 0, hp2, _ => cases hp2
      | k1 + 1, hp2, ih2 =>
        rw [hstep] at hp2
        exact ih2 p2 hp2

/-- The parser after `(*Parser).Rewind` to the position of a lexer on the trace
of the source: it stands on the token that led to that lexer and on the one
before it.  With enough fuel, `Rewind` returns when the source is not empty. -/
theorem Rewind_restores (h : parser.Host)
    (hdig : ∀ c, isDigit c = true → h.tables.ToLower c = c) (src : String) (l0 : Lexer)
    (hl0 : New src = .ok l0) (pre : List (Token × Lexer)) (x last : Token × Lexer)
    (htr : lexTrace h (pre.length + 2) l0 = .ok (pre ++ [x, last]))
    (q : parser.Parser) (hq : readsOn l0 q.l) (k : Nat) :
    (src.data ≠ [] → pre.length + 3 ≤ k →
      ∃ p2, parser.Rewind h k last.2.position q = .ok ((), p2)) ∧
    (∀ p2, parser.Rewind h k last.2.position q = .ok ((), p2) →
      p2.curToken = x.1 ∧ p2.peekToken = last.1 ∧ p2.l = last.2) := by
  have h00 := New_readsOn src l0 hl0
  have htr2 : lexTrace h ((pre ++ [x]).length + 1) l0 = .ok ((pre ++ [x]) ++ [last]) := by
    rw [List.length_append, List.length_singleton, List.append_assoc]
    exact htr
  obtain ⟨_, hp0, hpall⟩ := lexTrace_positions h hdig l0 last (pre ++ [x]) l0 h00 htr2
  have hx := hpall x (List.mem_append_right _ (List.mem_singleton_self x))
  have hall : ∀ y ∈ pre, y.2.position < last.2.position :=
    fun y hy => hpall y (List.mem_append_left _ hy)
  have key : ∀ (hsrc : src.data ≠ []),
      parser.Rewind h k last.2.position q
        = parser.rewindTokens h last.2.position k { q with l := l0 } := by
    intro hsrc
    have hR : Rewind h.tables (parser.lexFuel q.l) q.l 0 = .ok l0 :=
      Rewind_to_start h.tables src l0 q.l (q.l.input.length + 1) hl0 hsrc hq.1 hq.2.1
    simp only [parser.Rewind, parse_bind, parse_get, parse_lift, hR, parse_set]
  have hlt : ¬ (last.2.position < last.2.position) := lt_irrefl _
  have hrep := fun (hsrc : src.data ≠ []) => rewindTokens_replay h hdig l0 last.2.position x last
    (fun l1 p hl1 => ErrorLine_returns src l0 l1 hl0 hsrc hl1.1 hl1.2.1 p) hx hlt pre
    { q with l := l0 } k h00 htr hall hp0
  constructor
  · intro hsrc hk
    rw [key hsrc]
    exact (hrep hsrc).1 hk
  · intro p2 hp2
    have hsrc : src.data ≠ [] := by
      simp only [parser.Rewind, parse_bind, parse_get, parse_lift] at hp2
      cases hR : Rewind h.tables (parser.lexFuel q.l) q.l 0 with
      | ok l1 => exact Rewind_returns h.tables src l0 q.l l1 _ hl0 hq.1 hR
      | panic m => rw [hR] at hp2; cases hp2
      | outOfFuel => rw [hR] at hp2; cases hp2
    rw [key hsrc] at hp2
    exact (hrep hsrc).2 p2 hp2

/-- At the end of an empty input the lexer yields the end of the file and
stays at the end. -/
theorem NextToken_empty (u : UnicodeTables) (l : Lexer) (x : Token × Lexer)
    (hi : l.input = []) (hc : l.ch = nul) (hr : 0 ≤ l.readPosition)
    (hx : NextToken u (parser.lexFuel l) l = .ok x) :
    x.1.Type_ = token.EOF ∧ x.2.input = [] ∧ x.2.ch = nul ∧ 0 ≤ x.2.readPosition := by
  have hf : parser.lexFuel l = 1 + 1 := by
    unfold parser.lexFuel
    rw [hi]
    rfl
  have hge : l.readPosition ≥ ((l.input.length : Nat) : Int) := by
    rw [hi]
    exact hr
  have hsk : skipWhitespace 1 l = .ok l := by
    unfold skipWhitespace
    rw [hc]
    exact if_neg (by decide)
  have hrc : readChar l
      = .ok ⟨l.readPosition, l.readPosition + 1, nul, l.input, l.lineMap⟩ := by
    unfold readChar
    rw [if_pos hge]
    rfl
  rw [hf] at hx
  unfold NextToken at hx
  rw [hsk] at hx
  simp +decide only [hc, nul, bind, Outcome.bind, pure, if_false, if_true] at hx
  rw [hrc] at hx
  cases hx
  exact ⟨rfl, hi, rfl, by dsimp only; omega⟩

/-- Every token of an empty input is the end of the file. -/
theorem lexTrace_empty (h : parser.Host) :
    ∀ (n : Nat) (l : Lexer) (tr : List (Token × Lexer)), l.input = [] → l.ch = nul →
      0 ≤ l.readPosition → lexTrace h n l = .ok tr → ∀ x ∈ tr, x.1.Type_ = token.EOF := by
  intro n
  induction n with
  | zero =>
    intro l tr _ _ _ ht x hx
    cases ht
    exact absurd hx (List.not_mem_nil x)
  | succ n ih =>
    intro l tr hi hc hr ht x hx
    cases tr with
    | nil => exact absurd hx (List.not_mem_nil x)
    | cons y rest =>
      obtain ⟨hn, hrest⟩ := lexTrace_succ h n l y rest ht
      obtain ⟨h1, h2, h3, h4⟩ := NextToken_empty h.tables l y hi hc hr hn
      rcases List.mem_cons.mp hx with hx1 | hx1
      · rw [hx1]; exact h1
      · exact ih y.2 rest h2 h3 h4 hrest x hx1

/-- A source with a token that is not the end of the file is not empty. -/
theorem source_of_token (h : parser.Host) (src : String) (l0 : Lexer) (hl0 : New src = .ok l0)
    (n : Nat) (tr : List (Token × Lexer)) (ht : lexTrace h n l0 = .ok tr) (x : Token × Lexer)
    (hx : x ∈ tr) (hne : x.1.Type_ ≠ token.EOF) : src.data ≠ [] := by
  intro he
  have hl : l0 = ⟨0, 0 + 1, nul, src.data, buildLineMapLoop src.data 0 0 0 []⟩ := by
    unfold New readChar buildLineMap at hl0
    dsimp only at hl0
    rw [he] at hl0
    rw [if_pos (by simp only [List.length_nil, Nat.cast_zero, ge_iff_le, le_refl])] at hl0
    cases hl0
    rw [he]
  have hi : l0.input = [] := by rw [hl]; exact he
  have hc : l0.ch = nul := by rw [hl]
  have hr : 0 ≤ l0.readPosition := by rw [hl]; exact Int.le.intro 1 rfl
  exact hne (lexTrace_empty h n l0 tr hi hc hr ht x hx)

/-- The lexer of a parser that stands on two consecutive tokens of a source
reads the source. -/
theorem traced_readsOn (h : parser.Host)
    (hdig : ∀ c, isDigit c = true → h.tables.ToLower c = c) (src : String) (l0 : Lexer)
    (hl0 : New src = .ok l0) (p : parser.Parser) (hp : tracedFrom h l0 p) : readsOn l0 p.l := by
  obtain ⟨pre, lc, htr⟩ := hp
  have htr2 : lexTrace h ((pre ++ [(p.curToken, lc)]).length + 1) l0
      = .ok ((pre ++ [(p.curToken, lc)]) ++ [(p.peekToken, p.l)]) := by
    rw [List.length_append, List.length_singleton, List.append_assoc]
    exact htr
  exact (lexTrace_positions h hdig l0 (p.peekToken, p.l) _ l0 (New_readsOn src l0 hl0) htr2).1

/-! ### The parser on the tokens of its source -/

/-- Standing on two consecutive tokens depends on the two tokens and the lexer
of the parser only. -/
theorem traced_of_fields (h : parser.Host) (l0 : Lexer) (p q : parser.Parser)
    (hp : tracedFrom h l0 p) (hl : q.l = p.l) (hc : q.curToken = p.curToken)
    (hk : q.peekToken = p.peekToken) : tracedFrom h l0 q := by
  obtain ⟨pre, lc, htr⟩ := hp
  refine ⟨pre, lc, ?_⟩
  rw [hl, hc, hk]
  exact htr

theorem keeps_elim {α : Type} {h : parser.Host} {l0 : Lexer} {m : parser.ParseM α}
    (hm : Keeps h l0 m) {p p1 : parser.Parser} {a : α} (hr : m p = .ok (a, p1))
    (hp : tracedFrom h l0 p) : tracedFrom h l0 p1 := by
  unfold Keeps at hm
  exact hm p a p1 hr hp

theorem keeps_pure {α : Type} {h : parser.Host} {l0 : Lexer} (a : α) :
    Keeps h l0 (pure a : parser.ParseM α) := by
  unfold Keeps
  intro p b p1 hr h0
  cases hr
  exact h0

theorem keeps_get {h : parser.Host} {l0 : Lexer} :
    Keeps h l0 (get : parser.ParseM parser.Parser) := by
  unfold Keeps
  intro p b p1 hr h0
  cases hr
  exact h0

theorem keeps_noFuel {α : Type} {h : parser.Host} {l0 : Lexer} :
    Keeps h l0 (parser.noFuel : parser.ParseM α) := by
  unfold Keeps
  intro p b p1 hr h0
  cases hr

theorem keeps_panic {α : Type} {h : parser.Host} {l0 : Lexer} (msg : String) :
    Keeps h l0 ((fun _ => .panic msg) : parser.ParseM α) := by
  unfold Keeps
  intro p b p1 hr h0
  cases hr

theorem keeps_modify {h : parser.Host} {l0 : Lexer} (f : parser.Parser → parser.Parser)
    (hf : ∀ q, (f q).l = q.l ∧ (f q).curToken = q.curToken ∧ (f q).peekToken = q.peekToken) :
    Keeps h l0 (modify f : parser.ParseM PUnit) := by
  unfold Keeps
  intro p b p1 hr h0
  cases hr
  exact traced_of_fields h l0 p (f p) h0 (hf p).1 (hf p).2.1 (hf p).2.2

theorem keeps_bind {α β : Type} {h : parser.Host} {l0 : Lexer} {m : parser.ParseM α}
    {f : α → parser.ParseM β} (hm : Keeps h l0 m) (hf : ∀ a, Keeps h l0 (f a)) :
    Keeps h l0 (m >>= f) := by
  unfold Keeps
  intro p b p1 hr h0
  rw [parse_bind] at hr
  cases hx : m p with
  | ok r =>
    obtain ⟨a, p2⟩ := r
    rw [hx] at hr
    exact keeps_elim (hf a) hr (keeps_elim hm hx h0)
  | panic msg => rw [hx] at hr; cases hr
  | outOfFuel => rw [hx] at hr; cases hr

theorem keeps_ite {α : Type} {h : parser.Host} {l0 : Lexer} {c : Prop} [Decidable c]
    {x y : parser.ParseM α} (hx : Keeps h l0 x) (hy : Keeps h l0 y) :
    Keeps h l0 (if c then x else y) := by
  by_cases hc : c
  · rw [if_pos hc]; exact hx
  · rw [if_neg hc]; exact hy

theorem keeps_reportError {h : parser.Host} {l0 : Lexer} (err : String) (tok : Token) :
    Keeps h l0 (parser.reportError err tok) := by
  unfold Keeps
  intro p b p1 hr h0
  simp only [parser.reportError, parse_bind, parse_get, parse_lift] at hr
  cases hE : ErrorLine p.l tok.Position with
  | ok r =>
    obtain ⟨a, b2, c⟩ := r
    rw [hE] at hr
    simp only [parse_set] at hr
    cases hr
    exact traced_of_fields h l0 p _ h0 rfl rfl rfl
  | panic m => rw [hE] at hr; cases hr
  | outOfFuel => rw [hE] at hr; cases hr

/-- After `nextToken` the parser stands on the next two consecutive tokens. -/
theorem keeps_nextToken (h : parser.Host) (l0 : Lexer) : Keeps h l0 (parser.nextToken h) := by
  unfold Keeps
  intro p b p1 hr h0
  obtain ⟨hn, hc⟩ := nextToken_result h p p1 hr
  obtain ⟨pre, lc, htr⟩ := h0
  refine ⟨pre ++ [(p.curToken, lc)], p.l, ?_⟩
  have h1 : lexTrace h ((pre ++ [(p.curToken, lc)]).length + 1) l0
      = .ok ((pre ++ [(p.curToken, lc)]) ++ [(p.peekToken, p.l)]) := by
    rw [List.length_append, List.length_singleton, List.append_assoc]
    exact htr
  rw [hc]
  exact lexTrace_snoc h (p.peekToken, p.l) (p1.peekToken, p1.l) hn _ l0 h1

/-- The parser `parser.New` returns stands on the first two tokens of the
source. -/
theorem New_traced (h : parser.Host) (l0 : Lexer) (p : parser.Parser)
    (hp : parser.New h l0 = .ok p) : tracedFrom h l0 p := by
  simp only [parser.New, bind, Outcome.bind, pure] at hp
  cases h1 : parser.nextToken h
      ⟨l0, [], parser.zeroToken, parser.zeroToken, .nil, .nil⟩ with
  | ok r1 =>
    obtain ⟨u1, p1⟩ := r1
    rw [h1] at hp
    dsimp only at hp
    cases h2 : parser.nextToken h p1 with
    | ok r2 =>
      obtain ⟨u2, p2⟩ := r2
      rw [h2] at hp
      dsimp only at hp
      cases hp
      obtain ⟨hn1, hc1⟩ := nextToken_result h _ p1 h1
      obtain ⟨hn2, hc2⟩ := nextToken_result h p1 p h2
      refine ⟨[], p1.l, ?_⟩
      rw [hc2]
      exact lexTrace_cons h 1 l0 (p1.peekToken, p1.l) [(p.peekToken, p.l)] hn1
        (lexTrace_cons h 0 p1.l (p.peekToken, p.l) [] hn2 rfl)
    | panic m => rw [h2] at hp; cases hp
    | outOfFuel => rw [h2] at hp; cases hp
  | panic m => rw [h1] at hp; cases hp
  | outOfFuel => rw [h1] at hp; cases hp

/-- Through `parser.peekError` the parser stays on consecutive tokens of its
source. -/
theorem keeps_peekError (h : parser.Host) (l0 : Lexer) :
    ∀ tok, Keeps h l0 (parser.peekError tok) := by
  intro tok
  unfold parser.peekError
  repeat' first
    | with_reducible refine keeps_bind ?_ ?_
    | with_reducible exact keeps_pure _
    | with_reducible exact keeps_get
    | with_reducible exact keeps_reportError _ _
    | intro _

/-- Through `parser.expectPeek` the parser stays on consecutive tokens of its
source. -/
theorem keeps_expectPeek (h : parser.Host) (l0 : Lexer) :
    ∀ typ, Keeps h l0 (parser.expectPeek h typ) := by
  intro typ
  unfold parser.expectPeek
  repeat' first
    | with_reducible refine keeps_bind ?_ ?_
    | with_reducible refine keeps_ite ?_ ?_
    | with_reducible exact keeps_pure _
    | with_reducible exact keeps_get
    | with_reducible exact keeps_nextToken h l0
    | with_reducible apply keeps_peekError h l0
    | intro _

/-- Through `parser.noPrefixParseFnError` the parser stays on consecutive tokens of its
source. -/
theorem keeps_noPrefixParseFnError (h : parser.Host) (l0 : Lexer) :
    ∀ tok, Keeps h l0 (parser.noPrefixParseFnError tok) := by
  intro tok
  unfold parser.noPrefixParseFnError
  repeat' first
    | with_reducible refine keeps_bind ?_ ?_
    | with_reducible exact keeps_pure _
    | with_reducible exact keeps_reportError _ _

/-- Through `parser.skipSemicolon` the parser stays on consecutive tokens of its
source. -/
theorem keeps_skipSemicolon (h : parser.Host) (l0 : Lexer) :
    Keeps h l0 (parser.skipSemicolon h) := by
  unfold parser.skipSemicolon
  repeat' first
    | with_reducible refine keeps_bind ?_ ?_
    | with_reducible refine keeps_ite ?_ ?_
    | with_reducible exact keeps_pure _
    | with_reducible exact keeps_get
    | with_reducible exact keeps_nextToken h l0
    | intro _

/-- Through `parser.parseIdentifier` the parser stays on consecutive tokens of its
source. -/
theorem keeps_parseIdentifier (h : parser.Host) (l0 : Lexer) :
    Keeps h l0 (parser.parseIdentifier) := by
  unfold parser.parseIdentifier
  repeat' first
    | with_reducible refine keeps_bind ?_ ?_
    | with_reducible exact keeps_pure _
    | with_reducible exact keeps_get
    | intro _

/-- Through `parser.ParseStringLiteral` the parser stays on consecutive tokens of its
source. -/
theorem keeps_ParseStringLiteral (h : parser.Host) (l0 : Lexer) :
    Keeps h l0 (parser.ParseStringLiteral) := by
  unfold parser.ParseStringLiteral
  repeat' first
    | with_reducible refine keeps_bind ?_ ?_
    | with_reducible exact keeps_pure _
    | with_reducible exact keeps_get
    | intro _

/-- Through `parser.ParseNullLiteral` the parser stays on consecutive tokens of its
source. -/
theorem keeps_ParseNullLiteral (h : parser.Host) (l0 : Lexer) :
    Keeps h l0 (parser.ParseNullLiteral) := by
  unfold parser.ParseNullLiteral
  repeat' first
    | with_reducible refine keeps_bind ?_ ?_
    | with_reducible exact keeps_pure _
    | with_reducible exact keeps_get
    | intro _

/-- Through `parser.ParseBoolean` the parser stays on consecutive tokens of its
source. -/
theorem keeps_ParseBoolean (h : parser.Host) (l0 : Lexer) :
    Keeps h l0 (parser.ParseBoolean) := by
  unfold parser.ParseBoolean
  repeat' first
    | with_reducible refine keeps_bind ?_ ?_
    | with_reducible exact keeps_pure _
    | with_reducible exact keeps_get
    | intro _

/-- Through `parser.parseCommand` the parser stays on consecutive tokens of its
source. -/
theorem keeps_parseCommand (h : parser.Host) (l0 : Lexer) :
    Keeps h l0 (parser.parseCommand) := by
  unfold parser.parseCommand
  repeat' first
    | with_reducible refine keeps_bind ?_ ?_
    | with_reducible exact keeps_pure _
    | with_reducible exact keeps_get
    | intro _

/-- Through `parser.parseBreak` the parser stays on consecutive tokens of its
source. -/
theorem keeps_parseBreak (h : parser.Host) (l0 : Lexer) :
    Keeps h l0 (parser.parseBreak) := by
  unfold parser.parseBreak
  repeat' first
    | with_reducible refine keeps_bind ?_ ?_
    | with_reducible exact keeps_pure _
    | with_reducible exact keeps_get
    | intro _

/-- Through `parser.parseContinue` the parser stays on consecutive tokens of its
source. -/
theorem keeps_parseContinue (h : parser.Host) (l0 : Lexer) :
    Keeps h l0 (parser.parseContinue) := by
  unfold parser.parseContinue
  repeat' first
    | with_reducible refine keeps_bind ?_ ?_
    | with_reducible exact keeps_pure _
    | with_reducible exact keeps_get
    | intro _

/-- Through `parser.parseCurrentArgsLiteral` the parser stays on consecutive tokens of its
source. -/
theorem keeps_parseCurrentArgsLiteral (h : parser.Host) (l0 : Lexer) :
    Keeps h l0 (parser.parseCurrentArgsLiteral) := by
  unfold parser.parseCurrentArgsLiteral
  repeat' first
    | with_reducible refine keeps_bind ?_ ?_
    | with_reducible exact keeps_pure _
    | with_reducible exact keeps_get
    | intro _

/-- Through `parser.ParseNumberLiteral` the parser stays on consecutive tokens of its
source. -/
theorem keeps_ParseNumberLiteral (h : parser.Host) (l0 : Lexer) :
    Keeps h l0 (parser.ParseNumberLiteral h) := by
  unfold parser.ParseNumberLiteral
  repeat' first
    | with_reducible refine keeps_bind ?_ ?_
    | with_reducible refine keeps_ite ?_ ?_
    | with_reducible exact keeps_pure _
    | with_reducible exact keeps_get
    | with_reducible exact keeps_panic _
    | with_reducible exact keeps_reportError _ _
    | intro _
    | split
    | dsimp only

/-- Through `parser.parseExpressionListLoop` the parser stays on consecutive tokens of its
source. -/
theorem keeps_parseExpressionListLoop (h : parser.Host) (l0 : Lexer)
    (pe : parser.ExpressionParser) (hpe : ∀ prec, Keeps h l0 (pe prec)) :
    ∀ j list, Keeps h l0 (parser.parseExpressionListLoop h pe j list) := by
  intro j
  induction j with
  | zero =>
    intro list
    unfold parser.parseExpressionListLoop
    exact keeps_noFuel
  | succ j ih =>
    intro list
    unfold parser.parseExpressionListLoop
    repeat' first
      | with_reducible refine keeps_bind ?_ ?_
      | with_reducible refine keeps_ite ?_ ?_
      | with_reducible exact keeps_pure _
      | with_reducible exact keeps_get
      | with_reducible exact keeps_noFuel
      | with_reducible exact keeps_nextToken h l0
      | with_reducible exact hpe _
      | with_reducible exact ih _
      | intro _

/-- Through `parser.parseExpressionList` the parser stays on consecutive tokens of its
source. -/
theorem keeps_parseExpressionList (h : parser.Host) (l0 : Lexer) (pe : parser.ExpressionParser)
    (hpe : ∀ prec, Keeps h l0 (pe prec)) :
    ∀ k e, Keeps h l0 (parser.parseExpressionList h pe k e) := by
  intro k e
  unfold parser.parseExpressionList
  repeat' first
    | with_reducible refine keeps_bind ?_ ?_
    | with_reducible refine keeps_ite ?_ ?_
    | with_reducible exact keeps_pure _
    | with_reducible exact keeps_get
    | with_reducible exact keeps_nextToken h l0
    | with_reducible exact hpe _
    | with_reducible apply keeps_parseExpressionListLoop h l0 pe hpe
    | with_reducible apply keeps_expectPeek h l0
    | intro _

/-- Through `parser.parsePrefixExpression` the parser stays on consecutive tokens of its
source. -/
theorem keeps_parsePrefixExpression (h : parser.Host) (l0 : Lexer)
    (pe : parser.ExpressionParser) (hpe : ∀ prec, Keeps h l0 (pe prec)) :
    Keeps h l0 (parser.parsePrefixExpression h pe) := by
  unfold parser.parsePrefixExpression
  repeat' first
    | with_reducible refine keeps_bind ?_ ?_
    | with_reducible refine keeps_ite ?_ ?_
    | with_reducible exact keeps_pure _
    | with_reducible exact keeps_get
    | with_reducible exact keeps_nextToken h l0
    | with_reducible exact hpe _
    | intro _

/-- Through `parser.parseInfixExpression` the parser stays on consecutive tokens of its
source. -/
theorem keeps_parseInfixExpression (h : parser.Host) (l0 : Lexer) (pe : parser.ExpressionParser)
    (hpe : ∀ prec, Keeps h l0 (pe prec)) :
    ∀ left, Keeps h l0 (parser.parseInfixExpression h pe left) := by
  intro left
  unfold parser.parseInfixExpression
  repeat' first
    | with_reducible refine keeps_bind ?_ ?_
    | with_reducible exact keeps_pure _
    | with_reducible exact keeps_get
    | with_reducible exact keeps_nextToken h l0
    | with_reducible exact hpe _
    | intro _

/-- Through `parser.parseCompoundAssignment` the parser stays on consecutive tokens of its
source. -/
theorem keeps_parseCompoundAssignment (h : parser.Host) (l0 : Lexer)
    (pe : parser.ExpressionParser) (hpe : ∀ prec, Keeps h l0 (pe prec)) :
    ∀ left, Keeps h l0 (parser.parseCompoundAssignment h pe left) := by
  intro left
  unfold parser.parseCompoundAssignment
  repeat' first
    | with_reducible refine keeps_bind ?_ ?_
    | with_reducible exact keeps_pure _
    | with_reducible exact keeps_get
    | with_reducible exact keeps_nextToken h l0
    | with_reducible exact hpe _
    | intro _

/-- Through `parser.parseDottedExpression` the parser stays on consecutive tokens of its
source. -/
theorem keeps_parseDottedExpression (h : parser.Host) (l0 : Lexer)
    (pe : parser.ExpressionParser) (hpe : ∀ prec, Keeps h l0 (pe prec)) :
    ∀ k o, Keeps h l0 (parser.parseDottedExpression h pe k o) := by
  intro k o
  unfold parser.parseDottedExpression
  repeat' first
    | with_reducible refine keeps_bind ?_ ?_
    | with_reducible refine keeps_ite ?_ ?_
    | with_reducible exact keeps_pure _
    | with_reducible exact keeps_get
    | with_reducible exact keeps_modify _ (fun _ => ⟨rfl, rfl, rfl⟩)
    | with_reducible exact keeps_nextToken h l0
    | with_reducible exact hpe _
    | with_reducible apply keeps_parseExpressionList h l0 pe hpe
    | with_reducible apply keeps_parseIdentifier h l0
    | intro _

/-- Through `parser.parseQuestionExpression` the parser stays on consecutive tokens of its
source. -/
theorem keeps_parseQuestionExpression (h : parser.Host) (l0 : Lexer)
    (pe : parser.ExpressionParser) (hpe : ∀ prec, Keeps h l0 (pe prec)) :
    ∀ k o, Keeps h l0 (parser.parseQuestionExpression h pe k o) := by
  intro k o
  unfold parser.parseQuestionExpression
  repeat' first
    | with_reducible refine keeps_bind ?_ ?_
    | with_reducible exact keeps_pure _
    | with_reducible exact keeps_modify _ (fun _ => ⟨rfl, rfl, rfl⟩)
    | with_reducible exact keeps_nextToken h l0
    | with_reducible exact hpe _
    | with_reducible apply keeps_parseDottedExpression h l0 pe hpe
    | intro _
    | split

/-- Through `parser.parseGroupedExpression` the parser stays on consecutive tokens of its
source. -/
theorem keeps_parseGroupedExpression (h : parser.Host) (l0 : Lexer)
    (pe : parser.ExpressionParser) (hpe : ∀ prec, Keeps h l0 (pe prec)) :
    Keeps h l0 (parser.parseGroupedExpression h pe) := by
  unfold parser.parseGroupedExpression
  repeat' first
    | with_reducible refine keeps_bind ?_ ?_
    | with_reducible refine keeps_ite ?_ ?_
    | with_reducible exact keeps_pure _
    | with_reducible exact keeps_nextToken h l0
    | with_reducible exact hpe _
    | with_reducible apply keeps_expectPeek h l0
    | intro _

/-- Through `parser.parseCallExpression` the parser stays on consecutive tokens of its
source. -/
theorem keeps_parseCallExpression (h : parser.Host) (l0 : Lexer) (pe : parser.ExpressionParser)
    (hpe : ∀ prec, Keeps h l0 (pe prec)) :
    ∀ k f, Keeps h l0 (parser.parseCallExpression h pe k f) := by
  intro k f
  unfold parser.parseCallExpression
  repeat' first
    | with_reducible refine keeps_bind ?_ ?_
    | with_reducible exact keeps_pure _
    | with_reducible exact keeps_get
    | with_reducible exact hpe _
    | with_reducible apply keeps_parseExpressionList h l0 pe hpe
    | intro _

/-- Through `parser.ParseArrayLiteral` the parser stays on consecutive tokens of its
source. -/
theorem keeps_ParseArrayLiteral (h : parser.Host) (l0 : Lexer) (pe : parser.ExpressionParser)
    (hpe : ∀ prec, Keeps h l0 (pe prec)) :
    ∀ k, Keeps h l0 (parser.ParseArrayLiteral h pe k) := by
  intro k
  unfold parser.ParseArrayLiteral
  repeat' first
    | with_reducible refine keeps_bind ?_ ?_
    | with_reducible exact keeps_pure _
    | with_reducible exact keeps_get
    | with_reducible exact hpe _
    | with_reducible apply keeps_parseExpressionList h l0 pe hpe
    | intro _

/-- Through `parser.parseIndexEnd` the parser stays on consecutive tokens of its
source. -/
theorem keeps_parseIndexEnd (h : parser.Host) (l0 : Lexer) (pe : parser.ExpressionParser)
    (hpe : ∀ prec, Keeps h l0 (pe prec)) :
    ∀ r, Keeps h l0 (parser.parseIndexEnd h pe r) := by
  intro r
  unfold parser.parseIndexEnd
  repeat' first
    | with_reducible refine keeps_bind ?_ ?_
    | with_reducible refine keeps_ite ?_ ?_
    | with_reducible exact keeps_pure _
    | with_reducible exact keeps_get
    | with_reducible exact keeps_nextToken h l0
    | with_reducible exact hpe _
    | intro _

/-- Through `parser.parseIndexExpression` the parser stays on consecutive tokens of its
source. -/
theorem keeps_parseIndexExpression (h : parser.Host) (l0 : Lexer) (pe : parser.ExpressionParser)
    (hpe : ∀ prec, Keeps h l0 (pe prec)) :
    ∀ left, Keeps h l0 (parser.parseIndexExpression h pe left) := by
  intro left
  unfold parser.parseIndexExpression
  repeat' first
    | with_reducible refine keeps_bind ?_ ?_
    | with_reducible refine keeps_ite ?_ ?_
    | with_reducible exact keeps_pure _
    | with_reducible exact keeps_get
    | with_reducible exact keeps_modify _ (fun _ => ⟨rfl, rfl, rfl⟩)
    | with_reducible exact keeps_nextToken h l0
    | with_reducible exact hpe _
    | with_reducible apply keeps_parseIndexEnd h l0 pe hpe
    | with_reducible apply keeps_expectPeek h l0
    | intro _

/-- Through `parser.parseHashLoop` the parser stays on consecutive tokens of its
source. -/
theorem keeps_parseHashLoop (h : parser.Host) (l0 : Lexer) (pe : parser.ExpressionParser)
    (hpe : ∀ prec, Keeps h l0 (pe prec)) :
    ∀ j pairs, Keeps h l0 (parser.parseHashLoop h pe j pairs) := by
  intro j
  induction j with
  | zero =>
    intro pairs
    unfold parser.parseHashLoop
    exact keeps_noFuel
  | succ j ih =>
    intro pairs
    unfold parser.parseHashLoop
    repeat' first
      | with_reducible refine keeps_bind ?_ ?_
      | with_reducible refine keeps_ite ?_ ?_
      | with_reducible exact keeps_pure _
      | with_reducible exact keeps_get
      | with_reducible exact keeps_noFuel
      | with_reducible exact keeps_nextToken h l0
      | with_reducible exact hpe _
      | with_reducible exact ih _
      | with_reducible apply keeps_expectPeek h l0
      | intro _

/-- Through `parser.ParseHashLiteral` the parser stays on consecutive tokens of its
source. -/
theorem keeps_ParseHashLiteral (h : parser.Host) (l0 : Lexer) (pe : parser.ExpressionParser)
    (hpe : ∀ prec, Keeps h l0 (pe prec)) :
    ∀ k, Keeps h l0 (parser.ParseHashLiteral h pe k) := by
  intro k
  unfold parser.ParseHashLiteral
  repeat' first
    | with_reducible refine keeps_bind ?_ ?_
    | with_reducible refine keeps_ite ?_ ?_
    | with_reducible exact keeps_pure _
    | with_reducible exact keeps_get
    | with_reducible exact hpe _
    | with_reducible apply keeps_parseHashLoop h l0 pe hpe
    | with_reducible apply keeps_expectPeek h l0
    | intro _
    | split

/-- Through `parser.parseDestructuringLoop` the parser stays on consecutive tokens of its
source. -/
theorem keeps_parseDestructuringLoop (h : parser.Host) (l0 : Lexer)
    (pe : parser.ExpressionParser) (hpe : ∀ prec, Keeps h l0 (pe prec)) :
    ∀ j list, Keeps h l0 (parser.parseDestructuringLoop h pe j list) := by
  intro j
  induction j with
  | zero =>
    intro list
    unfold parser.parseDestructuringLoop
    exact keeps_noFuel
  | succ j ih =>
    intro list
    unfold parser.parseDestructuringLoop
    repeat' first
      | with_reducible refine keeps_bind ?_ ?_
      | with_reducible refine keeps_ite ?_ ?_
      | with_reducible exact keeps_pure _
      | with_reducible exact keeps_get
      | with_reducible exact keeps_noFuel
      | with_reducible exact keeps_nextToken h l0
      | with_reducible exact hpe _
      | with_reducible exact ih _
      | intro _

/-- Through `parser.parseDestructuringIdentifiers` the parser stays on consecutive tokens of its
source. -/
theorem keeps_parseDestructuringIdentifiers (h : parser.Host) (l0 : Lexer)
    (pe : parser.ExpressionParser) (hpe : ∀ prec, Keeps h l0 (pe prec)) :
    ∀ k, Keeps h l0 (parser.parseDestructuringIdentifiers h pe k) := by
  intro k
  unfold parser.parseDestructuringIdentifiers
  repeat' first
    | with_reducible refine keeps_bind ?_ ?_
    | with_reducible refine keeps_ite ?_ ?_
    | with_reducible exact keeps_pure _
    | with_reducible exact keeps_get
    | with_reducible exact hpe _
    | with_reducible apply keeps_parseDestructuringLoop h l0 pe hpe
    | with_reducible apply keeps_parseIdentifier h l0
    | intro _

/-- Through `parser.parseAssignValue` the parser stays on consecutive tokens of its
source. -/
theorem keeps_parseAssignValue (h : parser.Host) (l0 : Lexer) (pe : parser.ExpressionParser)
    (hpe : ∀ prec, Keeps h l0 (pe prec)) :
    ∀ name names, Keeps h l0 (parser.parseAssignValue h pe name names) := by
  intro name names
  unfold parser.parseAssignValue
  repeat' first
    | with_reducible refine keeps_bind ?_ ?_
    | with_reducible refine keeps_ite ?_ ?_
    | with_reducible exact keeps_pure _
    | with_reducible exact keeps_get
    | with_reducible exact keeps_nextToken h l0
    | with_reducible exact hpe _
    | with_reducible apply keeps_skipSemicolon h l0
    | intro _

/-- Through `parser.parseAssignStatement` the parser stays on consecutive
tokens of its source: when the function rewinds, the parser stands again on the
two tokens it stood on at the start. -/
theorem keeps_parseAssignStatement (h : parser.Host)
    (hdig : ∀ c, isDigit c = true → h.tables.ToLower c = c) (src : String) (l0 : Lexer)
    (hl0 : New src = .ok l0) (pe : parser.ExpressionParser)
    (hpe : ∀ prec, Keeps h l0 (pe prec)) :
    ∀ k, Keeps h l0 (parser.parseAssignStatement h pe k) := by
  intro k
  have hV : ∀ name names, Keeps h l0 (parser.parseAssignValue h pe name names) :=
    keeps_parseAssignValue h l0 pe hpe
  have hK : ∀ p0 : parser.Parser, Keeps h l0
      (if p0.curToken.Type_ = token.IDENT then
        parser.parseAssignValue h pe (some (p0.curToken, p0.curToken.Literal)) []
      else if p0.curToken.Type_ = token.ASSIGN then
        if isNilNode p0.prevIndexExpression = false then do
          parser.nextToken h
          let value ← pe parser.LOWEST
          modify (fun q => { q with prevIndexExpression := .nil })
          parser.skipSemicolon h
          pure (.AssignStatement p0.curToken none [] p0.prevIndexExpression .nil value)
        else if isNilNode p0.prevPropertyExpression = false then do
          parser.nextToken h
          let value ← pe parser.LOWEST
          modify (fun q => { q with prevPropertyExpression := .nil })
          parser.skipSemicolon h
          pure (.AssignStatement p0.curToken none [] .nil p0.prevPropertyExpression value)
        else parser.parseAssignValue h pe none []
      else parser.parseAssignValue h pe none [] : parser.ParseM Node) := by
    intro p0
    repeat' first
      | with_reducible refine keeps_bind ?_ ?_
      | with_reducible refine keeps_ite ?_ ?_
      | with_reducible exact keeps_pure _
      | with_reducible exact keeps_modify _ (fun _ => ⟨rfl, rfl, rfl⟩)
      | with_reducible exact keeps_nextToken h l0
      | with_reducible exact hpe _
      | with_reducible exact hV _ _
      | with_reducible exact keeps_skipSemicolon h l0
      | intro _
  unfold Keeps
  intro p a p2 hrun htr
  unfold parser.parseAssignStatement at hrun
  rw [parse_bind, parse_get] at hrun
  dsimp only at hrun
  by_cases hc : p.peekToken.Type_ = token.COMMA
  · rw [if_pos hc] at hrun
    by_cases hi : p.curToken.Type_ ≠ token.IDENT
    · rw [if_pos hi] at hrun
      cases hrun
      exact htr
    · rw [if_neg hi, parse_bind] at hrun
      cases hd : parser.parseDestructuringIdentifiers h pe k p with
      | ok r =>
        obtain ⟨names, p1⟩ := r
        rw [hd] at hrun
        dsimp only at hrun
        rw [parse_bind, parse_get] at hrun
        dsimp only at hrun
        have h1 := keeps_elim (keeps_parseDestructuringIdentifiers h l0 pe hpe k) hd htr
        by_cases hne : p1.peekToken.Type_ ≠ token.ASSIGN
        · rw [if_pos hne, parse_bind] at hrun
          cases hR : parser.Rewind h k (CurrentPosition p.l) p1 with
          | ok r2 =>
            obtain ⟨u, p3⟩ := r2
            rw [hR] at hrun
            obtain ⟨pre, lc, ht⟩ := htr
            obtain ⟨e1, e2, e3⟩ := (Rewind_restores h hdig src l0 hl0 pre (p.curToken, lc)
              (p.peekToken, p.l) ht p1 (traced_readsOn h hdig src l0 hl0 p1 h1) k).2 p3 hR
            cases hrun
            exact traced_of_fields h l0 p _ ⟨pre, lc, ht⟩ e3 e1 e2
          | panic m => rw [hR] at hrun; cases hrun
          | outOfFuel => rw [hR] at hrun; cases hrun
        · rw [if_neg hne] at hrun
          exact keeps_elim (hV _ _) hrun h1
      | panic m => rw [hd] at hrun; cases hrun
      | outOfFuel => rw [hd] at hrun; cases hrun
  · rw [if_neg hc] at hrun
    exact keeps_elim (hK p) hrun htr

/-- Through `parser.parseReturnStatement` the parser stays on consecutive tokens of its
source. -/
theorem keeps_parseReturnStatement (h : parser.Host) (l0 : Lexer) (pe : parser.ExpressionParser)
    (hpe : ∀ prec, Keeps h l0 (pe prec)) :
    Keeps h l0 (parser.parseReturnStatement h pe) := by
  unfold parser.parseReturnStatement
  repeat' first
    | with_reducible refine keeps_bind ?_ ?_
    | with_reducible refine keeps_ite ?_ ?_
    | with_reducible exact keeps_pure _
    | with_reducible exact keeps_get
    | with_reducible exact keeps_nextToken h l0
    | with_reducible exact hpe _
    | with_reducible apply keeps_skipSemicolon h l0
    | intro _

/-- Through `parser.parseExpressionStatement` the parser stays on consecutive tokens of its
source. -/
theorem keeps_parseExpressionStatement (h : parser.Host) (l0 : Lexer)
    (pe : parser.ExpressionParser) (hpe : ∀ prec, Keeps h l0 (pe prec)) :
    Keeps h l0 (parser.parseExpressionStatement h pe) := by
  unfold parser.parseExpressionStatement
  repeat' first
    | with_reducible refine keeps_bind ?_ ?_
    | with_reducible exact keeps_pure _
    | with_reducible exact keeps_get
    | with_reducible exact hpe _
    | with_reducible apply keeps_skipSemicolon h l0
    | intro _

/-- Through `parser.parseStatement` the parser stays on consecutive tokens of its
source. -/
theorem keeps_parseStatement (h : parser.Host)
    (hdig : ∀ c, isDigit c = true → h.tables.ToLower c = c) (src : String) (l0 : Lexer)
    (hl0 : New src = .ok l0) (pe : parser.ExpressionParser) (hpe : ∀ prec, Keeps h l0 (pe prec)) :
    ∀ k, Keeps h l0 (parser.parseStatement h pe k) := by
  intro k
  unfold parser.parseStatement
  repeat' first
    | with_reducible refine keeps_bind ?_ ?_
    | with_reducible refine keeps_ite ?_ ?_
    | with_reducible exact keeps_pure _
    | with_reducible exact keeps_get
    | with_reducible exact hpe _
    | with_reducible apply keeps_parseExpressionStatement h l0 pe hpe
    | with_reducible apply keeps_parseReturnStatement h l0 pe hpe
    | with_reducible apply keeps_parseAssignStatement h hdig src l0 hl0 pe hpe
    | intro _

/-- Through `parser.parseBlockLoop` the parser stays on consecutive tokens of its
source. -/
theorem keeps_parseBlockLoop (h : parser.Host)
    (hdig : ∀ c, isDigit c = true → h.tables.ToLower c = c) (src : String) (l0 : Lexer)
    (hl0 : New src = .ok l0) (pe : parser.ExpressionParser) (hpe : ∀ prec, Keeps h l0 (pe prec)) :
    ∀ j k st, Keeps h l0 (parser.parseBlockLoop h pe k j st) := by
  intro j
  induction j with
  | zero =>
    intro k st
    unfold parser.parseBlockLoop
    exact keeps_noFuel
  | succ j ih =>
    intro k st
    unfold parser.parseBlockLoop
    repeat' first
      | with_reducible refine keeps_bind ?_ ?_
      | with_reducible refine keeps_ite ?_ ?_
      | with_reducible exact keeps_pure _
      | with_reducible exact keeps_get
      | with_reducible exact keeps_noFuel
      | with_reducible exact keeps_nextToken h l0
      | with_reducible exact hpe _
      | with_reducible exact ih _ _
      | with_reducible apply keeps_parseStatement h hdig src l0 hl0 pe hpe
      | intro _

/-- Through `parser.parseBlockStatement` the parser stays on consecutive tokens of its
source. -/
theorem keeps_parseBlockStatement (h : parser.Host)
    (hdig : ∀ c, isDigit c = true → h.tables.ToLower c = c) (src : String) (l0 : Lexer)
    (hl0 : New src = .ok l0) (pe : parser.ExpressionParser) (hpe : ∀ prec, Keeps h l0 (pe prec)) :
    ∀ k, Keeps h l0 (parser.parseBlockStatement h pe k) := by
  intro k
  unfold parser.parseBlockStatement
  repeat' first
    | with_reducible refine keeps_bind ?_ ?_
    | with_reducible exact keeps_pure _
    | with_reducible exact keeps_get
    | with_reducible exact keeps_nextToken h l0
    | with_reducible exact hpe _
    | with_reducible apply keeps_parseBlockLoop h hdig src l0 hl0 pe hpe
    | intro _

/-- Through `parser.parseScenarios` the parser stays on consecutive tokens of its
source. -/
theorem keeps_parseScenarios (h : parser.Host)
    (hdig : ∀ c, isDigit c = true → h.tables.ToLower c = c) (src : String) (l0 : Lexer)
    (hl0 : New src = .ok l0) (pe : parser.ExpressionParser) (hpe : ∀ prec, Keeps h l0 (pe prec)) :
    ∀ j k sc, Keeps h l0 (parser.parseScenarios h pe k j sc) := by
  intro j
  induction j with
  | zero =>
    intro k sc
    unfold parser.parseScenarios
    exact keeps_noFuel
  | succ j ih =>
    intro k sc
    unfold parser.parseScenarios
    repeat' first
      | with_reducible refine keeps_bind ?_ ?_
      | with_reducible refine keeps_ite ?_ ?_
      | with_reducible exact keeps_pure _
      | with_reducible exact keeps_get
      | with_reducible exact keeps_noFuel
      | with_reducible exact keeps_nextToken h l0
      | with_reducible exact hpe _
      | with_reducible exact ih _ _
      | with_reducible apply keeps_parseBlockStatement h hdig src l0 hl0 pe hpe
      | with_reducible apply keeps_expectPeek h l0
      | intro _

/-- Through `parser.parseIfExpression` the parser stays on consecutive tokens of its
source. -/
theorem keeps_parseIfExpression (h : parser.Host)
    (hdig : ∀ c, isDigit c = true → h.tables.ToLower c = c) (src : String) (l0 : Lexer)
    (hl0 : New src = .ok l0) (pe : parser.ExpressionParser) (hpe : ∀ prec, Keeps h l0 (pe prec)) :
    ∀ k, Keeps h l0 (parser.parseIfExpression h pe k) := by
  intro k
  unfold parser.parseIfExpression
  repeat' first
    | with_reducible refine keeps_bind ?_ ?_
    | with_reducible refine keeps_ite ?_ ?_
    | with_reducible exact keeps_pure _
    | with_reducible exact keeps_get
    | with_reducible exact keeps_nextToken h l0
    | with_reducible exact hpe _
    | with_reducible apply keeps_parseScenarios h hdig src l0 hl0 pe hpe
    | with_reducible apply keeps_parseBlockStatement h hdig src l0 hl0 pe hpe
    | with_reducible apply keeps_expectPeek h l0
    | intro _
    | split

/-- Through `parser.parseWhileExpression` the parser stays on consecutive tokens of its
source. -/
theorem keeps_parseWhileExpression (h : parser.Host)
    (hdig : ∀ c, isDigit c = true → h.tables.ToLower c = c) (src : String) (l0 : Lexer)
    (hl0 : New src = .ok l0) (pe : parser.ExpressionParser) (hpe : ∀ prec, Keeps h l0 (pe prec)) :
    ∀ k, Keeps h l0 (parser.parseWhileExpression h pe k) := by
  intro k
  unfold parser.parseWhileExpression
  repeat' first
    | with_reducible refine keeps_bind ?_ ?_
    | with_reducible refine keeps_ite ?_ ?_
    | with_reducible exact keeps_pure _
    | with_reducible exact keeps_get
    | with_reducible exact keeps_nextToken h l0
    | with_reducible exact hpe _
    | with_reducible apply keeps_parseBlockStatement h hdig src l0 hl0 pe hpe
    | with_reducible apply keeps_expectPeek h l0
    | intro _

/-- Through `parser.parseForInAlternative` the parser stays on consecutive tokens of its
source. -/
theorem keeps_parseForInAlternative (h : parser.Host)
    (hdig : ∀ c, isDigit c = true → h.tables.ToLower c = c) (src : String) (l0 : Lexer)
    (hl0 : New src = .ok l0) (pe : parser.ExpressionParser) (hpe : ∀ prec, Keeps h l0 (pe prec)) :
    ∀ k, Keeps h l0 (parser.parseForInAlternative h pe k) := by
  intro k
  unfold parser.parseForInAlternative
  repeat' first
    | with_reducible refine keeps_bind ?_ ?_
    | with_reducible refine keeps_ite ?_ ?_
    | with_reducible exact keeps_pure _
    | with_reducible exact keeps_get
    | with_reducible exact keeps_nextToken h l0
    | with_reducible exact hpe _
    | with_reducible apply keeps_parseBlockStatement h hdig src l0 hl0 pe hpe
    | with_reducible apply keeps_expectPeek h l0
    | intro _

/-- Through `parser.parseForInRest` the parser stays on consecutive tokens of its
source. -/
theorem keeps_parseForInRest (h : parser.Host)
    (hdig : ∀ c, isDigit c = true → h.tables.ToLower c = c) (src : String) (l0 : Lexer)
    (hl0 : New src = .ok l0) (pe : parser.ExpressionParser) (hpe : ∀ prec, Keeps h l0 (pe prec)) :
    ∀ k tok key val, Keeps h l0 (parser.parseForInRest h pe k tok key val) := by
  intro k tok key val
  unfold parser.parseForInRest
  repeat' first
    | with_reducible refine keeps_bind ?_ ?_
    | with_reducible refine keeps_ite ?_ ?_
    | with_reducible exact keeps_pure _
    | with_reducible exact keeps_get
    | with_reducible exact keeps_nextToken h l0
    | with_reducible exact hpe _
    | with_reducible apply keeps_parseForInAlternative h hdig src l0 hl0 pe hpe
    | with_reducible apply keeps_parseBlockStatement h hdig src l0 hl0 pe hpe
    | with_reducible apply keeps_expectPeek h l0
    | intro _
    | split

/-- Through `parser.parseForInExpression` the parser stays on consecutive tokens of its
source. -/
theorem keeps_parseForInExpression (h : parser.Host)
    (hdig : ∀ c, isDigit c = true → h.tables.ToLower c = c) (src : String) (l0 : Lexer)
    (hl0 : New src = .ok l0) (pe : parser.ExpressionParser) (hpe : ∀ prec, Keeps h l0 (pe prec)) :
    ∀ k tok, Keeps h l0 (parser.parseForInExpression h pe k tok) := by
  intro k tok
  unfold parser.parseForInExpression
  repeat' first
    | with_reducible refine keeps_bind ?_ ?_
    | with_reducible refine keeps_ite ?_ ?_
    | with_reducible exact keeps_pure _
    | with_reducible exact keeps_get
    | with_reducible exact keeps_nextToken h l0
    | with_reducible exact hpe _
    | with_reducible apply keeps_parseForInRest h hdig src l0 hl0 pe hpe
    | intro _

/-- Through `parser.parseForExpression` the parser stays on consecutive tokens of its
source. -/
theorem keeps_parseForExpression (h : parser.Host)
    (hdig : ∀ c, isDigit c = true → h.tables.ToLower c = c) (src : String) (l0 : Lexer)
    (hl0 : New src = .ok l0) (pe : parser.ExpressionParser) (hpe : ∀ prec, Keeps h l0 (pe prec)) :
    ∀ k, Keeps h l0 (parser.parseForExpression h pe k) := by
  intro k
  unfold parser.parseForExpression
  repeat' first
    | with_reducible refine keeps_bind ?_ ?_
    | with_reducible refine keeps_ite ?_ ?_
    | with_reducible exact keeps_pure _
    | with_reducible exact keeps_get
    | with_reducible exact keeps_nextToken h l0
    | with_reducible exact hpe _
    | with_reducible apply keeps_parseForInExpression h hdig src l0 hl0 pe hpe
    | with_reducible apply keeps_parseBlockStatement h hdig src l0 hl0 pe hpe
    | with_reducible apply keeps_parseAssignStatement h hdig src l0 hl0 pe hpe
    | with_reducible apply keeps_expectPeek h l0
    | intro _

/-- Through `parser.parseFunctionParameter` the parser stays on consecutive tokens of its
source. -/
theorem keeps_parseFunctionParameter (h : parser.Host) (l0 : Lexer)
    (pe : parser.ExpressionParser) (hpe : ∀ prec, Keeps h l0 (pe prec)) :
    Keeps h l0 (parser.parseFunctionParameter h pe) := by
  unfold parser.parseFunctionParameter
  repeat' first
    | with_reducible refine keeps_bind ?_ ?_
    | with_reducible refine keeps_ite ?_ ?_
    | with_reducible exact keeps_pure _
    | with_reducible exact keeps_get
    | with_reducible exact keeps_reportError _ _
    | with_reducible exact keeps_nextToken h l0
    | with_reducible exact hpe _
    | intro _

/-- Through `parser.parseParametersLoop` the parser stays on consecutive tokens of its
source. -/
theorem keeps_parseParametersLoop (h : parser.Host) (l0 : Lexer) (pe : parser.ExpressionParser)
    (hpe : ∀ prec, Keeps h l0 (pe prec)) :
    ∀ j ps fo, Keeps h l0 (parser.parseParametersLoop h pe j ps fo) := by
  intro j
  induction j with
  | zero =>
    intro ps fo
    unfold parser.parseParametersLoop
    exact keeps_noFuel
  | succ j ih =>
    intro ps fo
    unfold parser.parseParametersLoop
    repeat' first
      | with_reducible refine keeps_bind ?_ ?_
      | with_reducible refine keeps_ite ?_ ?_
      | with_reducible exact keeps_pure _
      | with_reducible exact keeps_get
      | with_reducible exact keeps_noFuel
      | with_reducible exact keeps_reportError _ _
      | with_reducible exact keeps_nextToken h l0
      | with_reducible exact hpe _
      | with_reducible exact ih _ _
      | with_reducible apply keeps_parseFunctionParameter h l0 pe hpe
      | intro _

/-- Through `parser.parseFunctionParameters` the parser stays on consecutive tokens of its
source. -/
theorem keeps_parseFunctionParameters (h : parser.Host) (l0 : Lexer)
    (pe : parser.ExpressionParser) (hpe : ∀ prec, Keeps h l0 (pe prec)) :
    ∀ k, Keeps h l0 (parser.parseFunctionParameters h pe k) := by
  intro k
  unfold parser.parseFunctionParameters
  repeat' first
    | with_reducible refine keeps_bind ?_ ?_
    | with_reducible refine keeps_ite ?_ ?_
    | with_reducible exact keeps_pure _
    | with_reducible exact keeps_get
    | with_reducible exact keeps_nextToken h l0
    | with_reducible exact hpe _
    | with_reducible apply keeps_parseParametersLoop h l0 pe hpe
    | with_reducible apply keeps_parseFunctionParameter h l0 pe hpe
    | with_reducible apply keeps_expectPeek h l0
    | intro _

/-- Through `parser.parseFunctionLiteral` the parser stays on consecutive tokens of its
source. -/
theorem keeps_parseFunctionLiteral (h : parser.Host)
    (hdig : ∀ c, isDigit c = true → h.tables.ToLower c = c) (src : String) (l0 : Lexer)
    (hl0 : New src = .ok l0) (pe : parser.ExpressionParser) (hpe : ∀ prec, Keeps h l0 (pe prec)) :
    ∀ k, Keeps h l0 (parser.parseFunctionLiteral h pe k) := by
  intro k
  unfold parser.parseFunctionLiteral
  repeat' first
    | with_reducible refine keeps_bind ?_ ?_
    | with_reducible refine keeps_ite ?_ ?_
    | with_reducible exact keeps_pure _
    | with_reducible exact keeps_get
    | with_reducible exact keeps_nextToken h l0
    | with_reducible exact hpe _
    | with_reducible apply keeps_parseFunctionParameters h l0 pe hpe
    | with_reducible apply keeps_parseBlockStatement h hdig src l0 hl0 pe hpe
    | with_reducible apply keeps_expectPeek h l0
    | intro _

/-- Through `parser.parseDecorator` the parser stays on consecutive tokens of its
source. -/
theorem keeps_parseDecorator (h : parser.Host) (l0 : Lexer) (pe : parser.ExpressionParser)
    (hpe : ∀ prec, Keeps h l0 (pe prec)) :
    Keeps h l0 (parser.parseDecorator h pe) := by
  unfold parser.parseDecorator
  repeat' first
    | with_reducible refine keeps_bind ?_ ?_
    | with_reducible refine keeps_ite ?_ ?_
    | with_reducible exact keeps_pure _
    | with_reducible exact keeps_get
    | with_reducible exact keeps_reportError _ _
    | with_reducible exact keeps_nextToken h l0
    | with_reducible exact hpe _
    | with_reducible apply keeps_parseExpressionStatement h l0 pe hpe
    | intro _
    | split

/-- Through `parser.parseDefer` the parser stays on consecutive tokens of its
source. -/
theorem keeps_parseDefer (h : parser.Host) (l0 : Lexer) (pe : parser.ExpressionParser)
    (hpe : ∀ prec, Keeps h l0 (pe prec)) :
    Keeps h l0 (parser.parseDefer h pe) := by
  unfold parser.parseDefer
  repeat' first
    | with_reducible refine keeps_bind ?_ ?_
    | with_reducible exact keeps_pure _
    | with_reducible exact keeps_get
    | with_reducible exact keeps_reportError _ _
    | with_reducible exact keeps_nextToken h l0
    | with_reducible exact hpe _
    | intro _
    | split

/-- Through `parser.callPrefixFn` the parser stays on consecutive tokens of its
source. -/
theorem keeps_callPrefixFn (h : parser.Host)
    (hdig : ∀ c, isDigit c = true → h.tables.ToLower c = c) (src : String) (l0 : Lexer)
    (hl0 : New src = .ok l0) (pe : parser.ExpressionParser) (hpe : ∀ prec, Keeps h l0 (pe prec)) :
    ∀ k fn, Keeps h l0 (parser.callPrefixFn h pe k fn) := by
  intro k fn
  unfold parser.callPrefixFn
  repeat' first
    | with_reducible refine keeps_bind ?_ ?_
    | with_reducible exact keeps_pure _
    | with_reducible exact hpe _
    | with_reducible apply keeps_parseDefer h l0 pe hpe
    | with_reducible apply keeps_parseDecorator h l0 pe hpe
    | with_reducible apply keeps_parseFunctionLiteral h hdig src l0 hl0 pe hpe
    | with_reducible apply keeps_parseForExpression h hdig src l0 hl0 pe hpe
    | with_reducible apply keeps_parseWhileExpression h hdig src l0 hl0 pe hpe
    | with_reducible apply keeps_parseIfExpression h hdig src l0 hl0 pe hpe
    | with_reducible apply keeps_ParseHashLiteral h l0 pe hpe
    | with_reducible apply keeps_ParseArrayLiteral h l0 pe hpe
    | with_reducible apply keeps_parseGroupedExpression h l0 pe hpe
    | with_reducible apply keeps_parsePrefixExpression h l0 pe hpe
    | with_reducible apply keeps_ParseNumberLiteral h l0
    | with_reducible apply keeps_parseCurrentArgsLiteral h l0
    | with_reducible apply keeps_parseContinue h l0
    | with_reducible apply keeps_parseBreak h l0
    | with_reducible apply keeps_parseCommand h l0
    | with_reducible apply keeps_ParseBoolean h l0
    | with_reducible apply keeps_ParseNullLiteral h l0
    | with_reducible apply keeps_ParseStringLiteral h l0
    | with_reducible apply keeps_parseIdentifier h l0
    | intro _
    | split

/-- Through `parser.callInfixFn` the parser stays on consecutive tokens of its
source. -/
theorem keeps_callInfixFn (h : parser.Host) (l0 : Lexer) (pe : parser.ExpressionParser)
    (hpe : ∀ prec, Keeps h l0 (pe prec)) :
    ∀ k left fn, Keeps h l0 (parser.callInfixFn h pe k left fn) := by
  intro k left fn
  unfold parser.callInfixFn
  repeat' first
    | with_reducible refine keeps_bind ?_ ?_
    | with_reducible exact keeps_pure _
    | with_reducible exact hpe _
    | with_reducible apply keeps_parseIndexExpression h l0 pe hpe
    | with_reducible apply keeps_parseCallExpression h l0 pe hpe
    | with_reducible apply keeps_parseQuestionExpression h l0 pe hpe
    | with_reducible apply keeps_parseDottedExpression h l0 pe hpe
    | with_reducible apply keeps_parseCompoundAssignment h l0 pe hpe
    | with_reducible apply keeps_parseInfixExpression h l0 pe hpe
    | intro _
    | split

/-- Through `parser.parseInfixLoop` the parser stays on consecutive tokens of its
source. -/
theorem keeps_parseInfixLoop (h : parser.Host) (l0 : Lexer) (pe : parser.ExpressionParser)
    (hpe : ∀ prec, Keeps h l0 (pe prec)) :
    ∀ j k prec left, Keeps h l0 (parser.parseInfixLoop h pe k prec j left) := by
  intro j
  induction j with
  | zero =>
    intro k prec left
    unfold parser.parseInfixLoop
    exact keeps_noFuel
  | succ j ih =>
    intro k prec left
    unfold parser.parseInfixLoop
    repeat' first
      | with_reducible refine keeps_bind ?_ ?_
      | with_reducible refine keeps_ite ?_ ?_
      | with_reducible exact keeps_pure _
      | with_reducible exact keeps_get
      | with_reducible exact keeps_noFuel
      | with_reducible exact keeps_nextToken h l0
      | with_reducible exact hpe _
      | with_reducible exact ih _ _ _
      | with_reducible apply keeps_callInfixFn h l0 pe hpe
      | intro _
      | split

/-- Through `parser.parseExpressionStep` the parser stays on consecutive tokens of its
source. -/
theorem keeps_parseExpressionStep (h : parser.Host)
    (hdig : ∀ c, isDigit c = true → h.tables.ToLower c = c) (src : String) (l0 : Lexer)
    (hl0 : New src = .ok l0) (pe : parser.ExpressionParser) (hpe : ∀ prec, Keeps h l0 (pe prec)) :
    ∀ k prec, Keeps h l0 (parser.parseExpressionStep h pe k prec) := by
  intro k prec
  unfold parser.parseExpressionStep
  repeat' first
    | with_reducible refine keeps_bind ?_ ?_
    | with_reducible exact keeps_pure _
    | with_reducible exact keeps_get
    | with_reducible exact hpe _
    | with_reducible apply keeps_parseInfixLoop h l0 pe hpe
    | with_reducible apply keeps_callPrefixFn h hdig src l0 hl0 pe hpe
    | with_reducible apply keeps_noPrefixParseFnError h l0
    | intro _
    | split

/-- Through `parser.parseExpression` the parser stays on consecutive tokens of
its source. -/
theorem keeps_parseExpression (h : parser.Host)
    (hdig : ∀ c, isDigit c = true → h.tables.ToLower c = c) (src : String) (l0 : Lexer)
    (hl0 : New src = .ok l0) : ∀ n prec, Keeps h l0 (parser.parseExpression h n prec) := by
  intro n
  induction n with
  | zero => intro prec; exact keeps_noFuel
  | succ n ih =>
    intro prec
    exact keeps_parseExpressionStep h hdig src l0 hl0 (parser.parseExpression h n) ih n prec

/-- Through `parser.parseProgramLoop` the parser stays on consecutive tokens of
its source. -/
theorem keeps_parseProgramLoop (h : parser.Host)
    (hdig : ∀ c, isDigit c = true → h.tables.ToLower c = c) (src : String) (l0 : Lexer)
    (hl0 : New src = .ok l0) (pe : parser.ExpressionParser)
    (hpe : ∀ prec, Keeps h l0 (pe prec)) :
    ∀ j k statements, Keeps h l0 (parser.parseProgramLoop h pe k j statements) := by
  intro j
  induction j with
  | zero =>
    intro k statements
    unfold parser.parseProgramLoop
    exact keeps_noFuel
  | succ j ih =>
    intro k statements
    unfold parser.parseProgramLoop
    repeat' first
      | with_reducible refine keeps_bind ?_ ?_
      | with_reducible refine keeps_ite ?_ ?_
      | with_reducible exact keeps_pure _
      | with_reducible exact keeps_get
      | with_reducible exact keeps_nextToken h l0
      | with_reducible exact ih _ _
      | with_reducible exact keeps_parseStatement h hdig src l0 hl0 pe hpe _
      | intro _

/-- From `parser.New` to the end of `ParseProgram` the parser stands on two
consecutive tokens of the source. -/
theorem ParseProgram_traced (h : parser.Host)
    (hdig : ∀ c, isDigit c = true → h.tables.ToLower c = c) (src : String) (l0 : Lexer)
    (hl0 : New src = .ok l0) (fuel : Nat) (p p1 : parser.Parser) (prog : Node)
    (hp : parser.New h l0 = .ok p) (hr : parser.ParseProgram h fuel p = .ok (prog, p1)) :
    tracedFrom h l0 p ∧ tracedFrom h l0 p1 := by
  have h0 := New_traced h l0 p hp
  refine ⟨h0, ?_⟩
  have hK : Keeps h l0 (parser.ParseProgram h fuel) := by
    unfold parser.ParseProgram
    exact keeps_bind (keeps_parseProgramLoop h hdig src l0 hl0 _
      (keeps_parseExpression h hdig src l0 hl0 fuel) _ _ _) (fun _ => keeps_pure _)
  exact keeps_elim hK hr h0

/-- The ASCII tables leave the digits as they are. -/
theorem asciiTables_digits : ∀ c, isDigit c = true → asciiHost.tables.ToLower c = c := by
  intro c hc
  show c.toLower = c
  unfold isDigit at hc
  simp only [Bool.and_eq_true, decide_eq_true_eq] at hc
  have h2 : c.val ≤ (Char.ofNat 57).val := hc.2
  have h3 : c.val.toNat ≤ 57 := h2
  unfold Char.toLower
  have h4 : ¬ (c.toNat ≥ 65 ∧ c.toNat ≤ 90) := by
    intro h5
    have h6 : c.toNat = c.val.toNat := rfl
    omega
  dsimp only
  rw [if_neg h4]

/-! ### The statement that starts with a list -/

/-- A finished run of the parser is its result with the parser it leaves. -/
theorem finished_eq {α : Type} [Inhabited α] {o : Outcome (α × parser.Parser)}
    (h : finished o = true) : o = .ok (resultOf o, parserAfter o) := by
  cases o with
  | ok r => rfl
  | panic m => simp [finished] at h
  | outOfFuel => simp [finished] at h

/-- The loop of `parseDestructuringIdentifiers` over a list of identifiers
separated by commas and followed by `=`: it collects the identifiers in order
and stops before the `=`. -/
theorem parseDestructuringLoop_identifiers (h : parser.Host) (n t : Nat) (am eq : Token)
    (tail : List Token) (l2 : Lexer)
    (ham : am.Type_ = token.IDENT) (heq : eq.Type_ = token.ASSIGN) :
    ∀ (init : List (Token × Token)) (q : parser.Parser) (acc : List Node) (k : Nat),
      q.peekToken.Type_ = token.COMMA →
      readTokens h (2 * init.length + 2 + t) q.l
        = .ok (pairTokens init ++ [am, eq] ++ tail, l2) →
      (∀ x ∈ init, x.1.Type_ = token.IDENT ∧ x.2.Type_ = token.COMMA) →
      init.length + 2 ≤ k →
      ∃ lm, parser.parseDestructuringLoop h (parser.parseExpression h (n + 2)) k acc q
          = .ok (acc ++ init.map (fun x => identifierOf x.1) ++ [identifierOf am],
              ⟨lm, q.errors, am, eq, q.prevIndexExpression, q.prevPropertyExpression⟩) ∧
        readTokens h t lm = .ok (tail, l2) := by
  have hcommai : token.COMMA ≠ token.ILLEGAL := by decide
  intro init
  induction init with
  | nil =>
    intro q acc k hq ht _ hk
    obtain ⟨k2, rfl⟩ : ∃ k2, k = k2 + 2 := ⟨k - 2, by simp only [List.length_nil] at hk; omega⟩
    have ht1 : readTokens h (t + 1 + 1) q.l = .ok (am :: eq :: tail, l2) := by
      have hc : 2 * ([] : List (Token × Token)).length + 2 + t = t + 1 + 1 := by
        simp only [List.length_nil]; omega
      rw [hc] at ht
      exact ht
    obtain ⟨l1, hn1, ht2⟩ := readTokens_succ h (t + 1) q.l l2 am _ ht1
    obtain ⟨lm, hn2, ht3⟩ := readTokens_succ h t l1 l2 eq _ ht2
    refine ⟨lm, ?_, ht3⟩
    have hqi : q.peekToken.Type_ ≠ token.ILLEGAL := by rw [hq]; exact hcommai
    have hami : am.Type_ ≠ token.ILLEGAL := by rw [ham]; decide
    have hnext1 := nextToken_ok h q am l1 hqi hn1
    have hnext2 := nextToken_ok h (parser.advance q am l1) eq lm hami hn2
    have hid := parseExpression_identifier h n parser.LOWEST
      (parser.advance (parser.advance q am l1) eq lm) ham
      (Or.inr (Or.inr (by
        show mapGet parser.infixParseFns eq.Type_ = none
        rw [heq]; decide)))
    have hstop : ¬ ((parser.advance (parser.advance q am l1) eq lm).peekToken.Type_
        = token.COMMA) := by
      show ¬ (eq.Type_ = token.COMMA)
      rw [heq]; decide
    rw [parser.parseDestructuringLoop]
    simp only [parse_bind, parse_get, hq, if_true, hnext1, hnext2, hid]
    rw [parser.parseDestructuringLoop]
    simp only [parse_bind, parse_get, hstop, if_false, parse_pure, List.map_nil, List.append_nil]
    rfl
  | cons x rest ih =>
    intro q acc k hq ht hall hk
    obtain ⟨k1, rfl⟩ : ∃ k1, k = k1 + 1 := ⟨k - 1, by simp only [List.length_cons] at hk; omega⟩
    obtain ⟨a, s⟩ := x
    have hx := hall (a, s) (List.mem_cons_self _ rest)
    simp only [] at hx
    have ht1 : readTokens h ((2 * rest.length + 2 + t) + 1 + 1) q.l
        = .ok (a :: s :: (pairTokens rest ++ [am, eq] ++ tail), l2) := by
      have hc : 2 * ((a, s) :: rest).length + 2 + t = (2 * rest.length + 2 + t) + 1 + 1 := by
        simp only [List.length_cons]; omega
      rw [hc] at ht
      simpa [pairTokens] using ht
    obtain ⟨l1, hn1, ht2⟩ := readTokens_succ h _ q.l l2 a _ ht1
    obtain ⟨l3, hn2, ht3⟩ := readTokens_succ h _ l1 l2 s _ ht2
    have hqi : q.peekToken.Type_ ≠ token.ILLEGAL := by rw [hq]; exact hcommai
    have hai : a.Type_ ≠ token.ILLEGAL := by rw [hx.1]; decide
    have hnext1 := nextToken_ok h q a l1 hqi hn1
    have hnext2 := nextToken_ok h (parser.advance q a l1) s l3 hai hn2
    have hid : parser.parseExpression h (n + 2) parser.LOWEST
        (parser.advance (parser.advance q a l1) s l3)
          = .ok (identifierOf a, parser.advance (parser.advance q a l1) s l3) :=
      parseExpression_identifier h n parser.LOWEST
        (parser.advance (parser.advance q a l1) s l3) hx.1
        (Or.inr (Or.inr (by
          show mapGet parser.infixParseFns s.Type_ = none
          rw [hx.2]; decide)))
    obtain ⟨lm, hloop, htail⟩ := ih (parser.advance (parser.advance q a l1) s l3)
      (acc ++ [identifierOf a]) k1 hx.2 ht3
      (fun y hy => hall y (List.mem_cons_of_mem _ hy))
      (by simp only [List.length_cons] at hk; omega)
    refine ⟨lm, ?_, htail⟩
    rw [parser.parseDestructuringLoop]
    simp only [parse_bind, parse_get, hq, if_true, hnext1, hnext2, hid]
    rw [hloop]
    simp only [List.map_cons, List.append_assoc, List.singleton_append, List.cons_append,
      List.nil_append]
    rfl

/-- C33: a statement that starts with an identifier and a comma is a
destructuring assignment or is parsed again as an expression.

First part: the parser stands on an identifier and a comma of a source (the
tokens the lexer yields from the start of the source lead to the current token,
the peek token and the lexer of the parser), and the list
`parseDestructuringIdentifiers` reads after the comma is not followed by `=`.
Then `parseAssignStatement` rewinds: it returns no statement, and the current
token, the peek token and the lexer are as before the attempt, so that
`parseStatement` parses the statement as an expression statement from there.
The tokens read again may be any tokens, illegal ones too.  (Of the host the
theorem asks that `unicode.ToLower` leaves the digits `0` to `9` as they are;
the fuel covers the tokens from the start of the source to the statement.)

Second part: when the parser stands at identifiers separated by commas and
followed by `=` and a simple value, `parseAssignStatement` returns the
assignment whose `Names` are the identifiers in order. -/
theorem assignment_of_a_list_or_rewind (h : parser.Host) :
    (∀ (m k : Nat) (src : String) (l0 lc : Lexer) (p p1 : parser.Parser)
        (names : Option (List Node)) (pre : List (Token × Lexer)),
      (∀ c, isDigit c = true → h.tables.ToLower c = c) →
      New src = .ok l0 →
      lexTrace h (pre.length + 2) l0 = .ok (pre ++ [(p.curToken, lc), (p.peekToken, p.l)]) →
      p.curToken.Type_ = token.IDENT → p.peekToken.Type_ = token.COMMA →
      parser.parseDestructuringIdentifiers h (parser.parseExpression h m) k p
        = .ok (names, p1) →
      p1.peekToken.Type_ ≠ token.ASSIGN →
      pre.length + 3 ≤ k →
      ∃ p2, parser.parseAssignStatement h (parser.parseExpression h m) k p = .ok (.nil, p2) ∧
        p2.curToken = p.curToken ∧ p2.peekToken = p.peekToken ∧ p2.l = p.l ∧
        parser.parseStatement h (parser.parseExpression h m) k p
          = parser.parseExpressionStatement h (parser.parseExpression h m) p2) ∧
    (∀ (n : Nat) (p : parser.Parser) (init : List (Token × Token)) (am eq v e : Token)
        (l2 : Lexer) (nv : Node),
      p.curToken.Type_ = token.IDENT → p.peekToken.Type_ = token.COMMA →
      readTokens h (2 * init.length + 2 + 2) p.l
        = .ok (pairTokens init ++ [am, eq] ++ [v, e], l2) →
      (∀ x ∈ init, x.1.Type_ = token.IDENT ∧ x.2.Type_ = token.COMMA) →
      am.Type_ = token.IDENT → eq.Type_ = token.ASSIGN → simpleNode v = some nv →
      e.Type_ ≠ token.SEMICOLON → mapGet parser.infixParseFns e.Type_ = none →
      ∃ p2, parser.parseAssignStatement h (parser.parseExpression h (n + 2))
          (init.length + n + 2) p
          = .ok (.AssignStatement eq none
              (identifierOf p.curToken :: init.map (fun x => identifierOf x.1)
                ++ [identifierOf am]) .nil .nil nv, p2) ∧
        p2.errors = p.errors) := by
  constructor
  · intro m k src l0 lc p p1 names pre hdig hl0 htr hcur hpeek hd hne hk
    have hpe := keeps_parseExpression h hdig src l0 hl0 m
    have h1 : tracedFrom h l0 p1 :=
      keeps_elim (keeps_parseDestructuringIdentifiers h l0 _ hpe k) hd ⟨pre, lc, htr⟩
    have hsrc : src.data ≠ [] :=
      source_of_token h src l0 hl0 _ _ htr (p.curToken, lc)
        (List.mem_append_right _ (List.mem_cons_self _ _)) (by
          show p.curToken.Type_ ≠ token.EOF
          rw [hcur]; decide)
    obtain ⟨hR1, hR2⟩ := Rewind_restores h hdig src l0 hl0 pre (p.curToken, lc) (p.peekToken, p.l)
      htr p1 (traced_readsOn h hdig src l0 hl0 p1 h1) k
    obtain ⟨p2, hR⟩ := hR1 hsrc hk
    obtain ⟨e1, e2, e3⟩ := hR2 p2 hR
    have hR3 : parser.Rewind h k (CurrentPosition p.l) p1 = .ok ((), p2) := hR
    have hassign : parser.parseAssignStatement h (parser.parseExpression h m) k p
        = .ok (.nil, p2) := by
      simp only [parser.parseAssignStatement, parse_bind, parse_get, hpeek, if_true, hcur, ne_eq,
        not_true_eq_false, if_false, hd, hne, not_false_eq_true, hR3, parse_pure]
    refine ⟨p2, hassign, e1, e2, e3, ?_⟩
    have hret : ¬ (p.curToken.Type_ = token.RETURN) := by rw [hcur]; decide
    simp only [parser.parseStatement, parse_bind, parse_get, hret, if_false, hassign, isNilNode,
      Bool.true_eq_false]
  · intro n p init am eq v e l2 nv hcur hpeek htoks hinit ham heq hv hsemi hfn
    obtain ⟨lm, hloop, htail⟩ := parseDestructuringLoop_identifiers h n 2 am eq [v, e] l2 ham heq
      init p [.Identifier p.curToken p.curToken.Literal] (init.length + n + 2) hpeek htoks hinit
      (by omega)
    obtain ⟨l3, hn1, ht1⟩ := readTokens_succ h 1 lm l2 v _ htail
    obtain ⟨l4, hn2, ht2⟩ := readTokens_succ h 0 l3 l2 e _ ht1
    obtain ⟨_, rfl⟩ := readTokens_zero h l4 l2 _ ht2
    have heqi : eq.Type_ ≠ token.ILLEGAL := by rw [heq]; decide
    have hvi := simpleNode_not_illegal v nv hv
    have hna : ¬ (p.peekToken.Type_ = token.ASSIGN) := by rw [hpeek]; decide
    have hnext1 := nextToken_ok h
      ⟨lm, p.errors, am, eq, p.prevIndexExpression, p.prevPropertyExpression⟩ v l3 heqi hn1
    have hnext2 := nextToken_ok h (parser.advance
      ⟨lm, p.errors, am, eq, p.prevIndexExpression, p.prevPropertyExpression⟩ v l3) e l2 hvi hn2
    have hval : parser.parseExpression h (n + 2) parser.LOWEST
        (parser.advance (parser.advance
          ⟨lm, p.errors, am, eq, p.prevIndexExpression, p.prevPropertyExpression⟩ v l3) e l2)
          = .ok (nv, parser.advance (parser.advance
              ⟨lm, p.errors, am, eq, p.prevIndexExpression, p.prevPropertyExpression⟩ v l3)
                e l2) :=
      parseExpression_simple h n parser.LOWEST _ nv hv (Or.inr (Or.inr hfn))
    have hsemi1 : ¬ ((parser.advance (parser.advance
        (⟨lm, p.errors, am, eq, p.prevIndexExpression, p.prevPropertyExpression⟩ :
          parser.Parser) v l3) e l2).peekToken.Type_ = token.SEMICOLON) := hsemi
    refine ⟨parser.advance (parser.advance
      ⟨lm, p.errors, am, eq, p.prevIndexExpression, p.prevPropertyExpression⟩ v l3) e l2, ?_,
      rfl⟩
    simp only [parser.parseAssignStatement, parse_bind, parse_get, hpeek, if_true, hcur, ne_eq,
      not_true_eq_false, if_false, parser.parseDestructuringIdentifiers,
      show ¬ (token.COMMA = token.ASSIGN) by decide,
      parser.parseIdentifier, parse_pure, hloop, heq, parser.parseAssignValue, hnext1, hnext2,
      hval, parser.skipSemicolon, hsemi1, Option.getD]
    rfl

/-- Witness of `assignment_of_a_list_or_rewind`.  In `a, b + 1` the list
`a, b + 1` ends at the end of the input: the parser rewinds to `a` before the
comma and the program starts with the expression statement of `a`.  In
`a, b, c = v` the names of the assignment are `a`, `b` and `c`. -/
theorem assignment_of_a_list_or_rewind_witness :
    (parserOf listWithoutAssignSrc).curToken = tk token.IDENT 0 "a" ∧
    (parserOf listWithoutAssignSrc).peekToken = tk token.COMMA 1 "," ∧
    (parserAfter (parser.parseDestructuringIdentifiers asciiHost
      (parser.parseExpression asciiHost 5) 5 (parserOf listWithoutAssignSrc))).peekToken
        = tk token.EOF 8 "" ∧
    (∃ p2, parser.parseAssignStatement asciiHost (parser.parseExpression asciiHost 5) 5
        (parserOf listWithoutAssignSrc) = .ok (.nil, p2) ∧
      p2.curToken = (parserOf listWithoutAssignSrc).curToken ∧
      p2.peekToken = (parserOf listWithoutAssignSrc).peekToken ∧
      p2.l = (parserOf listWithoutAssignSrc).l ∧
      parser.parseStatement asciiHost (parser.parseExpression asciiHost 5) 5
        (parserOf listWithoutAssignSrc)
        = parser.parseExpressionStatement asciiHost (parser.parseExpression asciiHost 5) p2) ∧
    statementsOf 6 listWithoutAssignSrc = .ok
      [.ExpressionStatement (tk token.IDENT 0 "a") (identifierOf (tk token.IDENT 0 "a")),
       .ExpressionStatement (tk token.COMMA 1 ",") .nil,
       .ExpressionStatement (tk token.IDENT 3 "b")
        (infixOf (tk token.PLUS 5 "+") (identifierOf (tk token.IDENT 3 "b"))
          (.NumberLiteral (tk token.NUMBER 7 "1") 1))] ∧
    (parserOf destructuringSrc).curToken = tk token.IDENT 0 "a" ∧
    (parserOf destructuringSrc).peekToken = tk token.COMMA 1 "," ∧
    (∃ p2, parser.parseAssignStatement asciiHost (parser.parseExpression asciiHost 2) 3
        (parserOf destructuringSrc)
        = .ok (.AssignStatement (tk token.ASSIGN 8 "=") none
            (identifierOf (parserOf destructuringSrc).curToken ::
              [(tk token.IDENT 3 "b", tk token.COMMA 4 ",")].map (fun x => identifierOf x.1)
              ++ [identifierOf (tk token.IDENT 6 "c")]) .nil .nil
            (identifierOf (tk token.IDENT 10 "v")), p2) ∧
      p2.errors = (parserOf destructuringSrc).errors) ∧
    statementsOf 6 destructuringSrc = .ok
      [.AssignStatement (tk token.ASSIGN 8 "=") none
        [identifierOf (tk token.IDENT 0 "a"), identifierOf (tk token.IDENT 3 "b"),
         identifierOf (tk token.IDENT 6 "c")] .nil .nil
        (identifierOf (tk token.IDENT 10 "v"))] :=
  ⟨by decide!, by decide!, by decide!,
   (assignment_of_a_list_or_rewind asciiHost).1 5 5 listWithoutAssignSrc
    (lexerOf listWithoutAssignSrc) (lexerAfter asciiHost 1 (lexerOf listWithoutAssignSrc))
    (parserOf listWithoutAssignSrc)
    (parserAfter (parser.parseDestructuringIdentifiers asciiHost
      (parser.parseExpression asciiHost 5) 5 (parserOf listWithoutAssignSrc)))
    (resultOf (parser.parseDestructuringIdentifiers asciiHost
      (parser.parseExpression asciiHost 5) 5 (parserOf listWithoutAssignSrc)))
    []
    asciiTables_digits (by decide!) (by decide!) (by decide!) (by decide!)
    (finished_eq (by decide!)) (by decide!) (by decide),
   parsesTo_sound (by decide!),
   by decide!, by decide!,
   (assignment_of_a_list_or_rewind asciiHost).2 0 (parserOf destructuringSrc)
    [(tk token.IDENT 3 "b", tk token.COMMA 4 ",")] (tk token.IDENT 6 "c")
    (tk token.ASSIGN 8 "=") (tk token.IDENT 10 "v") (tk token.EOF 11 "")
    (lexerAfter asciiHost 6 (parserOf destructuringSrc).l) (identifierOf (tk token.IDENT 10 "v"))
    (by decide!) (by decide!) (by decide!) (by decide) rfl rfl rfl (by decide) (by decide),
   parsesTo_sound (by decide!)⟩

end Anka
